import Mathlib

/-!
# Foreground-lifecycle scheduler of ability_lite: embedding and verified properties

Shallow embedding of `services/abilitymgr_lite/src/slite/ability_list.cpp`
(the record registry) and `services/abilitymgr_lite/src/ability_record_manager.cpp`
(the lifecycle controller).

Modelling conventions.

* Records live on a heap. A pointer is an address (`Ptr`), `nullptr` is `none`.
  `new` appends a cell, `delete` empties it. Reading or writing through a pointer
  whose cell is empty, and deleting such a pointer, is undefined behaviour in C++;
  here the operation has no result (`none` in the `Option` layer of the monad `M`).
* C strings are lists of characters (`CStr`), a null `char *` is `none`.
* Calls that leave the controller (lifecycle instructions for the native unit,
  messages posted to a worker queue, task / queue / host teardown) are recorded
  in the `log` field, newest last.
* What the environment answers during one controller call (task creation, handles,
  the response-check callback, the native unit's own state) is the `Env` argument.
* Compile-time constants that are not part of the two source files
  (`ABILITY_LIST_CAPACITY`, `MAIN_BUNDLE_NAME`) are the `Config` argument.
* The preprocessor switch of `StartAbility(const Want *)` and the answer of the bundle
  manager are the `Build` argument; remote starts (`OHOS_DMS_ENABLED`) are switched off.
* Allocation (`new`, `AdapterMalloc`) is taken to succeed; logging and event counting
  (`HILOG_*`, `APP_EVENT`, `APP_ERRCODE_EXTRA`, `RecordAbiityInfoEvt`) and the mutex
  guards are not modelled.
-/

namespace AbilityLite

/-! ## Data model -/

/-- A C string without its terminating NUL. -/
abbrev CStr := List Char

/-- Address of a heap cell holding an `AbilityRecord`. -/
abbrev Ptr := Nat

/-- The values `record->state` takes in the source (`SCHEDULE_*`), as distinct constants. -/
inductive AbilityState where
  | SCHEDULE_STOP
  | SCHEDULE_INACTIVE
  | SCHEDULE_ACTIVE
  | SCHEDULE_BACKGROUND
  deriving DecidableEq, Repr

/-- The lifecycle states named in instructions (`STATE_*`), as distinct constants. -/
inductive State where
  | STATE_UNINITIALIZED
  | STATE_INITIAL
  | STATE_INACTIVE
  | STATE_ACTIVE
  | STATE_BACKGROUND
  deriving DecidableEq, Repr

/-- Result codes returned by the controller; `MINUS_ONE` is the literal `-1`
of `TerminateAbility`. The codes are distinct and `ERR_OK` is `0`. -/
inductive Ret where
  | ERR_OK
  | PARAM_NULL_ERROR
  | PARAM_CHECK_ERROR
  | MEMORY_MALLOC_ERROR
  | CREATE_APPTASK_ERROR
  | SCHEDULER_LIFECYCLE_ERROR
  | MINUS_ONE
  deriving DecidableEq, Repr

/-- Message identifiers of `AbilityInnerMsg`; `OTHER` is the cast of any other state. -/
inductive AbilityMsgId where
  | ACTIVE
  | BACKGROUND
  | DESTROY
  | OTHER (state : State)
  deriving DecidableEq, Repr

/-- Modelled from the spec: the record type `AbilityRecord` (its header is not among the
source files). A freshly constructed record has token 0, no name, no path, state Stop,
no worker task, queue, host or payload, and is not terminated. -/
structure AbilityRecord where
  token : Nat := 0
  appName : Option CStr := none
  appPath : Option CStr := none
  state : AbilityState := AbilityState.SCHEDULE_STOP
  taskId : Nat := 0
  jsAppQueueId : Option Nat := none
  jsAppHost : Option Nat := none
  abilityData : Option (List Nat) := none
  isTerminated : Bool := false
  deriving DecidableEq, Repr

/-- The `Want` handed to the native unit: element bundle name and payload. -/
structure Want where
  element : Option CStr
  data : Option (List Nat)
  deriving DecidableEq, Repr

/-- The request handed to `StartAbility(AbilitySvcInfo *)`. -/
structure AbilitySvcInfo where
  bundleName : Option CStr
  path : Option CStr
  data : Option (List Nat)
  deriving DecidableEq, Repr

/-- The result of `GetTopAbility`: an `ElementName` whose bundle name may be unset. -/
structure ElementName where
  bundleName : Option CStr
  deriving DecidableEq, Repr

/-- Calls that leave the controller. -/
inductive Event where
  | jsMsg (msgId : AbilityMsgId) (token : Nat) (bundleName path : Option CStr)
      (data : Option (List Nat)) (queue : Option Nat)
  | nativeOnActive (want : Want)
  | nativeOnBackground
  | taskDelete (taskId : Nat)
  | queueDelete (queue : Option Nat)
  | hostDelete (host : Option Nat)
  | hostForceDestroy (host : Nat)
  deriving DecidableEq, Repr

/-- Constants of the build that the two source files only refer to. -/
structure Config where
  ABILITY_LIST_CAPACITY : Nat
  MAIN_BUNDLE_NAME : CStr

/-- Answers of the environment during one controller call. -/
structure Env where
  /-- Result of `LOS_TaskCreate`: the new task id on `LOS_OK`, `none` on failure. -/
  taskCreate : Option Nat
  /-- Address of the `JsAppHost` made by `new JsAppHost()`. -/
  jsAppHost : Nat
  /-- Result of `osMessageQueueNew`. -/
  queueNew : Option Nat
  /-- Result of `GetAbilityCallback()`: the installed check, if any. -/
  abilityCallback : Option (CStr → Ret)
  /-- Result of `LOS_CurTaskIDGet()`. -/
  curTaskId : Nat
  /-- Result of `nativeAbility_->GetState()`. -/
  nativeState : State

/-- What `QueryAbilityInfo` writes into its `AbilityInfo` argument: the bundle name and the
source path found for the request, each left null when nothing is found. -/
structure AbilityInfo where
  bundleName : Option CStr
  srcPath : Option CStr
  deriving DecidableEq, Repr

/-- The preprocessor switch of `StartAbility(const Want *)` and the bundle lookup it
guards. Remote starts (`OHOS_DMS_ENABLED`) are taken to be switched off. -/
structure Build where
  /-- Whether `OHOS_APPEXECFWK_BMS_BUNDLEMANAGER` or `APP_PLATFORM_WATCHGT` is defined. -/
  bundleManager : Bool
  /-- The answer of the bundle manager to `QueryAbilityInfo(want, &abilityInfo)`. -/
  QueryAbilityInfo : Want → AbilityInfo

/-- The heap of records: cell `p` is `some r` while the record is alive. -/
abbrev Heap := List (Option AbilityRecord)

/-- The controller `AbilityRecordManager` with the memory its pointers refer to. -/
structure Manager where
  heap : Heap := []
  /-- The list inside `abilityList_`, front first. -/
  abilityList : List Ptr := []
  /-- The list inside `abilityStack_`, top first. -/
  abilityStack : List Ptr := []
  pendingToken : Nat := 0
  /-- The function-local `static uint16_t token` of `GenerateToken`. -/
  staticToken : Nat := 0
  /-- The pointer `nativeAbility_`. -/
  nativeAbility : Option Nat := none
  cleanAbilityDataFlag : Bool := false
  log : List Event := []
  deriving DecidableEq, Repr

/-- Controller code: a state transformer that has no result on undefined behaviour. -/
abbrev M := StateT Manager Option

def LAUNCHER_BUNDLE_NAME : CStr := "com.ohos.launcher".toList

def LAUNCHER_TOKEN : Nat := 0

def UINT16_MAX : Nat := 65535

/-! ## Memory -/

def Heap.deref (h : Heap) (p : Ptr) : Option AbilityRecord :=
  match h[p]? with
  | some (some r) => some r
  | _ => none

/-- Read `*p`. -/
def deref (p : Ptr) : M AbilityRecord := fun s =>
  match s.heap.deref p with
  | some r => some (r, s)
  | none => none

/-- Update the fields of `*p`. -/
def store (p : Ptr) (f : AbilityRecord → AbilityRecord) : M Unit := fun s =>
  match s.heap.deref p with
  | some r => some ((), { s with heap := s.heap.set p (some (f r)) })
  | none => none

/-- The expression `new AbilityRecord()` followed by the given initialisation. -/
def new (r : AbilityRecord) : M Ptr := fun s =>
  some (s.heap.length, { s with heap := s.heap ++ [some r] })

/-- The statement `delete p`; deleting `nullptr` does nothing. -/
def delete (p : Option Ptr) : M Unit := fun s =>
  match p with
  | none => some ((), s)
  | some q =>
    match s.heap.deref q with
    | some _ => some ((), { s with heap := s.heap.set q none })
    | none => none

def emit (e : Event) : M Unit :=
  modify fun s => { s with log := s.log ++ [e] }

/-- Modelled from the spec: `AbilityRecord::SetWantData` replaces the payload wholesale. -/
def AbilityRecord.SetWantData (r : AbilityRecord) (data : Option (List Nat)) : AbilityRecord :=
  { r with abilityData := data }

/-! ## The record registry (`slite/ability_list.cpp`)

`List<AbilityRecord *>` is the utility list of the code base (not among the source
files); it is modelled by a Lean list, front first: `PushFront` is cons, `Back()` the
last element, `PopBack` / `PopFront` drop one end and do nothing on an empty list,
`Remove(node)` deletes that node, and `Back()` of an empty list yields a null pointer.
`Add` refuses a null record, so the registry never stores one. -/

/-- The loop of `AbilityList::Get(uint16_t token)`. -/
def AbilityList.getLoop (h : Heap) (token : Nat) : List Ptr → Option (Option Ptr)
  | [] => some none
  | p :: rest =>
    match h.deref p with
    | none => none
    | some r => if r.token = token then some (some p) else AbilityList.getLoop h token rest

def AbilityList.Get (token : Nat) : M (Option Ptr) := fun s =>
  match AbilityList.getLoop s.heap token s.abilityList with
  | some res => some (res, s)
  | none => none

/-- The loop of `AbilityList::Get(const char *bundleName)`. -/
def AbilityList.getByNameLoop (h : Heap) (bundleName : CStr) : List Ptr → Option (Option Ptr)
  | [] => some none
  | p :: rest =>
    match h.deref p with
    | none => none
    | some r =>
      match r.appName with
      | none => AbilityList.getByNameLoop h bundleName rest
      | some name =>
        if bundleName = name then some (some p) else AbilityList.getByNameLoop h bundleName rest

def AbilityList.GetByName (bundleName : Option CStr) : M (Option Ptr) := fun s =>
  match bundleName with
  | none => some (none, s)
  | some name =>
    match AbilityList.getByNameLoop s.heap name s.abilityList with
    | some res => some (res, s)
    | none => none

/-- The loop of `AbilityList::GetByTaskId`. -/
def AbilityList.getByTaskIdLoop (h : Heap) (taskId : Nat) : List Ptr → Option (Option Ptr)
  | [] => some none
  | p :: rest =>
    match h.deref p with
    | none => none
    | some r =>
      if r.taskId = taskId then some (some p) else AbilityList.getByTaskIdLoop h taskId rest

def AbilityList.GetByTaskId (taskId : Nat) : M (Option Ptr) := fun s =>
  match AbilityList.getByTaskIdLoop s.heap taskId s.abilityList with
  | some res => some (res, s)
  | none => none

/-- The loop of `AbilityList::Erase`: the list without the first node whose record has
the token. -/
def AbilityList.eraseLoop (h : Heap) (token : Nat) : List Ptr → Option (List Ptr)
  | [] => some []
  | p :: rest =>
    match h.deref p with
    | none => none
    | some r =>
      if r.token = token then some rest
      else
        match AbilityList.eraseLoop h token rest with
        | some rest1 => some (p :: rest1)
        | none => none

def AbilityList.Erase (token : Nat) : M Unit := fun s =>
  match AbilityList.eraseLoop s.heap token s.abilityList with
  | some l => some ((), { s with abilityList := l })
  | none => none

def AbilityList.Size : M Nat := fun s => some (s.abilityList.length, s)

/-- The call `abilityList_.PopBack()`. -/
def AbilityList.listPopBack : M Unit :=
  modify fun s => { s with abilityList := s.abilityList.dropLast }

/-- The call `abilityList_.PushBack(p)`. -/
def AbilityList.listPushBack (p : Ptr) : M Unit :=
  modify fun s => { s with abilityList := s.abilityList ++ [p] }

/-- The call `abilityList_.PushFront(p)`. -/
def AbilityList.listPushFront (p : Ptr) : M Unit :=
  modify fun s => { s with abilityList := p :: s.abilityList }

/-- The call `abilityList_.Back()`. -/
def AbilityList.listBack : M (Option Ptr) := fun s => some (s.abilityList.getLast?, s)

def AbilityList.PopBottomAbility (cfg : Config) : M Unit := do
  let lastRecord ← AbilityList.listBack
  match lastRecord with
  | none => AbilityList.listPopBack
  | some last =>
    let r ← deref last
    if r.appName = none ∨ r.appName ≠ some cfg.MAIN_BUNDLE_NAME then
      AbilityList.listPopBack
      delete (some last)
    else
      -- last record is home
      AbilityList.listPopBack
      let secondLastRecord ← AbilityList.listBack
      AbilityList.listPopBack
      delete secondLastRecord
      AbilityList.listPushBack last

def AbilityList.Add (cfg : Config) (abilityRecord : Option Ptr) : M Unit := do
  match abilityRecord with
  | none => pure ()
  | some p =>
    if (← AbilityList.Size) ≥ cfg.ABILITY_LIST_CAPACITY then
      AbilityList.PopBottomAbility cfg
    let r ← deref p
    if (← AbilityList.Get r.token) = none then
      AbilityList.listPushFront p

def AbilityList.MoveToTop (cfg : Config) (token : Nat) : M Bool := do
  let abilityRecord ← AbilityList.Get token
  match abilityRecord with
  | none => pure false
  | some p =>
    AbilityList.Erase token
    AbilityList.Add cfg (some p)
    pure true

def AbilityList.PopAbility : M Unit :=
  modify fun s => { s with abilityList := s.abilityList.tail }

def AbilityList.GetTopAbility : M (Option Ptr) := fun s => some (s.abilityList.head?, s)

/-! ## The foreground stack -/

/-- Modelled from the spec: `AbilityStack::GetTopAbility` (the class is not among the
source files): the top entry, or null when the stack is empty. -/
def AbilityStack.GetTopAbility : M (Option Ptr) := fun s => some (s.abilityStack.head?, s)

/-- Modelled from the spec: `AbilityStack::PushAbility` puts the record on top. -/
def AbilityStack.PushAbility (p : Ptr) : M Unit :=
  modify fun s => { s with abilityStack := p :: s.abilityStack }

/-- Modelled from the spec: `AbilityStack::PopAbility` removes the top entry. -/
def AbilityStack.PopAbility : M Unit :=
  modify fun s => { s with abilityStack := s.abilityStack.tail }

/-- Modelled from the spec: `AbilityStack::Erase` removes the entry that refers to the
record (pointer comparison), if there is one. -/
def AbilityStack.Erase (p : Ptr) : M Unit :=
  modify fun s => { s with abilityStack := s.abilityStack.erase p }

/-! ## The lifecycle controller (`ability_record_manager.cpp`) -/

def IsLauncher (bundleName : CStr) : Bool :=
  let len := bundleName.length
  let suffix : CStr := ".launcher".toList
  let suffixLen := suffix.length
  if len < suffixLen then false
  else decide (bundleName.drop (len - suffixLen) = suffix)

def GenerateToken : M Nat := fun s =>
  let token := if s.staticToken = UINT16_MAX - 1 then LAUNCHER_TOKEN else s.staticToken
  let token := (token + 1) % 65536
  some (token, { s with staticToken := token })

def SendMsgToJsAbility (state : State) (record : Option Ptr) : M Bool := do
  match record with
  | none => pure false
  | some p =>
    let msgId :=
      if state = State.STATE_ACTIVE then AbilityMsgId.ACTIVE
      else if state = State.STATE_BACKGROUND then AbilityMsgId.BACKGROUND
      else if state = State.STATE_UNINITIALIZED then AbilityMsgId.DESTROY
      else AbilityMsgId.OTHER state
    let r ← deref p
    -- osMessageQueuePut: the result of the post is left to the environment
    emit (Event.jsMsg msgId r.token r.appName r.appPath r.abilityData r.jsAppQueueId)
    pure true

def SchedulerAbilityLifecycle (ability : Option Nat) (want : Want) (state : State) : M Unit :=
  match ability with
  | none => pure ()
  | some _ =>
    match state with
    | State.STATE_ACTIVE => emit (Event.nativeOnActive want)
    | State.STATE_BACKGROUND => emit Event.nativeOnBackground
    | _ => pure ()

def SchedulerLifecycleInner (record : Option Ptr) (state : State) : M Ret := do
  match record with
  | none => pure Ret.PARAM_NULL_ERROR
  | some p =>
    let r ← deref p
    -- dispatch js life cycle
    if r.token ≠ LAUNCHER_TOKEN then
      let _ ← SendMsgToJsAbility state record
      pure Ret.ERR_OK
    else
      -- dispatch native life cycle
      let nativeAbility := (← get).nativeAbility
      if nativeAbility = none then
        pure Ret.PARAM_NULL_ERROR
      else
        let info : Want := { element := some LAUNCHER_BUNDLE_NAME, data := r.abilityData }
        SchedulerAbilityLifecycle nativeAbility info state
        pure Ret.ERR_OK

def SchedulerLifecycle (token : Nat) (state : State) : M Ret := do
  let record ← AbilityList.Get token
  match record with
  | none => pure Ret.PARAM_NULL_ERROR
  | some p => SchedulerLifecycleInner (some p) state

def SetAbilityState (token : Nat) (state : AbilityState) : M Unit := do
  let record ← AbilityList.Get token
  match record with
  | none => pure ()
  | some p => store p fun r => { r with state := state }

def StartLauncher (cfg : Config) (env : Env) : M Unit := do
  let launcherRecord ← AbilityList.Get LAUNCHER_TOKEN
  if launcherRecord ≠ none then
    pure ()
  else
    let record ← new
      { token := LAUNCHER_TOKEN
        appName := some LAUNCHER_BUNDLE_NAME
        state := AbilityState.SCHEDULE_ACTIVE
        taskId := env.curTaskId }
    AbilityList.Add cfg (some record)
    AbilityStack.PushAbility record
    let _ ← SchedulerLifecycleInner (some record) State.STATE_ACTIVE

def UpdateRecord (info : Option AbilitySvcInfo) : M Unit := do
  match info with
  | none => pure ()
  | some i =>
    let record ← AbilityList.GetByName i.bundleName
    match record with
    | none => pure ()
    | some p =>
      let r ← deref p
      if r.token ≠ LAUNCHER_TOKEN then
        pure ()
      else
        store p fun r => r.SetWantData i.data

def CheckResponse (env : Env) (bundleName : CStr) : Bool :=
  match env.abilityCallback with
  | none => true
  | some callBackFunc =>
    let ret := callBackFunc bundleName
    if ret ≠ Ret.ERR_OK then false else true

def DeleteRecordInfo (token : Nat) : M Unit := do
  let record ← AbilityList.Get token
  match record with
  | none => pure ()
  | some p =>
    if token ≠ LAUNCHER_TOKEN then
      let r ← deref p
      if r.state ≠ AbilityState.SCHEDULE_STOP then
        emit (Event.taskDelete r.taskId)
        emit (Event.queueDelete r.jsAppQueueId)
        emit (Event.hostDelete r.jsAppHost)
    AbilityStack.Erase p
    AbilityList.Erase token
    delete (some p)

def CreateAppTask (env : Env) (record : Option Ptr) : M Ret := do
  match record with
  | none => pure Ret.PARAM_NULL_ERROR
  | some p =>
    let r ← deref p
    if r.appName = none then
      pure Ret.PARAM_NULL_ERROR
    else
      match env.taskCreate with
      | none => pure Ret.CREATE_APPTASK_ERROR
      | some appTaskId =>
        store p fun r =>
          { r with
            taskId := appTaskId
            jsAppQueueId := env.queueNew
            jsAppHost := some env.jsAppHost
            state := AbilityState.SCHEDULE_INACTIVE }
        AbilityStack.PushAbility p
        if (← get).nativeAbility ≠ none then
          if (← SchedulerLifecycle LAUNCHER_TOKEN State.STATE_BACKGROUND) ≠ Ret.ERR_OK then
            AbilityStack.PopAbility
            pure Ret.SCHEDULER_LIFECYCLE_ERROR
          else
            pure Ret.ERR_OK
        else
          let r1 ← deref p
          let _ ← SchedulerLifecycle r1.token State.STATE_ACTIVE
          pure Ret.ERR_OK

def PreCheckStartAbility (cfg : Config) (env : Env) (bundleName : CStr) (path : Option CStr)
    (data : Option (List Nat)) : M Ret := do
  if path = none then
    pure Ret.PARAM_NULL_ERROR
  else
    let curRecord ← AbilityList.GetByName (some bundleName)
    match curRecord with
    | some cur =>
      let c ← deref cur
      if c.state = AbilityState.SCHEDULE_ACTIVE then
        pure ()
      else if c.state = AbilityState.SCHEDULE_BACKGROUND then
        let _ ← SchedulerLifecycle LAUNCHER_TOKEN State.STATE_BACKGROUND
      pure Ret.ERR_OK
    | none =>
      let pendingToken := (← get).pendingToken
      let token ← if pendingToken ≠ 0 then pure pendingToken else GenerateToken
      let record ← new
        { token := token
          appName := some bundleName
          appPath := path
          abilityData := data
          state := AbilityState.SCHEDULE_STOP }
      AbilityList.Add cfg (some record)
      if (← get).pendingToken = 0 then
        if (← CreateAppTask env (some record)) ≠ Ret.ERR_OK then
          let r ← deref record
          AbilityList.Erase r.token
          delete (some record)
          pure Ret.CREATE_APPTASK_ERROR
        else
          pure Ret.ERR_OK
      else
        pure Ret.ERR_OK

def TerminateAbility (token : Nat) : M Ret := do
  let topRecord ← AbilityStack.GetTopAbility
  match topRecord with
  | none => pure Ret.PARAM_NULL_ERROR
  | some top =>
    let t ← deref top
    let topToken := t.token
    if token = LAUNCHER_TOKEN then
      -- if js is in background, the launcher goes back to background and js goes to active
      if topToken ≠ token ∧ t.state = AbilityState.SCHEDULE_BACKGROUND then
        SchedulerLifecycle LAUNCHER_TOKEN State.STATE_BACKGROUND
      else
        pure Ret.ERR_OK
    else if token ≠ topToken then
      DeleteRecordInfo token
      pure Ret.MINUS_ONE
    else
      store top fun r => { r with isTerminated := true }
      -- TerminateAbility top js
      SchedulerLifecycleInner (some top) State.STATE_BACKGROUND

def StartAbility (cfg : Config) (env : Env) (info : Option AbilitySvcInfo) : M Ret := do
  match info with
  | none => pure Ret.PARAM_NULL_ERROR
  | some i =>
    match i.bundleName with
    | none => pure Ret.PARAM_NULL_ERROR
    | some bundleName =>
      if bundleName.length = 0 then
        pure Ret.PARAM_NULL_ERROR
      else
        let topRecord ← AbilityStack.GetTopAbility
        match topRecord with
        | none => pure Ret.PARAM_NULL_ERROR
        | some top =>
          let t ← deref top
          match t.appName with
          | none => pure Ret.PARAM_NULL_ERROR
          | some topName =>
            let topToken := t.token
            -- start launcher
            if IsLauncher bundleName then
              UpdateRecord info
              let t1 ← deref top
              if topToken ≠ LAUNCHER_TOKEN ∧ t1.state ≠ AbilityState.SCHEDULE_BACKGROUND then
                let _ ← SchedulerLifecycleInner (some top) State.STATE_BACKGROUND
              else
                let _ ← SchedulerLifecycle LAUNCHER_TOKEN State.STATE_ACTIVE
              pure Ret.ERR_OK
            else if ¬ CheckResponse env bundleName then
              pure Ret.PARAM_CHECK_ERROR
            else
              -- start js app
              if t.state ≠ AbilityState.SCHEDULE_STOP ∧ t.token ≠ LAUNCHER_TOKEN then
                -- start app is top
                if bundleName = topName then
                  if t.state = AbilityState.SCHEDULE_BACKGROUND then
                    let _ ← SchedulerLifecycle LAUNCHER_TOKEN State.STATE_BACKGROUND
                    pure Ret.ERR_OK
                  else
                    PreCheckStartAbility cfg env bundleName i.path i.data
                else
                  -- js to js
                  let _ ← TerminateAbility t.token
                  let token ← GenerateToken
                  modify fun s => { s with pendingToken := token }
                  PreCheckStartAbility cfg env bundleName i.path i.data
              else
                -- application has not been launched and then to check priority and permission.
                PreCheckStartAbility cfg env bundleName i.path i.data

def IsValidAbility (abilityInfo : Option AbilityInfo) : Bool :=
  match abilityInfo with
  | none => false
  | some info =>
    match info.bundleName, info.srcPath with
    | some bundleName, some srcPath =>
      if bundleName.length = 0 ∨ srcPath.length = 0 then false else true
    | _, _ => false

/-- The payload bytes read as a C string (`(const char *)want->data`): the characters in
front of the first NUL. A payload without a NUL is read past its end, which has no
result. -/
def cstrOfData (data : List Nat) : Option CStr :=
  if 0 ∈ data then some ((data.takeWhile fun b => b ≠ 0).map Char.ofNat) else none

/-- The overload `StartAbility(const Want *want)`. The field `element` of the model `Want`
is the bundle name of `want->element`: a null element and a null bundle name take the same
exit. `Utils::Strdup` copies a string and maps a null pointer to a null pointer. -/
def StartAbilityWant (cfg : Config) (build : Build) (env : Env) (want : Option Want) : M Ret := do
  match want with
  | none => pure Ret.PARAM_NULL_ERROR
  | some w =>
    match w.element with
    | none => pure Ret.PARAM_NULL_ERROR
    | some bundleName =>
      if IsLauncher bundleName then
        -- Launcher
        StartAbility cfg env (some { bundleName := some bundleName, path := none, data := w.data })
      else if build.bundleManager then
        -- JS APP
        let abilityInfo := build.QueryAbilityInfo w
        if ¬ IsValidAbility (some abilityInfo) then
          pure Ret.PARAM_NULL_ERROR
        else
          StartAbility cfg env
            (some { bundleName := abilityInfo.bundleName, path := abilityInfo.srcPath,
                    data := w.data })
      else
        -- Here users assign want->data with js app path.
        match w.data with
        | none =>
          StartAbility cfg env (some { bundleName := some bundleName, path := none, data := none })
        | some d =>
          match cstrOfData d with
          | none => failure
          | some path =>
            StartAbility cfg env
              (some { bundleName := some bundleName, path := some path, data := w.data })

def ForceStopBundleInner (token : Nat) : M Ret := do
  -- free js mem and delete the record
  let record ← AbilityList.Get token
  match record with
  | none => pure Ret.PARAM_NULL_ERROR
  | some p =>
    let r ← deref p
    match r.jsAppHost with
    | some host => emit (Event.hostForceDestroy host)
    | none => pure ()
    DeleteRecordInfo token
    pure Ret.ERR_OK

def ForceStopBundle (token : Nat) : M Ret := do
  if token = LAUNCHER_TOKEN then
    pure Ret.ERR_OK
  else if (← ForceStopBundleInner token) ≠ Ret.ERR_OK then
    pure Ret.PARAM_CHECK_ERROR
  else
    -- active the launcher
    let launcherRecord ← AbilityList.Get LAUNCHER_TOKEN
    match launcherRecord with
    | none => pure Ret.PARAM_NULL_ERROR
    | some l =>
      let r ← deref l
      if r.state ≠ AbilityState.SCHEDULE_ACTIVE then
        SchedulerLifecycle LAUNCHER_TOKEN State.STATE_ACTIVE
      else
        pure Ret.ERR_OK

def ForceStop (bundleName : Option CStr) : M Ret := do
  match bundleName with
  | none => pure Ret.PARAM_NULL_ERROR
  | some name =>
    -- stop Launcher
    if IsLauncher name then
      TerminateAbility 0
    else
      -- stop js app
      let topRecord ← AbilityStack.GetTopAbility
      match topRecord with
      | none => failure
      | some top =>
        let t ← deref top
        match t.appName with
        | none => failure
        | some topName =>
          if topName = name then
            TerminateAbility t.token
          else
            pure Ret.PARAM_CHECK_ERROR

def OnDestroyDone (env : Env) (token : Nat) : M Unit := do
  -- the launcher destroy
  if token = LAUNCHER_TOKEN then
    SetAbilityState token AbilityState.SCHEDULE_STOP
  else
    let topRecord ← AbilityStack.GetTopAbility
    let notTop ← match topRecord with
      | none => pure true
      | some top => do
        let t ← deref top
        pure (decide (t.token ≠ token))
    if notTop then
      SetAbilityState token AbilityState.SCHEDULE_STOP
      DeleteRecordInfo token
    else
      AbilityStack.PopAbility
      DeleteRecordInfo token
      SetAbilityState token AbilityState.SCHEDULE_STOP
      let pendingToken := (← get).pendingToken
      -- no pending token
      if pendingToken = 0 then
        let _ ← SchedulerLifecycle LAUNCHER_TOKEN State.STATE_ACTIVE
      else
        -- start pending token
        let record ← AbilityList.Get pendingToken
        if (← CreateAppTask env record) ≠ Ret.ERR_OK then
          AbilityList.Erase pendingToken
          delete record
          let _ ← SchedulerLifecycle LAUNCHER_TOKEN State.STATE_ACTIVE
        modify fun s => { s with pendingToken := 0 }

def OnActiveDone (env : Env) (token : Nat) : M Unit := do
  SetAbilityState token AbilityState.SCHEDULE_ACTIVE
  let topRecord ← AbilityStack.GetTopAbility
  match topRecord with
  | none => pure ()
  | some top =>
    -- the launcher active
    if token = LAUNCHER_TOKEN then
      let nativeAbility := (← get).nativeAbility
      if nativeAbility = none ∨ env.nativeState ≠ State.STATE_ACTIVE then
        -- the log call reads nativeAbility_->GetState(), also when nativeAbility_ is null
        match nativeAbility with
        | none => failure
        | some _ => pure ()
      else
        let t ← deref top
        if t.token ≠ LAUNCHER_TOKEN then
          if t.state = AbilityState.SCHEDULE_ACTIVE then
            OnDestroyDone env t.token
          else if t.state ≠ AbilityState.SCHEDULE_BACKGROUND then
            AbilityStack.PopAbility
            DeleteRecordInfo t.token
          else if t.isTerminated then
            let _ ← SchedulerLifecycleInner (some top) State.STATE_UNINITIALIZED
    else
      -- the js app active
      let _ ← deref top

def OnBackgroundDone (token : Nat) : M Unit := do
  SetAbilityState token AbilityState.SCHEDULE_BACKGROUND
  let topRecord ← AbilityStack.GetTopAbility
  match topRecord with
  | none => pure ()
  | some top =>
    let t ← deref top
    -- the js background
    if token ≠ LAUNCHER_TOKEN then
      if t.token = token then
        let _ ← SchedulerLifecycle LAUNCHER_TOKEN State.STATE_ACTIVE
    else if t.token ≠ LAUNCHER_TOKEN then
      -- the launcher background
      let _ ← SchedulerLifecycleInner (some top) State.STATE_ACTIVE
      if (← get).cleanAbilityDataFlag then
        let record ← AbilityList.Get token
        match record with
        | none => failure
        | some p => store p fun r => r.SetWantData none
        modify fun s => { s with cleanAbilityDataFlag := false }

def GetTopAbility : M (Option ElementName) := do
  let topRecord ← AbilityStack.GetTopAbility
  let launcherRecord ← AbilityList.Get LAUNCHER_TOKEN
  match topRecord, launcherRecord with
  | some top, some launcher =>
    let t ← deref top
    let l ← deref launcher
    if t.token = LAUNCHER_TOKEN ∨ l.state = AbilityState.SCHEDULE_ACTIVE then
      pure (some { bundleName := some LAUNCHER_BUNDLE_NAME })
    else if t.state = AbilityState.SCHEDULE_ACTIVE ∨ t.state = AbilityState.SCHEDULE_BACKGROUND then
      -- case js active or background when launcher not active
      pure (some { bundleName := t.appName })
    else
      pure (some { bundleName := none })
  | _, _ => pure none

def setNativeAbility (ability : Option Nat) : M Unit :=
  modify fun s => { s with nativeAbility := ability }

/-! ## Predicates and harnesses used to state the properties -/

/-- Every pointer held by the registry refers to a live record, and no pointer is held twice. -/
def RegistryWF (s : Manager) : Prop :=
  s.abilityList.Nodup ∧ ∀ p ∈ s.abilityList, (s.heap.deref p).isSome = true

/-- The record at `p` carries the protected home name. -/
def IsHomeAt (cfg : Config) (h : Heap) (p : Ptr) : Prop :=
  ∃ r, h.deref p = some r ∧ r.appName = some cfg.MAIN_BUNDLE_NAME

/-- The part of `Add` after the eviction: insert at the front unless the token is held. -/
def addTail (p : Ptr) (s : Manager) : Option (Unit × Manager) :=
  match s.heap.deref p with
  | none => none
  | some r =>
    match AbilityList.getLoop s.heap r.token s.abilityList with
    | none => none
    | some none => some ((), { s with abilityList := p :: s.abilityList })
    | some (some _) => some ((), s)

/-- The fields of the controller that the registry does not touch agree. -/
def SameOther (s s1 : Manager) : Prop :=
  s1.abilityStack = s.abilityStack ∧ s1.pendingToken = s.pendingToken ∧
  s1.staticToken = s.staticToken ∧ s1.nativeAbility = s.nativeAbility ∧
  s1.cleanAbilityDataFlag = s.cleanAbilityDataFlag ∧ s1.log = s.log ∧
  s1.heap.length = s.heap.length

/-- Entry `q` is the one the eviction rule removes from the registry of `s`. -/
def Victim (cfg : Config) (s : Manager) (q : Ptr) : Prop :=
  (∃ init, s.abilityList = init ++ [q] ∧ ¬ IsHomeAt cfg s.heap q) ∨
  (∃ init last, s.abilityList = init ++ [q, last] ∧ IsHomeAt cfg s.heap last)

/-- One call of the registry interface; `add` allocates the record it inserts. -/
inductive RegOp where
  | add (r : AbilityRecord)
  | erase (token : Nat)
  | moveToTop (token : Nat)
  | pop

def RegOp.run (cfg : Config) : RegOp → M Unit
  | RegOp.add r => do
    let p ← new r
    AbilityList.Add cfg (some p)
  | RegOp.erase token => AbilityList.Erase token
  | RegOp.moveToTop token => do
    let _ ← AbilityList.MoveToTop cfg token
  | RegOp.pop => AbilityList.PopAbility

/-- Run a sequence of registry calls; `none` when one of them is undefined. -/
def runOps (cfg : Config) : List RegOp → Manager → Option Manager
  | [], s => some s
  | op :: ops, s =>
    match op.run cfg s with
    | some (_, s1) => runOps cfg ops s1
    | none => none

/-- The results of the first `n` calls of `GenerateToken` made from state `s`, in order. -/
def generateTokens : Nat → Manager → List Nat
  | 0, _ => []
  | n + 1, s =>
    match GenerateToken s with
    | some (token, s1) => token :: generateTokens n s1
    | none => []

/-- The message identifier `SendMsgToJsAbility` chooses for a lifecycle state. -/
def msgIdOf (state : State) : AbilityMsgId :=
  if state = State.STATE_ACTIVE then AbilityMsgId.ACTIVE
  else if state = State.STATE_BACKGROUND then AbilityMsgId.BACKGROUND
  else if state = State.STATE_UNINITIALIZED then AbilityMsgId.DESTROY
  else AbilityMsgId.OTHER state

/-- The message posted to the worker queue of record `r` for a lifecycle state. -/
def jsMsgOf (state : State) (r : AbilityRecord) : Event :=
  Event.jsMsg (msgIdOf state) r.token r.appName r.appPath r.abilityData r.jsAppQueueId

/-- The calls made on an installed native unit for a lifecycle state of the home record. -/
def nativeEvents (state : State) (r : AbilityRecord) : List Event :=
  match state with
  | State.STATE_ACTIVE =>
    [Event.nativeOnActive { element := some LAUNCHER_BUNDLE_NAME, data := r.abilityData }]
  | State.STATE_BACKGROUND => [Event.nativeOnBackground]
  | _ => []

/-- The record `StartLauncher` creates. -/
def launcherRecord (env : Env) : AbilityRecord :=
  { token := LAUNCHER_TOKEN
    appName := some LAUNCHER_BUNDLE_NAME
    state := AbilityState.SCHEDULE_ACTIVE
    taskId := env.curTaskId }

/-- The token the next call of `GenerateToken` returns when the static counter is `c`. -/
def nextToken (c : Nat) : Nat :=
  ((if c = UINT16_MAX - 1 then LAUNCHER_TOKEN else c) + 1) % 65536

/-- The record of a worker unit right after `CreateAppTask` succeeded. -/
def workerRecord (env : Env) (token taskId : Nat) (name : CStr) (path : Option CStr)
    (data : Option (List Nat)) : AbilityRecord :=
  { token := token
    appName := some name
    appPath := path
    abilityData := data
    state := AbilityState.SCHEDULE_INACTIVE
    taskId := taskId
    jsAppQueueId := env.queueNew
    jsAppHost := some env.jsAppHost }

/-- The teardown calls `DeleteRecordInfo` makes for a worker record. -/
def teardownEvents (w : AbilityRecord) : List Event :=
  if w.state ≠ AbilityState.SCHEDULE_STOP then
    [Event.taskDelete w.taskId, Event.queueDelete w.jsAppQueueId, Event.hostDelete w.jsAppHost]
  else []

/-- A build with room for two records whose protected home name is the launcher name. -/
def exampleCfg : Config :=
  { ABILITY_LIST_CAPACITY := 2, MAIN_BUNDLE_NAME := LAUNCHER_BUNDLE_NAME }

/-- An environment in which task creation succeeds and no response check is installed. -/
def exampleEnv : Env :=
  { taskCreate := some 7
    jsAppHost := 100
    queueNew := some 9
    abilityCallback := none
    curTaskId := 1
    nativeState := State.STATE_ACTIVE }

/-- An environment whose response check rejects every name. -/
def denyEnv : Env :=
  { exampleEnv with abilityCallback := some fun _ => Ret.PARAM_CHECK_ERROR }

/-- The state right after `StartLauncher` on a fresh controller with a native unit installed. -/
def homeState : Manager :=
  { heap := [some (launcherRecord exampleEnv)]
    abilityList := [0]
    abilityStack := [0]
    nativeAbility := some 1
    log := [Event.nativeOnActive { element := some LAUNCHER_BUNDLE_NAME, data := none }] }

/-- A full registry (capacity 2): a worker record in front of the home record, and a third
live record that is not registered. -/
def fullRegistry : Manager :=
  { heap := [some { token := 0, appName := some LAUNCHER_BUNDLE_NAME },
             some { token := 1, appName := some "x.app".toList },
             some { token := 2, appName := some "y.app".toList }]
    abilityList := [1, 0] }

/-- The request to start `x.app` from path `/x`. -/
def xApp : AbilitySvcInfo :=
  { bundleName := some "x.app".toList, path := some "/x".toList, data := none }

/-- A request whose bundle name is the empty string. -/
def emptyNameRequest : AbilitySvcInfo :=
  { bundleName := some [], path := some "/x".toList, data := none }

instance (s : Manager) : Decidable (RegistryWF s) := by
  unfold RegistryWF
  infer_instance

/-- The part of a record the registry invariants depend on: its token and its name. -/
def AbilityRecord.key (r : AbilityRecord) : Nat × Option CStr := (r.token, r.appName)

/-- Two states hold the same registry, the same token counter, and at every address
records with the same token and name. -/
def SameShape (s s1 : Manager) : Prop :=
  s1.abilityList = s.abilityList ∧ s1.staticToken = s.staticToken ∧
  ∀ p, (s1.heap.deref p).map AbilityRecord.key = (s.heap.deref p).map AbilityRecord.key

/-- A predicate on states that only looks at the shape. -/
def ShapeInv (P : Manager → Prop) : Prop :=
  ∀ s s1, SameShape s s1 → P s → P s1

/-- Hoare triple for partial correctness of controller code. -/
structure Triple {α : Type} (P : Manager → Prop) (m : M α) (Q : α → Manager → Prop) : Prop where
  run : ∀ s a s1, P s → m s = some (a, s1) → Q a s1

/-- The code `m` preserves the predicate `P`. -/
abbrev Stable {α : Type} (P : Manager → Prop) (m : M α) : Prop :=
  Triple P m (fun _ => P)

/-- The registry invariant of the controller: no pointer is held twice, the token counter has
not reached its maximum, exactly one registered record is the home record (token 0, protected
name), and every other registered record is alive with a nonzero token and another name. -/
def HomeInv (cfg : Config) (s : Manager) : Prop :=
  s.abilityList.Nodup ∧ s.staticToken < 65535 ∧
  ∃ pL, pL ∈ s.abilityList ∧
    (∃ r, s.heap.deref pL = some r ∧ r.token = 0 ∧ r.appName = some cfg.MAIN_BUNDLE_NAME) ∧
    ∀ q ∈ s.abilityList, q ≠ pL →
      ∃ r, s.heap.deref q = some r ∧ r.token ≠ 0 ∧ r.appName ≠ some cfg.MAIN_BUNDLE_NAME

/-- The invariant together with the result of looking a token up. -/
def HomeInvGet (cfg : Config) (t : Nat) (o : Option Ptr) (s : Manager) : Prop :=
  HomeInv cfg s ∧ AbilityList.getLoop s.heap t s.abilityList = some o

/-- The invariant together with the fact that a pointer is not registered. -/
def HomeInvOut (cfg : Config) (o : Option Ptr) (s : Manager) : Prop :=
  HomeInv cfg s ∧ ∀ p, o = some p → p ∉ s.abilityList

/-- The invariant while a freshly created record `p` with token `t` is being started:
it is alive and either at the front of the registry or not registered. -/
def HomeInvNew (cfg : Config) (p : Ptr) (t : Nat) (s : Manager) : Prop :=
  HomeInv cfg s ∧ (∃ r, s.heap.deref p = some r ∧ r.token = t) ∧
    (s.abilityList.head? = some p ∨ p ∉ s.abilityList)

/-- One call into the controller, with the answers of the environment during the call.
`forceStopByToken` is `ForceStopBundle`; result codes are dropped. -/
inductive Op where
  | startLauncher (env : Env)
  | startAbility (env : Env) (info : Option AbilitySvcInfo)
  | terminateAbility (token : Nat)
  | forceStop (bundleName : Option CStr)
  | forceStopByToken (token : Nat)
  | onActiveDone (env : Env) (token : Nat)
  | onBackgroundDone (token : Nat)
  | onDestroyDone (env : Env) (token : Nat)
  | installNative (ability : Option Nat)

def Op.run (cfg : Config) : Op → M Unit
  | Op.startLauncher env => StartLauncher cfg env
  | Op.startAbility env info => do
    let _ ← StartAbility cfg env info
  | Op.terminateAbility token => do
    let _ ← TerminateAbility token
  | Op.forceStop bundleName => do
    let _ ← ForceStop bundleName
  | Op.forceStopByToken token => do
    let _ ← ForceStopBundle token
  | Op.onActiveDone env token => OnActiveDone env token
  | Op.onBackgroundDone token => OnBackgroundDone token
  | Op.onDestroyDone env token => OnDestroyDone env token
  | Op.installNative ability => setNativeAbility ability

/-- The states the controller reaches: `StartLauncher` on a fresh controller (with or without
a native unit installed), followed by any calls whose behaviour is defined. -/
inductive Reachable (cfg : Config) : Manager → Prop where
  | start (env : Env) (native : Option Nat) (s : Manager) :
      StartLauncher cfg env { nativeAbility := native } = some ((), s) → Reachable cfg s
  | step (op : Op) (s s1 : Manager) :
      Reachable cfg s → op.run cfg s = some ((), s1) → Reachable cfg s1

/-- Run a sequence of controller calls; `none` when one of them is undefined. -/
def runController (cfg : Config) : List Op → Manager → Option Manager
  | [], s => some s
  | op :: ops, s =>
    match op.run cfg s with
    | some (_, s1) => runController cfg ops s1
    | none => none

/-- A run of the controller: launcher, `x.app` started and acknowledged, `y.app` requested. -/
def exampleRun : List Op :=
  [Op.startAbility exampleEnv (some xApp), Op.onBackgroundDone 0,
   Op.onActiveDone exampleEnv 1,
   Op.startAbility exampleEnv
     (some { bundleName := some "y.app".toList, path := some "/y".toList, data := none })]

/-- The Stop-state record `PreCheckStartAbility` creates for a start request. -/
def stopRecord (token : Nat) (name : CStr) (path : Option CStr) (data : Option (List Nat)) :
    AbilityRecord :=
  { token := token
    appName := some name
    appPath := path
    abilityData := data
    state := AbilityState.SCHEDULE_STOP }

/-- A build with room for three records whose protected home name is the launcher name. -/
def roomyCfg : Config :=
  { ABILITY_LIST_CAPACITY := 3, MAIN_BUNDLE_NAME := LAUNCHER_BUNDLE_NAME }

/-- An environment in which task creation fails. -/
def failEnv : Env :=
  { exampleEnv with taskCreate := none }

/-- The request to start `y.app` from path `/y`. -/
def yApp : AbilitySvcInfo :=
  { bundleName := some "y.app".toList, path := some "/y".toList, data := none }

/-- The calls that bring `x.app` to the foreground from the home state. -/
def runX : List Op :=
  [Op.startAbility exampleEnv (some xApp), Op.onBackgroundDone 0, Op.onActiveDone exampleEnv 1]

/-- The record of `x.app` once it is Active. -/
def xRecord : AbilityRecord :=
  { workerRecord exampleEnv 1 7 "x.app".toList (some "/x".toList) none with
    state := AbilityState.SCHEDULE_ACTIVE }

/-- The state with `x.app` foreground and Active and the home unit in the background. -/
def xActive : Manager :=
  { heap := [some { launcherRecord exampleEnv with state := AbilityState.SCHEDULE_BACKGROUND },
             some xRecord]
    abilityList := [1, 0]
    abilityStack := [1, 0]
    staticToken := 1
    nativeAbility := some 1
    log := [Event.nativeOnActive { element := some LAUNCHER_BUNDLE_NAME, data := none },
            Event.nativeOnBackground,
            jsMsgOf State.STATE_ACTIVE (workerRecord exampleEnv 1 7 "x.app".toList
              (some "/x".toList) none)] }

/-- A build with the bundle manager in which no bundle is installed. -/
def emptyBundleManager : Build :=
  { bundleManager := true, QueryAbilityInfo := fun _ => { bundleName := none, srcPath := none } }

/-- A build with the bundle manager that resolves every request to bundle `x.app` with an
empty source path. -/
def emptyPathBundleManager : Build :=
  { bundleManager := true
    QueryAbilityInfo := fun _ => { bundleName := some "x.app".toList, srcPath := some [] } }

/-- The token of the record at `p`, when the record is alive. -/
def tokenAt (h : Heap) (p : Ptr) : Option Nat := (h.deref p).map fun r => r.token

/-- The invariants of the data model on a heap, a registry and a stack: every registered
pointer refers to a live record, registered records have pairwise distinct tokens, the stack
holds no entry twice, and every stack entry is registered. -/
def HeapWF (h : Heap) (l k : List Ptr) : Prop :=
  (∀ p ∈ l, (h.deref p).isSome = true) ∧ (l.map (tokenAt h)).Nodup ∧
  k.Nodup ∧ ∀ p ∈ k, p ∈ l

/-- The invariants of the data model hold in a controller state. -/
def StateWF (s : Manager) : Prop := HeapWF s.heap s.abilityList s.abilityStack

/-- The state after the record `r` at `p` has been torn down, removed from registry and
stack, and deleted. -/
def withoutRecord (s : Manager) (p : Ptr) (r : AbilityRecord) : Manager :=
  { s with
    heap := s.heap.set p none
    abilityList := s.abilityList.erase p
    abilityStack := s.abilityStack.erase p
    log := s.log ++ teardownEvents r }

/-- The state with `x.app` foreground, marked terminated, and the Stop-state record of
`y.app` registered under the pending token 2 (capacity 3). -/
def yPending : Manager :=
  { heap := [some { launcherRecord exampleEnv with state := AbilityState.SCHEDULE_BACKGROUND },
             some { xRecord with isTerminated := true },
             some (stopRecord 2 "y.app".toList (some "/y".toList) none)]
    abilityList := [2, 1, 0]
    abilityStack := [1, 0]
    pendingToken := 2
    staticToken := 2
    nativeAbility := some 1
    log := xActive.log ++ [jsMsgOf State.STATE_BACKGROUND { xRecord with isTerminated := true }] }

instance (h : Heap) (l k : List Ptr) : Decidable (HeapWF h l k) := by
  unfold HeapWF
  infer_instance

instance (s : Manager) : Decidable (StateWF s) := by
  unfold StateWF
  infer_instance

/-- The request to bring the launcher to the foreground. -/
def launcherRequest : AbilitySvcInfo :=
  { bundleName := some LAUNCHER_BUNDLE_NAME, path := none, data := none }

/-- The calls that bring the home unit back to the foreground over `x.app`: the request, the
background acknowledgement of `x.app` and the active acknowledgement of the home unit. -/
def runHome : List Op :=
  [Op.startAbility exampleEnv (some launcherRequest), Op.onBackgroundDone 1,
   Op.onActiveDone exampleEnv 0]

/-- The state with the home unit Active again while `x.app`, now in Background, is still the
stack top. -/
def xBackground : Manager :=
  { heap := [some (launcherRecord exampleEnv),
             some { xRecord with state := AbilityState.SCHEDULE_BACKGROUND }]
    abilityList := [1, 0]
    abilityStack := [1, 0]
    staticToken := 1
    nativeAbility := some 1
    log := xActive.log ++
      [jsMsgOf State.STATE_BACKGROUND xRecord,
       Event.nativeOnActive { element := some LAUNCHER_BUNDLE_NAME, data := none }] }

/-- The name `GetTopAbility` reports for the top record `t` and the home record `home`. -/
def foregroundName (t home : AbilityRecord) : Option CStr :=
  if t.token = 0 ∨ home.state = AbilityState.SCHEDULE_ACTIVE then some LAUNCHER_BUNDLE_NAME
  else if t.state = AbilityState.SCHEDULE_ACTIVE ∨ t.state = AbilityState.SCHEDULE_BACKGROUND then
    t.appName
  else none

/-- The call `ForceStopBundleInner` makes on the execution host of record `r`, if it has one. -/
def forceDestroyEvents (r : AbilityRecord) : List Event :=
  match r.jsAppHost with
  | some host => [Event.hostForceDestroy host]
  | none => []

/-- The calls `SchedulerLifecycle(LAUNCHER_TOKEN, state)` makes when the home record `home`
is registered: those on the native unit if one is installed, none otherwise. -/
def homeEvents (native : Option Nat) (state : State) (home : AbilityRecord) : List Event :=
  match native with
  | some _ => nativeEvents state home
  | none => []

/-- The part of `OnDestroyDone` that follows the removal of the foreground record: the
foreground is handed to the pending record, or to the home unit. -/
def handOver (env : Env) : M Unit := do
  let pendingToken := (← get).pendingToken
  -- no pending token
  if pendingToken = 0 then
    let _ ← SchedulerLifecycle LAUNCHER_TOKEN State.STATE_ACTIVE
  else
    -- start pending token
    let record ← AbilityList.Get pendingToken
    if (← CreateAppTask env record) ≠ Ret.ERR_OK then
      AbilityList.Erase pendingToken
      delete record
      let _ ← SchedulerLifecycle LAUNCHER_TOKEN State.STATE_ACTIVE
    modify fun s => { s with pendingToken := 0 }

/-- The record of a pending unit after its worker task, queue and host were created. -/
def started (env : Env) (tid : Nat) (y : AbilityRecord) : AbilityRecord :=
  { y with
    taskId := tid
    jsAppQueueId := env.queueNew
    jsAppHost := some env.jsAppHost
    state := AbilityState.SCHEDULE_INACTIVE }

/-- The instruction `CreateAppTask` sends after a record was started: Background to the
native unit when one is installed, Active to the new record otherwise. -/
def startEvents (native : Option Nat) (y : AbilityRecord) : List Event :=
  match native with
  | some _ => [Event.nativeOnBackground]
  | none => [jsMsgOf State.STATE_ACTIVE y]

/-- The state in which the record `r` at `p` has been given the state `st`. -/
def withState (s : Manager) (p : Ptr) (r : AbilityRecord) (st : AbilityState) : Manager :=
  { s with heap := s.heap.set p (some { r with state := st }) }

/-- The calls that bring `x.app` to the foreground on a controller without a native unit
(capacity 3), followed by the request for `y.app`. -/
def runNoNative : List Op :=
  [Op.startLauncher exampleEnv, Op.startAbility exampleEnv (some xApp),
   Op.onActiveDone exampleEnv 1, Op.startAbility exampleEnv (some yApp)]

/-- An environment in which the native unit reports that it is in the background. -/
def nativeBackgroundEnv : Env :=
  { exampleEnv with nativeState := State.STATE_BACKGROUND }

/-- A full registry (capacity 2) with `x.app` in front of the home record, and two live
records that are not registered: one with the token of `x.app`, one with the token of the
home record. -/
def dupRegistry : Manager :=
  { heap := [some { token := 0, appName := some LAUNCHER_BUNDLE_NAME },
             some { token := 1, appName := some "x.app".toList },
             some { token := 1, appName := some "d.app".toList },
             some { token := 0, appName := some "e.app".toList }]
    abilityList := [1, 0] }

/-- The registered records are alive and have pairwise distinct tokens. -/
def DistinctTokens (s : Manager) : Prop :=
  (∀ p ∈ s.abilityList, (s.heap.deref p).isSome = true) ∧
  (s.abilityList.map (tokenAt s.heap)).Nodup

instance (s : Manager) : Decidable (DistinctTokens s) := by
  unfold DistinctTokens
  infer_instance

/-- The request to start `z.app` from path `/z`. -/
def zApp : AbilitySvcInfo :=
  { bundleName := some "z.app".toList, path := some "/z".toList, data := none }

/-- The calls that bring `x.app` to the foreground and then request `y.app` and `z.app`. -/
def runXYZ : List Op :=
  runX ++ [Op.startAbility exampleEnv (some yApp), Op.startAbility exampleEnv (some zApp)]

/-- A request for `y.app` that carries no path. -/
def yNoPath : AbilitySvcInfo :=
  { bundleName := some "y.app".toList, path := none, data := none }

/-- Every record with a pointer below `n` that exists in `s1` existed in `s` with the same
state field; `n` stays within the allocated cells. -/
def KeepsState (n : Nat) (s s1 : Manager) : Prop :=
  n ≤ s1.heap.length ∧
  ∀ p, p < n → ∀ r1, s1.heap.deref p = some r1 →
    ∃ r, s.heap.deref p = some r ∧ r1.state = r.state

/-- The code `m` does not change the state field of a record allocated below `n`. -/
structure Keeps {α : Type} (n : Nat) (m : M α) : Prop where
  run : ∀ s a s1, n ≤ s.heap.length → m s = some (a, s1) → KeepsState n s s1

/-- What the definedness of controller code depends on: the registry holds no pointer twice
and only live records, the records of the stack are alive (when `k` is set), and the
pointers in `L` are alive. -/
def LiveInv (k : Bool) (L : List Ptr) (s : Manager) : Prop :=
  s.abilityList.Nodup ∧ (∀ p ∈ s.abilityList, (s.heap.deref p).isSome = true) ∧
  (k = true → ∀ p ∈ s.abilityStack, (s.heap.deref p).isSome = true) ∧
  ∀ p ∈ L, (s.heap.deref p).isSome = true

/-- Registry, stack and the set of live pointers agree. -/
def SameLive (s s1 : Manager) : Prop :=
  s1.abilityList = s.abilityList ∧ s1.abilityStack = s.abilityStack ∧
  ∀ p, (s1.heap.deref p).isSome = (s.heap.deref p).isSome

/-- Total correctness: from a state with `P` the code `m` returns, in a state with `Q`. -/
structure Runs {α : Type} (P : Manager → Prop) (m : M α) (Q : α → Manager → Prop) : Prop where
  run : ∀ s, P s → ∃ a s1, m s = some (a, s1) ∧ Q a s1

/-- A build without the bundle manager: the path is read from the payload of the request. -/
def payloadBuild : Build :=
  { bundleManager := false, QueryAbilityInfo := fun _ => { bundleName := none, srcPath := none } }

/-- The calls that bring `x.app` to the foreground, request `y.app` without a path (which
reserves a pending token), force-stop `x.app` by its token and let the native unit
acknowledge that home is active again. -/
def runStale : List Op :=
  runX ++ [Op.startAbility exampleEnv (some yNoPath), Op.forceStopByToken 1,
    Op.onActiveDone exampleEnv 0]

/-- The state after `runStale`: home foreground and Active, registry `[home]`, and the pending
token 2 still reserved. -/
def staleHome : Manager :=
  { heap := [some (launcherRecord exampleEnv), none]
    abilityList := [0]
    abilityStack := [0]
    pendingToken := 2
    staticToken := 2
    nativeAbility := some 1
    log := xActive.log ++
      [jsMsgOf State.STATE_BACKGROUND { xRecord with isTerminated := true },
       Event.hostForceDestroy 100, Event.taskDelete 7, Event.queueDelete (some 9),
       Event.hostDelete (some 100),
       Event.nativeOnActive { element := some LAUNCHER_BUNDLE_NAME, data := none }] }

/-- The calls that leave the Stop-state record of `y.app` registered with home foreground and
no pending token: `x.app` is brought to the foreground, `y.app` is requested twice (the second
request reserves the pending token 3, which no record holds), `x.app` acknowledges its
destruction, and home acknowledges Active. -/
def leftoverRun : List Op :=
  runX ++ [Op.startAbility exampleEnv (some yApp), Op.startAbility exampleEnv (some yApp),
    Op.onDestroyDone exampleEnv 1, Op.onActiveDone exampleEnv 0]

/-- The state after `leftoverRun`. -/
def leftoverHome : Manager :=
  { heap := [some (launcherRecord exampleEnv), none,
             some (stopRecord 2 "y.app".toList (some "/y".toList) none)]
    abilityList := [2, 0]
    abilityStack := [0]
    staticToken := 3
    nativeAbility := some 1
    log := xActive.log ++
      [jsMsgOf State.STATE_BACKGROUND { xRecord with isTerminated := true },
       jsMsgOf State.STATE_BACKGROUND { xRecord with isTerminated := true },
       Event.taskDelete 7, Event.queueDelete (some 9), Event.hostDelete (some 100),
       Event.nativeOnActive { element := some LAUNCHER_BUNDLE_NAME, data := none }] }

/-- The states of the token loop: home foreground and Active, the Stop-state record of `y.app`
registered under token 2, no pending token, a native unit installed, and the token counter
at `c`. -/
def TokenLoop (c : Nat) (s : Manager) : Prop :=
  s.abilityStack = [0] ∧ s.abilityList = [2, 0] ∧
  s.heap.deref 0 = some (launcherRecord exampleEnv) ∧
  s.heap.deref 2 = some (stopRecord 2 "y.app".toList (some "/y".toList) none) ∧
  s.pendingToken = 0 ∧ s.nativeAbility = some 1 ∧ s.staticToken = c

/-! # Theorems -/

/-! ## Reasoning about `M` -/

theorem bind_apply {α β} (m : M α) (f : α → M β) (s : Manager) :
    (m >>= f) s = (m s).bind (fun x => f x.1 x.2) := by
  show (StateT.bind m f) s = _
  unfold StateT.bind
  cases h : m s <;> simp [bind, Option.bind]

theorem map_apply {α β} (f : α → β) (m : M α) (s : Manager) :
    (f <$> m) s = (m s).map (fun x => (f x.1, x.2)) := by
  show (StateT.map f m) s = _
  unfold StateT.map
  cases h : m s <;> simp [bind, Option.bind, pure]

theorem pure_apply {α} (a : α) (s : Manager) : (pure a : M α) s = some (a, s) := rfl

theorem get_apply (s : Manager) : (get : M Manager) s = some (s, s) := rfl

theorem modify_apply (f : Manager → Manager) (s : Manager) :
    (modify f : M Unit) s = some ((), f s) := rfl

/-! ## Heap lemmas -/

theorem Heap.deref_eq_some_iff (h : Heap) (p : Ptr) (r : AbilityRecord) :
    h.deref p = some r ↔ h[p]? = some (some r) := by
  unfold Heap.deref
  split
  · rename_i r1 heq; simp [heq]
  · rename_i hne
    constructor
    · intro hc; cases hc
    · intro hc; exact absurd hc (hne r)

theorem Heap.deref_lt {h : Heap} {p : Ptr} {r : AbilityRecord} (hp : h.deref p = some r) :
    p < h.length := by
  rw [Heap.deref_eq_some_iff] at hp
  exact (List.getElem?_eq_some_iff.mp hp).1

theorem Heap.deref_set_ne (h : Heap) (p q : Ptr) (v : Option AbilityRecord) (hne : q ≠ p) :
    Heap.deref (h.set p v) q = h.deref q := by
  unfold Heap.deref
  rw [List.getElem?_set_ne (Ne.symm hne)]

theorem Heap.deref_set_eq (h : Heap) (p : Ptr) (v : Option AbilityRecord) (hp : p < h.length) :
    Heap.deref (h.set p v) p = v := by
  unfold Heap.deref
  rw [List.getElem?_set_self hp]
  cases v <;> rfl

theorem Heap.deref_append_lt (h l : Heap) (p : Ptr) (hp : p < h.length) :
    Heap.deref (h ++ l) p = h.deref p := by
  unfold Heap.deref
  rw [List.getElem?_append_left hp]

theorem Heap.deref_append_length (h : Heap) (v : Option AbilityRecord) :
    Heap.deref (h ++ [v]) h.length = v := by
  unfold Heap.deref
  rw [List.getElem?_append_right (le_refl _)]
  cases v <;> simp

/-! ## Registry lemmas -/

theorem getLoop_none_iff (h : Heap) (t : Nat) (l : List Ptr) :
    AbilityList.getLoop h t l = some none ↔
      ∀ p ∈ l, ∃ r, h.deref p = some r ∧ r.token ≠ t := by
  induction l with
  | nil => simp [AbilityList.getLoop]
  | cons p rest ih =>
    simp only [AbilityList.getLoop, List.mem_cons, forall_eq_or_imp]
    cases hp : h.deref p with
    | none => simp
    | some r =>
      by_cases ht : r.token = t
      · simp [ht]
      · simp [ht, ih]

theorem getLoop_some_mem {h : Heap} {t : Nat} {l : List Ptr} {p : Ptr}
    (hg : AbilityList.getLoop h t l = some (some p)) :
    p ∈ l ∧ ∃ r, h.deref p = some r ∧ r.token = t := by
  induction l with
  | nil => simp [AbilityList.getLoop] at hg
  | cons q rest ih =>
    simp only [AbilityList.getLoop] at hg
    cases hq : h.deref q with
    | none => simp [hq] at hg
    | some r =>
      simp only [hq] at hg
      by_cases ht : r.token = t
      · simp only [ht, if_true, Option.some.injEq] at hg
        subst hg
        exact ⟨List.mem_cons_self _ _, r, hq, ht⟩
      · simp only [ht, if_false] at hg
        obtain ⟨h1, h2⟩ := ih hg
        exact ⟨List.mem_cons_of_mem _ h1, h2⟩

theorem getLoop_isSome {h : Heap} (t : Nat) {l : List Ptr}
    (hl : ∀ p ∈ l, (h.deref p).isSome = true) :
    (AbilityList.getLoop h t l).isSome = true := by
  induction l with
  | nil => rfl
  | cons q rest ih =>
    have hq := hl q (List.mem_cons_self _ _)
    have ih1 := ih (fun p hp => hl p (List.mem_cons_of_mem _ hp))
    obtain ⟨r, hr⟩ := Option.isSome_iff_exists.mp hq
    simp only [AbilityList.getLoop, hr]
    split
    · rfl
    · exact ih1

theorem eraseLoop_of_get_none {h : Heap} {t : Nat} {l : List Ptr}
    (hg : AbilityList.getLoop h t l = some none) :
    AbilityList.eraseLoop h t l = some l := by
  induction l with
  | nil => rfl
  | cons q rest ih =>
    simp only [AbilityList.getLoop] at hg
    cases hq : h.deref q with
    | none => simp [hq] at hg
    | some r =>
      simp only [hq] at hg
      by_cases ht : r.token = t
      · simp [ht] at hg
      · simp only [ht, if_false] at hg
        simp [AbilityList.eraseLoop, hq, ht, ih hg]

theorem eraseLoop_of_get_some {h : Heap} {t : Nat} {l : List Ptr} {p : Ptr}
    (hg : AbilityList.getLoop h t l = some (some p)) :
    AbilityList.eraseLoop h t l = some (l.erase p) := by
  induction l with
  | nil => simp [AbilityList.getLoop] at hg
  | cons q rest ih =>
    simp only [AbilityList.getLoop] at hg
    cases hq : h.deref q with
    | none => simp [hq] at hg
    | some r =>
      simp only [hq] at hg
      by_cases ht : r.token = t
      · simp only [ht, if_true, Option.some.injEq] at hg
        subst hg
        simp [AbilityList.eraseLoop, hq, ht]
      · simp only [ht, if_false] at hg
        have hne : q ≠ p := by
          intro hqp
          obtain ⟨_, r1, hr1, ht1⟩ := getLoop_some_mem hg
          rw [← hqp, hq] at hr1
          cases hr1
          exact ht ht1
        simp [AbilityList.eraseLoop, hq, ht, ih hg, List.erase_cons_tail, hne]

theorem PopBottomAbility_nil (cfg : Config) (s : Manager) (hl : s.abilityList = []) :
    AbilityList.PopBottomAbility cfg s = some ((), { s with abilityList := [] }) := by
  simp [AbilityList.PopBottomAbility, bind_apply, AbilityList.listBack, hl,
    AbilityList.listPopBack, modify_apply]

theorem PopBottomAbility_notHome (cfg : Config) (s : Manager) (init : List Ptr) (last : Ptr)
    (r : AbilityRecord) (hl : s.abilityList = init ++ [last]) (hr : s.heap.deref last = some r)
    (hn : r.appName ≠ some cfg.MAIN_BUNDLE_NAME) :
    AbilityList.PopBottomAbility cfg s =
      some ((), { s with abilityList := init, heap := s.heap.set last none }) := by
  simp [AbilityList.PopBottomAbility, bind_apply, AbilityList.listBack, hl,
    AbilityList.listPopBack, modify_apply, deref, hr, hn, delete]

theorem PopBottomAbility_homeSingle (cfg : Config) (s : Manager) (last : Ptr)
    (r : AbilityRecord) (hl : s.abilityList = [last]) (hr : s.heap.deref last = some r)
    (hn : r.appName = some cfg.MAIN_BUNDLE_NAME) :
    AbilityList.PopBottomAbility cfg s = some ((), { s with abilityList := [last] }) := by
  simp [AbilityList.PopBottomAbility, bind_apply, AbilityList.listBack, hl,
    AbilityList.listPopBack, modify_apply, deref, hr, hn, delete, AbilityList.listPushBack]

theorem PopBottomAbility_home (cfg : Config) (s : Manager) (init : List Ptr) (sl last : Ptr)
    (r r2 : AbilityRecord) (hl : s.abilityList = init ++ [sl, last])
    (hr : s.heap.deref last = some r) (hn : r.appName = some cfg.MAIN_BUNDLE_NAME)
    (hr2 : s.heap.deref sl = some r2) :
    AbilityList.PopBottomAbility cfg s =
      some ((), { s with abilityList := init ++ [last], heap := s.heap.set sl none }) := by
  simp [AbilityList.PopBottomAbility, bind_apply, AbilityList.listBack, hl,
    AbilityList.listPopBack, modify_apply, deref, hr, hn, delete, AbilityList.listPushBack, hr2]

theorem Add_eq (cfg : Config) (p : Ptr) (s : Manager) :
    AbilityList.Add cfg (some p) s =
      (if s.abilityList.length ≥ cfg.ABILITY_LIST_CAPACITY then
          AbilityList.PopBottomAbility cfg s else some ((), s)).bind
        fun x => addTail p x.2 := by
  have tail_eq : ∀ s1 : Manager,
      (deref p >>= fun r => do
        if (← AbilityList.Get r.token) = none then AbilityList.listPushFront p) s1
        = addTail p s1 := by
    intro s1
    simp only [bind_apply, addTail, deref, AbilityList.Get]
    cases hd : s1.heap.deref p with
    | none => simp
    | some r =>
      simp only [Option.some_bind]
      cases hg : AbilityList.getLoop s1.heap r.token s1.abilityList with
      | none => simp
      | some o =>
        cases o <;> simp [AbilityList.listPushFront, modify_apply, pure_apply]
  by_cases hc : s.abilityList.length ≥ cfg.ABILITY_LIST_CAPACITY
  · simp only [AbilityList.Add, bind_apply, AbilityList.Size, Option.some_bind, hc, if_true]
    cases hpop : AbilityList.PopBottomAbility cfg s with
    | none => simp
    | some x => simp only [Option.some_bind]; exact tail_eq x.2
  · simp only [AbilityList.Add, bind_apply, AbilityList.Size, Option.some_bind, hc, if_false,
      pure_apply]
    exact tail_eq s

theorem addTail_push {p : Ptr} {s : Manager} {r : AbilityRecord}
    (hp : s.heap.deref p = some r)
    (hg : AbilityList.getLoop s.heap r.token s.abilityList = some none) :
    addTail p s = some ((), { s with abilityList := p :: s.abilityList }) := by
  simp [addTail, hp, hg]

theorem addTail_dup {p q : Ptr} {s : Manager} {r : AbilityRecord}
    (hp : s.heap.deref p = some r)
    (hg : AbilityList.getLoop s.heap r.token s.abilityList = some (some q)) :
    addTail p s = some ((), s) := by
  simp [addTail, hp, hg]

/-- Claim C4. On a registry without repeated entries that is at capacity, `Add` of a live
record whose token no registered record holds gives: if the tail entry does not carry the home
name, the new record in front of all entries but the tail, the tail record being freed; if the
tail entry carries the home name, the new record in front of all entries but the next-to-last,
home staying at the tail and the next-to-last record being freed. -/
theorem add_at_capacity_shape (cfg : Config) (s : Manager) (p : Ptr) (r : AbilityRecord)
    (hnd : s.abilityList.Nodup)
    (hcap : cfg.ABILITY_LIST_CAPACITY ≤ s.abilityList.length)
    (hp : s.heap.deref p = some r)
    (htok : AbilityList.getLoop s.heap r.token s.abilityList = some none) :
    (∀ init last, s.abilityList = init ++ [last] → ¬ IsHomeAt cfg s.heap last →
      AbilityList.Add cfg (some p) s =
        some ((), { s with abilityList := p :: init, heap := s.heap.set last none })) ∧
    (∀ init secondLast last, s.abilityList = init ++ [secondLast, last] →
      IsHomeAt cfg s.heap last →
      AbilityList.Add cfg (some p) s =
        some ((), { s with abilityList := p :: (init ++ [last]),
                           heap := s.heap.set secondLast none })) := by
  have hall := (getLoop_none_iff _ _ _).mp htok
  have hpl : p ∉ s.abilityList := by
    intro hc
    obtain ⟨r1, hr1, hne⟩ := hall p hc
    rw [hp] at hr1
    cases hr1
    exact hne rfl
  constructor
  · intro init last hl hhome
    obtain ⟨rl, hrl, _⟩ := hall last (by simp [hl])
    have hn : rl.appName ≠ some cfg.MAIN_BUNDLE_NAME := fun hc => hhome ⟨rl, hrl, hc⟩
    have hpne : p ≠ last := fun hc => hpl (by simp [hl, hc])
    have hlast : last ∉ init := by
      rw [hl] at hnd
      have := List.disjoint_of_nodup_append hnd
      intro hc
      exact this hc (by simp)
    rw [Add_eq, if_pos hcap, PopBottomAbility_notHome cfg s init last rl hl hrl hn]
    simp only [Option.some_bind]
    rw [addTail_push (r := r)]
    · simp only [Heap.deref_set_ne _ _ _ _ hpne, hp]
    · simp only
      rw [getLoop_none_iff]
      intro q hq
      have hqne : q ≠ last := fun hc => hlast (hc ▸ hq)
      rw [Heap.deref_set_ne _ _ _ _ hqne]
      exact hall q (by simp [hl, hq])
  · intro init sl last hl hhome
    obtain ⟨rl, hrl, hname⟩ := hhome
    obtain ⟨r2, hr2, _⟩ := hall sl (by simp [hl])
    have hpne : p ≠ sl := fun hc => hpl (by simp [hl, hc])
    have hnd2 : (init ++ [sl, last]).Nodup := hl ▸ hnd
    have hsl : ∀ q ∈ init ++ [last], q ≠ sl := by
      intro q hq hc
      subst hc
      rw [List.nodup_append] at hnd2
      obtain ⟨_, h2, h3⟩ := hnd2
      rcases List.mem_append.mp hq with h | h
      · exact h3 h (by simp)
      · simp only [List.mem_singleton] at h
        subst h
        simp at h2
    rw [Add_eq, if_pos hcap, PopBottomAbility_home cfg s init sl last rl r2 hl hrl hname hr2]
    simp only [Option.some_bind]
    rw [addTail_push (r := r)]
    · simp only [Heap.deref_set_ne _ _ _ _ hpne, hp]
    · simp only
      rw [getLoop_none_iff]
      intro q hq
      rw [Heap.deref_set_ne _ _ _ _ (hsl q hq)]
      refine hall q ?_
      rw [hl]
      rcases List.mem_append.mp hq with h | h
      · exact List.mem_append_left _ h
      · simp only [List.mem_singleton] at h
        subst h
        simp

theorem PopBottomAbility_derefNone (cfg : Config) (s : Manager) (init : List Ptr) (last : Ptr)
    (hl : s.abilityList = init ++ [last]) (hr : s.heap.deref last = none) :
    AbilityList.PopBottomAbility cfg s = none := by
  simp [AbilityList.PopBottomAbility, bind_apply, AbilityList.listBack, hl, deref, hr]

theorem PopBottomAbility_homeDerefNone (cfg : Config) (s : Manager) (init : List Ptr)
    (sl last : Ptr) (r : AbilityRecord) (hl : s.abilityList = init ++ [sl, last])
    (hr : s.heap.deref last = some r) (hn : r.appName = some cfg.MAIN_BUNDLE_NAME)
    (hr2 : s.heap.deref sl = none) :
    AbilityList.PopBottomAbility cfg s = none := by
  simp [AbilityList.PopBottomAbility, bind_apply, AbilityList.listBack, hl,
    AbilityList.listPopBack, modify_apply, deref, hr, hn, delete, hr2]

/-- The four ways `PopBottomAbility` can end, and the case of undefined behaviour. -/
theorem PopBottomAbility_cases (cfg : Config) (s : Manager) :
    (s.abilityList = [] ∧
      AbilityList.PopBottomAbility cfg s = some ((), { s with abilityList := [] })) ∨
    (∃ init last rl, s.abilityList = init ++ [last] ∧ s.heap.deref last = some rl ∧
      rl.appName ≠ some cfg.MAIN_BUNDLE_NAME ∧
      AbilityList.PopBottomAbility cfg s =
        some ((), { s with abilityList := init, heap := s.heap.set last none })) ∨
    (∃ last rl, s.abilityList = [last] ∧ s.heap.deref last = some rl ∧
      rl.appName = some cfg.MAIN_BUNDLE_NAME ∧
      AbilityList.PopBottomAbility cfg s = some ((), { s with abilityList := [last] })) ∨
    (∃ init sl last rl r2, s.abilityList = init ++ [sl, last] ∧ s.heap.deref last = some rl ∧
      rl.appName = some cfg.MAIN_BUNDLE_NAME ∧ s.heap.deref sl = some r2 ∧
      AbilityList.PopBottomAbility cfg s =
        some ((), { s with abilityList := init ++ [last], heap := s.heap.set sl none })) ∨
    ((∃ q ∈ s.abilityList, s.heap.deref q = none) ∧
      AbilityList.PopBottomAbility cfg s = none) := by
  rcases List.eq_nil_or_concat s.abilityList with hl | ⟨init, last, hl⟩
  · exact Or.inl ⟨hl, PopBottomAbility_nil cfg s hl⟩
  · have hl1 : s.abilityList = init ++ [last] := by simpa using hl
    cases hr : s.heap.deref last with
    | none =>
      exact Or.inr (Or.inr (Or.inr (Or.inr
        ⟨⟨last, by simp [hl1], hr⟩, PopBottomAbility_derefNone cfg s init last hl1 hr⟩)))
    | some rl =>
      by_cases hn : rl.appName = some cfg.MAIN_BUNDLE_NAME
      · rcases List.eq_nil_or_concat init with hi | ⟨init1, sl, hi⟩
        · subst hi
          exact Or.inr (Or.inr (Or.inl
            ⟨last, rl, by simpa using hl1, hr, hn,
              PopBottomAbility_homeSingle cfg s last rl (by simpa using hl1) hr hn⟩))
        · have hl2 : s.abilityList = init1 ++ [sl, last] := by
            rw [hl1, hi]; simp
          cases hr2 : s.heap.deref sl with
          | none =>
            exact Or.inr (Or.inr (Or.inr (Or.inr
              ⟨⟨sl, by simp [hl2], hr2⟩,
                PopBottomAbility_homeDerefNone cfg s init1 sl last rl hl2 hr hn hr2⟩)))
          | some r2 =>
            exact Or.inr (Or.inr (Or.inr (Or.inl
              ⟨init1, sl, last, rl, r2, hl2, hr, hn, hr2,
                PopBottomAbility_home cfg s init1 sl last rl r2 hl2 hr hn hr2⟩)))
      · exact Or.inr (Or.inl
          ⟨init, last, rl, hl1, hr, hn, PopBottomAbility_notHome cfg s init last rl hl1 hr hn⟩)

theorem PopBottomAbility_length {cfg : Config} {s s1 : Manager}
    (h : AbilityList.PopBottomAbility cfg s = some ((), s1)) :
    s1.abilityList.length ≤ s.abilityList.length ∧
      (2 ≤ s.abilityList.length → s1.abilityList.length + 1 = s.abilityList.length) := by
  rcases PopBottomAbility_cases cfg s with ⟨hl, he⟩ | ⟨init, last, rl, hl, _, _, he⟩ |
    ⟨last, rl, hl, _, _, he⟩ | ⟨init, sl, last, rl, r2, hl, _, _, _, he⟩ | ⟨_, he⟩
  · rw [he] at h; cases h; simp [hl]
  · rw [he] at h; cases h; simp [hl]
  · rw [he] at h; cases h; simp [hl]
  · rw [he] at h; cases h; simp [hl]
  · rw [he] at h; cases h

theorem addTail_length {p : Ptr} {s s1 : Manager} (h : addTail p s = some ((), s1)) :
    s1.abilityList.length ≤ s.abilityList.length + 1 := by
  unfold addTail at h
  split at h
  · cases h
  · split at h
    · cases h
    · cases h; simp
    · cases h; simp

theorem Add_length {cfg : Config} {p : Option Ptr} {s s1 : Manager}
    (h : AbilityList.Add cfg p s = some ((), s1)) :
    s1.abilityList.length ≤ s.abilityList.length + 1 ∧
      (2 ≤ cfg.ABILITY_LIST_CAPACITY → s.abilityList.length ≤ cfg.ABILITY_LIST_CAPACITY →
        s1.abilityList.length ≤ cfg.ABILITY_LIST_CAPACITY) := by
  cases p with
  | none =>
    simp only [AbilityList.Add, pure_apply, Option.some.injEq, Prod.mk.injEq, true_and] at h
    subst h
    exact ⟨Nat.le_succ _, fun _ h2 => h2⟩
  | some p =>
    rw [Add_eq] at h
    by_cases hc : s.abilityList.length ≥ cfg.ABILITY_LIST_CAPACITY
    · rw [if_pos hc] at h
      cases hpop : AbilityList.PopBottomAbility cfg s with
      | none => rw [hpop] at h; cases h
      | some x =>
        rw [hpop] at h
        simp only [Option.some_bind] at h
        obtain ⟨h1, h2⟩ := @PopBottomAbility_length cfg s x.2 hpop
        have h3 := addTail_length h
        refine ⟨by omega, fun hcap hle => ?_⟩
        have := h2 (by omega)
        omega
    · rw [if_neg hc] at h
      simp only [Option.some_bind] at h
      have h3 := addTail_length h
      exact ⟨h3, fun _ _ => by omega⟩

theorem eraseLoop_length {h : Heap} {t : Nat} {l l1 : List Ptr}
    (he : AbilityList.eraseLoop h t l = some l1) : l1.length ≤ l.length := by
  induction l generalizing l1 with
  | nil => simp [AbilityList.eraseLoop] at he; subst he; simp
  | cons q rest ih =>
    simp only [AbilityList.eraseLoop] at he
    split at he
    · cases he
    · split at he
      · cases he; simp
      · split at he
        · rename_i rest1 hr1
          cases he
          have := ih hr1
          simp; omega
        · cases he

theorem Erase_length {t : Nat} {s s1 : Manager} (h : AbilityList.Erase t s = some ((), s1)) :
    s1.abilityList.length ≤ s.abilityList.length := by
  unfold AbilityList.Erase at h
  split at h
  · rename_i l hl
    cases h
    exact eraseLoop_length hl
  · cases h

theorem Erase_of_get_some {t : Nat} {s : Manager} {p : Ptr}
    (hg : AbilityList.getLoop s.heap t s.abilityList = some (some p)) :
    AbilityList.Erase t s = some ((), { s with abilityList := s.abilityList.erase p }) := by
  simp [AbilityList.Erase, eraseLoop_of_get_some hg]

theorem Erase_of_get_none {t : Nat} {s : Manager}
    (hg : AbilityList.getLoop s.heap t s.abilityList = some none) :
    AbilityList.Erase t s = some ((), { s with abilityList := s.abilityList }) := by
  simp [AbilityList.Erase, eraseLoop_of_get_none hg]

theorem MoveToTop_length {cfg : Config} {t : Nat} {b : Bool} {s s1 : Manager}
    (h : AbilityList.MoveToTop cfg t s = some (b, s1)) :
    s1.abilityList.length ≤ s.abilityList.length := by
  simp only [AbilityList.MoveToTop, bind_apply, AbilityList.Get] at h
  cases hg : AbilityList.getLoop s.heap t s.abilityList with
  | none => simp [hg] at h
  | some o =>
    cases o with
    | none =>
      simp [hg, pure_apply] at h
      rw [← h.2]
    | some p =>
      simp only [hg, Option.some_bind, bind_apply, map_apply, Erase_of_get_some hg] at h
      cases ha : AbilityList.Add cfg (some p) { s with abilityList := s.abilityList.erase p } with
      | none => simp [ha] at h
      | some x =>
        simp only [ha, Option.some_bind, pure_apply, Option.map_some', Option.some.injEq,
          Prod.mk.injEq] at h
        have hx : x = ((), x.2) := rfl
        rw [hx] at ha
        have h1 := (Add_length ha).1
        have hmem := (getLoop_some_mem hg).1
        have h2 := List.length_erase_of_mem hmem
        have h3 : 0 < s.abilityList.length := List.length_pos_of_mem hmem
        simp only at h1
        rw [← h.2]
        omega

theorem nodup_concat_not_mem {init : List Ptr} {last : Ptr} (h : (init ++ [last]).Nodup) :
    last ∉ init := by
  intro hc
  exact List.disjoint_of_nodup_append h hc (by simp)

theorem nodup_concat2_ne {init : List Ptr} {sl last : Ptr}
    (h : (init ++ [sl, last]).Nodup) : ∀ q ∈ init ++ [last], q ≠ sl := by
  intro q hq hc
  subst hc
  rw [List.nodup_append] at h
  obtain ⟨_, h2, h3⟩ := h
  rcases List.mem_append.mp hq with h | h
  · exact h3 h (by simp)
  · simp only [List.mem_singleton] at h
    subst h
    simp at h2

theorem PopBottomAbility_spec (cfg : Config) (s : Manager) (hwf : RegistryWF s) :
    ∃ s1, AbilityList.PopBottomAbility cfg s = some ((), s1) ∧
      s1.abilityList.Sublist s.abilityList ∧
      (∀ q, q ∈ s1.abilityList ∨ q ∉ s.abilityList → s1.heap.deref q = s.heap.deref q) ∧
      (∀ q ∈ s.abilityList, q ∉ s1.abilityList → s1.heap.deref q = none ∧ Victim cfg s q) ∧
      SameOther s s1 := by
  obtain ⟨hnd, hlive⟩ := hwf
  rcases PopBottomAbility_cases cfg s with ⟨hl, he⟩ | ⟨init, last, rl, hl, hr, hn, he⟩ |
    ⟨last, rl, hl, hr, hn, he⟩ | ⟨init, sl, last, rl, r2, hl, hr, hn, hr2, he⟩ |
    ⟨⟨q, hq, hqn⟩, _⟩
  · refine ⟨_, he, by simp [hl], fun q _ => rfl, fun q hq => by simp [hl] at hq, ?_⟩
    simp [SameOther]
  · have hlast : last ∉ init := nodup_concat_not_mem (hl ▸ hnd)
    refine ⟨_, he, by simp [hl], ?_, ?_, by simp [SameOther]⟩
    · intro q hq
      have hne : q ≠ last := by
        rcases hq with hq | hq
        · exact fun hc => hlast (hc ▸ hq)
        · exact fun hc => hq (by simp [hl, hc])
      exact Heap.deref_set_ne _ _ _ _ hne
    · intro q hq hq1
      have hql : q = last := by
        rw [hl] at hq
        rcases List.mem_append.mp hq with h | h
        · exact absurd h hq1
        · simpa using h
      subst hql
      refine ⟨Heap.deref_set_eq _ _ _ (Heap.deref_lt hr), Or.inl ⟨init, hl, ?_⟩⟩
      rintro ⟨r1, hr1, hn1⟩
      rw [hr] at hr1
      cases hr1
      exact hn hn1
  · refine ⟨_, he, by simp [hl], fun q _ => rfl, fun q hq hq1 => ?_, by simp [SameOther]⟩
    simp only [hl] at hq
    exact absurd hq hq1
  · have hne := nodup_concat2_ne (hl ▸ hnd)
    refine ⟨_, he, ?_, ?_, ?_, by simp [SameOther]⟩
    · rw [hl]
      exact List.Sublist.append (List.Sublist.refl _) (by simp)
    · intro q hq
      have hqne : q ≠ sl := by
        rcases hq with hq | hq
        · exact hne q hq
        · exact fun hc => hq (by simp [hl, hc])
      exact Heap.deref_set_ne _ _ _ _ hqne
    · intro q hq hq1
      have hql : q = sl := by
        rw [hl] at hq
        simp only [List.mem_append, List.mem_cons, List.mem_singleton, List.not_mem_nil,
          or_false] at hq hq1
        tauto
      subst hql
      exact ⟨Heap.deref_set_eq _ _ _ (Heap.deref_lt hr2),
        Or.inr ⟨init, last, hl, rl, hr, hn⟩⟩
  · have := hlive q hq
    rw [hqn] at this
    cases this

/-- What `Add` does to a well-formed registry when handed a live record it does not hold. -/
theorem Add_spec (cfg : Config) (s : Manager) (p : Ptr) (r : AbilityRecord)
    (hwf : RegistryWF s) (hp : s.heap.deref p = some r) (hpl : p ∉ s.abilityList) :
    ∃ s1 kept, AbilityList.Add cfg (some p) s = some ((), s1) ∧
      kept.Sublist s.abilityList ∧
      ((s1.abilityList = p :: kept ∧
          ∀ q ∈ kept, ∃ rq, s.heap.deref q = some rq ∧ rq.token ≠ r.token) ∨
        (s1.abilityList = kept ∧
          ∃ q ∈ kept, ∃ rq, s.heap.deref q = some rq ∧ rq.token = r.token)) ∧
      (∀ q, q ∈ kept ∨ q ∉ s.abilityList → s1.heap.deref q = s.heap.deref q) ∧
      (∀ q ∈ s.abilityList, q ∉ kept →
        s1.heap.deref q = none ∧ cfg.ABILITY_LIST_CAPACITY ≤ s.abilityList.length ∧
          Victim cfg s q) ∧
      SameOther s s1 := by
  -- the state after the optional eviction
  have hmid : ∃ s0, (if s.abilityList.length ≥ cfg.ABILITY_LIST_CAPACITY then
        AbilityList.PopBottomAbility cfg s else some ((), s)) = some ((), s0) ∧
      s0.abilityList.Sublist s.abilityList ∧
      (∀ q, q ∈ s0.abilityList ∨ q ∉ s.abilityList → s0.heap.deref q = s.heap.deref q) ∧
      (∀ q ∈ s.abilityList, q ∉ s0.abilityList →
        s0.heap.deref q = none ∧ cfg.ABILITY_LIST_CAPACITY ≤ s.abilityList.length ∧
          Victim cfg s q) ∧
      SameOther s s0 := by
    by_cases hc : s.abilityList.length ≥ cfg.ABILITY_LIST_CAPACITY
    · obtain ⟨s0, h1, h2, h3, h4, h5⟩ := PopBottomAbility_spec cfg s hwf
      refine ⟨s0, by rw [if_pos hc, h1], h2, h3, fun q hq hq1 => ?_, h5⟩
      obtain ⟨h6, h7⟩ := h4 q hq hq1
      exact ⟨h6, hc, h7⟩
    · refine ⟨s, by rw [if_neg hc], List.Sublist.refl _, fun q _ => rfl,
        fun q hq hq1 => absurd hq hq1, by simp [SameOther]⟩
  obtain ⟨s0, h1, h2, h3, h4, h5⟩ := hmid
  have hp0 : s0.heap.deref p = some r := by rw [h3 p (Or.inr hpl)]; exact hp
  have hlive0 : ∀ q ∈ s0.abilityList, (s0.heap.deref q).isSome = true := by
    intro q hq
    rw [h3 q (Or.inl hq)]
    exact hwf.2 q (h2.subset hq)
  rw [Add_eq, h1]
  simp only [Option.some_bind]
  cases hg : AbilityList.getLoop s0.heap r.token s0.abilityList with
  | none =>
    have := getLoop_isSome r.token hlive0
    rw [hg] at this
    cases this
  | some o =>
    cases o with
    | none =>
      refine ⟨_, s0.abilityList, addTail_push hp0 hg, h2, Or.inl ⟨rfl, ?_⟩, h3, h4, h5⟩
      intro q hq
      obtain ⟨rq, hrq, hne⟩ := (getLoop_none_iff _ _ _).mp hg q hq
      exact ⟨rq, by rw [← h3 q (Or.inl hq)]; exact hrq, hne⟩
    | some q =>
      refine ⟨_, s0.abilityList, addTail_dup hp0 hg, h2, Or.inr ⟨rfl, q, ?_⟩, h3, h4, h5⟩
      obtain ⟨hq, rq, hrq, he⟩ := getLoop_some_mem hg
      exact ⟨hq, rq, by rw [← h3 q (Or.inl hq)]; exact hrq, he⟩

theorem RegistryWF_of_sublist {s s1 : Manager} (hwf : RegistryWF s)
    (hsub : s1.abilityList.Sublist s.abilityList)
    (hheap : ∀ q ∈ s1.abilityList, s1.heap.deref q = s.heap.deref q) : RegistryWF s1 := by
  refine ⟨hsub.nodup hwf.1, fun q hq => ?_⟩
  rw [hheap q hq]
  exact hwf.2 q (hsub.subset hq)

theorem Add_WF (cfg : Config) {s : Manager} {p : Ptr} {r : AbilityRecord}
    (hwf : RegistryWF s) (hp : s.heap.deref p = some r) (hpl : p ∉ s.abilityList) :
    ∃ s1, AbilityList.Add cfg (some p) s = some ((), s1) ∧ RegistryWF s1 := by
  obtain ⟨s1, kept, h1, h2, h3, h4, _, _⟩ := Add_spec cfg s p r hwf hp hpl
  refine ⟨s1, h1, ?_⟩
  have hkept : ∀ q ∈ kept, (s1.heap.deref q).isSome = true := by
    intro q hq
    rw [h4 q (Or.inl hq)]
    exact hwf.2 q (h2.subset hq)
  rcases h3 with ⟨hl, _⟩ | ⟨hl, _⟩
  · rw [RegistryWF, hl]
    refine ⟨List.nodup_cons.mpr ⟨fun hc => hpl (h2.subset hc), h2.nodup hwf.1⟩, ?_⟩
    intro q hq
    rcases List.mem_cons.mp hq with hq | hq
    · subst hq
      rw [h4 q (Or.inr hpl), hp]
      rfl
    · exact hkept q hq
  · rw [RegistryWF, hl]
    exact ⟨h2.nodup hwf.1, hkept⟩

theorem Erase_WF {t : Nat} {s : Manager} (hwf : RegistryWF s) :
    ∃ s1, AbilityList.Erase t s = some ((), s1) ∧ RegistryWF s1 ∧ s1.heap = s.heap ∧
      s1.abilityList.Sublist s.abilityList := by
  cases hg : AbilityList.getLoop s.heap t s.abilityList with
  | none =>
    have := getLoop_isSome t hwf.2
    rw [hg] at this
    cases this
  | some o =>
    cases o with
    | none =>
      refine ⟨_, Erase_of_get_none hg, ?_, rfl, List.Sublist.refl _⟩
      exact RegistryWF_of_sublist hwf (List.Sublist.refl _) (fun _ _ => rfl)
    | some p =>
      refine ⟨_, Erase_of_get_some hg, ?_, rfl, List.erase_sublist _ _⟩
      exact RegistryWF_of_sublist hwf (List.erase_sublist _ _) (fun _ _ => rfl)

theorem MoveToTop_WF (cfg : Config) (t : Nat) {s : Manager} (hwf : RegistryWF s) :
    ∃ b s1, AbilityList.MoveToTop cfg t s = some (b, s1) ∧ RegistryWF s1 := by
  cases hg : AbilityList.getLoop s.heap t s.abilityList with
  | none =>
    have := getLoop_isSome t hwf.2
    rw [hg] at this
    cases this
  | some o =>
    cases o with
    | none =>
      refine ⟨false, s, ?_, hwf⟩
      simp [AbilityList.MoveToTop, bind_apply, AbilityList.Get, hg, pure_apply]
    | some p =>
      obtain ⟨hmem, r, hr, _⟩ := getLoop_some_mem hg
      have hwf1 : RegistryWF { s with abilityList := s.abilityList.erase p } :=
        RegistryWF_of_sublist hwf (List.erase_sublist _ _) (fun _ _ => rfl)
      have hnot : p ∉ s.abilityList.erase p := fun hc => (List.Nodup.mem_erase_iff hwf.1).mp hc |>.1 rfl
      obtain ⟨s1, h1, h2⟩ := Add_WF cfg hwf1 hr hnot
      refine ⟨true, s1, ?_, h2⟩
      simp [AbilityList.MoveToTop, bind_apply, AbilityList.Get, hg, pure_apply,
        Erase_of_get_some hg, h1, map_apply]

theorem new_WF {r : AbilityRecord} {s : Manager} (hwf : RegistryWF s) :
    RegistryWF { s with heap := s.heap ++ [some r] } ∧ s.heap.length ∉ s.abilityList := by
  have hlt : ∀ q ∈ s.abilityList, q < s.heap.length := by
    intro q hq
    obtain ⟨rq, hrq⟩ := Option.isSome_iff_exists.mp (hwf.2 q hq)
    exact Heap.deref_lt hrq
  refine ⟨⟨hwf.1, fun q hq => ?_⟩, fun hc => Nat.lt_irrefl _ (hlt _ hc)⟩
  show (Heap.deref (s.heap ++ [some r]) q).isSome = true
  rw [Heap.deref_append_lt _ _ _ (hlt q hq)]
  exact hwf.2 q hq

theorem RegOp_run_WF (cfg : Config) (op : RegOp) (s : Manager) (hwf : RegistryWF s) :
    ∃ s1, op.run cfg s = some ((), s1) ∧ RegistryWF s1 := by
  cases op with
  | add r =>
    obtain ⟨hwf1, hnot⟩ := new_WF (r := r) hwf
    have hp : Heap.deref (s.heap ++ [some r]) s.heap.length = some r :=
      Heap.deref_append_length _ _
    obtain ⟨s1, h1, h2⟩ := Add_WF cfg hwf1 hp hnot
    exact ⟨s1, by simp [RegOp.run, bind_apply, new, h1], h2⟩
  | erase t =>
    obtain ⟨s1, h1, h2, _⟩ := Erase_WF (t := t) hwf
    exact ⟨s1, h1, h2⟩
  | moveToTop t =>
    obtain ⟨b, s1, h1, h2⟩ := MoveToTop_WF cfg t hwf
    exact ⟨s1, by simp [RegOp.run, bind_apply, h1, pure_apply], h2⟩
  | pop =>
    refine ⟨{ s with abilityList := s.abilityList.tail }, rfl, ?_⟩
    exact RegistryWF_of_sublist hwf (List.tail_sublist _) (fun _ _ => rfl)

theorem PopAbility_length {s s1 : Manager} (h : AbilityList.PopAbility s = some ((), s1)) :
    s1.abilityList.length ≤ s.abilityList.length := by
  simp only [AbilityList.PopAbility, modify_apply, Option.some.injEq, Prod.mk.injEq,
    true_and] at h
  subst h
  simp

theorem RegOp_run_length {cfg : Config} {op : RegOp} {s s1 : Manager}
    (hcap : 2 ≤ cfg.ABILITY_LIST_CAPACITY)
    (hle : s.abilityList.length ≤ cfg.ABILITY_LIST_CAPACITY)
    (h : op.run cfg s = some ((), s1)) :
    s1.abilityList.length ≤ cfg.ABILITY_LIST_CAPACITY := by
  cases op with
  | add r =>
    simp only [RegOp.run, bind_apply, new, Option.some_bind] at h
    exact (Add_length h).2 hcap hle
  | erase t => exact le_trans (Erase_length h) hle
  | moveToTop t =>
    simp only [RegOp.run, bind_apply] at h
    cases hm : AbilityList.MoveToTop cfg t s with
    | none => simp [hm] at h
    | some x =>
      simp only [hm, Option.some_bind, pure_apply, Option.some.injEq, Prod.mk.injEq,
        true_and] at h
      have := @MoveToTop_length cfg t x.1 s x.2 hm
      rw [← h]
      omega
  | pop => exact le_trans (PopAbility_length h) hle

theorem runOps_spec (cfg : Config) (hcap : 2 ≤ cfg.ABILITY_LIST_CAPACITY) (ops : List RegOp) :
    ∀ s, RegistryWF s → s.abilityList.length ≤ cfg.ABILITY_LIST_CAPACITY →
      ∃ s1, runOps cfg ops s = some s1 ∧ RegistryWF s1 ∧
        s1.abilityList.length ≤ cfg.ABILITY_LIST_CAPACITY := by
  induction ops with
  | nil => exact fun s hwf hle => ⟨s, rfl, hwf, hle⟩
  | cons op ops ih =>
    intro s hwf hle
    obtain ⟨s1, h1, h2⟩ := RegOp_run_WF cfg op s hwf
    obtain ⟨s2, h3, h4, h5⟩ := ih s1 h2 (RegOp_run_length hcap hle h1)
    exact ⟨s2, by simp [runOps, h1, h3], h4, h5⟩

/-- Claim C3. With capacity at least 2: `Add` takes a registry of size at most the capacity
to one of size at most the capacity, and is defined on a well-formed registry for a live record
not yet registered; `Erase`, `MoveToTop` and `PopAbility` never increase the size; every
sequence of registry calls from the empty registry is defined and ends with size at most the
capacity. -/
theorem registry_size_bounded (cfg : Config) (hcap : 2 ≤ cfg.ABILITY_LIST_CAPACITY) :
    (∀ (s s1 : Manager) (p : Option Ptr),
      s.abilityList.length ≤ cfg.ABILITY_LIST_CAPACITY →
      AbilityList.Add cfg p s = some ((), s1) →
      s1.abilityList.length ≤ cfg.ABILITY_LIST_CAPACITY) ∧
    (∀ (s : Manager) (p : Ptr) (r : AbilityRecord), RegistryWF s →
      s.heap.deref p = some r → p ∉ s.abilityList →
      (AbilityList.Add cfg (some p) s).isSome = true) ∧
    (∀ (s s1 : Manager) (token : Nat), AbilityList.Erase token s = some ((), s1) →
      s1.abilityList.length ≤ s.abilityList.length) ∧
    (∀ (s s1 : Manager) (token : Nat) (b : Bool),
      AbilityList.MoveToTop cfg token s = some (b, s1) →
      s1.abilityList.length ≤ s.abilityList.length) ∧
    (∀ s s1 : Manager, AbilityList.PopAbility s = some ((), s1) →
      s1.abilityList.length ≤ s.abilityList.length) ∧
    (∀ ops : List RegOp, ∃ s1, runOps cfg ops {} = some s1 ∧
      s1.abilityList.length ≤ cfg.ABILITY_LIST_CAPACITY) := by
  refine ⟨fun s s1 p hle h => (Add_length h).2 hcap hle, ?_,
    fun s s1 t h => Erase_length h, fun s s1 t b h => MoveToTop_length h,
    fun s s1 h => PopAbility_length h, fun ops => ?_⟩
  · intro s p r hwf hp hpl
    obtain ⟨s1, h1, _⟩ := Add_WF cfg hwf hp hpl
    rw [h1]; rfl
  · have hwf0 : RegistryWF ({} : Manager) := ⟨List.nodup_nil, fun q hq => by cases hq⟩
    obtain ⟨s1, h1, _, h3⟩ := runOps_spec cfg hcap ops {} hwf0 (Nat.zero_le _)
    exact ⟨s1, h1, h3⟩

/-- In a well-formed registry (every entry a live record, none held twice) a record `h`
carrying the home bundle name is still registered, with unchanged contents, after `Add` of a
live record that is not registered yet, unless the registry is full, its tail entry also
carries the home name and `h` is the next-to-last entry. -/
theorem add_keeps_home (cfg : Config) (s : Manager) (p h : Ptr) (r : AbilityRecord)
    (hwf : RegistryWF s) (hp : s.heap.deref p = some r) (hpl : p ∉ s.abilityList)
    (hh : h ∈ s.abilityList) (hhome : IsHomeAt cfg s.heap h)
    (hnot : ¬ (cfg.ABILITY_LIST_CAPACITY ≤ s.abilityList.length ∧
      ∃ init last, s.abilityList = init ++ [h, last] ∧ IsHomeAt cfg s.heap last)) :
    ∃ s1, AbilityList.Add cfg (some p) s = some ((), s1) ∧ h ∈ s1.abilityList ∧
      s1.heap.deref h = s.heap.deref h := by
  obtain ⟨s1, kept, h1, h2, h3, h4, h5, _⟩ := Add_spec cfg s p r hwf hp hpl
  have hk : h ∈ kept := by
    by_contra hc
    obtain ⟨_, hfull, hv⟩ := h5 h hh hc
    rcases hv with ⟨init, _, hnh⟩ | ⟨init, last, hl, hlast⟩
    · exact hnh hhome
    · exact hnot ⟨hfull, init, last, hl, hlast⟩
  refine ⟨s1, h1, ?_, h4 h (Or.inl hk)⟩
  rcases h3 with ⟨hl, _⟩ | ⟨hl, _⟩
  · rw [hl]; exact List.mem_cons_of_mem _ hk
  · rw [hl]; exact hk

theorem GenerateToken_apply (s : Manager) :
    GenerateToken s =
      some (((if s.staticToken = 65534 then 0 else s.staticToken) + 1) % 65536,
        { s with staticToken :=
            ((if s.staticToken = 65534 then 0 else s.staticToken) + 1) % 65536 }) := by
  simp [GenerateToken, UINT16_MAX, LAUNCHER_TOKEN]

theorem generateTokens_from (j : Nat) :
    ∀ (n : Nat) (s : Manager), s.staticToken = (if j = 0 then 0 else (j - 1) % 65534 + 1) →
      generateTokens n s = (List.range n).map (fun k => (j + k) % 65534 + 1) := by
  intro n
  induction n generalizing j with
  | zero => intro s _; rfl
  | succ n ih =>
    intro s hs
    have hstep : ((if s.staticToken = 65534 then 0 else s.staticToken) + 1) % 65536
        = j % 65534 + 1 := by
      rw [hs]
      by_cases hj : j = 0
      · subst hj; simp
      · simp only [hj, if_false]
        split <;> omega
    have hnext := ih (j + 1) { s with staticToken := j % 65534 + 1 } (by simp)
    simp only [generateTokens, GenerateToken_apply, hstep, hnext,
      List.range_succ_eq_map, List.map_cons, List.map_map, Nat.add_zero]
    congr 1
    apply List.map_congr_left
    intro k _
    simp only [Function.comp, Nat.succ_eq_add_one]
    congr 2
    omega

/-- Claim C9. Starting from counter 0, the calls of `GenerateToken` all return, the call
number `k + 1` returns `(k mod 65534) + 1`; so every token lies in 1..65534, each call returns
the previous token plus one except that 65534 is followed by 1, and 0 is never issued. -/
theorem GenerateToken_nth (s : Manager) (hs : s.staticToken = 0) (n : Nat) :
    (generateTokens n s).length = n ∧
    (∀ k, k < n → (generateTokens n s)[k]? = some (k % 65534 + 1)) ∧
    (∀ t ∈ generateTokens n s, 1 ≤ t ∧ t ≤ 65534) ∧
    (∀ k t u, (generateTokens n s)[k]? = some t → (generateTokens n s)[k + 1]? = some u →
      u = if t = 65534 then 1 else t + 1) := by
  have h := generateTokens_from 0 n s (by simp [hs])
  simp only [Nat.zero_add] at h
  rw [h]
  refine ⟨by simp, ?_, ?_, ?_⟩
  · intro k hk
    simp [List.getElem?_map, List.getElem?_range hk]
  · intro t ht
    simp only [List.mem_map, List.mem_range] at ht
    obtain ⟨k, _, rfl⟩ := ht
    omega
  · intro k t u ht hu
    simp only [List.getElem?_map, Option.map_eq_some'] at ht hu
    obtain ⟨a, ha, rfl⟩ := ht
    obtain ⟨b, hb, rfl⟩ := hu
    have ha1 := List.getElem?_eq_some_iff.mp ha
    have hb1 := List.getElem?_eq_some_iff.mp hb
    obtain ⟨ha2, ha3⟩ := ha1
    obtain ⟨hb2, hb3⟩ := hb1
    simp only [List.getElem_range] at ha3 hb3
    subst ha3 hb3
    split <;> omega

/-- Witness for C9: the third token issued by a fresh controller. -/
theorem GenerateToken_nth_witness :
    ({} : Manager).staticToken = 0 ∧ (generateTokens 3 {})[2]? = some (2 % 65534 + 1) :=
  ⟨rfl, (GenerateToken_nth {} rfl 3).2.1 2 (by decide)⟩

theorem emit_apply (e : Event) (s : Manager) :
    emit e s = some ((), { s with log := s.log ++ [e] }) := rfl

theorem SchedulerLifecycleInner_js {p : Ptr} {s : Manager} {r : AbilityRecord} (state : State)
    (h : s.heap.deref p = some r) (ht : r.token ≠ 0) :
    SchedulerLifecycleInner (some p) state s =
      some (Ret.ERR_OK, { s with log := s.log ++ [jsMsgOf state r] }) := by
  simp [SchedulerLifecycleInner, bind_apply, map_apply, deref, h, LAUNCHER_TOKEN, ht,
    SendMsgToJsAbility, emit_apply, pure_apply, jsMsgOf, msgIdOf]

theorem SchedulerLifecycleInner_native {p : Ptr} {s : Manager} {r : AbilityRecord} {n : Nat}
    (state : State) (h : s.heap.deref p = some r) (ht : r.token = 0)
    (hn : s.nativeAbility = some n) :
    SchedulerLifecycleInner (some p) state s =
      some (Ret.ERR_OK, { s with log := s.log ++ nativeEvents state r }) := by
  obtain ⟨hp, al, st, pt, tok, na, fl, lg⟩ := s
  simp only at h hn
  subst hn
  cases state <;>
    simp [SchedulerLifecycleInner, bind_apply, map_apply, deref, h, LAUNCHER_TOKEN, ht,
      get_apply, SchedulerAbilityLifecycle, emit_apply, pure_apply, nativeEvents]

theorem SchedulerLifecycleInner_noNative {p : Ptr} {s : Manager} {r : AbilityRecord}
    (state : State) (h : s.heap.deref p = some r) (ht : r.token = 0)
    (hn : s.nativeAbility = none) :
    SchedulerLifecycleInner (some p) state s = some (Ret.PARAM_NULL_ERROR, s) := by
  simp [SchedulerLifecycleInner, bind_apply, deref, h, LAUNCHER_TOKEN, ht, get_apply, hn,
    pure_apply]

theorem SchedulerLifecycleInner_log {p : Ptr} {s : Manager} {r : AbilityRecord} (state : State)
    (h : s.heap.deref p = some r) :
    ∃ ret evs, SchedulerLifecycleInner (some p) state s =
      some (ret, { s with log := s.log ++ evs }) := by
  by_cases ht : r.token = 0
  · rcases Option.eq_none_or_eq_some s.nativeAbility with hn | ⟨n, hn⟩
    · refine ⟨Ret.PARAM_NULL_ERROR, [], ?_⟩
      rw [SchedulerLifecycleInner_noNative state h ht hn]
      simp
    · exact ⟨_, _, SchedulerLifecycleInner_native state h ht hn⟩
  · exact ⟨_, _, SchedulerLifecycleInner_js state h ht⟩

theorem StartLauncher_present {cfg : Config} {env : Env} {s : Manager} {l : Ptr}
    (hg : AbilityList.getLoop s.heap 0 s.abilityList = some (some l)) :
    StartLauncher cfg env s = some ((), s) := by
  simp [StartLauncher, bind_apply, AbilityList.Get, LAUNCHER_TOKEN, hg, pure_apply]

theorem StartLauncher_absent (cfg : Config) (env : Env) {s : Manager} (hwf : RegistryWF s)
    (hg : AbilityList.getLoop s.heap 0 s.abilityList = some none) :
    ∃ s1 kept, StartLauncher cfg env s = some ((), s1) ∧
      s1.abilityList = s.heap.length :: kept ∧ kept.Sublist s.abilityList ∧
      s1.heap.deref s.heap.length = some (launcherRecord env) ∧
      (∀ q ∈ kept, s1.heap.deref q = s.heap.deref q) ∧
      s1.abilityStack = s.heap.length :: s.abilityStack ∧
      s1.pendingToken = s.pendingToken ∧ s1.staticToken = s.staticToken ∧
      s1.nativeAbility = s.nativeAbility := by
  obtain ⟨hwf1, hnot⟩ := new_WF (r := launcherRecord env) hwf
  have hp : Heap.deref (s.heap ++ [some (launcherRecord env)]) s.heap.length
      = some (launcherRecord env) := Heap.deref_append_length _ _
  obtain ⟨s1, kept, h1, h2, h3, h4, _, h6⟩ :=
    Add_spec cfg { s with heap := s.heap ++ [some (launcherRecord env)] } s.heap.length
      (launcherRecord env) hwf1 hp hnot
  have hall := (getLoop_none_iff _ _ _).mp hg
  have hlist : s1.abilityList = s.heap.length :: kept := by
    rcases h3 with ⟨hl, _⟩ | ⟨_, q, hq, rq, hrq, htok⟩
    · exact hl
    · exfalso
      obtain ⟨rq1, hrq1, hne⟩ := hall q (h2.subset hq)
      have hlt := Heap.deref_lt hrq1
      simp only [Heap.deref_append_lt _ _ _ hlt] at hrq
      rw [hrq1] at hrq
      cases hrq
      exact hne htok
  have hp1 : s1.heap.deref s.heap.length = some (launcherRecord env) := by
    rw [h4 _ (Or.inr hnot)]; exact hp
  obtain ⟨h61, h62, h63, h64, h65, h66, h67⟩ := h6
  obtain ⟨ret, evs, hsli⟩ := SchedulerLifecycleInner_log
    (s := { s1 with abilityStack := s.heap.length :: s1.abilityStack }) State.STATE_ACTIVE hp1
  simp only at h61 h62 h63 h64
  refine ⟨{ s1 with abilityStack := s.heap.length :: s1.abilityStack, log := s1.log ++ evs },
    kept, ?_, hlist, h2, hp1, ?_, ?_, h62, h63, h64⟩
  · simp only [StartLauncher, bind_apply, AbilityList.Get, LAUNCHER_TOKEN, hg, Option.some_bind,
      ne_eq, not_true_eq_false, if_false, new]
    have h1' := h1
    simp only [launcherRecord, LAUNCHER_TOKEN] at h1'
    simp only [h1', Option.some_bind, AbilityStack.PushAbility, modify_apply, map_apply]
    rw [hsli]
    rfl
  · intro q hq
    obtain ⟨rq1, hrq1, _⟩ := hall q (h2.subset hq)
    have := h4 q (Or.inl hq)
    simp only [Heap.deref_append_lt _ _ _ (Heap.deref_lt hrq1)] at this
    exact this
  · simp [h61]

/-- Claim C10, amended. In every state whose stack top is a live record with a name, for
every non-empty name that is not a launcher name and that the response check denies,
`StartAbility` returns `PARAM_CHECK_ERROR` and leaves the whole state unchanged: registry, stack,
pending token, every record and the log of dispatched instructions. -/
theorem StartAbility_denied (cfg : Config) (env : Env) (s : Manager) (top : Ptr)
    (t : AbilityRecord) (topName name : CStr) (path : Option CStr) (data : Option (List Nat))
    (htop : s.abilityStack.head? = some top) (ht : s.heap.deref top = some t)
    (hname : t.appName = some topName)
    (hne : name ≠ []) (hl : IsLauncher name = false) (hdeny : CheckResponse env name = false) :
    StartAbility cfg env (some { bundleName := some name, path := path, data := data }) s =
      some (Ret.PARAM_CHECK_ERROR, s) := by
  have hlen : name.length ≠ 0 := fun hc => hne (List.length_eq_zero.mp hc)
  simp [StartAbility, bind_apply, AbilityStack.GetTopAbility, htop, deref, ht, hname, hlen, hl,
    hdeny, pure_apply]

theorem GenerateToken_eq (s : Manager) :
    GenerateToken s =
      some (nextToken s.staticToken, { s with staticToken := nextToken s.staticToken }) := rfl

theorem nextToken_pos {c : Nat} (hc : c < 65535) : nextToken c ≠ 0 := by
  unfold nextToken UINT16_MAX LAUNCHER_TOKEN
  split <;> omega

theorem nextToken_le (c : Nat) (hc : c < 65535) : nextToken c < 65535 := by
  unfold nextToken UINT16_MAX LAUNCHER_TOKEN
  split <;> omega

theorem Heap.deref_set (h : Heap) (p q : Ptr) (v : Option AbilityRecord) :
    Heap.deref (h.set p v) q =
      if q = p then (if p < h.length then v else none) else h.deref q := by
  by_cases hq : q = p
  · subst hq
    by_cases hl : q < h.length
    · simp [hl, Heap.deref_set_eq _ _ _ hl]
    · simp only [hl, if_false, if_true]
      unfold Heap.deref
      rw [List.getElem?_eq_none (by simpa using hl)]
  · simp [hq, Heap.deref_set_ne _ _ _ _ hq]

theorem Heap.deref_append_singleton (h : Heap) (q : Ptr) (v : Option AbilityRecord) :
    Heap.deref (h ++ [v]) q = if q = h.length then v else h.deref q := by
  by_cases hq : q = h.length
  · subst hq; simp [Heap.deref_append_length]
  · simp only [hq, if_false]
    by_cases hl : q < h.length
    · exact Heap.deref_append_lt _ _ _ hl
    · have h1 : h.length ≤ q := Nat.le_of_not_lt hl
      have h2 : (h ++ [v]).length ≤ q := by
        rw [List.length_append, List.length_singleton]
        exact Nat.lt_of_le_of_ne h1 (Ne.symm hq)
      unfold Heap.deref
      rw [List.getElem?_eq_none h2, List.getElem?_eq_none h1]

theorem IsLauncher_LAUNCHER_BUNDLE_NAME : IsLauncher LAUNCHER_BUNDLE_NAME = true := by decide

theorem StartAbility_fromHome (cfg : Config) (env1 : Env) (s : Manager) (pL n tid : Nat)
    (home : AbilityRecord) (name path : CStr) (data : Option (List Nat))
    (hcap : 2 ≤ cfg.ABILITY_LIST_CAPACITY)
    (hlist : s.abilityList = [pL]) (hstack : s.abilityStack = [pL])
    (hhome : s.heap.deref pL = some home) (htok : home.token = 0)
    (hname : home.appName = some LAUNCHER_BUNDLE_NAME)
    (hnat : s.nativeAbility = some n) (hpend : s.pendingToken = 0)
    (hctr : s.staticToken < 65535)
    (hne : name ≠ []) (hl : IsLauncher name = false) (hallow : CheckResponse env1 name = true)
    (htask : env1.taskCreate = some tid) :
    StartAbility cfg env1 (some { bundleName := some name, path := some path, data := data }) s =
      some (Ret.ERR_OK,
        { s with
          heap := s.heap ++ [some (workerRecord env1 (nextToken s.staticToken) tid name
            (some path) data)]
          abilityList := [s.heap.length, pL]
          abilityStack := [s.heap.length, pL]
          staticToken := nextToken s.staticToken
          log := s.log ++ [Event.nativeOnBackground] }) := by
  have hlen : name.length ≠ 0 := fun hc => hne (List.length_eq_zero.mp hc)
  have hlt : pL < s.heap.length := Heap.deref_lt hhome
  have hpne : pL ≠ s.heap.length := Nat.ne_of_lt hlt
  have hpne2 : s.heap.length ≠ pL := Ne.symm hpne
  have hnn : name ≠ LAUNCHER_BUNDLE_NAME := by
    intro hc
    rw [hc, IsLauncher_LAUNCHER_BUNDLE_NAME] at hl
    cases hl
  have ht0 := nextToken_pos hctr
  have hc1 : ¬ cfg.ABILITY_LIST_CAPACITY ≤ 1 := by omega
  have ht1 : ¬ (0 = nextToken s.staticToken) := fun hc => ht0 hc.symm
  obtain ⟨hp, al, st, pt, tok, na, fl, lg⟩ := s
  simp only at hlist hstack hhome hnat hpend hctr hlt hpne hpne2 ht0 ht1
  subst hlist hstack hnat hpend
  simp [StartAbility, bind_apply, map_apply, pure_apply, get_apply, modify_apply, emit_apply,
    AbilityStack.GetTopAbility, deref, store, new, hhome, htok, hname, hlen, hl, hallow,
    LAUNCHER_TOKEN, PreCheckStartAbility, AbilityList.GetByName, AbilityList.getByNameLoop,
    hnn, GenerateToken_eq, AbilityList.Add, AbilityList.Size, AbilityList.Get,
    AbilityList.getLoop, AbilityList.listPushFront, CreateAppTask, htask,
    AbilityStack.PushAbility, SchedulerLifecycle, SchedulerLifecycleInner,
    SchedulerAbilityLifecycle, Heap.deref_set, Heap.deref_append_singleton, hpne, hpne2, ht0,
    workerRecord, hc1, ht1]

theorem OnBackgroundDone_home (s : Manager) (px pL : Ptr) (home w : AbilityRecord)
    (hlist : s.abilityList = [px, pL]) (hstack : s.abilityStack = [px, pL])
    (hhome : s.heap.deref pL = some home) (hw : s.heap.deref px = some w)
    (htok : home.token = 0) (htw : w.token ≠ 0) :
    OnBackgroundDone 0 s =
      some ((), { s with
        heap := s.heap.set pL (some { home with
          state := AbilityState.SCHEDULE_BACKGROUND
          abilityData := if s.cleanAbilityDataFlag then none else home.abilityData })
        cleanAbilityDataFlag := false
        log := s.log ++ [jsMsgOf State.STATE_ACTIVE w] }) := by
  have hne : px ≠ pL := by
    intro hc; subst hc; rw [hhome] at hw; cases hw; exact htw htok
  have hne2 : pL ≠ px := Ne.symm hne
  have hlt : pL < s.heap.length := Heap.deref_lt hhome
  obtain ⟨hp, al, st, pt, tok, na, fl, lg⟩ := s
  simp only at hlist hstack hhome hw hlt
  subst hlist hstack
  cases fl <;>
  simp [OnBackgroundDone, bind_apply, map_apply, pure_apply, get_apply, modify_apply, emit_apply,
    AbilityStack.GetTopAbility, deref, store, hhome, hw, htok, htw, LAUNCHER_TOKEN,
    SetAbilityState, AbilityList.Get, AbilityList.getLoop, SchedulerLifecycleInner,
    SendMsgToJsAbility, Heap.deref_set, hne, hne2, hlt, jsMsgOf, msgIdOf,
    AbilityRecord.SetWantData]

theorem OnActiveDone_worker (env : Env) (s : Manager) (px pL : Ptr) (w : AbilityRecord)
    (hlist : s.abilityList = [px, pL]) (hstack : s.abilityStack = [px, pL])
    (hw : s.heap.deref px = some w) (htw : w.token ≠ 0) :
    OnActiveDone env w.token s =
      some ((), { s with
        heap := s.heap.set px (some { w with state := AbilityState.SCHEDULE_ACTIVE }) }) := by
  have hlt : px < s.heap.length := Heap.deref_lt hw
  obtain ⟨hp, al, st, pt, tok, na, fl, lg⟩ := s
  simp only at hlist hstack hw hlt
  subst hlist hstack
  simp [OnActiveDone, bind_apply, map_apply, pure_apply, get_apply, modify_apply, emit_apply,
    AbilityStack.GetTopAbility, deref, store, hw, htw, LAUNCHER_TOKEN,
    SetAbilityState, AbilityList.Get, AbilityList.getLoop, Heap.deref_set, hlt]

theorem GetTopAbility_worker (s : Manager) (px pL : Ptr) (home w : AbilityRecord)
    (hlist : s.abilityList = [px, pL]) (hstack : s.abilityStack = [px, pL])
    (hhome : s.heap.deref pL = some home) (hw : s.heap.deref px = some w)
    (htok : home.token = 0) (htw : w.token ≠ 0)
    (hhs : home.state ≠ AbilityState.SCHEDULE_ACTIVE)
    (hws : w.state = AbilityState.SCHEDULE_ACTIVE ∨ w.state = AbilityState.SCHEDULE_BACKGROUND) :
    GetTopAbility s = some (some { bundleName := w.appName }, s) := by
  obtain ⟨hp, al, st, pt, tok, na, fl, lg⟩ := s
  simp only at hlist hstack hhome hw
  subst hlist hstack
  simp [GetTopAbility, bind_apply, map_apply, pure_apply,
    AbilityStack.GetTopAbility, deref, hhome, hw, htok, htw, LAUNCHER_TOKEN,
    AbilityList.Get, AbilityList.getLoop, hhs, hws]

theorem TerminateAbility_top (s : Manager) (px : Ptr) (rest : List Ptr) (w : AbilityRecord)
    (hstack : s.abilityStack = px :: rest)
    (hw : s.heap.deref px = some w) (htw : w.token ≠ 0) :
    TerminateAbility w.token s =
      some (Ret.ERR_OK, { s with
        heap := s.heap.set px (some { w with isTerminated := true })
        log := s.log ++ [jsMsgOf State.STATE_BACKGROUND { w with isTerminated := true }] }) := by
  have hlt : px < s.heap.length := Heap.deref_lt hw
  obtain ⟨hp, al, st, pt, tok, na, fl, lg⟩ := s
  simp only at hstack hw hlt
  subst hstack
  simp [TerminateAbility, bind_apply, map_apply, pure_apply, get_apply, modify_apply, emit_apply,
    AbilityStack.GetTopAbility, deref, store, hw, htw, LAUNCHER_TOKEN,
    SchedulerLifecycleInner, SendMsgToJsAbility, Heap.deref_set, hlt, jsMsgOf, msgIdOf]

theorem OnDestroyDone_top_noPending (env : Env) (s : Manager) (px pL : Ptr) (n : Nat)
    (home w : AbilityRecord)
    (hlist : s.abilityList = [px, pL]) (hstack : s.abilityStack = [px, pL])
    (hhome : s.heap.deref pL = some home) (hw : s.heap.deref px = some w)
    (htok : home.token = 0) (htw : w.token ≠ 0)
    (hnat : s.nativeAbility = some n) (hpend : s.pendingToken = 0) :
    OnDestroyDone env w.token s =
      some ((), { s with
        heap := s.heap.set px none
        abilityList := [pL]
        abilityStack := [pL]
        log := s.log ++ teardownEvents w ++ nativeEvents State.STATE_ACTIVE home }) := by
  have hne : px ≠ pL := by
    intro hc; subst hc; rw [hhome] at hw; cases hw; exact htw htok
  have hne2 : pL ≠ px := Ne.symm hne
  have hlt : px < s.heap.length := Heap.deref_lt hw
  have htw2 : ¬ (0 = w.token) := fun hc => htw hc.symm
  obtain ⟨hp, al, st, pt, tok, na, fl, lg⟩ := s
  simp only at hlist hstack hhome hw hlt hnat hpend
  subst hlist hstack hnat hpend
  by_cases hst : w.state = AbilityState.SCHEDULE_STOP <;>
  simp [OnDestroyDone, bind_apply, map_apply, pure_apply, get_apply, modify_apply, emit_apply,
    AbilityStack.GetTopAbility, AbilityStack.PopAbility, AbilityStack.Erase, deref, store, delete,
    hhome, hw, htok, htw, htw2, LAUNCHER_TOKEN, DeleteRecordInfo, AbilityList.Erase,
    AbilityList.eraseLoop,
    SetAbilityState, AbilityList.Get, AbilityList.getLoop, SchedulerLifecycle,
    SchedulerLifecycleInner, SchedulerAbilityLifecycle,
    Heap.deref_set, hne, hne2, hlt, teardownEvents, nativeEvents, hst]

/-- Claim C5. From a state with only the home record registered and on the stack, no
pending token and a native unit installed (the state right after `StartLauncher`), with
capacity at least 2: for every non-empty name that is not a launcher name, passes the response
check and comes with a path, and when task creation succeeds, `StartAbility`, then
`OnActiveDone`, `TerminateAbility` and `OnDestroyDone` for the token of the new record are all
defined and leave the registry, the stack and the pending token as they were before, the home
record unchanged and the worker record freed. -/
theorem start_terminate_roundtrip (cfg : Config) (env1 env2 env4 : Env) (s : Manager)
    (pL n tid : Nat) (home : AbilityRecord) (name path : CStr) (data : Option (List Nat))
    (hcap : 2 ≤ cfg.ABILITY_LIST_CAPACITY)
    (hlist : s.abilityList = [pL]) (hstack : s.abilityStack = [pL])
    (hhome : s.heap.deref pL = some home) (htok : home.token = 0)
    (hname : home.appName = some LAUNCHER_BUNDLE_NAME)
    (hnat : s.nativeAbility = some n) (hpend : s.pendingToken = 0)
    (hctr : s.staticToken < 65535)
    (hne : name ≠ []) (hl : IsLauncher name = false) (hallow : CheckResponse env1 name = true)
    (htask : env1.taskCreate = some tid) :
    ∃ s1 s2 s3 s4 px w,
      StartAbility cfg env1 (some { bundleName := some name, path := some path, data := data }) s
        = some (Ret.ERR_OK, s1) ∧
      s1.abilityList = [px, pL] ∧ s1.heap.deref px = some w ∧ w.appName = some name ∧
      OnActiveDone env2 w.token s1 = some ((), s2) ∧
      TerminateAbility w.token s2 = some (Ret.ERR_OK, s3) ∧
      OnDestroyDone env4 w.token s3 = some ((), s4) ∧
      s4.abilityList = s.abilityList ∧ s4.abilityStack = s.abilityStack ∧
      s4.pendingToken = s.pendingToken ∧ s4.pendingToken = 0 ∧
      s4.abilityList = [pL] ∧ s4.abilityStack = [pL] ∧
      s4.heap.deref pL = s.heap.deref pL ∧ s4.heap.deref px = none := by
  have h1 := StartAbility_fromHome cfg env1 s pL n tid home name path data hcap hlist hstack
    hhome htok hname hnat hpend hctr hne hl hallow htask
  have ht0 := nextToken_pos hctr
  have hlt : pL < s.heap.length := Heap.deref_lt hhome
  have hpne : pL ≠ s.heap.length := Nat.ne_of_lt hlt
  have hpne2 : s.heap.length ≠ pL := Ne.symm hpne
  generalize hs1 : ({ s with
          heap := s.heap ++ [some (workerRecord env1 (nextToken s.staticToken) tid name
            (some path) data)]
          abilityList := [s.heap.length, pL]
          abilityStack := [s.heap.length, pL]
          staticToken := nextToken s.staticToken
          log := s.log ++ [Event.nativeOnBackground] } : Manager) = s1 at h1
  have hl1 : s1.abilityList = [s.heap.length, pL] := by rw [← hs1]
  have hst1 : s1.abilityStack = [s.heap.length, pL] := by rw [← hs1]
  have hw1 : s1.heap.deref s.heap.length =
      some (workerRecord env1 (nextToken s.staticToken) tid name (some path) data) := by
    rw [← hs1]; simp [Heap.deref_append_singleton]
  have hh1 : s1.heap.deref pL = some home := by
    rw [← hs1]; simp [Heap.deref_append_singleton, hpne, hhome]
  have hn1 : s1.nativeAbility = some n := by rw [← hs1]; exact hnat
  have hp1 : s1.pendingToken = 0 := by rw [← hs1]; exact hpend
  have htw : (workerRecord env1 (nextToken s.staticToken) tid name (some path) data).token ≠ 0 :=
    ht0
  have h2 := OnActiveDone_worker env2 s1 _ pL _ hl1 hst1 hw1 htw
  generalize hs2 : ({ s1 with
        heap := s1.heap.set s.heap.length (some
          { workerRecord env1 (nextToken s.staticToken) tid name (some path) data with
            state := AbilityState.SCHEDULE_ACTIVE }) } : Manager) = s2 at h2
  have hlt1 : s.heap.length < s1.heap.length := Heap.deref_lt hw1
  have hl2 : s2.abilityList = [s.heap.length, pL] := by rw [← hs2]; exact hl1
  have hst2 : s2.abilityStack = [s.heap.length, pL] := by rw [← hs2]; exact hst1
  have hw2 : s2.heap.deref s.heap.length = some
          { workerRecord env1 (nextToken s.staticToken) tid name (some path) data with
            state := AbilityState.SCHEDULE_ACTIVE } := by
    rw [← hs2]; simp [Heap.deref_set, hlt1]
  have hh2 : s2.heap.deref pL = some home := by
    rw [← hs2]; simp [Heap.deref_set, hpne, hh1]
  have hn2 : s2.nativeAbility = some n := by rw [← hs2]; exact hn1
  have hp2 : s2.pendingToken = 0 := by rw [← hs2]; exact hp1
  have h3 := TerminateAbility_top s2 _ [pL] _ hst2 hw2 htw
  generalize hs3 : ({ s2 with
        heap := s2.heap.set s.heap.length (some
          { ({ workerRecord env1 (nextToken s.staticToken) tid name (some path) data with
            state := AbilityState.SCHEDULE_ACTIVE } : AbilityRecord) with isTerminated := true })
        log := s2.log ++ [jsMsgOf State.STATE_BACKGROUND
          { ({ workerRecord env1 (nextToken s.staticToken) tid name (some path) data with
            state := AbilityState.SCHEDULE_ACTIVE } : AbilityRecord) with isTerminated := true }] }
        : Manager) = s3 at h3
  have hlt2 : s.heap.length < s2.heap.length := Heap.deref_lt hw2
  have hl3 : s3.abilityList = [s.heap.length, pL] := by rw [← hs3]; exact hl2
  have hst3 : s3.abilityStack = [s.heap.length, pL] := by rw [← hs3]; exact hst2
  have hw3 : s3.heap.deref s.heap.length = some
          { ({ workerRecord env1 (nextToken s.staticToken) tid name (some path) data with
            state := AbilityState.SCHEDULE_ACTIVE } : AbilityRecord) with isTerminated := true } := by
    rw [← hs3]; simp [Heap.deref_set, hlt2]
  have hh3 : s3.heap.deref pL = some home := by
    rw [← hs3]; simp [Heap.deref_set, hpne, hh2]
  have hn3 : s3.nativeAbility = some n := by rw [← hs3]; exact hn2
  have hp3 : s3.pendingToken = 0 := by rw [← hs3]; exact hp2
  have h4 := OnDestroyDone_top_noPending env4 s3 _ pL n home _ hl3 hst3 hh3 hw3 htok htw hn3 hp3
  have hlt3 : s.heap.length < s3.heap.length := Heap.deref_lt hw3
  refine ⟨s1, s2, s3, _, s.heap.length, _, h1, hl1, hw1, rfl, h2, h3, h4, ?_, ?_, ?_, ?_, rfl,
    rfl, ?_, ?_⟩
  · simp [hlist]
  · simp [hstack]
  · simp [hp3, hpend]
  · simp [hp3]
  · simp [Heap.deref_set, hpne, hh3, hhome]
  · simp [Heap.deref_set, hlt3]

theorem homeState_eq :
    StartLauncher exampleCfg exampleEnv { nativeAbility := some 1 } = some ((), homeState) := by
  rfl

/-- Witness for C4: with home at the tail of a full registry the next-to-last entry goes. -/
theorem add_at_capacity_shape_witness :
    AbilityList.Add exampleCfg (some 2) fullRegistry =
      some ((), { fullRegistry with abilityList := 2 :: ([] ++ [0]),
                                    heap := fullRegistry.heap.set 1 none }) :=
  (add_at_capacity_shape exampleCfg fullRegistry 2 { token := 2, appName := some "y.app".toList }
    (by decide) (by decide) rfl rfl).2 [] 1 0 rfl ⟨_, rfl, rfl⟩

/-- Witness for C3: `Add` is defined on a full well-formed registry of capacity 2. -/
theorem registry_size_bounded_witness :
    2 ≤ exampleCfg.ABILITY_LIST_CAPACITY ∧
    (AbilityList.Add exampleCfg (some 2) fullRegistry).isSome = true :=
  ⟨by decide, (registry_size_bounded exampleCfg (by decide)).2.1 fullRegistry 2
    { token := 2, appName := some "y.app".toList } (by decide) rfl (by decide)⟩

/-- Claim C10 as stated fails for the empty name: the result is the parameter error. -/
theorem StartAbility_denied_empty_name :
    IsLauncher [] = false ∧ CheckResponse denyEnv [] = false ∧
    homeState.abilityStack.head? = some 0 ∧
    (StartAbility exampleCfg denyEnv (some emptyNameRequest) homeState).map (fun x => x.1)
      = some Ret.PARAM_NULL_ERROR := by
  refine ⟨by decide, by decide, rfl, rfl⟩

/-- Witness for C10 (amended): a denied start of `x.app` from the home state. -/
theorem StartAbility_denied_witness :
    CheckResponse denyEnv "x.app".toList = false ∧
    StartAbility exampleCfg denyEnv (some xApp) homeState
      = some (Ret.PARAM_CHECK_ERROR, homeState) :=
  ⟨by decide, StartAbility_denied exampleCfg denyEnv homeState 0 (launcherRecord exampleEnv)
    LAUNCHER_BUNDLE_NAME "x.app".toList (some "/x".toList) none rfl rfl rfl (by decide)
    (by decide) (by decide)⟩

/-- Witness for C5: the round trip of `x.app` from the home state. -/
theorem start_terminate_roundtrip_witness :
    (StartAbility exampleCfg exampleEnv (some xApp) homeState).isSome = true := by
  obtain ⟨s1, _, _, _, _, _, h1, _⟩ := start_terminate_roundtrip exampleCfg exampleEnv exampleEnv
    exampleEnv homeState 0 1 7 (launcherRecord exampleEnv) "x.app".toList "/x".toList none
    (by decide) rfl rfl rfl rfl rfl rfl rfl (by decide) (by decide) (by decide) (by decide) rfl
  have h2 : StartAbility exampleCfg exampleEnv (some xApp) homeState = some (Ret.ERR_OK, s1) := h1
  rw [h2]
  rfl

theorem SameShape.refl (s : Manager) : SameShape s s := ⟨rfl, rfl, fun _ => rfl⟩

theorem SameShape.trans {s s1 s2 : Manager} (h1 : SameShape s s1) (h2 : SameShape s1 s2) :
    SameShape s s2 :=
  ⟨h2.1.trans h1.1, h2.2.1.trans h1.2.1, fun p => (h2.2.2 p).trans (h1.2.2 p)⟩

theorem Triple.bindT {α β : Type} {P : Manager → Prop} {Q : α → Manager → Prop}
    {R : β → Manager → Prop} {m : M α} {f : α → M β}
    (h1 : Triple P m Q) (h2 : ∀ a, Triple (Q a) (f a) R) : Triple P (m >>= f) R := by
  constructor
  intro s b s2 hP h
  rw [bind_apply] at h
  cases hm : m s with
  | none => rw [hm] at h; cases h
  | some x =>
    rw [hm] at h
    exact (h2 x.1).run x.2 b s2 (h1.run s x.1 x.2 hP hm) h

theorem Triple.pureT {α : Type} {P : Manager → Prop} {Q : α → Manager → Prop} {a : α}
    (h : ∀ s, P s → Q a s) : Triple P (pure a : M α) Q := by
  constructor
  intro s b s1 hP hm
  cases hm
  exact h s hP

theorem Triple.conseq {α : Type} {P P1 : Manager → Prop} {Q Q1 : α → Manager → Prop} {m : M α}
    (h : Triple P m Q) (hpre : ∀ s, P1 s → P s) (hpost : ∀ a s, Q a s → Q1 a s) :
    Triple P1 m Q1 :=
  ⟨fun s a s1 hP hm => hpost a s1 (h.run s a s1 (hpre s hP) hm)⟩

theorem Stable.bindS {α β : Type} {P : Manager → Prop} {m : M α} {f : α → M β}
    (h1 : Stable P m) (h2 : ∀ a, Stable P (f a)) : Stable P (m >>= f) :=
  Triple.bindT h1 h2

theorem Stable.pureS {α : Type} {P : Manager → Prop} (a : α) : Stable P (pure a : M α) :=
  Triple.pureT fun _ h => h

theorem Stable.map {α β : Type} {P : Manager → Prop} {m : M α} (f : α → β)
    (h1 : Stable P m) : Stable P (f <$> m) := by
  constructor
  intro s b s1 hP h
  rw [map_apply] at h
  cases hm : m s with
  | none => rw [hm] at h; cases h
  | some x =>
    rw [hm] at h
    cases h
    exact h1.run s x.1 x.2 hP hm

/-- Code that never changes the state preserves every predicate. -/
theorem Stable.of_read {α : Type} {P : Manager → Prop} {m : M α}
    (h : ∀ s a s1, m s = some (a, s1) → s1 = s) : Stable P m := by
  constructor
  intro s a s1 hP hm
  rw [h s a s1 hm]
  exact hP

theorem Stable.of_shape {α : Type} {P : Manager → Prop} {m : M α} (hP : ShapeInv P)
    (h : ∀ s a s1, m s = some (a, s1) → SameShape s s1) : Stable P m :=
  ⟨fun s a s1 hs hm => hP s s1 (h s a s1 hm) hs⟩

theorem Stable.failure {α : Type} {P : Manager → Prop} : Stable P (failure : M α) := by
  constructor
  intro s a s1 _ hm
  cases hm

theorem Stable.get {P : Manager → Prop} : Stable P (get : M Manager) :=
  Stable.of_read fun s a s1 h => by cases h; rfl

theorem Stable.derefS {P : Manager → Prop} (p : Ptr) : Stable P (deref p) :=
  Stable.of_read fun s a s1 h => by
    unfold AbilityLite.deref at h
    split at h
    · cases h; rfl
    · cases h

theorem Stable.listGetS {P : Manager → Prop} (t : Nat) : Stable P (AbilityList.Get t) :=
  Stable.of_read fun s a s1 h => by
    unfold AbilityList.Get at h
    split at h
    · cases h; rfl
    · cases h

theorem Stable.listGetByName {P : Manager → Prop} (n : Option CStr) :
    Stable P (AbilityList.GetByName n) :=
  Stable.of_read fun s a s1 h => by
    unfold AbilityList.GetByName at h
    split at h
    · cases h; rfl
    · split at h
      · cases h; rfl
      · cases h

theorem Stable.stackTop {P : Manager → Prop} : Stable P AbilityStack.GetTopAbility :=
  Stable.of_read fun s a s1 h => by cases h; rfl

theorem Stable.emit {P : Manager → Prop} (hP : ShapeInv P) (e : Event) : Stable P (emit e) :=
  Stable.of_shape hP fun s a s1 h => by
    cases h
    exact ⟨rfl, rfl, fun _ => rfl⟩

theorem Stable.stackPush {P : Manager → Prop} (hP : ShapeInv P) (p : Ptr) :
    Stable P (AbilityStack.PushAbility p) :=
  Stable.of_shape hP fun s a s1 h => by
    cases h
    exact ⟨rfl, rfl, fun _ => rfl⟩

theorem Stable.stackPop {P : Manager → Prop} (hP : ShapeInv P) :
    Stable P AbilityStack.PopAbility :=
  Stable.of_shape hP fun s a s1 h => by
    cases h
    exact ⟨rfl, rfl, fun _ => rfl⟩

theorem Stable.stackErase {P : Manager → Prop} (hP : ShapeInv P) (p : Ptr) :
    Stable P (AbilityStack.Erase p) :=
  Stable.of_shape hP fun s a s1 h => by
    cases h
    exact ⟨rfl, rfl, fun _ => rfl⟩

theorem Stable.store {P : Manager → Prop} (hP : ShapeInv P) (p : Ptr)
    (f : AbilityRecord → AbilityRecord) (hf : ∀ r, (f r).key = r.key) :
    Stable P (store p f) :=
  Stable.of_shape hP fun s a s1 h => by
    unfold AbilityLite.store at h
    split at h
    · rename_i r hr
      cases h
      refine ⟨rfl, rfl, fun q => ?_⟩
      simp only [Heap.deref_set]
      by_cases hq : q = p
      · subst hq
        simp [Heap.deref_lt hr, hr, hf]
      · simp [hq]
    · cases h

theorem Stable.SendMsgToJsAbility {P : Manager → Prop} (hP : ShapeInv P) (st : State)
    (r : Option Ptr) : Stable P (SendMsgToJsAbility st r) := by
  unfold AbilityLite.SendMsgToJsAbility
  split
  · exact Stable.pureS _
  · exact Stable.bindS (Stable.derefS _) fun _ => Stable.bindS (Stable.emit hP _) fun _ => Stable.pureS _

theorem Stable.SchedulerAbilityLifecycle {P : Manager → Prop} (hP : ShapeInv P)
    (a : Option Nat) (w : Want) (st : State) : Stable P (SchedulerAbilityLifecycle a w st) := by
  unfold AbilityLite.SchedulerAbilityLifecycle
  repeat (first | exact Stable.pureS _ | exact Stable.emit hP _ | split)

theorem Stable.SchedulerLifecycleInner {P : Manager → Prop} (hP : ShapeInv P)
    (r : Option Ptr) (st : State) : Stable P (SchedulerLifecycleInner r st) := by
  unfold AbilityLite.SchedulerLifecycleInner
  repeat (first
    | exact Stable.pureS _
    | exact Stable.get
    | exact Stable.derefS _
    | exact Stable.SendMsgToJsAbility hP _ _
    | exact Stable.SchedulerAbilityLifecycle hP _ _ _
    | apply Stable.bindS
    | apply Stable.map
    | intro _
    | split
    | dsimp only)

theorem Stable.modify {P : Manager → Prop} (hP : ShapeInv P) (f : Manager → Manager)
    (hf : ∀ s, SameShape s (f s)) : Stable P (modify f : M Unit) :=
  Stable.of_shape hP fun s a s1 h => by
    cases h
    exact hf s

theorem Stable.SchedulerLifecycle {P : Manager → Prop} (hP : ShapeInv P)
    (t : Nat) (st : State) : Stable P (SchedulerLifecycle t st) := by
  unfold AbilityLite.SchedulerLifecycle
  repeat (first
    | exact Stable.pureS _
    | exact Stable.listGetS _
    | exact Stable.SchedulerLifecycleInner hP _ _
    | apply Stable.bindS
    | apply Stable.map
    | intro _
    | split
    | dsimp only)

theorem Stable.SetAbilityState {P : Manager → Prop} (hP : ShapeInv P)
    (t : Nat) (st : AbilityState) : Stable P (SetAbilityState t st) := by
  unfold AbilityLite.SetAbilityState
  repeat (first
    | exact Stable.pureS _
    | exact Stable.listGetS _
    | exact Stable.store hP _ _ (fun _ => rfl)
    | apply Stable.bindS
    | apply Stable.map
    | intro _
    | split
    | dsimp only)

theorem Stable.UpdateRecord {P : Manager → Prop} (hP : ShapeInv P)
    (info : Option AbilitySvcInfo) : Stable P (UpdateRecord info) := by
  unfold AbilityLite.UpdateRecord
  repeat (first
    | exact Stable.pureS _
    | exact Stable.listGetByName _
    | exact Stable.derefS _
    | exact Stable.store hP _ _ (fun _ => rfl)
    | apply Stable.bindS
    | apply Stable.map
    | intro _
    | split
    | dsimp only)

theorem Stable.CreateAppTask {P : Manager → Prop} (hP : ShapeInv P)
    (env : Env) (r : Option Ptr) : Stable P (CreateAppTask env r) := by
  unfold AbilityLite.CreateAppTask
  repeat (first
    | exact Stable.pureS _
    | exact Stable.get
    | exact Stable.derefS _
    | exact Stable.store hP _ _ (fun _ => rfl)
    | exact Stable.stackPush hP _
    | exact Stable.stackPop hP
    | exact Stable.SchedulerLifecycle hP _ _
    | apply Stable.bindS
    | apply Stable.map
    | intro _
    | split
    | dsimp only)

theorem Stable.OnBackgroundDone {P : Manager → Prop} (hP : ShapeInv P)
    (t : Nat) : Stable P (OnBackgroundDone t) := by
  unfold AbilityLite.OnBackgroundDone
  repeat (first
    | exact Stable.pureS _
    | exact Stable.get
    | exact Stable.failure
    | exact Stable.derefS _
    | exact Stable.listGetS _
    | exact Stable.stackTop
    | exact Stable.store hP _ _ (fun _ => rfl)
    | exact Stable.modify hP _ (fun _ => ⟨rfl, rfl, fun _ => rfl⟩)
    | exact Stable.SetAbilityState hP _ _
    | exact Stable.SchedulerLifecycle hP _ _
    | exact Stable.SchedulerLifecycleInner hP _ _
    | apply Stable.bindS
    | apply Stable.map
    | intro _
    | split
    | dsimp only)

theorem SameShape.derefShape {s s1 : Manager} (h : SameShape s s1) {p : Ptr} {r : AbilityRecord}
    (hr : s.heap.deref p = some r) :
    ∃ r1, s1.heap.deref p = some r1 ∧ r1.token = r.token ∧ r1.appName = r.appName := by
  have := h.2.2 p
  rw [hr] at this
  cases h1 : s1.heap.deref p with
  | none => rw [h1] at this; cases this
  | some r1 =>
    rw [h1] at this
    simp only [Option.map_some', Option.some.injEq, AbilityRecord.key, Prod.mk.injEq] at this
    exact ⟨r1, rfl, this.1, this.2⟩

theorem SameShape.deref_none {s s1 : Manager} (h : SameShape s s1) {p : Ptr}
    (hr : s.heap.deref p = none) : s1.heap.deref p = none := by
  have := h.2.2 p
  rw [hr] at this
  cases h1 : s1.heap.deref p with
  | none => rfl
  | some r1 => rw [h1] at this; cases this

theorem getLoop_shape {s s1 : Manager} (h : SameShape s s1) (t : Nat) :
    AbilityList.getLoop s1.heap t s1.abilityList = AbilityList.getLoop s.heap t s.abilityList := by
  rw [h.1]
  induction s.abilityList with
  | nil => rfl
  | cons p rest ih =>
    cases hp : s.heap.deref p with
    | none => simp [AbilityList.getLoop, hp, h.deref_none hp]
    | some r =>
      obtain ⟨r1, hr1, ht, _⟩ := h.derefShape hp
      simp [AbilityList.getLoop, hp, hr1, ht, ih]

theorem HomeInv.shapeInvHome (cfg : Config) : ShapeInv (HomeInv cfg) := by
  intro s s1 h ⟨hnd, hctr, pL, hpL, ⟨r, hr, ht, hn⟩, hrest⟩
  obtain ⟨r1, hr1, ht1, hn1⟩ := h.derefShape hr
  refine ⟨h.1 ▸ hnd, h.2.1 ▸ hctr, pL, h.1 ▸ hpL, ⟨r1, hr1, ht1 ▸ ht, hn1 ▸ hn⟩, ?_⟩
  intro q hq hne
  obtain ⟨rq, hrq, htq, hnq⟩ := hrest q (h.1 ▸ hq) hne
  obtain ⟨rq1, hrq1, htq1, hnq1⟩ := h.derefShape hrq
  exact ⟨rq1, hrq1, htq1 ▸ htq, hnq1 ▸ hnq⟩

theorem HomeInv.wf {cfg : Config} {s : Manager} (h : HomeInv cfg s) : RegistryWF s := by
  obtain ⟨hnd, _, pL, _, ⟨r, hr, _⟩, hrest⟩ := h
  refine ⟨hnd, fun q hq => ?_⟩
  by_cases hne : q = pL
  · subst hne; rw [hr]; rfl
  · obtain ⟨rq, hrq, _⟩ := hrest q hq hne
    rw [hrq]; rfl

/-- The launcher record is found by token 0 under the invariant. -/
theorem HomeInv.has_home {cfg : Config} {s : Manager} (h : HomeInv cfg s) :
    ∃ p r, p ∈ s.abilityList ∧ s.heap.deref p = some r ∧ r.token = 0 := by
  obtain ⟨_, _, pL, hpL, ⟨r, hr, ht, _⟩, _⟩ := h
  exact ⟨pL, r, hpL, hr, ht⟩

/-- Shrinking the registry and changing nothing at the pointers kept preserves the invariant,
as long as no record with token 0 is dropped. -/
theorem HomeInv.of_sublist {cfg : Config} {s s1 : Manager} (h : HomeInv cfg s)
    (hsub : s1.abilityList.Sublist s.abilityList)
    (hkeep : ∀ q ∈ s.abilityList, q ∉ s1.abilityList →
      ∃ r, s.heap.deref q = some r ∧ r.token ≠ 0)
    (hheap : ∀ q ∈ s1.abilityList, s1.heap.deref q = s.heap.deref q)
    (hctr : s1.staticToken = s.staticToken) : HomeInv cfg s1 := by
  obtain ⟨hnd, hc, pL, hpL, ⟨r, hr, ht, hn⟩, hrest⟩ := h
  have hpL1 : pL ∈ s1.abilityList := by
    by_contra hc1
    obtain ⟨r1, hr1, ht1⟩ := hkeep pL hpL hc1
    rw [hr] at hr1
    cases hr1
    exact ht1 ht
  refine ⟨hsub.nodup hnd, hctr ▸ hc, pL, hpL1, ⟨r, by rw [hheap pL hpL1]; exact hr, ht, hn⟩, ?_⟩
  intro q hq hne
  obtain ⟨rq, hrq, h2⟩ := hrest q (hsub.subset hq) hne
  exact ⟨rq, by rw [hheap q hq]; exact hrq, h2⟩

theorem HomeInvGet.shapeInvGet (cfg : Config) (t : Nat) (o : Option Ptr) :
    ShapeInv (HomeInvGet cfg t o) := by
  intro s s1 h ⟨h1, h2⟩
  exact ⟨HomeInv.shapeInvHome cfg s s1 h h1, by rw [getLoop_shape h]; exact h2⟩

theorem HomeInvNew.shapeInvNew (cfg : Config) (p : Ptr) (t : Nat) :
    ShapeInv (HomeInvNew cfg p t) := by
  intro s s1 h ⟨h1, ⟨r, hr, ht⟩, h3⟩
  obtain ⟨r1, hr1, ht1, _⟩ := h.derefShape hr
  exact ⟨HomeInv.shapeInvHome cfg s s1 h h1, ⟨r1, hr1, ht1.trans ht⟩, by rw [h.1]; exact h3⟩

theorem Triple.listGetT (cfg : Config) (t : Nat) :
    Triple (HomeInv cfg) (AbilityList.Get t) (fun o => HomeInvGet cfg t o) := by
  constructor
  intro s o s1 hP h
  unfold AbilityList.Get at h
  split at h
  · rename_i res hres
    cases h
    exact ⟨hP, hres⟩
  · cases h

theorem Triple.listErase (cfg : Config) (t : Nat) (ht : t ≠ 0) (o : Option Ptr) :
    Triple (HomeInvGet cfg t o) (AbilityList.Erase t) (fun _ => HomeInvOut cfg o) := by
  constructor
  intro s a s1 ⟨hinv, hg⟩ h
  cases o with
  | none =>
    rw [Erase_of_get_none hg] at h
    cases h
    exact ⟨hinv, fun p hp => by cases hp⟩
  | some p =>
    rw [Erase_of_get_some hg] at h
    cases h
    obtain ⟨hmem, r, hr, htok⟩ := getLoop_some_mem hg
    refine ⟨HomeInv.of_sublist hinv (List.erase_sublist _ _) ?_ (fun _ _ => rfl) rfl, ?_⟩
    · intro q hq hq1
      have hqp : q = p := by
        by_contra hne
        exact hq1 ((List.mem_erase_of_ne hne).mpr hq)
      subst hqp
      exact ⟨r, hr, htok ▸ ht⟩
    · intro q hq
      cases hq
      exact fun hc => ((List.Nodup.mem_erase_iff hinv.1).mp hc).1 rfl

theorem Triple.delete (cfg : Config) (o : Option Ptr) :
    Triple (HomeInvOut cfg o) (delete o) (fun _ => HomeInv cfg) := by
  constructor
  intro s a s1 ⟨hinv, hout⟩ h
  cases o with
  | none => cases h; exact hinv
  | some p =>
    unfold AbilityLite.delete at h
    simp only at h
    split at h
    · cases h
      have hp := hout p rfl
      refine HomeInv.of_sublist hinv (List.Sublist.refl _) (fun q hq hq1 => absurd hq hq1) ?_ rfl
      intro q hq
      have hne : q ≠ p := fun hc => hp (hc ▸ hq)
      exact Heap.deref_set_ne _ _ _ _ hne
    · cases h

theorem Triple.listEraseNew (cfg : Config) (p : Ptr) (t : Nat) (ht : t ≠ 0) :
    Triple (HomeInvNew cfg p t) (AbilityList.Erase t) (fun _ => HomeInvOut cfg (some p)) := by
  constructor
  intro s a s1 ⟨hinv, ⟨r, hr, hrt⟩, hpos⟩ h
  have hwf := hinv.wf
  cases hg : AbilityList.getLoop s.heap t s.abilityList with
  | none =>
    have := getLoop_isSome t hwf.2
    rw [hg] at this
    cases this
  | some o =>
    have h1 := (Triple.listErase cfg t ht o).run s a s1 ⟨hinv, hg⟩ h
    refine ⟨h1.1, fun q hq => ?_⟩
    cases hq
    rcases hpos with hhead | hout
    · -- the new record is at the front, so it is the one erased
      cases hl : s.abilityList with
      | nil => rw [hl] at hhead; cases hhead
      | cons a0 rest =>
        rw [hl] at hhead
        simp only [List.head?_cons, Option.some.injEq] at hhead
        subst hhead
        have hg1 : AbilityList.getLoop s.heap t s.abilityList = some (some a0) := by
          rw [hl]
          simp [AbilityList.getLoop, hr, hrt]
        rw [hg] at hg1
        cases hg1
        exact h1.2 a0 rfl
    · -- the new record was never registered
      have hsub : s1.abilityList.Sublist s.abilityList := by
        cases o with
        | none => rw [Erase_of_get_none hg] at h; cases h; exact List.Sublist.refl _
        | some q => rw [Erase_of_get_some hg] at h; cases h; exact List.erase_sublist _ _
      exact fun hc => hout (hsub.subset hc)

theorem Triple.new (cfg : Config) (r : AbilityRecord) :
    Triple (HomeInv cfg) (new r)
      (fun p s => HomeInv cfg s ∧ s.heap.deref p = some r ∧ p ∉ s.abilityList) := by
  constructor
  intro s p s1 hinv h
  cases h
  have hwf := hinv.wf
  obtain ⟨_, hnot⟩ := new_WF (r := r) hwf
  have hlt : ∀ q ∈ s.abilityList, q < s.heap.length := by
    intro q hq
    obtain ⟨rq, hrq⟩ := Option.isSome_iff_exists.mp (hwf.2 q hq)
    exact Heap.deref_lt hrq
  refine ⟨?_, Heap.deref_append_length _ _, hnot⟩
  refine HomeInv.of_sublist hinv (List.Sublist.refl _) (fun q hq hq1 => absurd hq hq1) ?_ rfl
  intro q hq
  exact Heap.deref_append_lt _ _ _ (hlt q hq)

theorem Triple.Add_new (cfg : Config) (p : Ptr) (r : AbilityRecord) (ht : r.token ≠ 0)
    (hn : r.appName ≠ some cfg.MAIN_BUNDLE_NAME) :
    Triple (fun s => HomeInv cfg s ∧ s.heap.deref p = some r ∧ p ∉ s.abilityList)
      (AbilityList.Add cfg (some p)) (fun _ => HomeInvNew cfg p r.token) := by
  constructor
  intro s a s1 ⟨hinv, hp, hpl⟩ h
  obtain ⟨s2, kept, h1, h2, h3, h4, h5, h6⟩ := Add_spec cfg s p r hinv.wf hp hpl
  rw [h1] at h
  cases h
  obtain ⟨hnd, hc, pL, hpL, ⟨rL, hrL, htL, hnL⟩, hrest⟩ := hinv
  -- the home record is never the victim
  have hkL : pL ∈ kept := by
    by_contra hc1
    obtain ⟨_, _, hv⟩ := h5 pL hpL hc1
    rcases hv with ⟨init, _, hnh⟩ | ⟨init, last, hl, rl, hrl, hnl⟩
    · exact hnh ⟨rL, hrL, hnL⟩
    · have hlast : last ∈ s.abilityList := by rw [hl]; simp
      have hne : last ≠ pL := by
        intro hc2
        subst hc2
        rw [hl] at hnd
        have := List.nodup_append.mp hnd
        simp at this
      obtain ⟨rq, hrq, _, hnq⟩ := hrest last hlast hne
      rw [hrl] at hrq
      cases hrq
      exact hnq hnl
  have hp1 : s1.heap.deref p = some r := by rw [h4 p (Or.inr hpl)]; exact hp
  have hkept : ∀ q ∈ kept, s1.heap.deref q = s.heap.deref q := fun q hq => h4 q (Or.inl hq)
  have hpk : p ∉ kept := fun hc1 => hpl (h2.subset hc1)
  have hpL_ne : pL ≠ p := fun hc1 => hpl (hc1 ▸ hpL)
  have hinv_kept : ∀ q ∈ kept, q ≠ pL →
      ∃ rq, s1.heap.deref q = some rq ∧ rq.token ≠ 0 ∧
        rq.appName ≠ some cfg.MAIN_BUNDLE_NAME := by
    intro q hq hne
    obtain ⟨rq, hrq, h7⟩ := hrest q (h2.subset hq) hne
    exact ⟨rq, by rw [hkept q hq]; exact hrq, h7⟩
  have hhome1 : ∃ r, s1.heap.deref pL = some r ∧ r.token = 0 ∧
      r.appName = some cfg.MAIN_BUNDLE_NAME :=
    ⟨rL, by rw [hkept pL hkL]; exact hrL, htL, hnL⟩
  have hctr1 : s1.staticToken < 65535 := by rw [h6.2.2.1]; exact hc
  rcases h3 with ⟨hl, _⟩ | ⟨hl, _⟩
  · refine ⟨⟨?_, hctr1, pL, ?_, hhome1, ?_⟩, ⟨r, hp1, rfl⟩, Or.inl (by rw [hl]; rfl)⟩
    · rw [hl]
      exact List.nodup_cons.mpr ⟨hpk, h2.nodup hnd⟩
    · rw [hl]
      exact List.mem_cons_of_mem _ hkL
    · intro q hq hne
      rw [hl] at hq
      rcases List.mem_cons.mp hq with hq | hq
      · subst hq
        exact ⟨r, hp1, ht, hn⟩
      · exact hinv_kept q hq hne
  · refine ⟨⟨?_, hctr1, pL, ?_, hhome1, ?_⟩, ⟨r, hp1, rfl⟩, Or.inr (by rw [hl]; exact hpk)⟩
    · rw [hl]
      exact h2.nodup hnd
    · rw [hl]
      exact hkL
    · intro q hq hne
      rw [hl] at hq
      exact hinv_kept q hq hne

theorem Triple.GenerateTokenT (cfg : Config) :
    Triple (HomeInv cfg) GenerateToken (fun t s => HomeInv cfg s ∧ t ≠ 0) := by
  constructor
  intro s t s1 hinv h
  rw [GenerateToken_eq] at h
  cases h
  obtain ⟨hnd, hc, rest⟩ := hinv
  exact ⟨⟨hnd, nextToken_le _ hc, rest⟩, nextToken_pos hc⟩

theorem HomeInv.DeleteRecordInfo (cfg : Config) (t : Nat) (ht : t ≠ LAUNCHER_TOKEN) :
    Stable (HomeInv cfg) (DeleteRecordInfo t) := by
  unfold AbilityLite.DeleteRecordInfo
  refine Triple.bindT (Triple.listGetT cfg t) fun o => ?_
  have hP := HomeInvGet.shapeInvGet cfg t o
  split
  · exact Triple.pureT fun s h => h.1
  · rename_i p
    have tail : Triple (HomeInvGet cfg t (some p))
        (AbilityStack.Erase p >>= fun _ => AbilityList.Erase t >>= fun _ => delete (some p))
        (fun _ => HomeInv cfg) :=
      Triple.bindT (Stable.stackErase hP p) fun _ =>
        Triple.bindT (Triple.listErase cfg t ht (some p)) fun _ => Triple.delete cfg (some p)
    repeat (first
      | exact tail
      | exact Stable.pureS _
      | exact Stable.derefS _
      | exact Stable.emit hP _
      | apply Triple.bindT
      | intro _
      | split
      | dsimp only)

theorem HomeInv.TerminateAbility (cfg : Config) (t : Nat) :
    Stable (HomeInv cfg) (TerminateAbility t) := by
  have hP := HomeInv.shapeInvHome cfg
  unfold AbilityLite.TerminateAbility
  repeat (first
    | exact Stable.pureS _
    | exact Stable.derefS _
    | exact Stable.stackTop
    | exact Stable.store hP _ _ (fun _ => rfl)
    | exact Stable.SchedulerLifecycle hP _ _
    | exact Stable.SchedulerLifecycleInner hP _ _
    | exact HomeInv.DeleteRecordInfo cfg _ (by assumption)
    | apply Triple.bindT
    | apply Stable.map
    | intro _
    | split
    | dsimp only)

theorem Triple.of_pure_pre {α : Type} {P : Manager → Prop} {φ : Prop} {m : M α}
    {Q : α → Manager → Prop} (h : φ → Triple P m Q) : Triple (fun s => P s ∧ φ) m Q :=
  ⟨fun s a s1 hs hm => (h hs.2).run s a s1 hs.1 hm⟩

theorem Triple.derefNew (cfg : Config) (p : Ptr) (t : Nat) :
    Triple (HomeInvNew cfg p t) (deref p) (fun r s => HomeInvNew cfg p t s ∧ r.token = t) := by
  constructor
  intro s r s1 hs h
  unfold AbilityLite.deref at h
  split at h
  · rename_i r1 hr1
    cases h
    obtain ⟨r2, hr2, ht2⟩ := hs.2.1
    rw [hr1] at hr2
    cases hr2
    exact ⟨hs, ht2⟩
  · cases h

theorem HomeInv.PreCheckStartAbility (cfg : Config) (env : Env) (bundleName : CStr)
    (path : Option CStr) (data : Option (List Nat))
    (hmain : cfg.MAIN_BUNDLE_NAME = LAUNCHER_BUNDLE_NAME) (hl : IsLauncher bundleName = false) :
    Stable (HomeInv cfg) (PreCheckStartAbility cfg env bundleName path data) := by
  have hP := HomeInv.shapeInvHome cfg
  have hname : (some bundleName : Option CStr) ≠ some cfg.MAIN_BUNDLE_NAME := by
    intro hc
    cases hc
    rw [hmain, IsLauncher_LAUNCHER_BUNDLE_NAME] at hl
    cases hl
  -- the part after the record has been added
  have tail : ∀ (p : Ptr) (t : Nat), t ≠ 0 → Triple (HomeInvNew cfg p t)
      (do
        if (← get).pendingToken = 0 then
          if (← CreateAppTask env (some p)) ≠ Ret.ERR_OK then
            let r ← deref p
            AbilityList.Erase r.token
            delete (some p)
            pure Ret.CREATE_APPTASK_ERROR
          else
            pure Ret.ERR_OK
        else
          pure Ret.ERR_OK)
      (fun _ => HomeInv cfg) := by
    intro p t ht
    have hN := HomeInvNew.shapeInvNew cfg p t
    refine Triple.bindT (Q := fun _ => HomeInvNew cfg p t) Stable.get fun s0 => ?_
    split
    · refine Triple.bindT (Q := fun _ => HomeInvNew cfg p t) (Stable.CreateAppTask hN env _)
        fun ret => ?_
      split
      · refine Triple.bindT (Triple.derefNew cfg p t) fun r => ?_
        refine Triple.of_pure_pre fun hrt => ?_
        subst hrt
        exact Triple.bindT (Triple.listEraseNew cfg p r.token ht) fun _ =>
          Triple.bindT (Triple.delete cfg (some p)) fun _ => Triple.pureT fun _ h => h
      · exact Triple.pureT fun _ h => h.1
    · exact Triple.pureT fun _ h => h.1
  unfold AbilityLite.PreCheckStartAbility
  split
  · exact Stable.pureS _
  · refine Triple.bindT (Q := fun _ => HomeInv cfg) (Stable.listGetByName _) fun cur => ?_
    split
    · repeat (first
        | exact Stable.pureS _
        | exact Stable.derefS _
        | exact Stable.SchedulerLifecycle hP _ _
        | apply Triple.bindT
        | apply Stable.map
        | intro _
        | split
        | dsimp only)
    · refine Triple.bindT (Q := fun _ => HomeInv cfg) Stable.get fun s0 => ?_
      dsimp only
      split
      · rename_i hpend
        refine Triple.bindT (Q := fun t s => HomeInv cfg s ∧ t ≠ 0)
          (Triple.pureT fun s h => ⟨h, hpend⟩) fun t => ?_
        refine Triple.of_pure_pre fun ht => ?_
        refine Triple.bindT (Triple.new cfg _) fun p => ?_
        refine Triple.bindT (Triple.Add_new cfg p _ ht hname) fun _ => ?_
        exact tail p t ht
      · refine Triple.bindT (Triple.GenerateTokenT cfg) fun t => ?_
        refine Triple.of_pure_pre fun ht => ?_
        refine Triple.bindT (Triple.new cfg _) fun p => ?_
        refine Triple.bindT (Triple.Add_new cfg p _ ht hname) fun _ => ?_
        exact tail p t ht

theorem HomeInv.GenerateTokenInv (cfg : Config) : Stable (HomeInv cfg) GenerateToken :=
  Triple.conseq (Triple.GenerateTokenT cfg) (fun _ h => h) (fun _ _ h => h.1)

theorem HomeInv.StartAbility (cfg : Config) (env : Env) (info : Option AbilitySvcInfo)
    (hmain : cfg.MAIN_BUNDLE_NAME = LAUNCHER_BUNDLE_NAME) :
    Stable (HomeInv cfg) (StartAbility cfg env info) := by
  have hP := HomeInv.shapeInvHome cfg
  unfold AbilityLite.StartAbility
  repeat (first
    | exact Stable.pureS _
    | exact Stable.derefS _
    | exact Stable.stackTop
    | exact Stable.modify hP _ (fun _ => ⟨rfl, rfl, fun _ => rfl⟩)
    | exact Stable.UpdateRecord hP _
    | exact Stable.SchedulerLifecycle hP _ _
    | exact Stable.SchedulerLifecycleInner hP _ _
    | exact HomeInv.TerminateAbility cfg _
    | exact HomeInv.GenerateTokenInv cfg
    | exact HomeInv.PreCheckStartAbility cfg env _ _ _ hmain (Bool.eq_false_iff.mpr (by assumption))
    | apply Triple.bindT
    | apply Stable.map
    | intro _
    | split
    | dsimp only)

theorem HomeInv.ForceStopBundleInner (cfg : Config) (t : Nat) (ht : t ≠ LAUNCHER_TOKEN) :
    Stable (HomeInv cfg) (ForceStopBundleInner t) := by
  have hP := HomeInv.shapeInvHome cfg
  unfold AbilityLite.ForceStopBundleInner
  repeat (first
    | exact Stable.pureS _
    | exact Stable.derefS _
    | exact Stable.listGetS _
    | exact Stable.emit hP _
    | exact HomeInv.DeleteRecordInfo cfg _ ht
    | apply Triple.bindT
    | apply Stable.map
    | intro _
    | split
    | dsimp only)

theorem HomeInv.ForceStopBundle (cfg : Config) (t : Nat) :
    Stable (HomeInv cfg) (ForceStopBundle t) := by
  have hP := HomeInv.shapeInvHome cfg
  unfold AbilityLite.ForceStopBundle
  repeat (first
    | exact Stable.pureS _
    | exact Stable.derefS _
    | exact Stable.listGetS _
    | exact Stable.SchedulerLifecycle hP _ _
    | exact HomeInv.ForceStopBundleInner cfg _ (by assumption)
    | apply Triple.bindT
    | apply Stable.map
    | intro _
    | split
    | dsimp only)

theorem HomeInv.ForceStop (cfg : Config) (n : Option CStr) :
    Stable (HomeInv cfg) (ForceStop n) := by
  unfold AbilityLite.ForceStop
  repeat (first
    | exact Stable.pureS _
    | exact Stable.failure
    | exact Stable.derefS _
    | exact Stable.stackTop
    | exact HomeInv.TerminateAbility cfg _
    | apply Triple.bindT
    | apply Stable.map
    | intro _
    | split
    | dsimp only)

theorem HomeInv.OnDestroyDone (cfg : Config) (env : Env) (t : Nat) :
    Stable (HomeInv cfg) (OnDestroyDone env t) := by
  have hP := HomeInv.shapeInvHome cfg
  -- handing the foreground to the record reserved under the pending token
  have tail : ∀ pendingToken : Nat, pendingToken ≠ 0 → Triple (HomeInv cfg)
      (do
        let record ← AbilityList.Get pendingToken
        if (← CreateAppTask env record) ≠ Ret.ERR_OK then
          AbilityList.Erase pendingToken
          delete record
          let _ ← SchedulerLifecycle LAUNCHER_TOKEN State.STATE_ACTIVE
        modify fun s => { s with pendingToken := 0 })
      (fun _ => HomeInv cfg) := by
    intro pt hpt
    refine Triple.bindT (Triple.listGetT cfg pt) fun o => ?_
    refine Triple.bindT (Q := fun _ => HomeInvGet cfg pt o)
      (Stable.CreateAppTask (HomeInvGet.shapeInvGet cfg pt o) env _) fun ret => ?_
    dsimp only
    split
    · refine Triple.bindT (Triple.listErase cfg pt hpt o) fun _ => ?_
      refine Triple.bindT (Triple.delete cfg o) fun _ => ?_
      refine Triple.bindT (Q := fun _ => HomeInv cfg) (Stable.SchedulerLifecycle hP _ _) fun _ => ?_
      exact Stable.modify hP _ (fun _ => ⟨rfl, rfl, fun _ => rfl⟩)
    · refine Triple.bindT (Q := fun _ => HomeInv cfg) (Triple.pureT fun _ h => h.1) fun _ => ?_
      exact Stable.modify hP _ (fun _ => ⟨rfl, rfl, fun _ => rfl⟩)
  unfold AbilityLite.OnDestroyDone
  repeat (first
    | exact tail _ (by assumption)
    | exact Stable.pureS _
    | exact Stable.get
    | exact Stable.derefS _
    | exact Stable.stackTop
    | exact Stable.stackPop hP
    | exact Stable.SetAbilityState hP _ _
    | exact Stable.SchedulerLifecycle hP _ _
    | exact HomeInv.DeleteRecordInfo cfg _ (by assumption)
    | apply Triple.bindT
    | apply Stable.map
    | intro _
    | split
    | dsimp only)

theorem HomeInv.OnActiveDone (cfg : Config) (env : Env) (t : Nat) :
    Stable (HomeInv cfg) (OnActiveDone env t) := by
  have hP := HomeInv.shapeInvHome cfg
  unfold AbilityLite.OnActiveDone
  repeat (first
    | exact Stable.pureS _
    | exact Stable.get
    | exact Stable.derefS _
    | exact Stable.stackTop
    | exact Stable.stackPop hP
    | exact Stable.SetAbilityState hP _ _
    | exact Stable.SchedulerLifecycleInner hP _ _
    | exact Stable.failure
    | exact HomeInv.OnDestroyDone cfg env _
    | exact HomeInv.DeleteRecordInfo cfg _ (by assumption)
    | apply Triple.bindT
    | apply Stable.map
    | intro _
    | split
    | dsimp only)

theorem HomeInv.StartLauncher (cfg : Config) (env : Env) :
    Stable (HomeInv cfg) (StartLauncher cfg env) := by
  constructor
  intro s a s1 hinv h
  obtain ⟨p, r, hp, hr, ht⟩ := hinv.has_home
  have hwf := hinv.wf
  cases hg : AbilityList.getLoop s.heap 0 s.abilityList with
  | none =>
    have := getLoop_isSome 0 hwf.2
    rw [hg] at this
    cases this
  | some o =>
    cases o with
    | none =>
      obtain ⟨r1, hr1, hne⟩ := (getLoop_none_iff _ _ _).mp hg p hp
      rw [hr] at hr1
      cases hr1
      exact absurd ht hne
    | some l =>
      rw [StartLauncher_present hg] at h
      cases h
      exact hinv

theorem HomeInv.Op_run (cfg : Config) (hmain : cfg.MAIN_BUNDLE_NAME = LAUNCHER_BUNDLE_NAME)
    (op : Op) : Stable (HomeInv cfg) (op.run cfg) := by
  have hP := HomeInv.shapeInvHome cfg
  cases op with
  | startLauncher env => exact HomeInv.StartLauncher cfg env
  | startAbility env info =>
    exact Triple.bindT (HomeInv.StartAbility cfg env info hmain) fun _ => Stable.pureS _
  | terminateAbility token =>
    exact Triple.bindT (HomeInv.TerminateAbility cfg token) fun _ => Stable.pureS _
  | forceStop bundleName =>
    exact Triple.bindT (HomeInv.ForceStop cfg bundleName) fun _ => Stable.pureS _
  | forceStopByToken token =>
    exact Triple.bindT (HomeInv.ForceStopBundle cfg token) fun _ => Stable.pureS _
  | onActiveDone env token => exact HomeInv.OnActiveDone cfg env token
  | onBackgroundDone token => exact Stable.OnBackgroundDone hP token
  | onDestroyDone env token => exact HomeInv.OnDestroyDone cfg env token
  | installNative ability =>
    exact Stable.modify hP _ (fun _ => ⟨rfl, rfl, fun _ => rfl⟩)

theorem HomeInv.start (cfg : Config) (hmain : cfg.MAIN_BUNDLE_NAME = LAUNCHER_BUNDLE_NAME)
    (env : Env) (native : Option Nat) (s : Manager)
    (h : AbilityLite.StartLauncher cfg env { nativeAbility := native } = some ((), s)) :
    HomeInv cfg s := by
  have hwf : RegistryWF ({ nativeAbility := native } : Manager) :=
    ⟨List.nodup_nil, fun q hq => by cases hq⟩
  obtain ⟨s1, kept, h1, h2, h3, h4, _, _, _, h8, _⟩ :=
    StartLauncher_absent cfg env hwf (s := { nativeAbility := native }) rfl
  rw [h1] at h
  cases h
  have hk : kept = [] := List.sublist_nil.mp h3
  subst hk
  simp only [List.length_nil] at h2 h4
  refine ⟨by rw [h2]; simp, by rw [h8]; exact Nat.zero_lt_succ _, 0, by rw [h2]; simp,
    ⟨launcherRecord env, h4, rfl, by rw [hmain]; rfl⟩, ?_⟩
  intro q hq hne
  rw [h2] at hq
  simp only [List.mem_singleton] at hq
  exact absurd hq hne

theorem HomeInv.of_reachable (cfg : Config) (hmain : cfg.MAIN_BUNDLE_NAME = LAUNCHER_BUNDLE_NAME)
    (s : Manager) (h : Reachable cfg s) : HomeInv cfg s := by
  induction h with
  | start env native s h => exact HomeInv.start cfg hmain env native s h
  | step op s s1 _ hrun ih => exact (HomeInv.Op_run cfg hmain op).run s () s1 ih hrun

/-- Claim C1. In every state reachable from `StartLauncher` on a fresh controller by any
sequence of controller calls whose behaviour is defined (start, terminate, force-stop by name
or by token, the three acknowledgements, `StartLauncher` again, installing the native unit),
the registry holds a live record with token 0, and `Get(LAUNCHER_TOKEN)` finds a record. The
protected home name of the registry is taken to be the launcher bundle name. -/
theorem home_record_always_registered (cfg : Config)
    (hmain : cfg.MAIN_BUNDLE_NAME = LAUNCHER_BUNDLE_NAME) (s : Manager)
    (h : Reachable cfg s) :
    (∃ p r, p ∈ s.abilityList ∧ s.heap.deref p = some r ∧ r.token = 0) ∧
    (∃ p, AbilityList.Get LAUNCHER_TOKEN s = some (some p, s)) := by
  have hinv := HomeInv.of_reachable cfg hmain s h
  obtain ⟨p, r, hp, hr, ht⟩ := hinv.has_home
  refine ⟨⟨p, r, hp, hr, ht⟩, ?_⟩
  have hwf := hinv.wf
  cases hg : AbilityList.getLoop s.heap 0 s.abilityList with
  | none =>
    have := getLoop_isSome 0 hwf.2
    rw [hg] at this
    cases this
  | some o =>
    cases o with
    | none =>
      obtain ⟨r1, hr1, hne⟩ := (getLoop_none_iff _ _ _).mp hg p hp
      rw [hr] at hr1
      cases hr1
      exact absurd ht hne
    | some l =>
      exact ⟨l, by simp [AbilityList.Get, LAUNCHER_TOKEN, hg]⟩

theorem reachable_of_run (cfg : Config) (ops : List Op) :
    ∀ s s1, Reachable cfg s → runController cfg ops s = some s1 → Reachable cfg s1 := by
  induction ops with
  | nil =>
    intro s s1 hs h
    cases h
    exact hs
  | cons op ops ih =>
    intro s s1 hs h
    simp only [runController] at h
    split at h
    · rename_i u s2 hrun
      exact ih s2 s1 (Reachable.step op s s2 hs hrun) h
    · cases h

/-- Witness for C1: after a run that makes the registry evict a record, home is still found. -/
theorem home_record_always_registered_witness :
    (runController exampleCfg exampleRun homeState).isSome = true ∧
    ∃ p, (runController exampleCfg exampleRun homeState).bind
      (fun s => (AbilityList.Get LAUNCHER_TOKEN s).map (fun x => x.1)) = some (some p) := by
  have hsome : ∃ s, runController exampleCfg exampleRun homeState = some s := by
    cases h : runController exampleCfg exampleRun homeState with
    | none => exact absurd h (by decide)
    | some s => exact ⟨s, rfl⟩
  obtain ⟨s, hs⟩ := hsome
  have hr : Reachable exampleCfg s :=
    reachable_of_run exampleCfg exampleRun homeState s
      (Reachable.start exampleEnv (some 1) homeState homeState_eq) hs
  obtain ⟨_, p, hp⟩ := home_record_always_registered exampleCfg rfl s hr
  refine ⟨by rw [hs]; rfl, p, ?_⟩
  rw [hs]
  simp [hp]

theorem getLoop_of_tokens (h1 h2 : Heap) (t : Nat) (l : List Ptr)
    (hl : ∀ p ∈ l, (h2.deref p).map (fun r => r.token) = (h1.deref p).map (fun r => r.token)) :
    AbilityList.getLoop h2 t l = AbilityList.getLoop h1 t l := by
  induction l with
  | nil => rfl
  | cons p rest ih =>
    have hp := hl p (List.mem_cons_self _ _)
    have ih1 := ih (fun q hq => hl q (List.mem_cons_of_mem _ hq))
    cases h1p : h1.deref p with
    | none =>
      rw [h1p] at hp
      cases h2p : h2.deref p with
      | none => simp [AbilityList.getLoop, h1p, h2p]
      | some r2 => rw [h2p] at hp; cases hp
    | some r1 =>
      rw [h1p] at hp
      cases h2p : h2.deref p with
      | none => rw [h2p] at hp; cases hp
      | some r2 =>
        rw [h2p] at hp
        simp only [Option.map_some', Option.some.injEq] at hp
        simp [AbilityList.getLoop, h1p, h2p, hp, ih1]

theorem getByNameLoop_of_names (h1 h2 : Heap) (n : CStr) (l : List Ptr)
    (hl : ∀ p ∈ l, (h2.deref p).map (fun r => r.appName)
      = (h1.deref p).map (fun r => r.appName)) :
    AbilityList.getByNameLoop h2 n l = AbilityList.getByNameLoop h1 n l := by
  induction l with
  | nil => rfl
  | cons p rest ih =>
    have hp := hl p (List.mem_cons_self _ _)
    have ih1 := ih (fun q hq => hl q (List.mem_cons_of_mem _ hq))
    cases h1p : h1.deref p with
    | none =>
      rw [h1p] at hp
      cases h2p : h2.deref p with
      | none => simp [AbilityList.getByNameLoop, h1p, h2p]
      | some r2 => rw [h2p] at hp; cases hp
    | some r1 =>
      rw [h1p] at hp
      cases h2p : h2.deref p with
      | none => rw [h2p] at hp; cases hp
      | some r2 =>
        rw [h2p] at hp
        simp only [Option.map_some', Option.some.injEq] at hp
        simp [AbilityList.getByNameLoop, h1p, h2p, hp, ih1]

theorem getByNameLoop_none_live {h : Heap} {n : CStr} {l : List Ptr}
    (hg : AbilityList.getByNameLoop h n l = some none) :
    ∀ p ∈ l, ∃ r, h.deref p = some r ∧ r.appName ≠ some n := by
  induction l with
  | nil => intro p hp; cases hp
  | cons q rest ih =>
    intro p hp
    simp only [AbilityList.getByNameLoop] at hg
    cases hq : h.deref q with
    | none => simp [hq] at hg
    | some r =>
      simp only [hq] at hg
      cases hn : r.appName with
      | none =>
        simp only [hn] at hg
        rcases List.mem_cons.mp hp with hp | hp
        · subst hp; exact ⟨r, hq, by simp [hn]⟩
        · exact ih hg p hp
      | some name =>
        simp only [hn] at hg
        by_cases he : n = name
        · simp [he] at hg
        · simp only [he, if_false] at hg
          rcases List.mem_cons.mp hp with hp | hp
          · subst hp
            exact ⟨r, hq, by rw [hn]; intro hc; cases hc; exact he rfl⟩
          · exact ih hg p hp

/-- Starting another app while a worker unit is foreground: the exact state afterwards. -/
theorem StartAbility_jsToJs (cfg : Config) (env : Env) (s : Manager) (px : Ptr)
    (rest : List Ptr) (x : AbilityRecord) (xname yname ypath : CStr) (data : Option (List Nat))
    (hstack : s.abilityStack = px :: rest) (hx : s.heap.deref px = some x)
    (hxn : x.appName = some xname) (hxt : x.token ≠ 0)
    (hxs : x.state ≠ AbilityState.SCHEDULE_STOP)
    (hne : yname ≠ []) (hl : IsLauncher yname = false) (hallow : CheckResponse env yname = true)
    (hxy : yname ≠ xname)
    (hunreg : AbilityList.getByNameLoop s.heap yname s.abilityList = some none)
    (hroom : s.abilityList.length < cfg.ABILITY_LIST_CAPACITY)
    (hctr : s.staticToken < 65535)
    (hfresh : AbilityList.getLoop s.heap (nextToken s.staticToken) s.abilityList = some none) :
    StartAbility cfg env (some { bundleName := some yname, path := some ypath, data := data }) s =
      some (Ret.ERR_OK,
        { s with
          heap := s.heap.set px (some { x with isTerminated := true }) ++
            [some (stopRecord (nextToken s.staticToken) yname (some ypath) data)]
          abilityList := s.heap.length :: s.abilityList
          pendingToken := nextToken s.staticToken
          staticToken := nextToken s.staticToken
          log := s.log ++ [jsMsgOf State.STATE_BACKGROUND { x with isTerminated := true }] }) := by
  have hlen : yname.length ≠ 0 := fun hc => hne (List.length_eq_zero.mp hc)
  have hlt : px < s.heap.length := Heap.deref_lt hx
  have ht0 := nextToken_pos hctr
  have hroom1 : ¬ cfg.ABILITY_LIST_CAPACITY ≤ s.abilityList.length := Nat.not_le.mpr hroom
  have hlive := getByNameLoop_none_live hunreg
  -- lookups are not affected by marking `x` terminated and allocating the new record
  have hby : AbilityList.getByNameLoop (s.heap.set px (some { x with isTerminated := true }))
      yname s.abilityList = some none := by
    rw [getByNameLoop_of_names s.heap _ yname s.abilityList, hunreg]
    intro p _
    simp only [Heap.deref_set]
    by_cases hp : p = px
    · subst hp; simp [hlt, hx]
    · simp [hp]
  have hget : AbilityList.getLoop (s.heap.set px (some { x with isTerminated := true }) ++
      [some (stopRecord (nextToken s.staticToken) yname (some ypath) data)])
      (nextToken s.staticToken) s.abilityList = some none := by
    rw [getLoop_of_tokens s.heap _ _ s.abilityList, hfresh]
    intro p hp
    obtain ⟨r, hr, _⟩ := hlive p hp
    have hpl : p < s.heap.length := Heap.deref_lt hr
    have hpne : p ≠ (s.heap.set px (some { x with isTerminated := true })).length := by
      rw [List.length_set]; exact Nat.ne_of_lt hpl
    simp only [Heap.deref_append_singleton, hpne, if_false, Heap.deref_set]
    by_cases hp1 : p = px
    · subst hp1; simp [hlt, hx]
    · simp [hp1]
  obtain ⟨hp, al, st, pt, tok, na, fl, lg⟩ := s
  simp only at hstack hx hlt ht0 hroom1 hby hget
  subst hstack
  simp only [stopRecord, hxn] at hget hby
  simp [StartAbility, bind_apply, map_apply, pure_apply, get_apply, modify_apply, emit_apply,
    AbilityStack.GetTopAbility, deref, store, new, hx, hxn, hxt, hxs, hlen, hl, hallow, hxy,
    LAUNCHER_TOKEN, TerminateAbility, SchedulerLifecycleInner, SendMsgToJsAbility,
    GenerateToken_eq, PreCheckStartAbility, AbilityList.GetByName, hby, ht0,
    AbilityList.Add, AbilityList.Size, hroom1, AbilityList.Get, hget,
    AbilityList.listPushFront, Heap.deref_set, Heap.deref_append_singleton, hlt,
    jsMsgOf, msgIdOf, stopRecord]

/-- The destroy acknowledgement of the foreground worker while a pending record waits at
the front of the registry: the pending record takes over the foreground. -/
theorem OnDestroyDone_pending (env : Env) (s : Manager) (px py tid : Nat)
    (rest L : List Ptr) (x y : AbilityRecord) (yname : CStr)
    (hstack : s.abilityStack = px :: rest) (hrest : px ∉ rest)
    (hlist : s.abilityList = py :: L) (hnd : (py :: L).Nodup)
    (hx : s.heap.deref px = some x) (hxt : x.token ≠ 0)
    (hy : s.heap.deref py = some y) (hyt : y.token = s.pendingToken)
    (hpend : s.pendingToken ≠ 0) (hyn : y.appName = some yname)
    (hxy : x.token ≠ y.token)
    (hgx : AbilityList.getLoop s.heap x.token L = some (some px))
    (hlive : ∀ q ∈ L, (s.heap.deref q).isSome = true)
    (huniq : ∀ q ∈ L, q ≠ px → ∀ r, s.heap.deref q = some r → r.token ≠ x.token)
    (hhome : ∃ pL ∈ L, ∃ r, s.heap.deref pL = some r ∧ r.token = 0)
    (htask : env.taskCreate = some tid) :
    ∃ s2, OnDestroyDone env x.token s = some ((), s2) ∧
      s2.abilityList = py :: L.erase px ∧ s2.abilityStack = py :: rest ∧
      s2.heap.deref px = none ∧
      s2.heap.deref py = some { y with
        taskId := tid
        jsAppQueueId := env.queueNew
        jsAppHost := some env.jsAppHost
        state := AbilityState.SCHEDULE_INACTIVE } ∧
      s2.pendingToken = 0 := by
  have hpxL : px ∈ L := (getLoop_some_mem hgx).1
  have hpy_ne : py ≠ px := fun hc => (List.nodup_cons.mp hnd).1 (hc ▸ hpxL)
  have hpx_ne : px ≠ py := Ne.symm hpy_ne
  have hndL : L.Nodup := (List.nodup_cons.mp hnd).2
  have hltx : px < s.heap.length := Heap.deref_lt hx
  have hlty : py < s.heap.length := Heap.deref_lt hy
  have hex := eraseLoop_of_get_some hgx
  have hre : rest.erase px = rest := List.erase_of_not_mem hrest
  have hyx : ¬ y.token = x.token := fun hc => hxy hc.symm
  have hy0 : y.token ≠ 0 := hyt ▸ hpend
  have hx0 : ¬ (0 = x.token) := fun hc => hxt hc.symm
  have hy00 : ¬ (0 = y.token) := fun hc => hy0 hc.symm
  have hmem_erase : ∀ q ∈ L.erase px, q ∈ L ∧ q ≠ px ∧ q ≠ py := by
    intro q hq
    have h1 := (List.Nodup.mem_erase_iff hndL).mp hq
    exact ⟨h1.2, h1.1, fun hc => (List.nodup_cons.mp hnd).1 (hc ▸ h1.2)⟩
  -- after the teardown of `x` no registered record carries its token
  have hsn : AbilityList.getLoop (s.heap.set px none) x.token (L.erase px) = some none := by
    rw [getLoop_none_iff]
    intro q hq
    obtain ⟨hqL, hqx, _⟩ := hmem_erase q hq
    obtain ⟨r, hr⟩ := Option.isSome_iff_exists.mp (hlive q hqL)
    exact ⟨r, by rw [Heap.deref_set_ne _ _ _ _ hqx]; exact hr, huniq q hqL hqx r hr⟩
  -- the home record stays registered
  have hg0 : ∀ w : AbilityRecord, ∃ q0 r0,
      AbilityList.getLoop ((s.heap.set px none).set py (some w)) 0 (L.erase px)
        = some (some q0) ∧
      Heap.deref ((s.heap.set px none).set py (some w)) q0 = some r0 ∧ r0.token = 0 := by
    intro w
    have hd : ∀ q ∈ L.erase px,
        Heap.deref ((s.heap.set px none).set py (some w)) q = s.heap.deref q := by
      intro q hq
      obtain ⟨_, hqx, hqy⟩ := hmem_erase q hq
      rw [Heap.deref_set_ne _ _ _ _ hqy, Heap.deref_set_ne _ _ _ _ hqx]
    have hdef := getLoop_isSome (h := (s.heap.set px none).set py (some w)) 0
      (l := L.erase px) (fun q hq => by rw [hd q hq]; exact hlive q (hmem_erase q hq).1)
    cases hg : AbilityList.getLoop ((s.heap.set px none).set py (some w)) 0 (L.erase px) with
    | none => rw [hg] at hdef; cases hdef
    | some o =>
      cases o with
      | none =>
        obtain ⟨pL, hpL, r, hr, ht⟩ := hhome
        have hpLx : pL ≠ px := by
          intro hc; subst hc; rw [hx] at hr; cases hr; exact hxt ht
        have hpLe : pL ∈ L.erase px := (List.mem_erase_of_ne hpLx).mpr hpL
        obtain ⟨r1, hr1, hne⟩ := (getLoop_none_iff _ _ _).mp hg pL hpLe
        rw [hd pL hpLe, hr] at hr1
        cases hr1
        exact absurd ht hne
      | some q0 =>
        obtain ⟨_, r0, hr0, ht0⟩ := getLoop_some_mem hg
        exact ⟨q0, r0, rfl, hr0, ht0⟩
  obtain ⟨hp, al, st, pt, tok, na, fl, lg⟩ := s
  simp only at hstack hlist hx hy hyt hpend hgx hltx hlty hex hsn hg0
  subst hstack hlist hyt
  obtain ⟨q0, r0, hg0a, hg0b, hg0c⟩ := hg0 { y with
        taskId := tid
        jsAppQueueId := env.queueNew
        jsAppHost := some env.jsAppHost
        state := AbilityState.SCHEDULE_INACTIVE }
  simp only [hyn] at hg0a hg0b
  have key : OnDestroyDone env x.token
      (Manager.mk hp (py :: L) (px :: rest) y.token tok na fl lg) =
      some ((), Manager.mk
        ((hp.set px none).set py (some { y with
          taskId := tid
          jsAppQueueId := env.queueNew
          jsAppHost := some env.jsAppHost
          state := AbilityState.SCHEDULE_INACTIVE }))
        (py :: L.erase px) (py :: rest) 0 tok na fl
        (lg ++ teardownEvents x ++
          (match na with
           | none => [jsMsgOf State.STATE_ACTIVE { y with
                taskId := tid
                jsAppQueueId := env.queueNew
                jsAppHost := some env.jsAppHost
                state := AbilityState.SCHEDULE_INACTIVE }]
           | some _ => [Event.nativeOnBackground]))) := by
    cases na <;> by_cases hst : x.state = AbilityState.SCHEDULE_STOP <;>
    simp [OnDestroyDone, bind_apply, map_apply, pure_apply, get_apply, modify_apply, emit_apply,
      AbilityStack.GetTopAbility, AbilityStack.PopAbility, AbilityStack.Erase,
      AbilityStack.PushAbility, deref, store, delete,
      hx, hy, hxt, hyx, hxy, hy0, hx0, hy00, hyn, hpend, LAUNCHER_TOKEN, DeleteRecordInfo,
      AbilityList.Erase, AbilityList.eraseLoop, hex, hre, hpy_ne, hpx_ne, hltx, hlty,
      SetAbilityState, AbilityList.Get, AbilityList.getLoop, hgx, hsn, hg0a, hg0b, hg0c,
      CreateAppTask, htask, SchedulerLifecycle, SchedulerLifecycleInner,
      SchedulerAbilityLifecycle, SendMsgToJsAbility, Heap.deref_set, hst, teardownEvents,
      jsMsgOf, msgIdOf]
  refine ⟨_, key, rfl, rfl, ?_, ?_, rfl⟩
  · simp [Heap.deref_set, hpx_ne, hltx]
  · simp [Heap.deref_set, hlty]

/-- Claim C6, amended. Let `x.app` be the stack top, Active, a worker unit registered under a
token no other registered record holds, in a well-formed registry that holds the home record
and is below capacity, and let `y.app` be an allowed, unregistered, non-launcher name with a
path, the next generated token being held by no registered record. Then `StartAbility` for
`y.app` marks `x.app` terminated, posts one Background message to it, reserves a nonzero pending
token and registers at the front a Stop-state record for `y.app` under that token, leaving the
stack alone. If task creation succeeds, `OnDestroyDone` for the token of `x.app` then removes
`x.app` from registry and stack and frees it, attaches the worker task to the record of `y.app`,
which becomes Inactive and the stack top, and clears the pending token. -/
theorem js_to_js_handoff (cfg : Config) (env1 env2 : Env) (s : Manager) (px tid : Nat)
    (rest : List Ptr) (x : AbilityRecord) (xname yname ypath : CStr) (data : Option (List Nat))
    (hstack : s.abilityStack = px :: rest) (hrest : px ∉ rest)
    (hx : s.heap.deref px = some x) (hxn : x.appName = some xname)
    (hxs : x.state = AbilityState.SCHEDULE_ACTIVE) (hxt : x.token ≠ 0)
    (hwf : RegistryWF s)
    (hgx : AbilityList.getLoop s.heap x.token s.abilityList = some (some px))
    (huniq : ∀ q ∈ s.abilityList, q ≠ px → ∀ r, s.heap.deref q = some r → r.token ≠ x.token)
    (hhome : ∃ pL ∈ s.abilityList, ∃ r, s.heap.deref pL = some r ∧ r.token = 0)
    (hne : yname ≠ []) (hl : IsLauncher yname = false) (hallow : CheckResponse env1 yname = true)
    (hunreg : AbilityList.getByNameLoop s.heap yname s.abilityList = some none)
    (hroom : s.abilityList.length < cfg.ABILITY_LIST_CAPACITY)
    (hctr : s.staticToken < 65535)
    (hfresh : AbilityList.getLoop s.heap (nextToken s.staticToken) s.abilityList = some none)
    (htask : env2.taskCreate = some tid) :
    ∃ s1 s2 py ytok,
      StartAbility cfg env1 (some { bundleName := some yname, path := some ypath, data := data }) s
        = some (Ret.ERR_OK, s1) ∧
      s1.heap.deref px = some { x with isTerminated := true } ∧
      s1.log = s.log ++ [jsMsgOf State.STATE_BACKGROUND { x with isTerminated := true }] ∧
      s1.pendingToken = ytok ∧ ytok ≠ 0 ∧
      s1.abilityList = py :: s.abilityList ∧
      s1.heap.deref py = some (stopRecord ytok yname (some ypath) data) ∧
      s1.abilityStack = s.abilityStack ∧
      OnDestroyDone env2 x.token s1 = some ((), s2) ∧
      px ∉ s2.abilityList ∧ px ∉ s2.abilityStack ∧ s2.heap.deref px = none ∧
      s2.heap.deref py = some (workerRecord env2 ytok tid yname (some ypath) data) ∧
      s2.abilityStack.head? = some py ∧ py ∈ s2.abilityList ∧ s2.pendingToken = 0 := by
  have hpxL : px ∈ s.abilityList := (getLoop_some_mem hgx).1
  have hxy : yname ≠ xname := by
    obtain ⟨r, hr, hn⟩ := getByNameLoop_none_live hunreg px hpxL
    rw [hx] at hr
    cases hr
    intro hc
    exact hn (hc ▸ hxn)
  have hxs1 : x.state ≠ AbilityState.SCHEDULE_STOP := by rw [hxs]; decide
  have h1 := StartAbility_jsToJs cfg env1 s px rest x xname yname ypath data hstack hx hxn hxt
    hxs1 hne hl hallow hxy hunreg hroom hctr hfresh
  have ht0 := nextToken_pos hctr
  have hltx : px < s.heap.length := Heap.deref_lt hx
  have hlen : (s.heap.set px (some { x with isTerminated := true })).length = s.heap.length :=
    List.length_set _ _ _
  have hlt : ∀ q ∈ s.abilityList, q < s.heap.length := by
    intro q hq
    obtain ⟨rq, hrq⟩ := Option.isSome_iff_exists.mp (hwf.2 q hq)
    exact Heap.deref_lt hrq
  have hpy : s.heap.length ∉ s.abilityList := fun hc => Nat.lt_irrefl _ (hlt _ hc)
  have hpyx : s.heap.length ≠ px := fun hc => hpy (hc ▸ hpxL)
  -- records of the old registry in the new heap
  have hd : ∀ q ∈ s.abilityList, q ≠ px →
      Heap.deref (s.heap.set px (some { x with isTerminated := true }) ++
        [some (stopRecord (nextToken s.staticToken) yname (some ypath) data)]) q
        = s.heap.deref q := by
    intro q hq hqx
    have hq1 : q ≠ (s.heap.set px (some { x with isTerminated := true })).length := by
      rw [hlen]; exact Nat.ne_of_lt (hlt q hq)
    simp only [Heap.deref_append_singleton, hq1, if_false, Heap.deref_set, hqx]
  have hdx : Heap.deref (s.heap.set px (some { x with isTerminated := true }) ++
        [some (stopRecord (nextToken s.staticToken) yname (some ypath) data)]) px
        = some { x with isTerminated := true } := by
    simp [Heap.deref_append_singleton, Heap.deref_set, hltx, Nat.ne_of_lt hltx]
  have hdy : Heap.deref (s.heap.set px (some { x with isTerminated := true }) ++
        [some (stopRecord (nextToken s.staticToken) yname (some ypath) data)]) s.heap.length
        = some (stopRecord (nextToken s.staticToken) yname (some ypath) data) := by
    simp [Heap.deref_append_singleton, hlen]
  generalize hs1 : ({ s with
          heap := s.heap.set px (some { x with isTerminated := true }) ++
            [some (stopRecord (nextToken s.staticToken) yname (some ypath) data)]
          abilityList := s.heap.length :: s.abilityList
          pendingToken := nextToken s.staticToken
          staticToken := nextToken s.staticToken
          log := s.log ++ [jsMsgOf State.STATE_BACKGROUND { x with isTerminated := true }] }
        : Manager) = s1 at h1
  have hheap1 : s1.heap = s.heap.set px (some { x with isTerminated := true }) ++
      [some (stopRecord (nextToken s.staticToken) yname (some ypath) data)] := by rw [← hs1]
  have hl1 : s1.abilityList = s.heap.length :: s.abilityList := by rw [← hs1]
  have hst1 : s1.abilityStack = px :: rest := by rw [← hs1]; exact hstack
  have hp1 : s1.pendingToken = nextToken s.staticToken := by rw [← hs1]
  have hlog1 : s1.log = s.log ++ [jsMsgOf State.STATE_BACKGROUND { x with isTerminated := true }] := by
    rw [← hs1]
  have hfresh_all := (getLoop_none_iff _ _ _).mp hfresh
  have hxtok : x.token ≠ nextToken s.staticToken := by
    obtain ⟨r, hr, hne1⟩ := hfresh_all px hpxL
    rw [hx] at hr
    cases hr
    exact hne1
  have hgx1 : AbilityList.getLoop s1.heap x.token s.abilityList = some (some px) := by
    rw [hheap1, getLoop_of_tokens s.heap _ _ s.abilityList, hgx]
    intro q hq
    by_cases hqx : q = px
    · subst hqx; rw [hdx, hx]; rfl
    · rw [hd q hq hqx]
  obtain ⟨s2, h2, h2l, h2s, h2x, h2y, h2p⟩ := OnDestroyDone_pending env2 s1 px s.heap.length tid
    rest s.abilityList { x with isTerminated := true }
    (stopRecord (nextToken s.staticToken) yname (some ypath) data) yname hst1 hrest hl1
    (List.nodup_cons.mpr ⟨hpy, hwf.1⟩) (by rw [hheap1]; exact hdx) hxt
    (by rw [hheap1]; exact hdy) (by rw [hp1]; rfl) (by rw [hp1]; exact ht0) rfl hxtok hgx1
    (by
      intro q hq
      rw [hheap1]
      by_cases hqx : q = px
      · subst hqx; rw [hdx]; rfl
      · rw [hd q hq hqx]; exact hwf.2 q hq)
    (by
      intro q hq hqx r hr
      rw [hheap1, hd q hq hqx] at hr
      exact huniq q hq hqx r hr)
    (by
      obtain ⟨pL, hpL, r, hr, ht⟩ := hhome
      have hpLx : pL ≠ px := by
        intro hc; subst hc; rw [hx] at hr; cases hr; exact hxt ht
      exact ⟨pL, hpL, r, by rw [hheap1, hd pL hpL hpLx]; exact hr, ht⟩)
    htask
  refine ⟨s1, s2, s.heap.length, nextToken s.staticToken, h1, by rw [hheap1]; exact hdx, hlog1,
    hp1, ht0, hl1, by rw [hheap1]; exact hdy, by rw [hst1, hstack], h2, ?_, ?_, h2x,
    h2y, by rw [h2s]; rfl, by rw [h2l]; exact List.mem_cons_self _ _, h2p⟩
  · rw [h2l]
    intro hc
    rcases List.mem_cons.mp hc with hc | hc
    · exact hpyx hc.symm
    · exact ((List.Nodup.mem_erase_iff hwf.1).mp hc).1 rfl
  · rw [h2s]
    intro hc
    rcases List.mem_cons.mp hc with hc | hc
    · exact hpyx hc.symm
    · exact hrest hc

theorem xActive_eq : runController exampleCfg runX homeState = some xActive := by
  rfl

/-- Claim C6 as stated fails in two ways. In a reachable state with `x.app` foreground and
Active and a full registry (capacity 2), starting `y.app` makes the registry evict and free the
record of `x.app`, after which its destroy acknowledgement is undefined. With room in the
registry but a failing task creation, the destroy acknowledgement drops the record of `y.app`. -/
theorem handoff_fails :
    runController exampleCfg runX homeState = some xActive ∧
    xActive.abilityStack.head? = some 1 ∧ xActive.heap.deref 1 = some xRecord ∧
    xRecord.appName = some "x.app".toList ∧ xRecord.state = AbilityState.SCHEDULE_ACTIVE ∧
    CheckResponse exampleEnv "y.app".toList = true ∧
    AbilityList.getByNameLoop xActive.heap "y.app".toList xActive.abilityList = some none ∧
    (StartAbility exampleCfg exampleEnv (some yApp) xActive).map
      (fun r => (r.1, r.2.heap.deref 1, r.2.abilityStack)) = some (Ret.ERR_OK, none, [1, 0]) ∧
    (StartAbility exampleCfg exampleEnv (some yApp) xActive).bind
      (fun r => OnDestroyDone exampleEnv xRecord.token r.2) = none ∧
    ((StartAbility roomyCfg exampleEnv (some yApp) xActive).bind
      (fun r => OnDestroyDone failEnv xRecord.token r.2)).map
      (fun r => (r.2.abilityList, r.2.abilityStack, r.2.pendingToken)) = some ([0], [0], 0) := by
  refine ⟨xActive_eq, rfl, rfl, rfl, rfl, by decide, rfl, rfl, rfl, rfl⟩

/-- Witness for C6 (amended): starting `y.app` over `x.app` with room in the registry. -/
theorem js_to_js_handoff_witness :
    (StartAbility roomyCfg exampleEnv (some yApp) xActive).map (fun r => r.1)
      = some Ret.ERR_OK := by
  obtain ⟨s1, _, _, _, h1, _⟩ := js_to_js_handoff roomyCfg exampleEnv exampleEnv xActive 1 7 [0]
    xRecord "x.app".toList "y.app".toList "/y".toList none rfl (by decide) rfl rfl rfl
    (by decide) (by decide) rfl
    (by
      intro q hq hq1 r hr
      have hq0 : q = 0 := by
        simp only [xActive, List.mem_cons, List.mem_singleton, List.not_mem_nil, or_false] at hq
        rcases hq with h | h
        · exact absurd h hq1
        · exact h
      subst hq0
      cases hr
      decide)
    ⟨0, by decide, _, rfl, rfl⟩ (by decide) (by decide) (by decide) rfl (by decide) (by decide)
    rfl rfl
  have h2 : StartAbility roomyCfg exampleEnv (some yApp) xActive = some (Ret.ERR_OK, s1) := h1
  rw [h2]
  rfl

/-- After `PopBottomAbility` a cell is either untouched or has been freed. -/
theorem PopBottomAbility_deref {cfg : Config} {s s1 : Manager}
    (h : AbilityList.PopBottomAbility cfg s = some ((), s1)) (p : Ptr) :
    (s1.heap.deref p = s.heap.deref p ∨ s1.heap.deref p = none) ∧
      s1.abilityStack = s.abilityStack := by
  rcases PopBottomAbility_cases cfg s with ⟨hl, he⟩ | ⟨init, last, rl, hl, _, _, he⟩ |
    ⟨last, rl, hl, _, _, he⟩ | ⟨init, sl, last, rl, r2, hl, _, _, _, he⟩ | ⟨_, he⟩
  · rw [he] at h; cases h; exact ⟨Or.inl rfl, rfl⟩
  · rw [he] at h; cases h
    refine ⟨?_, rfl⟩
    simp only [Heap.deref_set]
    split
    · right; split <;> rfl
    · left; rfl
  · rw [he] at h; cases h; exact ⟨Or.inl rfl, rfl⟩
  · rw [he] at h; cases h
    refine ⟨?_, rfl⟩
    simp only [Heap.deref_set]
    split
    · right; split <;> rfl
    · left; rfl
  · rw [he] at h; cases h

/-- Whenever `StartLauncher` returns, a record with token 0 is found in the registry. -/
theorem StartLauncher_registers {cfg : Config} {env : Env} {s s1 : Manager}
    (h : StartLauncher cfg env s = some ((), s1)) :
    ∃ l, AbilityList.getLoop s1.heap 0 s1.abilityList = some (some l) := by
  cases hg : AbilityList.getLoop s.heap 0 s.abilityList with
  | none =>
    simp [StartLauncher, bind_apply, AbilityList.Get, LAUNCHER_TOKEN, hg] at h
  | some o =>
    cases o with
    | some l =>
      rw [StartLauncher_present hg] at h
      cases h
      exact ⟨l, hg⟩
    | none =>
      simp only [StartLauncher, bind_apply, AbilityList.Get, LAUNCHER_TOKEN, hg,
        Option.some_bind, ne_eq, not_true_eq_false, if_false, new] at h
      -- the state after `Add`
      cases hadd : AbilityList.Add cfg (some s.heap.length)
          { s with heap := s.heap ++ [some (launcherRecord env)] } with
      | none =>
        simp only [launcherRecord, LAUNCHER_TOKEN] at hadd
        simp [hadd] at h
      | some x =>
        have hadd1 := hadd
        simp only [launcherRecord, LAUNCHER_TOKEN] at hadd1
        simp only [hadd1, Option.some_bind, AbilityStack.PushAbility, modify_apply,
          map_apply] at h
        -- what `Add` leaves behind
        have hx : ∃ l, AbilityList.getLoop x.2.heap 0 x.2.abilityList = some (some l) ∧
            ∃ r, x.2.heap.deref s.heap.length = some r := by
          rw [Add_eq] at hadd
          cases hmid : (if ({ s with heap := s.heap ++ [some (launcherRecord env)] }
              : Manager).abilityList.length ≥ cfg.ABILITY_LIST_CAPACITY then
              AbilityList.PopBottomAbility cfg
                { s with heap := s.heap ++ [some (launcherRecord env)] }
              else some ((), { s with heap := s.heap ++ [some (launcherRecord env)] })) with
          | none => rw [hmid] at hadd; cases hadd
          | some y =>
            rw [hmid] at hadd
            simp only [Option.some_bind] at hadd
            have hcell : y.2.heap.deref s.heap.length = some (launcherRecord env) ∨
                y.2.heap.deref s.heap.length = none := by
              split at hmid
              · have hy : y = ((), y.2) := rfl
                rw [hy] at hmid
                rcases (PopBottomAbility_deref hmid s.heap.length).1 with h1 | h1
                · left; rw [h1]; exact Heap.deref_append_length _ _
                · right; exact h1
              · cases hmid
                left; exact Heap.deref_append_length _ _
            unfold addTail at hadd
            rcases hcell with hc | hc
            · rw [hc] at hadd
              simp only [launcherRecord, LAUNCHER_TOKEN] at hadd
              split at hadd
              · cases hadd
              · rename_i hg1
                cases hadd
                refine ⟨s.heap.length, ?_, _, hc⟩
                simp [AbilityList.getLoop, hc, launcherRecord, LAUNCHER_TOKEN]
              · rename_i q hg1
                cases hadd
                exact ⟨q, hg1, _, hc⟩
            · rw [hc] at hadd
              cases hadd
        obtain ⟨l, hl, r, hr⟩ := hx
        obtain ⟨ret, evs, hsli⟩ := SchedulerLifecycleInner_log
          (s := { x.2 with abilityStack := s.heap.length :: x.2.abilityStack })
          State.STATE_ACTIVE hr
        rw [hsli] at h
        cases h
        exact ⟨l, hl⟩

/-- Claim C8. For every controller state, whenever `StartLauncher` returns, a second call
returns the very same state; on a well-formed registry the call does return; and on an empty
controller the result holds exactly one record, with token 0 and state Active, registered and
on the stack. -/
theorem StartLauncher_idempotent (cfg : Config) (env1 env2 : Env) :
    (∀ s s1, StartLauncher cfg env1 s = some ((), s1) →
      StartLauncher cfg env2 s1 = some ((), s1)) ∧
    (∀ s, RegistryWF s →
      ∃ s1, StartLauncher cfg env1 s = some ((), s1) ∧
        StartLauncher cfg env2 s1 = some ((), s1)) ∧
    (∀ s : Manager, s.heap = [] → s.abilityList = [] → s.abilityStack = [] →
      ∃ s1, StartLauncher cfg env1 s = some ((), s1) ∧
        s1.abilityList = [0] ∧ s1.abilityStack = [0] ∧
        s1.heap = [some (launcherRecord env1)] ∧
        (launcherRecord env1).token = 0 ∧
        (launcherRecord env1).state = AbilityState.SCHEDULE_ACTIVE) := by
  refine ⟨?_, ?_, ?_⟩
  · intro s s1 h
    obtain ⟨l, hl⟩ := StartLauncher_registers h
    exact StartLauncher_present hl
  · intro s hwf
    cases hg : AbilityList.getLoop s.heap 0 s.abilityList with
    | none =>
      have := getLoop_isSome 0 hwf.2
      rw [hg] at this
      cases this
    | some o =>
      cases o with
      | some l =>
        exact ⟨s, StartLauncher_present hg, StartLauncher_present hg⟩
      | none =>
        obtain ⟨s1, kept, h1, h2, _, h4, _⟩ := StartLauncher_absent cfg env1 hwf hg
        refine ⟨s1, h1, StartLauncher_present (l := s.heap.length) ?_⟩
        simp [h2, AbilityList.getLoop, h4, launcherRecord, LAUNCHER_TOKEN]
  · intro s hh hl hst
    obtain ⟨hp, al, st, pt, tok, na, fl, lg⟩ := s
    simp only at hh hl hst
    subst hh hl hst
    have hadd : AbilityList.Add cfg (some 0)
        (Manager.mk [some (launcherRecord env1)] [] [] pt tok na fl lg) =
        some ((), Manager.mk [some (launcherRecord env1)] [0] [] pt tok na fl lg) := by
      rw [Add_eq]
      by_cases hc : cfg.ABILITY_LIST_CAPACITY = 0
      · simp [hc, PopBottomAbility_nil, addTail, Heap.deref, AbilityList.getLoop]
      · simp [hc, addTail, Heap.deref, AbilityList.getLoop]
    obtain ⟨ret, evs, hsli⟩ := SchedulerLifecycleInner_log
      (s := Manager.mk [some (launcherRecord env1)] [0] [0] pt tok na fl lg) (p := 0)
      (r := launcherRecord env1) State.STATE_ACTIVE rfl
    refine ⟨Manager.mk [some (launcherRecord env1)] [0] [0] pt tok na fl (lg ++ evs),
      ?_, rfl, rfl, rfl, rfl, rfl⟩
    have hadd1 := hadd
    simp only [launcherRecord, LAUNCHER_TOKEN] at hadd1 hsli
    simp only [StartLauncher, bind_apply, AbilityList.Get, LAUNCHER_TOKEN, AbilityList.getLoop,
      Option.some_bind, ne_eq, not_true_eq_false, if_false, new, List.length_nil, List.nil_append,
      hadd1, AbilityStack.PushAbility, modify_apply, map_apply]
    rw [hsli]
    rfl

/-- Witness for C8: `StartLauncher` on a fresh controller with a native unit installed. -/
theorem StartLauncher_idempotent_witness :
    RegistryWF homeState ∧
    (StartLauncher exampleCfg exampleEnv { nativeAbility := some 1 }).map
      (fun x => x.2.abilityList) = some [0] := by
  refine ⟨by decide, ?_⟩
  obtain ⟨s1, h1, h2, _⟩ := (StartLauncher_idempotent exampleCfg exampleEnv exampleEnv).2.2
    { nativeAbility := some 1 } rfl rfl rfl
  rw [h1]
  simp [h2]

/-! ## States that satisfy the data-model invariants -/

theorem tokenAt_of_deref {h : Heap} {p : Ptr} {r : AbilityRecord} (hr : h.deref p = some r) :
    tokenAt h p = some r.token := by
  simp [tokenAt, hr]

theorem HeapWF.nodup {h : Heap} {l k : List Ptr} (hwf : HeapWF h l k) : l.Nodup :=
  List.Nodup.of_map _ hwf.2.1

theorem HeapWF.inj {h : Heap} {l k : List Ptr} (hwf : HeapWF h l k) {p q : Ptr}
    (hp : p ∈ l) (hq : q ∈ l) (he : tokenAt h p = tokenAt h q) : p = q :=
  List.inj_on_of_nodup_map hwf.2.1 hp hq he

theorem StateWF.registryWF {s : Manager} (hwf : StateWF s) : RegistryWF s :=
  ⟨HeapWF.nodup hwf, hwf.1⟩

/-- In a well-formed registry the lookup of a registered record's token finds that record. -/
theorem getLoop_of_mem {h : Heap} {l : List Ptr} {p : Ptr} {r : AbilityRecord}
    (hlive : ∀ q ∈ l, (h.deref q).isSome = true) (hnd : (l.map (tokenAt h)).Nodup)
    (hp : p ∈ l) (hr : h.deref p = some r) :
    AbilityList.getLoop h r.token l = some (some p) := by
  induction l with
  | nil => cases hp
  | cons q rest ih =>
    rw [List.map_cons, List.nodup_cons] at hnd
    unfold AbilityList.getLoop
    rcases List.mem_cons.mp hp with rfl | hin
    · simp [hr]
    · obtain ⟨rq, hrq⟩ := Option.isSome_iff_exists.mp (hlive q (List.mem_cons_self _ _))
      have hne : rq.token ≠ r.token := by
        intro he
        apply hnd.1
        rw [tokenAt_of_deref hrq, he, ← tokenAt_of_deref hr]
        exact List.mem_map_of_mem _ hin
      simp only [hrq, hne, if_false]
      exact ih (fun x hx => hlive x (List.mem_cons_of_mem _ hx)) hnd.2 hin

/-- In a well-formed registry every lookup has a result. -/
theorem getLoop_cases {h : Heap} {l k : List Ptr} (hwf : HeapWF h l k) (t : Nat) :
    (AbilityList.getLoop h t l = some none ∧ ∀ p ∈ l, tokenAt h p ≠ some t) ∨
    ∃ p r, AbilityList.getLoop h t l = some (some p) ∧ p ∈ l ∧ h.deref p = some r ∧
      r.token = t := by
  by_cases hex : ∃ p ∈ l, tokenAt h p = some t
  · right
    obtain ⟨p, hp, ht⟩ := hex
    obtain ⟨r, hr⟩ := Option.isSome_iff_exists.mp (hwf.1 p hp)
    have : r.token = t := by
      rw [tokenAt_of_deref hr] at ht
      exact Option.some.inj ht
    exact ⟨p, r, this ▸ getLoop_of_mem hwf.1 hwf.2.1 hp hr, hp, hr, this⟩
  · left
    have hall : ∀ p ∈ l, tokenAt h p ≠ some t := fun p hp he => hex ⟨p, hp, he⟩
    refine ⟨(getLoop_none_iff h t l).mpr ?_, hall⟩
    intro p hp
    obtain ⟨r, hr⟩ := Option.isSome_iff_exists.mp (hwf.1 p hp)
    refine ⟨r, hr, ?_⟩
    intro he
    exact hall p hp (by rw [tokenAt_of_deref hr, he])

/-- Removing a record with another token from the list does not change a lookup. -/
theorem getLoop_erase_of_ne {h : Heap} {t : Nat} {p : Ptr} {r : AbilityRecord}
    (hr : h.deref p = some r) (hne : r.token ≠ t) (l : List Ptr) :
    AbilityList.getLoop h t (l.erase p) = AbilityList.getLoop h t l := by
  induction l with
  | nil => rfl
  | cons q rest ih =>
    by_cases hq : q = p
    · subst hq
      rw [List.erase_cons_head]
      conv_rhs => unfold AbilityList.getLoop
      simp [hr, hne]
    · rw [List.erase_cons_tail (by simpa using hq)]
      unfold AbilityList.getLoop
      rw [ih]

/-- A lookup only reads the cells of the registered pointers. -/
theorem getLoop_set_of_not_mem {h : Heap} {l : List Ptr} {p : Ptr} (hp : p ∉ l)
    (v : Option AbilityRecord) (t : Nat) :
    AbilityList.getLoop (h.set p v) t l = AbilityList.getLoop h t l := by
  apply getLoop_of_tokens
  intro q hq
  rw [Heap.deref_set_ne]
  rintro rfl
  exact hp hq

/-- A lookup does not see an update that keeps the token. -/
theorem getLoop_set_sameToken {h : Heap} {p : Ptr} {r r1 : AbilityRecord}
    (hr : h.deref p = some r) (ht : r1.token = r.token) (t : Nat) (l : List Ptr) :
    AbilityList.getLoop (h.set p (some r1)) t l = AbilityList.getLoop h t l := by
  apply getLoop_of_tokens
  intro q _
  rw [Heap.deref_set]
  split
  · rename_i hq
    subst hq
    simp [Heap.deref_lt hr, hr, ht]
  · rfl

theorem tokenAt_set_sameToken {h : Heap} {p : Ptr} {r r1 : AbilityRecord}
    (hr : h.deref p = some r) (ht : r1.token = r.token) :
    tokenAt (h.set p (some r1)) = tokenAt h := by
  funext q
  unfold tokenAt
  rw [Heap.deref_set]
  split
  · rename_i hq
    subst hq
    simp [Heap.deref_lt hr, hr, ht]
  · rfl

/-- An update of a live record that keeps its token keeps the invariants. -/
theorem HeapWF.store_sameToken {h : Heap} {l k : List Ptr} (hwf : HeapWF h l k) {p : Ptr}
    {r r1 : AbilityRecord} (hr : h.deref p = some r) (ht : r1.token = r.token) :
    HeapWF (h.set p (some r1)) l k := by
  refine ⟨?_, ?_, hwf.2.2.1, hwf.2.2.2⟩
  · intro q hq
    rw [Heap.deref_set]
    split
    · simp [Heap.deref_lt hr]
    · exact hwf.1 q hq
  · rw [tokenAt_set_sameToken hr ht]
    exact hwf.2.1

/-- Deleting a record and removing it from registry and stack keeps the invariants. -/
theorem HeapWF.remove {h : Heap} {l k : List Ptr} (hwf : HeapWF h l k) (p : Ptr) :
    HeapWF (h.set p none) (l.erase p) (k.erase p) := by
  have hnd := HeapWF.nodup hwf
  have hne : ∀ q ∈ l.erase p, q ≠ p := fun q hq => ((List.Nodup.mem_erase_iff hnd).mp hq).1
  have hmem : ∀ q ∈ l.erase p, q ∈ l := fun q hq => List.mem_of_mem_erase hq
  have htok : ∀ q ∈ l.erase p, tokenAt (h.set p none) q = tokenAt h q := by
    intro q hq
    unfold tokenAt
    rw [Heap.deref_set_ne _ _ _ _ (hne q hq)]
  refine ⟨?_, ?_, hwf.2.2.1.erase p, ?_⟩
  · intro q hq
    rw [Heap.deref_set_ne _ _ _ _ (hne q hq)]
    exact hwf.1 q (hmem q hq)
  · rw [List.map_congr_left htok]
    exact List.Nodup.sublist (List.Sublist.map _ (List.erase_sublist p l)) hwf.2.1
  · intro q hq
    have hq1 := (List.Nodup.mem_erase_iff hwf.2.2.1).mp hq
    exact (List.Nodup.mem_erase_iff hnd).mpr ⟨hq1.1, hwf.2.2.2 q hq1.2⟩

/-- After the record with token `t` has been removed no registered record has token `t`. -/
theorem HeapWF.no_token_after_remove {h : Heap} {l k : List Ptr} (hwf : HeapWF h l k)
    {p : Ptr} (hp : p ∈ l) :
    ∀ q ∈ l.erase p, tokenAt (h.set p none) q ≠ tokenAt h p := by
  have hnd := HeapWF.nodup hwf
  intro q hq he
  have hq1 := (List.Nodup.mem_erase_iff hnd).mp hq
  unfold tokenAt at he
  rw [Heap.deref_set_ne _ _ _ _ hq1.1] at he
  exact hq1.1 (HeapWF.inj hwf hq1.2 hp he)

theorem Get_of_getLoop {t : Nat} {s : Manager} {o : Option Ptr}
    (hg : AbilityList.getLoop s.heap t s.abilityList = some o) :
    AbilityList.Get t s = some (o, s) := by
  simp [AbilityList.Get, hg]

theorem DeleteRecordInfo_none {t : Nat} {s : Manager}
    (hg : AbilityList.getLoop s.heap t s.abilityList = some none) :
    DeleteRecordInfo t s = some ((), s) := by
  simp [DeleteRecordInfo, bind_apply, Get_of_getLoop hg, pure_apply]

theorem DeleteRecordInfo_some {t : Nat} {s : Manager} {p : Ptr} {r : AbilityRecord}
    (ht : t ≠ 0) (hg : AbilityList.getLoop s.heap t s.abilityList = some (some p))
    (hr : s.heap.deref p = some r) :
    DeleteRecordInfo t s = some ((), withoutRecord s p r) := by
  obtain ⟨hp, al, st, pt, tok, na, fl, lg⟩ := s
  simp only at hg hr
  unfold withoutRecord
  by_cases hs : r.state = AbilityState.SCHEDULE_STOP
  · simp [DeleteRecordInfo, bind_apply, AbilityList.Get, hg, pure_apply, LAUNCHER_TOKEN, ht,
      deref, hr, hs, AbilityStack.Erase, modify_apply, AbilityList.Erase,
      eraseLoop_of_get_some hg, delete, teardownEvents]
  · simp [DeleteRecordInfo, bind_apply, AbilityList.Get, hg, pure_apply, LAUNCHER_TOKEN, ht,
      deref, hr, hs, AbilityStack.Erase, modify_apply, AbilityList.Erase,
      eraseLoop_of_get_some hg, delete, teardownEvents, emit_apply]

theorem SetAbilityState_none {t : Nat} {st : AbilityState} {s : Manager}
    (hg : AbilityList.getLoop s.heap t s.abilityList = some none) :
    SetAbilityState t st s = some ((), s) := by
  simp [SetAbilityState, bind_apply, Get_of_getLoop hg, pure_apply]

theorem SetAbilityState_some {t : Nat} {st : AbilityState} {s : Manager} {p : Ptr}
    {r : AbilityRecord} (hg : AbilityList.getLoop s.heap t s.abilityList = some (some p))
    (hr : s.heap.deref p = some r) :
    SetAbilityState t st s =
      some ((), { s with heap := s.heap.set p (some { r with state := st }) }) := by
  simp [SetAbilityState, bind_apply, Get_of_getLoop hg, store, hr]

theorem SchedulerLifecycle_none {t : Nat} {st : State} {s : Manager}
    (hg : AbilityList.getLoop s.heap t s.abilityList = some none) :
    SchedulerLifecycle t st s = some (Ret.PARAM_NULL_ERROR, s) := by
  simp [SchedulerLifecycle, bind_apply, Get_of_getLoop hg, pure_apply]

theorem SchedulerLifecycle_some {t : Nat} {st : State} {s : Manager} {p : Ptr}
    (hg : AbilityList.getLoop s.heap t s.abilityList = some (some p)) :
    SchedulerLifecycle t st s = SchedulerLifecycleInner (some p) st s := by
  simp [SchedulerLifecycle, bind_apply, Get_of_getLoop hg]

theorem Heap.deref_set_none (h : Heap) (p : Ptr) : Heap.deref (h.set p none) p = none := by
  rw [Heap.deref_set]
  simp

/-- What holds after a registered record has been deleted and removed from registry and
stack: the invariants, and no remaining entry carries its token. -/
theorem HeapWF.remove_spec {h : Heap} {l k : List Ptr} (hwf : HeapWF h l k) {p : Ptr}
    {r : AbilityRecord} (hp : p ∈ l) (hr : h.deref p = some r) :
    HeapWF (h.set p none) (l.erase p) (k.erase p) ∧
    (∀ q ∈ l.erase p, ∃ rq, Heap.deref (h.set p none) q = some rq ∧ rq.token ≠ r.token) ∧
    (∀ q ∈ k.erase p, ∃ rq, Heap.deref (h.set p none) q = some rq ∧ rq.token ≠ r.token) ∧
    p ∉ l.erase p ∧ p ∉ k.erase p := by
  have hrem := HeapWF.remove hwf p
  have key : ∀ q ∈ l.erase p, ∃ rq, Heap.deref (h.set p none) q = some rq ∧
      rq.token ≠ r.token := by
    intro q hq
    obtain ⟨rq, hrq⟩ := Option.isSome_iff_exists.mp (hrem.1 q hq)
    refine ⟨rq, hrq, ?_⟩
    intro he
    apply HeapWF.no_token_after_remove hwf hp q hq
    rw [tokenAt_of_deref hrq, tokenAt_of_deref hr, he]
  refine ⟨hrem, key, fun q hq => key q (hrem.2.2.2 q hq), ?_, ?_⟩
  · exact fun hc => ((List.Nodup.mem_erase_iff (HeapWF.nodup hwf)).mp hc).1 rfl
  · exact fun hc => ((List.Nodup.mem_erase_iff hwf.2.2.1).mp hc).1 rfl

/-! ## Termination through a stale token -/

theorem yPending_eq :
    StartAbility roomyCfg exampleEnv (some yApp) xActive = some (Ret.ERR_OK, yPending) := by
  rfl

theorem xBackground_eq : runController exampleCfg runHome xActive = some xBackground := by
  rfl

/-- Claim C13 (amended). When the stack top is a live worker record with a name, `ForceStop`
with a name that does not end in the launcher suffix is the graceful termination of the
foreground unit when the name is that unit's name: the record is marked terminated and sent a
Background instruction, the call returns success, and registry and stack are unchanged. For
every other name the call returns `PARAM_CHECK_ERROR` and changes nothing. -/
theorem ForceStop_foreground (s : Manager) (px : Ptr) (rest : List Ptr) (x : AbilityRecord)
    (topName name : CStr) (hstack : s.abilityStack = px :: rest)
    (hx : s.heap.deref px = some x) (hxn : x.appName = some topName) (hxt : x.token ≠ 0)
    (hl : IsLauncher name = false) :
    (topName = name →
      ForceStop (some name) s =
        some (Ret.ERR_OK, { s with
          heap := s.heap.set px (some { x with isTerminated := true })
          log := s.log ++ [jsMsgOf State.STATE_BACKGROUND { x with isTerminated := true }] })) ∧
    (topName ≠ name → ForceStop (some name) s = some (Ret.PARAM_CHECK_ERROR, s)) := by
  constructor
  · intro he
    have h1 : ForceStop (some name) s = TerminateAbility x.token s := by
      simp [ForceStop, hl, bind_apply, AbilityStack.GetTopAbility, hstack, deref, hx, hxn, he]
    rw [h1]
    exact TerminateAbility_top s px rest x hstack hx hxt
  · intro hne
    simp [ForceStop, hl, bind_apply, AbilityStack.GetTopAbility, hstack, deref, hx, hxn, hne,
      pure_apply]

/-- Claim C13 as stated fails. In the reachable state with `x.app` foreground and Active,
`ForceStop` of `x.app` sends it a Background instruction and leaves its record in the
registry and on the stack; with `y.app` registered but not foreground, `ForceStop` of
`y.app` returns `PARAM_CHECK_ERROR` and removes nothing. -/
theorem forceStop_is_graceful :
    runController exampleCfg runX homeState = some xActive ∧
    1 ∈ xActive.abilityList ∧ xActive.heap.deref 1 = some xRecord ∧
    xRecord.appName = some "x.app".toList ∧ IsLauncher "x.app".toList = false ∧
    (ForceStop (some "x.app".toList) xActive).map
      (fun r => (r.1, r.2.abilityList, r.2.abilityStack, r.2.heap.deref 1, r.2.log.getLast?)) =
      some (Ret.ERR_OK, [1, 0], [1, 0], some { xRecord with isTerminated := true },
        some (Event.jsMsg AbilityMsgId.BACKGROUND 1 (some "x.app".toList) (some "/x".toList)
          none (some 9))) ∧
    StartAbility roomyCfg exampleEnv (some yApp) xActive = some (Ret.ERR_OK, yPending) ∧
    2 ∈ yPending.abilityList ∧
    yPending.heap.deref 2 = some (stopRecord 2 "y.app".toList (some "/y".toList) none) ∧
    ForceStop (some "y.app".toList) yPending = some (Ret.PARAM_CHECK_ERROR, yPending) := by
  refine ⟨xActive_eq, by decide, rfl, rfl, by decide, rfl, yPending_eq, by decide, rfl, rfl⟩

/-- Witness for C13 (amended): `ForceStop` of the foreground unit `x.app`. -/
theorem ForceStop_foreground_witness :
    ForceStop (some "x.app".toList) xActive =
      some (Ret.ERR_OK, { xActive with
        heap := xActive.heap.set 1 (some { xRecord with isTerminated := true })
        log := xActive.log ++
          [jsMsgOf State.STATE_BACKGROUND { xRecord with isTerminated := true }] }) :=
  (ForceStop_foreground xActive 1 [0] xRecord "x.app".toList "x.app".toList rfl rfl rfl
    (by decide) (by decide)).1 rfl

/-! ## Stopping the home unit -/

/-- Claim C15 (amended). `ForceStopBundle` with token 0 returns success and changes nothing in
every state. `ForceStop` with a name ending in the launcher suffix, in a state whose stack top
is a live record, returns success, dispatches nothing and changes nothing, unless the stack
top is a worker unit in state Background: then, with the home record registered and a native
unit installed, it calls `OnBackground` on the native unit and changes nothing else. -/
theorem ForceStop_home (s : Manager) :
    ForceStopBundle LAUNCHER_TOKEN s = some (Ret.ERR_OK, s) ∧
    (∀ name top rest t, IsLauncher name = true → s.abilityStack = top :: rest →
      s.heap.deref top = some t →
      ¬ (t.token ≠ 0 ∧ t.state = AbilityState.SCHEDULE_BACKGROUND) →
      ForceStop (some name) s = some (Ret.ERR_OK, s)) ∧
    (∀ name top rest t pL home n, IsLauncher name = true → s.abilityStack = top :: rest →
      s.heap.deref top = some t → t.token ≠ 0 → t.state = AbilityState.SCHEDULE_BACKGROUND →
      AbilityList.getLoop s.heap 0 s.abilityList = some (some pL) →
      s.heap.deref pL = some home → s.nativeAbility = some n →
      ForceStop (some name) s =
        some (Ret.ERR_OK, { s with log := s.log ++ [Event.nativeOnBackground] })) := by
  refine ⟨?_, ?_, ?_⟩
  · simp [ForceStopBundle, pure_apply]
  · intro name top rest t hl hstack ht hnot
    simp only [ForceStop, hl, TerminateAbility, bind_apply, AbilityStack.GetTopAbility, hstack,
      deref, ht, LAUNCHER_TOKEN, List.head?_cons, Option.bind, if_true, ne_eq]
    rw [if_neg hnot]
    rfl
  · intro name top rest t pL home n hl hstack ht htok hst hg hh hn
    have hht : home.token = 0 := by
      obtain ⟨_, r, hr, hrt⟩ := getLoop_some_mem hg
      rw [hh] at hr
      cases hr
      exact hrt
    have h1 : ForceStop (some name) s = SchedulerLifecycle 0 State.STATE_BACKGROUND s := by
      simp [ForceStop, hl, TerminateAbility, bind_apply, AbilityStack.GetTopAbility, hstack,
        deref, ht, LAUNCHER_TOKEN, htok, hst]
    rw [h1, SchedulerLifecycle_some hg,
      SchedulerLifecycleInner_native State.STATE_BACKGROUND hh hht hn]
    rfl

/-- Claim C15 as stated fails. In the reachable state in which `x.app` is the stack top in
state Background, `ForceStop` of the launcher name calls `OnBackground` on the native unit;
and with an empty stack it returns `PARAM_NULL_ERROR`. -/
theorem forceStop_home_sends_background :
    runController exampleCfg runHome xActive = some xBackground ∧
    IsLauncher LAUNCHER_BUNDLE_NAME = true ∧
    ForceStop (some LAUNCHER_BUNDLE_NAME) xBackground =
      some (Ret.ERR_OK,
        { xBackground with log := xBackground.log ++ [Event.nativeOnBackground] }) ∧
    ForceStop (some LAUNCHER_BUNDLE_NAME) {} = some (Ret.PARAM_NULL_ERROR, {}) := by
  refine ⟨xBackground_eq, by decide, rfl, rfl⟩

/-- Witness for C15 (amended): `ForceStop` of the launcher name while `x.app` is Active. -/
theorem ForceStop_home_witness :
    ForceStopBundle LAUNCHER_TOKEN xActive = some (Ret.ERR_OK, xActive) ∧
    ForceStop (some LAUNCHER_BUNDLE_NAME) xActive = some (Ret.ERR_OK, xActive) ∧
    ForceStop (some LAUNCHER_BUNDLE_NAME) xBackground =
      some (Ret.ERR_OK,
        { xBackground with log := xBackground.log ++ [Event.nativeOnBackground] }) :=
  ⟨(ForceStop_home xActive).1,
   (ForceStop_home xActive).2.1 LAUNCHER_BUNDLE_NAME 1 [0] xRecord (by decide) rfl rfl
     (by decide),
   (ForceStop_home xBackground).2.2 LAUNCHER_BUNDLE_NAME 1 [0]
     { xRecord with state := AbilityState.SCHEDULE_BACKGROUND } 0 (launcherRecord exampleEnv) 1
     (by decide) rfl rfl (by decide) rfl rfl rfl rfl⟩

/-! ## The foreground query -/

/-- Claim C20 (amended). With the home record registered and a live record on top of the
stack, `GetTopAbility` changes no state and returns `foregroundName`: the launcher name if
the stack top has token 0 or the home record is in state Active; otherwise the name of the
top record if that record is Active or Background, and an element without a name if not. -/
theorem GetTopAbility_cases (s : Manager) (top pL : Ptr) (rest : List Ptr)
    (t home : AbilityRecord) (hstack : s.abilityStack = top :: rest)
    (ht : s.heap.deref top = some t)
    (hg : AbilityList.getLoop s.heap 0 s.abilityList = some (some pL))
    (hh : s.heap.deref pL = some home) :
    GetTopAbility s = some (some { bundleName := foregroundName t home }, s) := by
  simp only [GetTopAbility, bind_apply, AbilityStack.GetTopAbility, hstack, List.head?_cons,
    Option.bind, Get_of_getLoop hg, deref, ht, hh, LAUNCHER_TOKEN, foregroundName]
  split_ifs <;> rfl

/-- Claim C20 as stated fails in two reachable states. With the home unit Active and `x.app`
on top in state Background the result is the launcher name, not `x.app`; with the home unit
in Background and `x.app` on top still Inactive the result carries no name at all. -/
theorem getTopAbility_differs :
    runController exampleCfg runHome xActive = some xBackground ∧
    xBackground.abilityStack.head? = some 1 ∧
    xBackground.heap.deref 1 = some { xRecord with state := AbilityState.SCHEDULE_BACKGROUND } ∧
    GetTopAbility xBackground = some (some { bundleName := some LAUNCHER_BUNDLE_NAME }, xBackground) ∧
    ((runController exampleCfg (runX.take 2) homeState).map
      fun s => (s.abilityStack, (s.heap.deref 1).map fun r => r.state)) =
      some ([1, 0], some AbilityState.SCHEDULE_INACTIVE) ∧
    ((runController exampleCfg (runX.take 2) homeState).bind
      fun s => (GetTopAbility s).map fun r => r.1) = some (some { bundleName := none }) := by
  refine ⟨xBackground_eq, rfl, rfl, rfl, rfl, rfl⟩

/-- Witness for C20 (amended): with `x.app` Active on top and the home unit in Background the
result is `x.app`. -/
theorem GetTopAbility_cases_witness :
    GetTopAbility xActive = some (some { bundleName := some "x.app".toList }, xActive) :=
  GetTopAbility_cases xActive 1 0 [0] xRecord
    { launcherRecord exampleEnv with state := AbilityState.SCHEDULE_BACKGROUND } rfl rfl rfl rfl

/-! ## Forced stop by token -/

theorem ForceStopBundleInner_some {t : Nat} {s : Manager} {p : Ptr} {r : AbilityRecord}
    (ht : t ≠ 0) (hg : AbilityList.getLoop s.heap t s.abilityList = some (some p))
    (hr : s.heap.deref p = some r) :
    ForceStopBundleInner t s =
      some (Ret.ERR_OK, withoutRecord { s with log := s.log ++ forceDestroyEvents r } p r) := by
  obtain ⟨hp0, al, st, pt, tok, na, fl, lg⟩ := s
  simp only at hg hr
  have hd : ∀ lg1, DeleteRecordInfo t (Manager.mk hp0 al st pt tok na fl lg1) =
      some ((), withoutRecord (Manager.mk hp0 al st pt tok na fl lg1) p r) :=
    fun lg1 => DeleteRecordInfo_some (s := Manager.mk hp0 al st pt tok na fl lg1) ht hg hr
  cases hh : r.jsAppHost with
  | none =>
    simp [ForceStopBundleInner, bind_apply, map_apply, AbilityList.Get, hg, deref, hr, hh,
      pure_apply, forceDestroyEvents, hd]
  | some host =>
    simp [ForceStopBundleInner, bind_apply, map_apply, AbilityList.Get, hg, deref, hr, hh,
      pure_apply, forceDestroyEvents, emit_apply, hd]

theorem ForceStopBundleInner_none {t : Nat} {s : Manager}
    (hg : AbilityList.getLoop s.heap t s.abilityList = some none) :
    ForceStopBundleInner t s = some (Ret.PARAM_NULL_ERROR, s) := by
  simp [ForceStopBundleInner, bind_apply, Get_of_getLoop hg, pure_apply]

/-- Claim C14. In a state that satisfies the data-model invariants, with the home record
registered and a native unit installed, `ForceStopBundle` with a nonzero token of a registered
record returns success, removes that record from registry and stack and deletes it (after
the forced destruction of its host and the teardown of its worker task), leaves every other
record in place, and calls `OnActive` on the native unit exactly when the home record is not
in state Active. With a token no registered record has it returns `PARAM_CHECK_ERROR` and
changes nothing. -/
theorem ForceStopBundle_spec (s : Manager) (pL n : Nat) (home : AbilityRecord) (token : Nat)
    (hwf : StateWF s) (hL : pL ∈ s.abilityList) (hhome : s.heap.deref pL = some home)
    (htok : home.token = 0) (hnat : s.nativeAbility = some n) (h0 : token ≠ 0) :
    (∀ p r, p ∈ s.abilityList → s.heap.deref p = some r → r.token = token →
      ∃ s1, ForceStopBundle token s = some (Ret.ERR_OK, s1) ∧
        p ∉ s1.abilityList ∧ p ∉ s1.abilityStack ∧ s1.heap.deref p = none ∧
        (∀ q ∈ s1.abilityList, ∃ rq, s1.heap.deref q = some rq ∧ rq.token ≠ token) ∧
        s1.abilityList = s.abilityList.erase p ∧ s1.abilityStack = s.abilityStack.erase p ∧
        (∀ q, q ≠ p → s1.heap.deref q = s.heap.deref q) ∧
        s1.log = s.log ++ forceDestroyEvents r ++ teardownEvents r ++
          (if home.state ≠ AbilityState.SCHEDULE_ACTIVE then
            nativeEvents State.STATE_ACTIVE home else [])) ∧
    ((∀ p ∈ s.abilityList, tokenAt s.heap p ≠ some token) →
      ForceStopBundle token s = some (Ret.PARAM_CHECK_ERROR, s)) := by
  constructor
  · intro p r hp hr hrt
    subst hrt
    have hg := getLoop_of_mem hwf.1 hwf.2.1 hp hr
    have hspec := HeapWF.remove_spec hwf hp hr
    have hpL : pL ≠ p := by
      rintro rfl
      rw [hhome] at hr
      cases hr
      exact h0 htok
    have hg0 : AbilityList.getLoop (s.heap.set p none) 0 (s.abilityList.erase p)
        = some (some pL) := by
      rw [getLoop_set_of_not_mem hspec.2.2.2.1, getLoop_erase_of_ne hr h0, ← htok]
      exact getLoop_of_mem hwf.1 hwf.2.1 hL hhome
    have hh1 : Heap.deref (s.heap.set p none) pL = some home := by
      rw [Heap.deref_set_ne _ _ _ _ hpL, hhome]
    let s1 := withoutRecord { s with log := s.log ++ forceDestroyEvents r } p r
    have hrun : ForceStopBundle r.token s =
        (if home.state ≠ AbilityState.SCHEDULE_ACTIVE then
          SchedulerLifecycleInner (some pL) State.STATE_ACTIVE s1
        else some (Ret.ERR_OK, s1)) := by
      have hget : AbilityList.Get LAUNCHER_TOKEN s1 = some (some pL, s1) :=
        Get_of_getLoop (s := s1) hg0
      have hd : deref pL s1 = some (home, s1) := by
        show (match Heap.deref (s.heap.set p none) pL with
          | some r => some (r, s1) | none => none) = _
        rw [hh1]
      have hsl : SchedulerLifecycle LAUNCHER_TOKEN State.STATE_ACTIVE s1 =
          SchedulerLifecycleInner (some pL) State.STATE_ACTIVE s1 :=
        SchedulerLifecycle_some (s := s1) hg0
      simp only [ForceStopBundle, LAUNCHER_TOKEN, h0, if_false, bind_apply,
        ForceStopBundleInner_some h0 hg hr, Option.bind, ne_eq, not_true_eq_false]
      show (AbilityList.Get LAUNCHER_TOKEN s1).bind _ = _
      rw [hget]
      simp only [Option.bind, bind_apply]
      rw [hd]
      simp only [Option.bind]
      split_ifs
      · rfl
      · exact hsl
    by_cases hact : home.state = AbilityState.SCHEDULE_ACTIVE
    · refine ⟨s1, ?_, hspec.2.2.2.1, hspec.2.2.2.2, Heap.deref_set_none _ _, hspec.2.1, rfl, rfl,
        fun q hq => Heap.deref_set_ne _ _ _ _ hq, ?_⟩
      · rw [hrun]; simp [hact]
      · simp [s1, withoutRecord, hact]
    · have hin : SchedulerLifecycleInner (some pL) State.STATE_ACTIVE s1 =
          some (Ret.ERR_OK, { s1 with log := s1.log ++ nativeEvents State.STATE_ACTIVE home }) :=
        SchedulerLifecycleInner_native (s := s1) State.STATE_ACTIVE hh1 htok hnat
      refine ⟨{ s1 with log := s1.log ++ nativeEvents State.STATE_ACTIVE home }, ?_,
        hspec.2.2.2.1, hspec.2.2.2.2, Heap.deref_set_none _ _, hspec.2.1, rfl, rfl,
        fun q hq => Heap.deref_set_ne _ _ _ _ hq, ?_⟩
      · rw [hrun, if_pos hact, hin]
      · simp [s1, withoutRecord, hact]
  · intro hall
    have hg : AbilityList.getLoop s.heap token s.abilityList = some none := by
      rcases getLoop_cases hwf token with ⟨hg, _⟩ | ⟨p, r, _, hp, hr, hrt⟩
      · exact hg
      · exact absurd (by rw [tokenAt_of_deref hr, hrt]) (hall p hp)
    simp [ForceStopBundle, LAUNCHER_TOKEN, h0, bind_apply, ForceStopBundleInner_none hg,
      pure_apply]

/-- Witness for C14: the forced stop of `x.app` by its token while it is foreground. -/
theorem ForceStopBundle_spec_witness :
    StateWF xActive ∧
    ∃ s1, ForceStopBundle 1 xActive = some (Ret.ERR_OK, s1) ∧
      s1.abilityList = [0] ∧ s1.abilityStack = [0] ∧ s1.heap.deref 1 = none ∧
      s1.log = xActive.log ++
        [Event.hostForceDestroy 100, Event.taskDelete 7, Event.queueDelete (some 9),
         Event.hostDelete (some 100),
         Event.nativeOnActive { element := some LAUNCHER_BUNDLE_NAME, data := none }] := by
  obtain ⟨s1, h1, _, _, h4, _, h6, h7, _, h9⟩ :=
    (ForceStopBundle_spec xActive 0 1
      { launcherRecord exampleEnv with state := AbilityState.SCHEDULE_BACKGROUND } 1
      (by decide) (by decide) rfl rfl rfl (by decide)).1 1 xRecord (by decide) rfl rfl
  exact ⟨by decide, s1, h1, h6.trans (by decide), h7.trans (by decide), h4, h9.trans (by decide)⟩

/-! ## The destroy acknowledgement of the foreground unit -/

theorem bind_eq_of {α β : Type} {m : M α} {f : α → M β} {s u : Manager} {a : α}
    (h : m s = some (a, u)) : (m >>= f) s = f a u := by
  rw [bind_apply, h]
  rfl

theorem map_eq_of {α β : Type} {m : M α} {f : α → β} {s u : Manager} {a : α}
    (h : m s = some (a, u)) : (f <$> m) s = some (f a, u) := by
  rw [map_apply, h]
  rfl

theorem SchedulerLifecycle_home {s : Manager} {pL : Ptr} {home : AbilityRecord} (st : State)
    (hg : AbilityList.getLoop s.heap 0 s.abilityList = some (some pL))
    (hh : s.heap.deref pL = some home) :
    SchedulerLifecycle 0 st s =
      some (if s.nativeAbility = none then Ret.PARAM_NULL_ERROR else Ret.ERR_OK,
        { s with log := s.log ++ homeEvents s.nativeAbility st home }) := by
  have hht : home.token = 0 := by
    obtain ⟨_, r, hr, hrt⟩ := getLoop_some_mem hg
    rw [hh] at hr
    cases hr
    exact hrt
  rw [SchedulerLifecycle_some hg]
  rcases Option.eq_none_or_eq_some s.nativeAbility with hn | ⟨n, hn⟩
  · rw [SchedulerLifecycleInner_noNative st hh hht hn]
    obtain ⟨hp, al, sk, pt, tok, na, fl, lg⟩ := s
    simp only at hn
    subst hn
    simp [homeEvents]
  · rw [SchedulerLifecycleInner_native st hh hht hn]
    simp [hn, homeEvents]

/-- The destroy acknowledgement of the foreground worker record removes and deletes that
record and then hands the foreground over. -/
theorem OnDestroyDone_top (env : Env) (s : Manager) (px : Ptr) (rest : List Ptr)
    (x : AbilityRecord) (hwf : StateWF s) (hstack : s.abilityStack = px :: rest)
    (hx : s.heap.deref px = some x) (hxt : x.token ≠ 0) :
    OnDestroyDone env x.token s = handOver env (withoutRecord s px x) := by
  have hpx : px ∈ s.abilityList := hwf.2.2.2 px (by rw [hstack]; exact List.mem_cons_self _ _)
  have hg := getLoop_of_mem hwf.1 hwf.2.1 hpx hx
  have hspec := HeapWF.remove_spec hwf hpx hx
  have hrest : px ∉ rest := by
    have := hwf.2.2.1
    rw [hstack] at this
    exact (List.nodup_cons.mp this).1
  have hsn : AbilityList.getLoop (s.heap.set px none) x.token (s.abilityList.erase px)
      = some none := (getLoop_none_iff _ _ _).mpr hspec.2.1
  obtain ⟨hp, al, sk, pt, tok, na, fl, lg⟩ := s
  simp only at hstack hx hg hsn
  subst hstack
  have hdel : DeleteRecordInfo x.token (Manager.mk hp al rest pt tok na fl lg) =
      some ((), withoutRecord (Manager.mk hp al (px :: rest) pt tok na fl lg) px x) := by
    rw [DeleteRecordInfo_some (s := Manager.mk hp al rest pt tok na fl lg) hxt hg hx]
    simp [withoutRecord, List.erase_of_not_mem hrest]
  have hset : SetAbilityState x.token AbilityState.SCHEDULE_STOP
      (withoutRecord (Manager.mk hp al (px :: rest) pt tok na fl lg) px x) =
      some ((), withoutRecord (Manager.mk hp al (px :: rest) pt tok na fl lg) px x) :=
    SetAbilityState_none (s := withoutRecord (Manager.mk hp al (px :: rest) pt tok na fl lg) px x)
      hsn
  unfold OnDestroyDone
  simp only [LAUNCHER_TOKEN, hxt, if_false]
  rw [bind_eq_of (u := Manager.mk hp al (px :: rest) pt tok na fl lg) (a := some px) rfl]
  simp only []
  rw [bind_eq_of (u := Manager.mk hp al (px :: rest) pt tok na fl lg) (a := x)
    (by simp [deref, hx])]
  simp only [pure_bind, ne_eq, not_true_eq_false, decide_False, Bool.false_eq_true, if_false]
  rw [bind_eq_of (u := Manager.mk hp al rest pt tok na fl lg) (a := ()) rfl]
  rw [bind_eq_of hdel, bind_eq_of hset]
  rfl

theorem CreateAppTask_none (env : Env) (s : Manager) :
    CreateAppTask env none s = some (Ret.PARAM_NULL_ERROR, s) := rfl

theorem CreateAppTask_fail (env : Env) {s : Manager} {py : Ptr} {y : AbilityRecord}
    (hy : s.heap.deref py = some y) (hfail : y.appName = none ∨ env.taskCreate = none) :
    ∃ ret, ret ≠ Ret.ERR_OK ∧ CreateAppTask env (some py) s = some (ret, s) := by
  by_cases hn : y.appName = none
  · refine ⟨Ret.PARAM_NULL_ERROR, by decide, ?_⟩
    simp [CreateAppTask, bind_apply, deref, hy, hn, pure_apply]
  · have ht : env.taskCreate = none := hfail.resolve_left hn
    refine ⟨Ret.CREATE_APPTASK_ERROR, by decide, ?_⟩
    simp [CreateAppTask, bind_apply, deref, hy, hn, ht, pure_apply]

theorem CreateAppTask_ok (env : Env) {s : Manager} {py pL : Ptr} {y home : AbilityRecord}
    {tid : Nat} (hy : s.heap.deref py = some y) (hyt : y.token ≠ 0) (hyn : y.appName ≠ none)
    (htask : env.taskCreate = some tid)
    (hgy : AbilityList.getLoop s.heap y.token s.abilityList = some (some py))
    (hg0 : AbilityList.getLoop s.heap 0 s.abilityList = some (some pL))
    (hh : s.heap.deref pL = some home) :
    CreateAppTask env (some py) s =
      some (Ret.ERR_OK, { s with
        heap := s.heap.set py (some (started env tid y))
        abilityStack := py :: s.abilityStack
        log := s.log ++ startEvents s.nativeAbility (started env tid y) }) := by
  have hht : home.token = 0 := by
    obtain ⟨_, r, hr, hrt⟩ := getLoop_some_mem hg0
    rw [hh] at hr
    cases hr
    exact hrt
  have hpL : pL ≠ py := by
    rintro rfl
    rw [hh] at hy
    cases hy
    exact hyt hht
  have hst : (started env tid y).token = y.token := rfl
  have hlt := Heap.deref_lt hy
  obtain ⟨hp, al, sk, pt, tok, na, fl, lg⟩ := s
  simp only at hy hgy hg0 hh hlt
  have hg0a : AbilityList.getLoop (hp.set py (some (started env tid y))) 0 al
      = some (some pL) := by
    rw [getLoop_set_sameToken hy hst]; exact hg0
  have hgya : AbilityList.getLoop (hp.set py (some (started env tid y))) y.token al
      = some (some py) := by
    rw [getLoop_set_sameToken hy hst]; exact hgy
  have hha : Heap.deref (hp.set py (some (started env tid y))) pL = some home := by
    rw [Heap.deref_set_ne _ _ _ _ hpL]; exact hh
  have hya : Heap.deref (hp.set py (some (started env tid y))) py
      = some (started env tid y) := by
    rw [Heap.deref_set_eq _ _ _ hlt]
  unfold CreateAppTask
  simp only []
  rw [bind_eq_of (u := Manager.mk hp al sk pt tok na fl lg) (a := y) (by simp [deref, hy])]
  simp only [hyn, if_false, htask]
  rw [bind_eq_of (a := ()) (u := Manager.mk (hp.set py (some (started env tid y))) al sk pt
    tok na fl lg) (by simp [store, hy, started])]
  rw [bind_eq_of (a := ()) (u := Manager.mk (hp.set py (some (started env tid y))) al
    (py :: sk) pt tok na fl lg) rfl]
  rw [bind_eq_of (get_apply _)]
  cases na with
  | none =>
    simp only [ne_eq, not_true_eq_false, if_false]
    rw [bind_eq_of (a := started env tid y) (u := Manager.mk
      (hp.set py (some (started env tid y))) al (py :: sk) pt tok none fl lg)
      (by simp [deref, hya])]
    have hsl := @SchedulerLifecycle_some y.token State.STATE_ACTIVE
      (Manager.mk (hp.set py (some (started env tid y))) al (py :: sk) pt tok none fl lg) py
      hgya
    have hin := SchedulerLifecycleInner_js (s := Manager.mk
      (hp.set py (some (started env tid y))) al (py :: sk) pt tok none fl lg)
      State.STATE_ACTIVE hya (by rw [hst]; exact hyt)
    rw [hst, bind_eq_of (hsl.trans hin)]
    rfl
  | some n =>
    simp only [ne_eq, reduceCtorEq, not_false_eq_true, if_true]
    have hsl := SchedulerLifecycle_home (s := Manager.mk
      (hp.set py (some (started env tid y))) al (py :: sk) pt tok (some n) fl lg)
      State.STATE_BACKGROUND hg0a hha
    simp only [LAUNCHER_TOKEN]
    rw [bind_eq_of hsl]
    simp [homeEvents, nativeEvents, startEvents, pure_apply]

theorem handOver_noPending (env : Env) {s : Manager} {pL : Ptr} {home : AbilityRecord}
    (hpend : s.pendingToken = 0)
    (hg0 : AbilityList.getLoop s.heap 0 s.abilityList = some (some pL))
    (hh : s.heap.deref pL = some home) :
    handOver env s =
      some ((), { s with
        log := s.log ++ homeEvents s.nativeAbility State.STATE_ACTIVE home }) := by
  unfold handOver
  rw [bind_eq_of (get_apply _)]
  simp only [hpend, if_true, LAUNCHER_TOKEN]
  rw [bind_eq_of (SchedulerLifecycle_home State.STATE_ACTIVE hg0 hh), pure_apply, hpend]

theorem handOver_absent (env : Env) {s : Manager} {pL : Ptr} {home : AbilityRecord}
    (hpend : s.pendingToken ≠ 0)
    (hg : AbilityList.getLoop s.heap s.pendingToken s.abilityList = some none)
    (hg0 : AbilityList.getLoop s.heap 0 s.abilityList = some (some pL))
    (hh : s.heap.deref pL = some home) :
    handOver env s =
      some ((), { s with
        pendingToken := 0
        log := s.log ++ homeEvents s.nativeAbility State.STATE_ACTIVE home }) := by
  obtain ⟨hp, al, sk, pt, tok, na, fl, lg⟩ := s
  simp only at hpend hg hg0 hh
  unfold handOver
  rw [bind_eq_of (get_apply _)]
  simp only [hpend, if_false, LAUNCHER_TOKEN]
  rw [bind_eq_of (Get_of_getLoop (s := Manager.mk hp al sk pt tok na fl lg) hg)]
  rw [bind_eq_of (CreateAppTask_none env _)]
  simp only [ne_eq, reduceCtorEq, not_false_eq_true, if_true]
  rw [bind_eq_of (a := ()) (u := Manager.mk hp al sk pt tok na fl lg)
    (by simp [AbilityList.Erase, eraseLoop_of_get_none hg])]
  rw [bind_eq_of (a := ()) (u := Manager.mk hp al sk pt tok na fl lg) rfl]
  rw [bind_eq_of (SchedulerLifecycle_home (s := Manager.mk hp al sk pt tok na fl lg)
    State.STATE_ACTIVE hg0 hh)]
  rfl

theorem handOver_failure (env : Env) {s : Manager} {py pL : Ptr} {y home : AbilityRecord}
    (hnd : s.abilityList.Nodup) (hpend : s.pendingToken ≠ 0)
    (hg : AbilityList.getLoop s.heap s.pendingToken s.abilityList = some (some py))
    (hy : s.heap.deref py = some y) (hfail : y.appName = none ∨ env.taskCreate = none)
    (hg0 : AbilityList.getLoop s.heap 0 s.abilityList = some (some pL))
    (hh : s.heap.deref pL = some home) :
    handOver env s =
      some ((), { s with
        heap := s.heap.set py none
        abilityList := s.abilityList.erase py
        pendingToken := 0
        log := s.log ++ homeEvents s.nativeAbility State.STATE_ACTIVE home }) := by
  have hyt : y.token = s.pendingToken := by
    obtain ⟨_, r, hr, hrt⟩ := getLoop_some_mem hg
    rw [hy] at hr
    cases hr
    exact hrt
  have hht : home.token = 0 := by
    obtain ⟨_, r, hr, hrt⟩ := getLoop_some_mem hg0
    rw [hh] at hr
    cases hr
    exact hrt
  have hpL : pL ≠ py := by
    rintro rfl
    rw [hh] at hy
    cases hy
    exact hpend (hyt ▸ hht)
  have hy0 : y.token ≠ 0 := hyt ▸ hpend
  have hnot : py ∉ s.abilityList.erase py :=
    fun hc => ((List.Nodup.mem_erase_iff hnd).mp hc).1 rfl
  obtain ⟨ret, hret, hc⟩ := CreateAppTask_fail env hy hfail
  obtain ⟨hp, al, sk, pt, tok, na, fl, lg⟩ := s
  simp only at hpend hg hg0 hh hy hc hnot
  have hg0a : AbilityList.getLoop (hp.set py none) 0 (al.erase py) = some (some pL) := by
    rw [getLoop_set_of_not_mem hnot, getLoop_erase_of_ne hy hy0]; exact hg0
  have hha : Heap.deref (hp.set py none) pL = some home := by
    rw [Heap.deref_set_ne _ _ _ _ hpL]; exact hh
  unfold handOver
  rw [bind_eq_of (get_apply _)]
  simp only [hpend, if_false, LAUNCHER_TOKEN]
  rw [bind_eq_of (Get_of_getLoop (s := Manager.mk hp al sk pt tok na fl lg) hg)]
  rw [bind_eq_of hc]
  simp only [ne_eq, hret, not_false_eq_true, if_true]
  rw [bind_eq_of (a := ()) (u := Manager.mk hp (al.erase py) sk pt tok na fl lg)
    (by simp [AbilityList.Erase, eraseLoop_of_get_some hg])]
  rw [bind_eq_of (a := ()) (u := Manager.mk (hp.set py none) (al.erase py) sk pt tok na fl lg)
    (by simp [delete, hy])]
  rw [bind_eq_of (SchedulerLifecycle_home (s := Manager.mk (hp.set py none) (al.erase py) sk pt
    tok na fl lg) State.STATE_ACTIVE hg0a hha)]
  rfl

theorem handOver_success (env : Env) {s : Manager} {py pL : Ptr} {y home : AbilityRecord}
    {tid : Nat} (hpend : s.pendingToken ≠ 0)
    (hg : AbilityList.getLoop s.heap s.pendingToken s.abilityList = some (some py))
    (hy : s.heap.deref py = some y) (hyn : y.appName ≠ none)
    (htask : env.taskCreate = some tid)
    (hg0 : AbilityList.getLoop s.heap 0 s.abilityList = some (some pL))
    (hh : s.heap.deref pL = some home) :
    handOver env s =
      some ((), { s with
        heap := s.heap.set py (some (started env tid y))
        abilityStack := py :: s.abilityStack
        pendingToken := 0
        log := s.log ++ startEvents s.nativeAbility (started env tid y) }) := by
  have hyt : y.token = s.pendingToken := by
    obtain ⟨_, r, hr, hrt⟩ := getLoop_some_mem hg
    rw [hy] at hr
    cases hr
    exact hrt
  have hy0 : y.token ≠ 0 := hyt ▸ hpend
  have hc := CreateAppTask_ok env hy hy0 hyn htask (hyt ▸ hg) hg0 hh
  obtain ⟨hp, al, sk, pt, tok, na, fl, lg⟩ := s
  simp only at hpend hg hg0 hh hy hc
  unfold handOver
  rw [bind_eq_of (get_apply _)]
  simp only [hpend, if_false, LAUNCHER_TOKEN]
  rw [bind_eq_of (Get_of_getLoop (s := Manager.mk hp al sk pt tok na fl lg) hg)]
  rw [bind_eq_of hc]
  simp only [ne_eq, not_true_eq_false, if_false]
  rfl

/-- The lookups that still succeed after another record was removed. -/
theorem withoutRecord_lookup {s : Manager} {px q : Ptr} {x r : AbilityRecord}
    (hwf : StateWF s) (hpx : px ∈ s.abilityList) (hx : s.heap.deref px = some x)
    (hq : q ∈ s.abilityList) (hr : s.heap.deref q = some r) (hne : q ≠ px) :
    AbilityList.getLoop (withoutRecord s px x).heap r.token (withoutRecord s px x).abilityList
      = some (some q) ∧
    (withoutRecord s px x).heap.deref q = some r ∧ q ∈ (withoutRecord s px x).abilityList := by
  have hnd := HeapWF.nodup hwf
  have hnot : px ∉ s.abilityList.erase px :=
    fun hc => ((List.Nodup.mem_erase_iff hnd).mp hc).1 rfl
  have htok : x.token ≠ r.token := by
    intro he
    apply hne
    exact HeapWF.inj hwf hq hpx (by rw [tokenAt_of_deref hr, tokenAt_of_deref hx, he])
  refine ⟨?_, ?_, (List.mem_erase_of_ne hne).mpr hq⟩
  · show AbilityList.getLoop (s.heap.set px none) r.token (s.abilityList.erase px) = _
    rw [getLoop_set_of_not_mem hnot, getLoop_erase_of_ne hx htok]
    exact getLoop_of_mem hwf.1 hwf.2.1 hq hr
  · show Heap.deref (s.heap.set px none) q = _
    rw [Heap.deref_set_ne _ _ _ _ hne, hr]

/-- Claim C16 (amended). In a state that satisfies the data-model invariants, with the home
record registered, a worker record `x` on top of the stack and a nonzero pending token held
by the registered record `y`: `OnDestroyDone` with the token of `x` removes `x` and leaves
the pending token 0. When `y` is another record with a name and task creation succeeds, `y`
is started (state Inactive, worker task, queue and host set) and is the stack top. In every
other case `y` is removed from the registry and deleted, the stack is the old one without its
top, and `OnActive` is called on the native unit if one is installed; without a native unit
nothing is dispatched. -/
theorem OnDestroyDone_handOver (env : Env) (s : Manager) (px py pL : Ptr) (rest : List Ptr)
    (x y home : AbilityRecord) (hwf : StateWF s) (hstack : s.abilityStack = px :: rest)
    (hx : s.heap.deref px = some x) (hxt : x.token ≠ 0) (hpend : s.pendingToken ≠ 0)
    (hpy : py ∈ s.abilityList) (hy : s.heap.deref py = some y) (hyt : y.token = s.pendingToken)
    (hpL : pL ∈ s.abilityList) (hhome : s.heap.deref pL = some home) (hht : home.token = 0) :
    ∃ s1, OnDestroyDone env x.token s = some ((), s1) ∧ s1.pendingToken = 0 ∧
      px ∉ s1.abilityList ∧ px ∉ s1.abilityStack ∧
      (∀ tid, py ≠ px → y.appName ≠ none → env.taskCreate = some tid →
        s1.heap.deref py = some (started env tid y) ∧
        (started env tid y).state = AbilityState.SCHEDULE_INACTIVE ∧
        s1.abilityStack = py :: rest ∧ py ∈ s1.abilityList ∧
        s1.log = s.log ++ teardownEvents x ++ startEvents s.nativeAbility (started env tid y)) ∧
      (py = px ∨ y.appName = none ∨ env.taskCreate = none →
        py ∉ s1.abilityList ∧ s1.abilityStack = rest ∧ s1.heap.deref py = none ∧
        s1.log = s.log ++ teardownEvents x ++
          homeEvents s.nativeAbility State.STATE_ACTIVE home) := by
  have hpx : px ∈ s.abilityList := hwf.2.2.2 px (by rw [hstack]; exact List.mem_cons_self _ _)
  have hnd := HeapWF.nodup hwf
  have hspec := HeapWF.remove_spec hwf hpx hx
  have hrest : px ∉ rest := by
    have := hwf.2.2.1
    rw [hstack] at this
    exact (List.nodup_cons.mp this).1
  have hstk : (withoutRecord s px x).abilityStack = rest := by
    show s.abilityStack.erase px = rest
    rw [hstack, List.erase_cons_head]
  have hpLx : pL ≠ px := by
    rintro rfl
    rw [hhome] at hx
    cases hx
    exact hxt hht
  obtain ⟨hg0, hh0, _⟩ := withoutRecord_lookup hwf hpx hx hpL hhome hpLx
  rw [hht] at hg0
  have hpu : (withoutRecord s px x).pendingToken ≠ 0 := hpend
  rw [OnDestroyDone_top env s px rest x hwf hstack hx hxt]
  by_cases hpp : py = px
  · subst hpp
    rw [hx] at hy
    cases hy
    have hgn : AbilityList.getLoop (withoutRecord s py x).heap (withoutRecord s py x).pendingToken
        (withoutRecord s py x).abilityList = some none := by
      show AbilityList.getLoop (s.heap.set py none) s.pendingToken (s.abilityList.erase py) = _
      rw [← hyt]
      exact (getLoop_none_iff _ _ _).mpr hspec.2.1
    refine ⟨_, handOver_absent env hpu hgn hg0 hh0, rfl, hspec.2.2.2.1, ?_, ?_, ?_⟩
    · show py ∉ (withoutRecord s py x).abilityStack
      rw [hstk]; exact hrest
    · intro tid hc
      exact absurd rfl hc
    · intro _
      refine ⟨hspec.2.2.2.1, hstk, Heap.deref_set_none _ _, ?_⟩
      simp [withoutRecord, List.append_assoc]
  · obtain ⟨hgy, hy0, hpyu⟩ := withoutRecord_lookup hwf hpx hx hpy hy hpp
    rw [hyt] at hgy
    have hxp : px ≠ py := fun hc => hpp hc.symm
    by_cases hfail : y.appName = none ∨ env.taskCreate = none
    · have hndu : (withoutRecord s px x).abilityList.Nodup := hnd.erase px
      refine ⟨_, handOver_failure env hndu hpu hgy hy0 hfail hg0 hh0, rfl, ?_, ?_, ?_, ?_⟩
      · exact fun hc => hspec.2.2.2.1 (List.mem_of_mem_erase hc)
      · show px ∉ (withoutRecord s px x).abilityStack
        rw [hstk]; exact hrest
      · intro tid _ hn ht
        rcases hfail with h | h
        · exact absurd h hn
        · rw [ht] at h; cases h
      · intro _
        refine ⟨?_, hstk, Heap.deref_set_none _ _, ?_⟩
        · exact fun hc => ((List.Nodup.mem_erase_iff hndu).mp hc).1 rfl
        · simp [withoutRecord, List.append_assoc]
    · have hyn : y.appName ≠ none := fun hc => hfail (Or.inl hc)
      obtain ⟨tid, htask⟩ : ∃ tid, env.taskCreate = some tid := by
        cases ht : env.taskCreate with
        | none => exact absurd (Or.inr ht) hfail
        | some tid => exact ⟨tid, rfl⟩
      refine ⟨_, handOver_success env hpu hgy hy0 hyn htask hg0 hh0, rfl, hspec.2.2.2.1, ?_, ?_, ?_⟩
      · show px ∉ py :: (withoutRecord s px x).abilityStack
        rw [hstk]
        exact fun hc => (List.mem_cons.mp hc).elim hxp hrest
      · intro tid1 _ _ ht1
        rw [htask] at ht1
        cases ht1
        refine ⟨?_, rfl, ?_, hpyu, ?_⟩
        · show Heap.deref ((s.heap.set px none).set py (some (started env tid y))) py = _
          rw [Heap.deref_set_eq]
          rw [List.length_set]
          exact Heap.deref_lt hy
        · show py :: (withoutRecord s px x).abilityStack = py :: rest
          rw [hstk]
        · simp [withoutRecord, List.append_assoc]
      · rintro (h | h | h)
        · exact absurd h hpp
        · exact absurd h hyn
        · rw [htask] at h; cases h

/-- Witness for C16 (amended): the destroy acknowledgement of `x.app` starts the pending
`y.app`. -/
theorem OnDestroyDone_handOver_witness :
    StateWF yPending ∧
    ∃ s1, OnDestroyDone exampleEnv 1 yPending = some ((), s1) ∧ s1.pendingToken = 0 ∧
      s1.abilityStack = [2, 0] ∧
      s1.heap.deref 2 =
        some (started exampleEnv 7 (stopRecord 2 "y.app".toList (some "/y".toList) none)) := by
  obtain ⟨s1, h1, h2, _, _, h5, _⟩ := OnDestroyDone_handOver exampleEnv yPending 1 2 0 [0]
    { xRecord with isTerminated := true } (stopRecord 2 "y.app".toList (some "/y".toList) none)
    { launcherRecord exampleEnv with state := AbilityState.SCHEDULE_BACKGROUND }
    (by decide) rfl rfl (by decide) (by decide) (by decide) rfl rfl (by decide) rfl rfl
  obtain ⟨h6, _, h7, _⟩ := h5 7 (by decide) (by decide) rfl
  exact ⟨by decide, s1, h1, h2, h7, h6⟩

/-- Claim C16 as stated fails. On a controller without a native unit, with `x.app`
foreground and `y.app` pending under token 2, the destroy acknowledgement of `x.app` with a
failing task creation removes both records and clears the pending token, but the only calls
it makes are the teardown of `x.app`: no Active instruction reaches the home unit. -/
theorem handOver_without_native :
    ((runController roomyCfg runNoNative {}).map fun s =>
      (s.abilityList, s.abilityStack, s.pendingToken, s.nativeAbility,
        (s.heap.deref 1).map (fun r => r.token), (s.heap.deref 2).map (fun r => r.token),
        s.log.length)) =
      some ([2, 1, 0], [1, 0], 2, none, some 1, some 2, 2) ∧
    failEnv.taskCreate = none ∧
    ((runController roomyCfg runNoNative {}).bind fun s =>
      (OnDestroyDone failEnv 1 s).map fun r =>
        (r.2.abilityList, r.2.abilityStack, r.2.pendingToken, r.2.heap.deref 2,
          r.2.log.drop 2)) =
      some ([0], [0], 0, none,
        [Event.taskDelete 7, Event.queueDelete (some 9), Event.hostDelete (some 100)]) := by
  refine ⟨rfl, rfl, rfl⟩

/-- After the foreground record was removed the hand-over is defined, keeps that record out
of registry and stack, and does not touch the home record. -/
theorem handOver_frame (env : Env) {u : Manager} {px pL : Ptr} {home : AbilityRecord}
    (hwf : StateWF u) (hpL : pL ∈ u.abilityList) (hh : u.heap.deref pL = some home)
    (hht : home.token = 0)
    (hl : px ∉ u.abilityList) (hk : px ∉ u.abilityStack) (hd : u.heap.deref px = none) :
    ∃ s1, handOver env u = some ((), s1) ∧ px ∉ s1.abilityList ∧ px ∉ s1.abilityStack ∧
      s1.heap.deref px = none ∧ s1.heap.deref pL = some home ∧ s1.pendingToken = 0 := by
  have hg0 : AbilityList.getLoop u.heap 0 u.abilityList = some (some pL) := by
    rw [← hht]; exact getLoop_of_mem hwf.1 hwf.2.1 hpL hh
  by_cases hpend : u.pendingToken = 0
  · exact ⟨_, handOver_noPending env hpend hg0 hh, hl, hk, hd, hh, hpend⟩
  · rcases getLoop_cases hwf u.pendingToken with ⟨hg, _⟩ | ⟨py, y, hg, hpy, hy, hyt⟩
    · exact ⟨_, handOver_absent env hpend hg hg0 hh, hl, hk, hd, hh, rfl⟩
    · have hpyx : px ≠ py := fun hc => hl (hc ▸ hpy)
      have hpyL : pL ≠ py := by
        rintro rfl
        rw [hh] at hy
        cases hy
        exact hpend (hyt ▸ hht)
      by_cases hfail : y.appName = none ∨ env.taskCreate = none
      · refine ⟨_, handOver_failure env (HeapWF.nodup hwf) hpend hg hy hfail hg0 hh,
          fun hc => hl (List.mem_of_mem_erase hc), hk, ?_, ?_, rfl⟩
        · show Heap.deref (u.heap.set py none) px = none
          rw [Heap.deref_set_ne _ _ _ _ hpyx, hd]
        · show Heap.deref (u.heap.set py none) pL = some home
          rw [Heap.deref_set_ne _ _ _ _ hpyL, hh]
      · have hyn : y.appName ≠ none := fun hc => hfail (Or.inl hc)
        obtain ⟨tid, htask⟩ : ∃ tid, env.taskCreate = some tid := by
          cases ht : env.taskCreate with
          | none => exact absurd (Or.inr ht) hfail
          | some tid => exact ⟨tid, rfl⟩
        refine ⟨_, handOver_success env hpend hg hy hyn htask hg0 hh, hl,
          fun hc => (List.mem_cons.mp hc).elim hpyx hk, ?_, ?_, rfl⟩
        · show Heap.deref (u.heap.set py (some (started env tid y))) px = none
          rw [Heap.deref_set_ne _ _ _ _ hpyx, hd]
        · show Heap.deref (u.heap.set py (some (started env tid y))) pL = some home
          rw [Heap.deref_set_ne _ _ _ _ hpyL, hh]

/-! ## The active acknowledgement of the home unit -/

/-- Claim C18 (amended). In a state that satisfies the data-model invariants, with a native
unit installed, the home record registered and a worker record `x` on top of the stack,
`OnActiveDone` with token 0 sets the home record to Active. If the native unit is not itself
active, nothing else happens. If the native unit is active: a top record in state Active is
removed from registry and stack and deleted (through its destroy acknowledgement); one that
is neither Active nor Background is removed from stack and registry and deleted; one that is
Background and marked terminated is sent a Destroy instruction; otherwise nothing else
changes. -/
theorem OnActiveDone_home (env : Env) (s : Manager) (px pL : Ptr) (rest : List Ptr)
    (x home : AbilityRecord) (hwf : StateWF s) (hnat : s.nativeAbility ≠ none)
    (hstack : s.abilityStack = px :: rest)
    (hx : s.heap.deref px = some x) (hxt : x.token ≠ 0)
    (hpL : pL ∈ s.abilityList) (hhome : s.heap.deref pL = some home) (hht : home.token = 0) :
    (env.nativeState ≠ State.STATE_ACTIVE →
      OnActiveDone env 0 s =
        some ((), withState s pL home AbilityState.SCHEDULE_ACTIVE)) ∧
    (env.nativeState = State.STATE_ACTIVE →
      (x.state = AbilityState.SCHEDULE_ACTIVE →
        ∃ s1, OnActiveDone env 0 s = some ((), s1) ∧
          px ∉ s1.abilityList ∧ px ∉ s1.abilityStack ∧ s1.heap.deref px = none ∧
          s1.heap.deref pL = some { home with state := AbilityState.SCHEDULE_ACTIVE }) ∧
      (x.state ≠ AbilityState.SCHEDULE_ACTIVE → x.state ≠ AbilityState.SCHEDULE_BACKGROUND →
        OnActiveDone env 0 s =
          some ((), withoutRecord (withState s pL home AbilityState.SCHEDULE_ACTIVE) px x)) ∧
      (x.state = AbilityState.SCHEDULE_BACKGROUND → x.isTerminated = true →
        OnActiveDone env 0 s =
          some ((), { withState s pL home AbilityState.SCHEDULE_ACTIVE with
            log := s.log ++ [jsMsgOf State.STATE_UNINITIALIZED x] })) ∧
      (x.state = AbilityState.SCHEDULE_BACKGROUND → x.isTerminated = false →
        OnActiveDone env 0 s =
          some ((), withState s pL home AbilityState.SCHEDULE_ACTIVE))) := by
  have hpx : px ∈ s.abilityList := hwf.2.2.2 px (by rw [hstack]; exact List.mem_cons_self _ _)
  have hpLx : pL ≠ px := by
    rintro rfl
    rw [hhome] at hx
    cases hx
    exact hxt hht
  have hrest : px ∉ rest := by
    have := hwf.2.2.1
    rw [hstack] at this
    exact (List.nodup_cons.mp this).1
  have hg0 : AbilityList.getLoop s.heap 0 s.abilityList = some (some pL) := by
    rw [← hht]; exact getLoop_of_mem hwf.1 hwf.2.1 hpL hhome
  have hset : SetAbilityState 0 AbilityState.SCHEDULE_ACTIVE s =
      some ((), withState s pL home AbilityState.SCHEDULE_ACTIVE) :=
    SetAbilityState_some hg0 hhome
  have hwf0 : StateWF (withState s pL home AbilityState.SCHEDULE_ACTIVE) :=
    HeapWF.store_sameToken hwf hhome rfl
  have hx0 : (withState s pL home AbilityState.SCHEDULE_ACTIVE).heap.deref px = some x := by
    show Heap.deref (s.heap.set pL _) px = _
    rw [Heap.deref_set_ne _ _ _ _ (Ne.symm hpLx), hx]
  have hh0 : (withState s pL home AbilityState.SCHEDULE_ACTIVE).heap.deref pL =
      some { home with state := AbilityState.SCHEDULE_ACTIVE } := by
    show Heap.deref (s.heap.set pL _) pL = _
    rw [Heap.deref_set_eq _ _ _ (Heap.deref_lt hhome)]
  have hstack0 : (withState s pL home AbilityState.SCHEDULE_ACTIVE).abilityStack = px :: rest :=
    hstack
  -- the code that runs after the home record was set to Active
  have hrun : OnActiveDone env 0 s =
      (if env.nativeState ≠ State.STATE_ACTIVE then
        some ((), withState s pL home AbilityState.SCHEDULE_ACTIVE)
      else if x.state = AbilityState.SCHEDULE_ACTIVE then
        OnDestroyDone env x.token (withState s pL home AbilityState.SCHEDULE_ACTIVE)
      else if x.state ≠ AbilityState.SCHEDULE_BACKGROUND then
        DeleteRecordInfo x.token
          { withState s pL home AbilityState.SCHEDULE_ACTIVE with abilityStack := rest }
      else if x.isTerminated then
        (SchedulerLifecycleInner (some px) State.STATE_UNINITIALIZED
          (withState s pL home AbilityState.SCHEDULE_ACTIVE)).map fun r => ((), r.2)
      else some ((), withState s pL home AbilityState.SCHEDULE_ACTIVE)) := by
    unfold OnActiveDone
    rw [bind_eq_of hset]
    rw [bind_eq_of (a := some px) (u := withState s pL home AbilityState.SCHEDULE_ACTIVE)
      (by simp [AbilityStack.GetTopAbility, hstack0])]
    simp only [LAUNCHER_TOKEN, if_true]
    rw [bind_eq_of (get_apply _)]
    have hna : (withState s pL home AbilityState.SCHEDULE_ACTIVE).nativeAbility
        = s.nativeAbility := rfl
    obtain ⟨n, hn⟩ := Option.isSome_iff_exists.mp (Option.ne_none_iff_isSome.mp hnat)
    rw [hna]
    by_cases hf : env.nativeState ≠ State.STATE_ACTIVE
    · rw [if_pos (Or.inr hf), if_pos hf, hn]; rfl
    · rw [if_neg (fun hc => hc.elim hnat hf), if_neg hf]
      rw [bind_eq_of (a := x) (u := withState s pL home AbilityState.SCHEDULE_ACTIVE)
        (by simp [deref, hx0])]
      simp only [ne_eq, hxt, not_false_eq_true, if_true]
      by_cases h1 : x.state = AbilityState.SCHEDULE_ACTIVE
      · rw [if_pos h1, if_pos h1]
      · rw [if_neg h1, if_neg h1]
        by_cases h2 : x.state = AbilityState.SCHEDULE_BACKGROUND
        · simp only [h2, not_true_eq_false, if_false]
          by_cases h3 : x.isTerminated = true
          · simp only [h3, if_true]
            rw [bind_apply]
            cases SchedulerLifecycleInner (some px) State.STATE_UNINITIALIZED
              (withState s pL home AbilityState.SCHEDULE_ACTIVE) <;> rfl
          · simp only [h3, Bool.false_eq_true, if_false]
            rfl
        · simp only [h2, not_false_eq_true, if_true]
          rw [bind_eq_of (a := ()) (u := { withState s pL home AbilityState.SCHEDULE_ACTIVE
            with abilityStack := rest }) (by simp [AbilityStack.PopAbility, modify_apply, hstack0])]
          rfl
  constructor
  · intro hf
    rw [hrun, if_pos hf]
  · intro hact
    have hf : ¬ (env.nativeState ≠ State.STATE_ACTIVE) := fun h => h hact
    rw [hrun, if_neg hf]
    refine ⟨?_, ?_, ?_, ?_⟩
    · intro h1
      rw [if_pos h1, OnDestroyDone_top env _ px rest x hwf0 hstack0 hx0 hxt]
      have hspec := HeapWF.remove_spec hwf0 hpx hx0
      have hk : px ∉ (withoutRecord (withState s pL home AbilityState.SCHEDULE_ACTIVE) px
          x).abilityStack := by
        show px ∉ List.erase s.abilityStack px
        rw [hstack, List.erase_cons_head]; exact hrest
      obtain ⟨s1, h1, h2, h3, h4, h5, _⟩ := @handOver_frame env
        (withoutRecord (withState s pL home AbilityState.SCHEDULE_ACTIVE) px x) px pL
        { home with state := AbilityState.SCHEDULE_ACTIVE } hspec.1
        ((List.mem_erase_of_ne hpLx).mpr hpL)
        (by
          show Heap.deref (List.set _ px none) pL = _
          rw [Heap.deref_set_ne _ _ _ _ hpLx]; exact hh0)
        hht hspec.2.2.2.1 hk (Heap.deref_set_none _ _)
      exact ⟨s1, h1, h2, h3, h4, h5⟩
    · intro h1 h2
      rw [if_neg h1, if_pos h2]
      have hg : AbilityList.getLoop (withState s pL home AbilityState.SCHEDULE_ACTIVE).heap
          x.token (withState s pL home AbilityState.SCHEDULE_ACTIVE).abilityList
          = some (some px) := getLoop_of_mem hwf0.1 hwf0.2.1 hpx hx0
      rw [DeleteRecordInfo_some (s := { withState s pL home AbilityState.SCHEDULE_ACTIVE with
        abilityStack := rest }) hxt hg hx0]
      simp [withoutRecord, withState, hstack, List.erase_of_not_mem hrest]
    · intro h2 h3
      rw [if_neg (by rw [h2]; decide), if_neg (by simp [h2]), if_pos h3,
        SchedulerLifecycleInner_js State.STATE_UNINITIALIZED hx0 hxt]
      rfl
    · intro h2 h3
      rw [if_neg (by rw [h2]; decide), if_neg (by simp [h2]), if_neg (by simp [h3])]

/-- Claim C18 as stated fails. In the reachable state with `x.app` on top and Active, the
active acknowledgement of the home unit while the native unit reports Background sets the
home record to Active and leaves `x.app` in the registry and on the stack. -/
theorem onActiveDone_fault_is_ignored :
    runController exampleCfg runX homeState = some xActive ∧
    xActive.abilityStack.head? = some 1 ∧ xActive.heap.deref 1 = some xRecord ∧
    xRecord.state = AbilityState.SCHEDULE_ACTIVE ∧ xRecord.token ≠ 0 ∧
    xActive.nativeAbility = some 1 ∧
    nativeBackgroundEnv.nativeState ≠ State.STATE_ACTIVE ∧
    OnActiveDone nativeBackgroundEnv 0 xActive =
      some ((), { xActive with heap := [some (launcherRecord exampleEnv), some xRecord] }) := by
  refine ⟨xActive_eq, rfl, rfl, rfl, by decide, rfl, by decide, rfl⟩

/-- Witness for C18 (amended): with the native unit active, the conflicting foreground unit
`x.app` is torn down. -/
theorem OnActiveDone_home_witness :
    StateWF xActive ∧
    ∃ s1, OnActiveDone exampleEnv 0 xActive = some ((), s1) ∧
      1 ∉ s1.abilityList ∧ 1 ∉ s1.abilityStack ∧ s1.heap.deref 1 = none := by
  obtain ⟨s1, h1, h2, h3, h4, _⟩ := ((OnActiveDone_home exampleEnv xActive 1 0 [0] xRecord
    { launcherRecord exampleEnv with state := AbilityState.SCHEDULE_BACKGROUND }
    (by decide) (by decide) rfl rfl (by decide) (by decide) rfl rfl).2 rfl).1 rfl
  exact ⟨by decide, s1, h1, h2, h3, h4⟩

/-! ## The background acknowledgement -/

/-- Claim C19 (amended). In a state that satisfies the data-model invariants,
`OnBackgroundDone` with the token of a registered record `r` sets that record to Background.
For a worker record on top of the stack, with the home record registered, it then calls
`OnActive` on the native unit if one is installed and dispatches nothing without one; for a
worker record that is not the stack top nothing is dispatched. For the home record under a
worker record `x` on top, an Active instruction is sent to `x`, the payload of the home
record is cleared if the clear-data flag is set, and the flag ends up reset; with the home
record itself on top nothing is dispatched. -/
theorem OnBackgroundDone_spec (s : Manager) (p : Ptr) (r : AbilityRecord) (hwf : StateWF s)
    (hp : p ∈ s.abilityList) (hr : s.heap.deref p = some r) :
    (∀ rest pL home, r.token ≠ 0 → s.abilityStack = p :: rest → pL ∈ s.abilityList →
      s.heap.deref pL = some home → home.token = 0 →
      OnBackgroundDone r.token s =
        some ((), { withState s p r AbilityState.SCHEDULE_BACKGROUND with
          log := s.log ++ homeEvents s.nativeAbility State.STATE_ACTIVE home })) ∧
    (r.token ≠ 0 → s.abilityStack.head? ≠ some p →
      OnBackgroundDone r.token s =
        some ((), withState s p r AbilityState.SCHEDULE_BACKGROUND)) ∧
    (∀ px rest x, r.token = 0 → s.abilityStack = px :: rest → s.heap.deref px = some x →
      x.token ≠ 0 →
      OnBackgroundDone 0 s =
        some ((), { s with
          heap := s.heap.set p (some { r with
            state := AbilityState.SCHEDULE_BACKGROUND
            abilityData := if s.cleanAbilityDataFlag then none else r.abilityData })
          cleanAbilityDataFlag := false
          log := s.log ++ [jsMsgOf State.STATE_ACTIVE x] })) ∧
    (r.token = 0 → s.abilityStack.head? = some p ∨ s.abilityStack = [] →
      OnBackgroundDone 0 s = some ((), withState s p r AbilityState.SCHEDULE_BACKGROUND)) := by
  have hg := getLoop_of_mem hwf.1 hwf.2.1 hp hr
  have hset : SetAbilityState r.token AbilityState.SCHEDULE_BACKGROUND s =
      some ((), withState s p r AbilityState.SCHEDULE_BACKGROUND) := SetAbilityState_some hg hr
  have hlt := Heap.deref_lt hr
  have hp0 : (withState s p r AbilityState.SCHEDULE_BACKGROUND).heap.deref p =
      some { r with state := AbilityState.SCHEDULE_BACKGROUND } := by
    show Heap.deref (s.heap.set p _) p = _
    rw [Heap.deref_set_eq _ _ _ hlt]
  have hother : ∀ q, q ≠ p →
      (withState s p r AbilityState.SCHEDULE_BACKGROUND).heap.deref q = s.heap.deref q :=
    fun q hq => Heap.deref_set_ne _ _ _ _ hq
  have hg0 : ∀ t, AbilityList.getLoop (withState s p r AbilityState.SCHEDULE_BACKGROUND).heap t
      s.abilityList = AbilityList.getLoop s.heap t s.abilityList :=
    fun t => @getLoop_set_sameToken s.heap p r
      { r with state := AbilityState.SCHEDULE_BACKGROUND } hr rfl t s.abilityList
  refine ⟨?_, ?_, ?_, ?_⟩
  · intro rest pL home ht hstack hpL hhome hht
    have hpLp : pL ≠ p := by
      rintro rfl
      rw [hhome] at hr
      cases hr
      exact ht hht
    have hgL : AbilityList.getLoop (withState s p r AbilityState.SCHEDULE_BACKGROUND).heap 0
        (withState s p r AbilityState.SCHEDULE_BACKGROUND).abilityList = some (some pL) := by
      show AbilityList.getLoop _ 0 s.abilityList = _
      rw [hg0, ← hht]
      exact getLoop_of_mem hwf.1 hwf.2.1 hpL hhome
    unfold OnBackgroundDone
    rw [bind_eq_of hset]
    rw [bind_eq_of (a := some p) (u := withState s p r AbilityState.SCHEDULE_BACKGROUND)
      (by simp [AbilityStack.GetTopAbility, withState, hstack])]
    simp only []
    rw [bind_eq_of (a := { r with state := AbilityState.SCHEDULE_BACKGROUND })
      (u := withState s p r AbilityState.SCHEDULE_BACKGROUND) (by simp [deref, hp0])]
    simp only [LAUNCHER_TOKEN, ne_eq, ht, not_false_eq_true, if_true]
    rw [bind_eq_of (SchedulerLifecycle_home State.STATE_ACTIVE hgL
      ((hother pL hpLp).trans hhome))]
    rfl
  · intro ht htop
    unfold OnBackgroundDone
    rw [bind_eq_of hset]
    cases hstack : s.abilityStack with
    | nil =>
      rw [bind_eq_of (a := none) (u := withState s p r AbilityState.SCHEDULE_BACKGROUND)
        (by simp [AbilityStack.GetTopAbility, withState, hstack])]
      rfl
    | cons top rest =>
      have htp : top ≠ p := by
        rintro rfl
        exact htop (by rw [hstack]; rfl)
      have htl : top ∈ s.abilityList :=
        hwf.2.2.2 top (by rw [hstack]; exact List.mem_cons_self _ _)
      obtain ⟨t, htr⟩ := Option.isSome_iff_exists.mp (hwf.1 top htl)
      have htt : t.token ≠ r.token := by
        intro he
        exact htp (HeapWF.inj hwf htl hp (by rw [tokenAt_of_deref htr, tokenAt_of_deref hr, he]))
      rw [bind_eq_of (a := some top) (u := withState s p r AbilityState.SCHEDULE_BACKGROUND)
        (by simp [AbilityStack.GetTopAbility, withState, hstack])]
      simp only []
      rw [bind_eq_of (a := t) (u := withState s p r AbilityState.SCHEDULE_BACKGROUND)
        (by simp [deref, (hother top htp).trans htr])]
      simp only [LAUNCHER_TOKEN, ne_eq, ht, not_false_eq_true, if_true, htt, if_false]
      rfl
  · intro px rest x ht hstack hx hxt
    have hpxp : px ≠ p := by
      rintro rfl
      rw [hx] at hr
      cases hr
      exact hxt ht
    rw [ht] at hset hg
    have hx0 := (hother px hpxp).trans hx
    have hgp : AbilityList.getLoop (withState s p r AbilityState.SCHEDULE_BACKGROUND).heap 0
        s.abilityList = some (some p) := by
      rw [hg0]; exact hg
    obtain ⟨hp1, al, sk, pt, tok, na, fl, lg⟩ := s
    simp only [withState] at hstack hx0 hgp hp0 hset ⊢
    subst hstack
    unfold OnBackgroundDone
    rw [bind_eq_of hset]
    rw [bind_eq_of (a := some px) (u := Manager.mk (hp1.set p (some { r with
      state := AbilityState.SCHEDULE_BACKGROUND })) al (px :: rest) pt tok na fl lg) rfl]
    simp only []
    rw [bind_eq_of (a := x) (u := Manager.mk (hp1.set p (some { r with
      state := AbilityState.SCHEDULE_BACKGROUND })) al (px :: rest) pt tok na fl lg)
      (by simp [deref, hx0])]
    simp only [LAUNCHER_TOKEN, ne_eq, not_true_eq_false, if_false, hxt, not_false_eq_true,
      if_true]
    rw [bind_eq_of (SchedulerLifecycleInner_js (s := Manager.mk (hp1.set p (some { r with
      state := AbilityState.SCHEDULE_BACKGROUND })) al (px :: rest) pt tok na fl lg)
      State.STATE_ACTIVE hx0 hxt)]
    rw [bind_eq_of (get_apply _)]
    cases fl with
    | false => rfl
    | true =>
      simp only [if_true]
      rw [bind_eq_of (Get_of_getLoop (s := Manager.mk (hp1.set p (some { r with
        state := AbilityState.SCHEDULE_BACKGROUND })) al (px :: rest) pt tok na true
        (lg ++ [jsMsgOf State.STATE_ACTIVE x])) hgp)]
      simp [bind_apply, store, hp0, modify_apply, AbilityRecord.SetWantData, hlt]
  · intro ht htop
    rw [ht] at hset
    unfold OnBackgroundDone
    rw [bind_eq_of hset]
    rcases htop with htop | htop
    · rw [bind_eq_of (a := some p) (u := withState s p r AbilityState.SCHEDULE_BACKGROUND)
        (by simp [AbilityStack.GetTopAbility, withState, htop])]
      simp only []
      rw [bind_eq_of (a := { r with state := AbilityState.SCHEDULE_BACKGROUND })
        (u := withState s p r AbilityState.SCHEDULE_BACKGROUND) (by simp [deref, hp0])]
      simp [LAUNCHER_TOKEN, ht, pure_apply]
    · rw [bind_eq_of (a := none) (u := withState s p r AbilityState.SCHEDULE_BACKGROUND)
        (by simp [AbilityStack.GetTopAbility, withState, htop])]
      rfl

/-- Claim C19 as stated fails. On a controller without a native unit, with `x.app`
foreground and told to go to the background, the background acknowledgement of `x.app` sets
its record to Background and dispatches nothing: no Active instruction reaches the home
unit. -/
theorem onBackgroundDone_without_native :
    ((runController roomyCfg (runNoNative.take 3 ++ [Op.terminateAbility 1]) {}).map fun s =>
      (s.abilityList, s.abilityStack, s.nativeAbility,
        (s.heap.deref 1).map (fun r => r.token), (s.heap.deref 0).map (fun r => r.token))) =
      some ([1, 0], [1, 0], none, some 1, some 0) ∧
    ((runController roomyCfg (runNoNative.take 3 ++ [Op.terminateAbility 1]) {}).bind fun s =>
      (OnBackgroundDone 1 s).map fun r =>
        ((r.2.heap.deref 1).map (fun w => w.state), r.2.log.drop s.log.length)) =
      some (some AbilityState.SCHEDULE_BACKGROUND, []) := by
  refine ⟨rfl, rfl⟩

/-- Witness for C19 (amended): the background acknowledgement of the foreground unit `x.app`
activates the home unit through the installed native unit. -/
theorem OnBackgroundDone_spec_witness :
    StateWF xActive ∧
    OnBackgroundDone 1 xActive =
      some ((), { withState xActive 1 xRecord AbilityState.SCHEDULE_BACKGROUND with
        log := xActive.log ++
          [Event.nativeOnActive { element := some LAUNCHER_BUNDLE_NAME, data := none }] }) :=
  ⟨by decide,
   (OnBackgroundDone_spec xActive 1 xRecord (by decide) (by decide) rfl).1 [0] 0
     { launcherRecord exampleEnv with state := AbilityState.SCHEDULE_BACKGROUND }
     (by decide) rfl (by decide) rfl rfl⟩

/-! ## The destroy acknowledgement of a unit that is not foreground -/

/-- The branch of the destroy acknowledgement for a record that is not the stack top. In a
state that satisfies the data-model invariants, `OnDestroyDone` with the token of a registered worker
record `r` in a state other than Stop that is not the stack top removes the record from
registry and stack and deletes it, but makes no call at all: the record is set to Stop
before `DeleteRecordInfo` runs, so the teardown of its worker task, message queue and host
(`teardownEvents r`) is skipped. -/
theorem OnDestroyDone_not_foreground (env : Env) (s : Manager) (p : Ptr) (r : AbilityRecord)
    (hwf : StateWF s) (hp : p ∈ s.abilityList) (hr : s.heap.deref p = some r)
    (ht : r.token ≠ 0) (hs : r.state ≠ AbilityState.SCHEDULE_STOP)
    (htop : s.abilityStack.head? ≠ some p) :
    ∃ s1, OnDestroyDone env r.token s = some ((), s1) ∧
      s1.abilityList = s.abilityList.erase p ∧ s1.abilityStack = s.abilityStack.erase p ∧
      s1.heap.deref p = none ∧ s1.log = s.log ∧
      teardownEvents r = [Event.taskDelete r.taskId, Event.queueDelete r.jsAppQueueId,
        Event.hostDelete r.jsAppHost] := by
  have hg := getLoop_of_mem hwf.1 hwf.2.1 hp hr
  have hset : SetAbilityState r.token AbilityState.SCHEDULE_STOP s =
      some ((), withState s p r AbilityState.SCHEDULE_STOP) := SetAbilityState_some hg hr
  have hlt := Heap.deref_lt hr
  have hp0 : (withState s p r AbilityState.SCHEDULE_STOP).heap.deref p =
      some { r with state := AbilityState.SCHEDULE_STOP } := by
    show Heap.deref (s.heap.set p _) p = _
    rw [Heap.deref_set_eq _ _ _ hlt]
  have hg0 : AbilityList.getLoop (withState s p r AbilityState.SCHEDULE_STOP).heap r.token
      (withState s p r AbilityState.SCHEDULE_STOP).abilityList = some (some p) := by
    exact (@getLoop_set_sameToken s.heap p r { r with state := AbilityState.SCHEDULE_STOP }
      hr rfl r.token s.abilityList).trans hg
  have hdel := DeleteRecordInfo_some (s := withState s p r AbilityState.SCHEDULE_STOP)
    (r := { r with state := AbilityState.SCHEDULE_STOP }) ht hg0 hp0
  refine ⟨withoutRecord (withState s p r AbilityState.SCHEDULE_STOP) p
    { r with state := AbilityState.SCHEDULE_STOP }, ?_, rfl, rfl, Heap.deref_set_none _ _, ?_, ?_⟩
  · unfold OnDestroyDone
    simp only [LAUNCHER_TOKEN, ht, if_false]
    cases hstack : s.abilityStack with
    | nil =>
      rw [bind_eq_of (a := none) (u := s) (by simp [AbilityStack.GetTopAbility, hstack])]
      simp only [pure_bind, if_true]
      rw [bind_eq_of hset]
      exact hdel
    | cons top rest =>
      have htp : top ≠ p := by
        rintro rfl
        exact htop (by rw [hstack]; rfl)
      have htl : top ∈ s.abilityList :=
        hwf.2.2.2 top (by rw [hstack]; exact List.mem_cons_self _ _)
      obtain ⟨t, htr⟩ := Option.isSome_iff_exists.mp (hwf.1 top htl)
      have htt : t.token ≠ r.token := by
        intro he
        exact htp (HeapWF.inj hwf htl hp (by rw [tokenAt_of_deref htr, tokenAt_of_deref hr, he]))
      rw [bind_eq_of (a := some top) (u := s) (by simp [AbilityStack.GetTopAbility, hstack])]
      simp only []
      rw [bind_eq_of (a := t) (u := s) (by simp [deref, htr])]
      simp only [pure_bind, ne_eq, htt, not_false_eq_true, decide_True, if_true]
      rw [bind_eq_of hset]
      exact hdel
  · simp [withoutRecord, withState, teardownEvents]
  · simp [teardownEvents, hs]

/-! ## The launcher suffix -/

/-- Claim C26. `IsLauncher` holds exactly for the names that end with `.launcher`, a suffix
of 9 characters; names shorter than 9 characters are not launcher names, and `.launcher`
itself is one. -/
theorem IsLauncher_iff (s : CStr) :
    (IsLauncher s = true ↔ ".launcher".toList <:+ s) ∧
    (s.length < 9 → IsLauncher s = false) ∧
    IsLauncher ".launcher".toList = true ∧ ".launcher".toList.length = 9 := by
  have hlen : ".launcher".toList.length = 9 := by decide
  refine ⟨?_, ?_, by decide, hlen⟩
  · unfold IsLauncher
    simp only [hlen]
    by_cases h : s.length < 9
    · simp only [h, if_true]
      constructor
      · intro hc; cases hc
      · intro hsuf
        have := hsuf.length_le
        rw [hlen] at this
        omega
    · simp only [h, if_false, decide_eq_true_eq]
      constructor
      · intro hd
        exact ⟨s.take (s.length - 9), by rw [← hd, List.take_append_drop]⟩
      · rintro ⟨t, ht⟩
        subst ht
        have : (t ++ ".launcher".toList).length - 9 = t.length := by
          rw [List.length_append, hlen]; omega
        rw [this, List.drop_left]
  · intro h
    unfold IsLauncher
    simp [hlen, h]

/-- Witness for C26: a name of 8 characters is not a launcher name. -/
theorem IsLauncher_iff_witness : IsLauncher "launcher".toList = false :=
  (IsLauncher_iff "launcher".toList).2.1 (by decide)

/-! ## Adding a record whose token is held -/

/-- Claim C23 (amended). When the token of the live record `p` is held by a registered
record, `Add` leaves the whole state unchanged if the registry is below capacity. At
capacity the eviction comes first: if the token is still held after it, the state after
`Add` is the state after the eviction. -/
theorem Add_duplicate (cfg : Config) (s : Manager) (p q : Ptr) (r : AbilityRecord)
    (hp : s.heap.deref p = some r)
    (hg : AbilityList.getLoop s.heap r.token s.abilityList = some (some q)) :
    (s.abilityList.length < cfg.ABILITY_LIST_CAPACITY →
      AbilityList.Add cfg (some p) s = some ((), s)) ∧
    (cfg.ABILITY_LIST_CAPACITY ≤ s.abilityList.length →
      ∀ s1 q1, AbilityList.PopBottomAbility cfg s = some ((), s1) →
        s1.heap.deref p = some r →
        AbilityList.getLoop s1.heap r.token s1.abilityList = some (some q1) →
        AbilityList.Add cfg (some p) s = some ((), s1)) := by
  constructor
  · intro hlt
    rw [Add_eq, if_neg (by omega)]
    exact addTail_dup (s := s) hp hg
  · intro hge s1 q1 hpop hp1 hg1
    rw [Add_eq, if_pos hge, hpop]
    exact addTail_dup (s := s1) hp1 hg1

/-- Claim C23 as stated fails at capacity. With the registry `[x.app, home]` full
(capacity 2), adding a record with the token of the home record evicts and frees `x.app` and
inserts nothing; adding a record with the token of `x.app` evicts `x.app` and then inserts
the new record in its place. -/
theorem add_duplicate_evicts :
    dupRegistry.abilityList = [1, 0] ∧ exampleCfg.ABILITY_LIST_CAPACITY = 2 ∧
    (dupRegistry.heap.deref 3).map (fun r => r.token) = some 0 ∧
    AbilityList.getLoop dupRegistry.heap 0 dupRegistry.abilityList = some (some 0) ∧
    (AbilityList.Add exampleCfg (some 3) dupRegistry).map
      (fun x => (x.2.abilityList, x.2.heap.deref 1)) = some ([0], none) ∧
    (dupRegistry.heap.deref 2).map (fun r => r.token) = some 1 ∧
    AbilityList.getLoop dupRegistry.heap 1 dupRegistry.abilityList = some (some 1) ∧
    (AbilityList.Add exampleCfg (some 2) dupRegistry).map
      (fun x => (x.2.abilityList, x.2.heap.deref 1)) = some ([2, 0], none) := by
  refine ⟨rfl, rfl, rfl, rfl, rfl, rfl, rfl, rfl⟩

/-- Witness for C23 (amended): with room for three records the same call changes nothing. -/
theorem Add_duplicate_witness :
    AbilityList.Add roomyCfg (some 3) dupRegistry = some ((), dupRegistry) :=
  (Add_duplicate roomyCfg dupRegistry 3 0 { token := 0, appName := some "e.app".toList }
    rfl rfl).1 (by decide)

/-! ## Distinct tokens in the registry -/

theorem DistinctTokens.heapWF {s : Manager} (h : DistinctTokens s) :
    HeapWF s.heap s.abilityList [] :=
  ⟨h.1, h.2, List.nodup_nil, fun _ hp => absurd hp (List.not_mem_nil _)⟩

theorem DistinctTokens.sublistD {s s1 : Manager} (h : DistinctTokens s)
    (hsub : s1.abilityList.Sublist s.abilityList)
    (hheap : ∀ q ∈ s1.abilityList, s1.heap.deref q = s.heap.deref q) : DistinctTokens s1 := by
  constructor
  · intro q hq
    rw [hheap q hq]
    exact h.1 q (hsub.subset hq)
  · have : s1.abilityList.map (tokenAt s1.heap) = s1.abilityList.map (tokenAt s.heap) := by
      apply List.map_congr_left
      intro q hq
      unfold tokenAt
      rw [hheap q hq]
    rw [this]
    exact List.Nodup.sublist (List.Sublist.map _ hsub) h.2

theorem Add_distinct (cfg : Config) {s : Manager} {p : Ptr} {r : AbilityRecord}
    (hd : DistinctTokens s) (hp : s.heap.deref p = some r) (hpl : p ∉ s.abilityList) :
    ∃ s1, AbilityList.Add cfg (some p) s = some ((), s1) ∧ DistinctTokens s1 := by
  have hwf : RegistryWF s := ⟨HeapWF.nodup hd.heapWF, hd.1⟩
  obtain ⟨s1, kept, hrun, hsub, hcase, hheap, _, _⟩ := Add_spec cfg s p r hwf hp hpl
  refine ⟨s1, hrun, ?_⟩
  have hkept : ∀ q ∈ kept, s1.heap.deref q = s.heap.deref q := fun q hq => hheap q (Or.inl hq)
  have hp1 : s1.heap.deref p = some r := (hheap p (Or.inr hpl)).trans hp
  have hmap : kept.map (tokenAt s1.heap) = kept.map (tokenAt s.heap) := by
    apply List.map_congr_left
    intro q hq
    unfold tokenAt
    rw [hkept q hq]
  have hnd : (kept.map (tokenAt s1.heap)).Nodup := by
    rw [hmap]
    exact List.Nodup.sublist (List.Sublist.map _ hsub) hd.2
  have hlive : ∀ q ∈ kept, (s1.heap.deref q).isSome = true := by
    intro q hq
    rw [hkept q hq]
    exact hd.1 q (hsub.subset hq)
  rcases hcase with ⟨hl, hne⟩ | ⟨hl, _⟩
  · constructor
    · intro q hq
      rw [hl] at hq
      rcases List.mem_cons.mp hq with rfl | hq
      · rw [hp1]; rfl
      · exact hlive q hq
    · rw [hl, List.map_cons, List.nodup_cons]
      refine ⟨?_, hnd⟩
      rw [tokenAt_of_deref hp1, hmap]
      intro hc
      obtain ⟨q, hq, hqt⟩ := List.mem_map.mp hc
      obtain ⟨rq, hrq, hneq⟩ := hne q hq
      rw [tokenAt_of_deref hrq] at hqt
      exact hneq (Option.some.inj hqt)
  · constructor
    · intro q hq
      rw [hl] at hq
      exact hlive q hq
    · rw [hl]; exact hnd

/-- Whenever `Add` returns on a registry with live records and distinct tokens, the registry
it leaves has live records and distinct tokens. -/
theorem Add_keeps_distinct (cfg : Config) {s s1 : Manager} {o : Option Ptr}
    (hd : DistinctTokens s) (h : AbilityList.Add cfg o s = some ((), s1)) :
    DistinctTokens s1 := by
  cases o with
  | none =>
    have : AbilityList.Add cfg none s = some ((), s) := rfl
    rw [this] at h
    cases h
    exact hd
  | some p =>
    rw [Add_eq] at h
    have hmid : ∃ s0, (if s.abilityList.length ≥ cfg.ABILITY_LIST_CAPACITY then
        AbilityList.PopBottomAbility cfg s else some ((), s)) = some ((), s0) ∧
        DistinctTokens s0 := by
      by_cases hc : s.abilityList.length ≥ cfg.ABILITY_LIST_CAPACITY
      · obtain ⟨s0, hpop, hsub, hheap, _, _⟩ :=
          PopBottomAbility_spec cfg s ⟨HeapWF.nodup hd.heapWF, hd.1⟩
        exact ⟨s0, by rw [if_pos hc]; exact hpop,
          hd.sublistD hsub fun q hq => hheap q (Or.inl hq)⟩
      · exact ⟨s, by rw [if_neg hc], hd⟩
    obtain ⟨s0, hs0, hd0⟩ := hmid
    rw [hs0] at h
    change addTail p s0 = some ((), s1) at h
    unfold addTail at h
    split at h
    · cases h
    · rename_i r hr
      split at h
      · cases h
      · rename_i hg
        cases h
        have hne := (getLoop_none_iff _ _ _).mp hg
        constructor
        · intro q hq
          rcases List.mem_cons.mp hq with rfl | hq
          · show (s0.heap.deref q).isSome = true
            rw [hr]; rfl
          · exact hd0.1 q hq
        · show ((p :: s0.abilityList).map (tokenAt s0.heap)).Nodup
          rw [List.map_cons, List.nodup_cons]
          refine ⟨?_, hd0.2⟩
          rw [tokenAt_of_deref hr]
          intro hc
          obtain ⟨q, hq, hqt⟩ := List.mem_map.mp hc
          obtain ⟨rq, hrq, hneq⟩ := hne q hq
          rw [tokenAt_of_deref hrq] at hqt
          exact hneq (Option.some.inj hqt)
      · cases h
        exact hd0

/-- Claim C24. In a registry whose records are alive and have pairwise distinct tokens,
whenever `Add` returns it leaves a registry whose records are alive with pairwise distinct
tokens, and it does return for a live record that is not registered yet and for any live
record while the registry is below capacity; `Erase` and `MoveToTop` always return and
leave such a registry; two registered records with the same token are the same record and
`Get` of a registered record's token finds that record; and after `Erase` of a token, `Get`
of that token finds nothing. -/
theorem distinct_tokens_preserved (cfg : Config) (s : Manager) (hd : DistinctTokens s) :
    (∀ o s1, AbilityList.Add cfg o s = some ((), s1) → DistinctTokens s1) ∧
    (∀ p r, s.heap.deref p = some r →
      p ∉ s.abilityList ∨ s.abilityList.length < cfg.ABILITY_LIST_CAPACITY →
      ∃ s1, AbilityList.Add cfg (some p) s = some ((), s1) ∧ DistinctTokens s1) ∧
    (∀ t, ∃ s1, AbilityList.Erase t s = some ((), s1) ∧ DistinctTokens s1 ∧
      AbilityList.Get t s1 = some (none, s1)) ∧
    (∀ t, ∃ b s1, AbilityList.MoveToTop cfg t s = some (b, s1) ∧ DistinctTokens s1) ∧
    (∀ p q rp rq, p ∈ s.abilityList → q ∈ s.abilityList → s.heap.deref p = some rp →
      s.heap.deref q = some rq → rp.token = rq.token → p = q) ∧
    (∀ p r, p ∈ s.abilityList → s.heap.deref p = some r →
      AbilityList.Get r.token s = some (some p, s)) := by
  have hwf := hd.heapWF
  have hnd := HeapWF.nodup hwf
  have herase : ∀ t, ∃ s1, AbilityList.Erase t s = some ((), s1) ∧ DistinctTokens s1 ∧
      AbilityList.Get t s1 = some (none, s1) ∧ s1.heap = s.heap ∧
      (∀ p, AbilityList.getLoop s.heap t s.abilityList = some (some p) →
        s1.abilityList = s.abilityList.erase p) := by
    intro t
    rcases getLoop_cases hwf t with ⟨hg, _⟩ | ⟨p, r, hg, hp, hr, hrt⟩
    · refine ⟨_, Erase_of_get_none hg, ⟨hd.1, hd.2⟩, Get_of_getLoop hg, rfl, ?_⟩
      intro p hc
      rw [hg] at hc
      cases hc
    · refine ⟨_, Erase_of_get_some hg, ?_, ?_, rfl, ?_⟩
      · exact @DistinctTokens.sublistD s { s with abilityList := s.abilityList.erase p } hd
          (List.erase_sublist p s.abilityList) (fun _ _ => rfl)
      · apply Get_of_getLoop (s := { s with abilityList := s.abilityList.erase p })
        show AbilityList.getLoop s.heap t (s.abilityList.erase p) = some none
        rw [getLoop_none_iff]
        intro q hq
        have hq1 := (List.Nodup.mem_erase_iff hnd).mp hq
        obtain ⟨rq, hrq⟩ := Option.isSome_iff_exists.mp (hd.1 q hq1.2)
        refine ⟨rq, hrq, ?_⟩
        intro he
        apply hq1.1
        exact HeapWF.inj hwf hq1.2 hp
          (by rw [tokenAt_of_deref hrq, tokenAt_of_deref hr, he, hrt])
      · intro p1 hc
        rw [hg] at hc
        cases hc
        rfl
  refine ⟨fun o s1 h => Add_keeps_distinct cfg hd h, ?_, ?_, ?_, ?_, ?_⟩
  · intro p r hp hor
    by_cases hpl : p ∈ s.abilityList
    · have hlt : s.abilityList.length < cfg.ABILITY_LIST_CAPACITY := hor.resolve_left (fun h => h hpl)
      have hg := getLoop_of_mem hd.1 hd.2 hpl hp
      refine ⟨s, ?_, hd⟩
      rw [Add_eq, if_neg (by omega)]
      exact addTail_dup (s := s) hp hg
    · exact Add_distinct cfg hd hp hpl
  · intro t
    obtain ⟨s1, h1, h2, h3, _⟩ := herase t
    exact ⟨s1, h1, h2, h3⟩
  · intro t
    rcases getLoop_cases hwf t with ⟨hg, _⟩ | ⟨p, r, hg, hp, hr, hrt⟩
    · refine ⟨false, s, ?_, hd⟩
      unfold AbilityList.MoveToTop
      rw [bind_eq_of (Get_of_getLoop hg)]
      rfl
    · obtain ⟨s1, h1, h2, _, h4, h5⟩ := herase t
      have hl1 := h5 p hg
      have hp1 : s1.heap.deref p = some r := by rw [h4]; exact hr
      have hpl : p ∉ s1.abilityList := by
        rw [hl1]
        exact fun hc => ((List.Nodup.mem_erase_iff hnd).mp hc).1 rfl
      obtain ⟨s2, hadd, hd2⟩ := Add_distinct cfg h2 hp1 hpl
      refine ⟨true, s2, ?_, hd2⟩
      unfold AbilityList.MoveToTop
      rw [bind_eq_of (Get_of_getLoop hg)]
      simp only []
      rw [bind_eq_of h1, bind_eq_of hadd]
      rfl
  · intro p q rp rq hp hq hrp hrq he
    exact HeapWF.inj hwf hp hq (by rw [tokenAt_of_deref hrp, tokenAt_of_deref hrq, he])
  · intro p r hp hr
    exact Get_of_getLoop (getLoop_of_mem hd.1 hd.2 hp hr)

/-- Witness for C24: moving `x.app` to the top of the full registry `[x.app, home]`. -/
theorem distinct_tokens_preserved_witness :
    DistinctTokens fullRegistry ∧
    ∃ b s1, AbilityList.MoveToTop exampleCfg 1 fullRegistry = some (b, s1) ∧
      DistinctTokens s1 :=
  ⟨by decide, (distinct_tokens_preserved exampleCfg fullRegistry (by decide)).2.2.2.1 1⟩

/-! ## Rollback of a failed start -/

theorem Add_push (cfg : Config) {s : Manager} {p : Ptr} {r : AbilityRecord}
    (hroom : s.abilityList.length < cfg.ABILITY_LIST_CAPACITY)
    (hp : s.heap.deref p = some r)
    (hg : AbilityList.getLoop s.heap r.token s.abilityList = some none) :
    AbilityList.Add cfg (some p) s = some ((), { s with abilityList := p :: s.abilityList }) := by
  rw [Add_eq, if_neg (by omega)]
  exact addTail_push (s := s) hp hg

/-- Appending a cell does not change a lookup over live records. -/
theorem getLoop_append_of_live {h : Heap} {l : List Ptr} (v : Option AbilityRecord) (t : Nat)
    (hlive : ∀ p ∈ l, (h.deref p).isSome = true) :
    AbilityList.getLoop (h ++ [v]) t l = AbilityList.getLoop h t l := by
  apply getLoop_of_tokens
  intro p hp
  obtain ⟨r, hr⟩ := Option.isSome_iff_exists.mp (hlive p hp)
  rw [Heap.deref_append_lt _ _ _ (Heap.deref_lt hr)]

/-- With a native unit installed and no home record registered, the launcher cannot be sent
to the background: the record is started and pushed, the push is undone, and the call
fails. -/
theorem CreateAppTask_noHome (env : Env) {s : Manager} {py : Ptr} {y : AbilityRecord}
    {tid : Nat} (hy : s.heap.deref py = some y) (hyn : y.appName ≠ none)
    (htask : env.taskCreate = some tid) (hnat : s.nativeAbility ≠ none)
    (hg0 : AbilityList.getLoop (s.heap.set py (some (started env tid y))) 0 s.abilityList
      = some none) :
    CreateAppTask env (some py) s = some (Ret.SCHEDULER_LIFECYCLE_ERROR,
      { s with heap := s.heap.set py (some (started env tid y)) }) := by
  obtain ⟨hp, al, sk, pt, tok, na, fl, lg⟩ := s
  simp only at hy hnat hg0
  unfold CreateAppTask
  simp only []
  rw [bind_eq_of (a := y) (u := Manager.mk hp al sk pt tok na fl lg)
    (by simp [deref, hy])]
  simp only [hyn, if_false, htask]
  rw [bind_eq_of (a := ()) (u := Manager.mk (hp.set py (some (started env tid y))) al sk pt
    tok na fl lg) (by simp [store, hy, started])]
  rw [bind_eq_of (a := ()) (u := Manager.mk (hp.set py (some (started env tid y))) al
    (py :: sk) pt tok na fl lg) rfl]
  rw [bind_eq_of (get_apply _)]
  simp only [ne_eq, hnat, not_false_eq_true, if_true]
  rw [bind_eq_of (SchedulerLifecycle_none (s := Manager.mk _ al (py :: sk) pt tok na fl lg)
    (t := LAUNCHER_TOKEN) hg0)]
  simp only [ne_eq, reduceCtorEq, not_false_eq_true, if_true]
  rfl

theorem Heap.set_append_length (h : Heap) (v w : Option AbilityRecord) :
    (h ++ [v]).set h.length w = h ++ [w] := by
  simp [List.set_append]

/-- Claim C21 (amended). With no pending token, a name without a registered record, a
non-null path, room in the registry, a next token that no registered record holds and live
stack entries: if the creation of the worker unit fails (task creation fails, or a native
unit is installed and the home record is not registered, so that the launcher cannot be
sent to the background), `PreCheckStartAbility` returns `CREATE_APPTASK_ERROR`; the record
it created is deleted again and is in neither the registry nor the stack; registry and
stack are the ones before the call and every record that existed before is unchanged. Only
the token counter has advanced. -/
theorem PreCheckStartAbility_rollback (cfg : Config) (env : Env) (s : Manager)
    (name path : CStr) (data : Option (List Nat))
    (hpend : s.pendingToken = 0)
    (hunreg : AbilityList.getByNameLoop s.heap name s.abilityList = some none)
    (hroom : s.abilityList.length < cfg.ABILITY_LIST_CAPACITY)
    (hctr : s.staticToken < 65535)
    (hfresh : AbilityList.getLoop s.heap (nextToken s.staticToken) s.abilityList = some none)
    (hfail : env.taskCreate = none ∨
      (s.nativeAbility ≠ none ∧ AbilityList.getLoop s.heap 0 s.abilityList = some none))
    (hstk : ∀ q ∈ s.abilityStack, (s.heap.deref q).isSome = true) :
    PreCheckStartAbility cfg env name (some path) data s =
      some (Ret.CREATE_APPTASK_ERROR,
        { s with heap := s.heap ++ [none], staticToken := nextToken s.staticToken }) ∧
    s.heap.length ∉ s.abilityList ∧ s.heap.length ∉ s.abilityStack ∧
    Heap.deref (s.heap ++ [none]) s.heap.length = none ∧
    ∀ p r, s.heap.deref p = some r → Heap.deref (s.heap ++ [none]) p = some r := by
  have hlive0 := getByNameLoop_none_live hunreg
  have hlive : ∀ p ∈ s.abilityList, (s.heap.deref p).isSome = true := by
    intro p hp
    obtain ⟨r, hr, _⟩ := hlive0 p hp
    rw [hr]; rfl
  have hnot : s.heap.length ∉ s.abilityList := by
    intro hc
    obtain ⟨r, hr, _⟩ := hlive0 _ hc
    exact absurd (Heap.deref_lt hr) (Nat.lt_irrefl _)
  have ht0 := nextToken_pos hctr
  have hnotk : s.heap.length ∉ s.abilityStack := by
    intro hc
    obtain ⟨r, hr⟩ := Option.isSome_iff_exists.mp (hstk _ hc)
    exact absurd (Heap.deref_lt hr) (Nat.lt_irrefl _)
  refine ⟨?_, hnot, hnotk, Heap.deref_append_length _ _, ?_⟩
  swap
  · intro p r hr
    rw [Heap.deref_append_lt _ _ _ (Heap.deref_lt hr), hr]
  obtain ⟨hp, al, sk, pt, tok, na, fl, lg⟩ := s
  simp only at hpend hunreg hroom hctr hfresh hfail hlive hnot ht0
  subst hpend
  -- the record under construction and the states the call passes through
  have hnew : Heap.deref (hp ++ [some (stopRecord (nextToken tok) name (some path) data)])
      hp.length = some (stopRecord (nextToken tok) name (some path) data) :=
    Heap.deref_append_length _ _
  have hg1 : ∀ v t, AbilityList.getLoop (hp ++ [v]) t al = AbilityList.getLoop hp t al :=
    fun v t => getLoop_append_of_live v t hlive
  have hadd : AbilityList.Add cfg (some hp.length)
      (Manager.mk (hp ++ [some (stopRecord (nextToken tok) name (some path) data)]) al sk 0
        (nextToken tok) na fl lg) =
      some ((), Manager.mk (hp ++ [some (stopRecord (nextToken tok) name (some path) data)])
        (hp.length :: al) sk 0 (nextToken tok) na fl lg) :=
    Add_push cfg (s := Manager.mk _ al sk 0 (nextToken tok) na fl lg) hroom hnew
      (by rw [show (stopRecord (nextToken tok) name (some path) data).token = nextToken tok
            from rfl]
          exact (hg1 _ _).trans hfresh)
  unfold PreCheckStartAbility
  simp only [reduceCtorEq, if_false]
  rw [bind_eq_of (a := none) (u := Manager.mk hp al sk 0 tok na fl lg)
    (by simp [AbilityList.GetByName, hunreg])]
  simp only []
  rw [bind_eq_of (get_apply _)]
  simp only [ne_eq, not_true_eq_false, if_false]
  rw [bind_eq_of (GenerateToken_eq _)]
  rw [bind_eq_of (a := hp.length) (u := Manager.mk
    (hp ++ [some (stopRecord (nextToken tok) name (some path) data)]) al sk 0 (nextToken tok)
    na fl lg) rfl]
  rw [bind_eq_of hadd, bind_eq_of (get_apply _)]
  simp only [if_true]
  have hcat : ∃ ret v, ret ≠ Ret.ERR_OK ∧ v.token = nextToken tok ∧
      CreateAppTask env (some hp.length)
        (Manager.mk (hp ++ [some (stopRecord (nextToken tok) name (some path) data)])
          (hp.length :: al) sk 0 (nextToken tok) na fl lg) =
        some (ret, Manager.mk (hp ++ [some v]) (hp.length :: al) sk 0 (nextToken tok)
          na fl lg) := by
    by_cases htc : env.taskCreate = none
    · refine ⟨Ret.CREATE_APPTASK_ERROR,
        stopRecord (nextToken tok) name (some path) data, by decide, rfl, ?_⟩
      have hn : (stopRecord (nextToken tok) name (some path) data).appName ≠ none := by
        simp [stopRecord]
      simp [CreateAppTask, bind_apply, deref, hnew, htc, pure_apply, hn]
    · obtain ⟨hnat, hg0⟩ := hfail.resolve_left htc
      obtain ⟨tid, htid⟩ := Option.isSome_iff_exists.mp (Option.ne_none_iff_isSome.mp htc)
      refine ⟨Ret.SCHEDULER_LIFECYCLE_ERROR,
        started env tid (stopRecord (nextToken tok) name (some path) data), by decide, rfl, ?_⟩
      have := CreateAppTask_noHome env (s := Manager.mk
        (hp ++ [some (stopRecord (nextToken tok) name (some path) data)])
        (hp.length :: al) sk 0 (nextToken tok) na fl lg) hnew
        (by simp [stopRecord]) htid hnat
        (by
          simp only [Heap.set_append_length]
          rw [AbilityList.getLoop, Heap.deref_append_length]
          simp only []
          rw [if_neg (by simpa [started, stopRecord] using ht0), hg1]
          exact hg0)
      rw [this]
      simp only [Heap.set_append_length]
  obtain ⟨ret, v, hret, hvt, hrun⟩ := hcat
  rw [bind_eq_of hrun]
  simp only [ne_eq, hret, not_false_eq_true, if_true]
  rw [bind_eq_of (a := v) (u := Manager.mk (hp ++ [some v]) (hp.length :: al) sk 0
    (nextToken tok) na fl lg) (by simp [deref, Heap.deref_append_length])]
  rw [bind_eq_of (Erase_of_get_some (p := hp.length)
    (s := Manager.mk (hp ++ [some v]) (hp.length :: al) sk 0 (nextToken tok) na fl lg)
    (by simp [AbilityList.getLoop, Heap.deref_append_length]))]
  rw [bind_eq_of (a := ()) (u := Manager.mk (hp ++ [none]) al sk 0 (nextToken tok) na fl lg)
    (by simp [delete, Heap.deref_append_length, Heap.set_append_length])]
  rfl

/-- Claim C21 as stated fails. With the registry full (capacity 2), no pending token and
`y.app` unregistered, the failed start first evicts and frees the registered record of
`x.app`, so the registry afterwards is not the one before the call and the stack refers to
a freed record. With room in the registry but a token counter whose next value is held by
the registered record of `x.app`, the new record is never added and the rollback erases
the record of `x.app` instead. -/
theorem rollback_changes_registry :
    xActive.pendingToken = 0 ∧
    AbilityList.getByNameLoop xActive.heap "y.app".toList xActive.abilityList = some none ∧
    xActive.abilityList = [1, 0] ∧ xActive.abilityStack = [1, 0] ∧
    (∃ s1, PreCheckStartAbility exampleCfg failEnv "y.app".toList (some "/y".toList) none
        xActive = some (Ret.CREATE_APPTASK_ERROR, s1) ∧
      s1.abilityList = [0] ∧ s1.abilityStack = [1, 0] ∧ s1.heap.deref 1 = none) ∧
    (∃ s2, PreCheckStartAbility roomyCfg failEnv "y.app".toList (some "/y".toList) none
        { xActive with staticToken := 0 } = some (Ret.CREATE_APPTASK_ERROR, s2) ∧
      s2.abilityList = [0] ∧ s2.abilityStack = [1, 0] ∧ s2.heap.deref 1 = some xRecord) := by
  refine ⟨rfl, rfl, rfl, rfl, ⟨_, rfl, rfl, rfl, rfl⟩, ⟨_, rfl, rfl, rfl, rfl⟩⟩

/-- Witness for C21: from the home state a failed start of `x.app` leaves registry and stack
as they were, both when task creation fails and when, in a state without a home record,
the launcher cannot be sent to the background. -/
theorem PreCheckStartAbility_rollback_witness :
    PreCheckStartAbility exampleCfg failEnv "x.app".toList (some "/x".toList) none homeState =
      some (Ret.CREATE_APPTASK_ERROR,
        { homeState with heap := homeState.heap ++ [none], staticToken := 1 }) ∧
    PreCheckStartAbility exampleCfg exampleEnv "x.app".toList (some "/x".toList) none
        { nativeAbility := some 1 } =
      some (Ret.CREATE_APPTASK_ERROR,
        { nativeAbility := some 1, heap := [none], staticToken := 1 }) :=
  ⟨(PreCheckStartAbility_rollback exampleCfg failEnv homeState "x.app".toList "/x".toList none
      rfl rfl (by decide) (by decide) rfl (Or.inl rfl) (by decide)).1,
   (PreCheckStartAbility_rollback exampleCfg exampleEnv { nativeAbility := some 1 }
      "x.app".toList "/x".toList none rfl rfl (by decide) (by decide) rfl
      (Or.inr ⟨by decide, rfl⟩) (by decide)).1⟩

/-- Claim C22 fails on the code. After `startLauncher`, `startAbility(x.app)` and its two
acknowledgements the state `xActive` is reached, in which every stack entry is registered.
With capacity 2 the next `startAbility(y.app)` makes `Add` evict through
`PopBottomAbility`, which erases and frees the record of `x.app` although the foreground
stack still refers to it; with capacity 3 the same happens one request later. The sibling
path `DeleteRecordInfo` removes the stack entry before it erases and frees the record. -/
theorem stack_entry_outlives_record :
    Reachable exampleCfg xActive ∧ StateWF xActive ∧
    (∃ s1, runController exampleCfg [Op.startAbility exampleEnv (some yApp)] xActive = some s1 ∧
      Reachable exampleCfg s1 ∧
      s1.abilityStack = [1, 0] ∧ s1.abilityList = [2, 0] ∧ s1.heap.deref 1 = none) ∧
    (∃ s2, runController roomyCfg runXYZ homeState = some s2 ∧
      Reachable roomyCfg s2 ∧
      s2.abilityStack = [1, 0] ∧ s2.abilityList = [3, 2, 0] ∧ s2.heap.deref 1 = none) ∧
    (∃ s3, DeleteRecordInfo 1 xActive = some ((), s3) ∧
      s3.abilityStack = [0] ∧ s3.abilityList = [0] ∧ s3.heap.deref 1 = none) := by
  have hx : Reachable exampleCfg xActive :=
    reachable_of_run exampleCfg runX homeState xActive
      (Reachable.start exampleEnv (some 1) homeState homeState_eq) xActive_eq
  refine ⟨hx, by decide, ⟨_, rfl, ?_, rfl, rfl, rfl⟩, ⟨_, rfl, ?_, rfl, rfl, rfl⟩,
    ⟨_, rfl, rfl, rfl, rfl⟩⟩
  · exact reachable_of_run exampleCfg [Op.startAbility exampleEnv (some yApp)] xActive _ hx rfl
  · exact reachable_of_run roomyCfg runXYZ homeState _
      (Reachable.start exampleEnv (some 1) homeState rfl) rfl

/-- Claim C27 as stated fails. From the reachable state with `x.app` foreground (capacity 3):
a request for `y.app` without a path reserves the pending token 2 and creates no record;
a second request for the already registered `y.app` reserves the pending token 3, which no
record holds; and after an Active acknowledgement for token 2 the record under the pending
token is in state Active. -/
theorem pending_token_without_record :
    Reachable roomyCfg xActive ∧
    (∃ s1, runController roomyCfg [Op.startAbility exampleEnv (some yNoPath)] xActive = some s1 ∧
      s1.pendingToken = 2 ∧
      AbilityList.getLoop s1.heap s1.pendingToken s1.abilityList = some none) ∧
    (∃ s2, runController roomyCfg
        [Op.startAbility exampleEnv (some yApp), Op.startAbility exampleEnv (some yApp)]
        xActive = some s2 ∧
      s2.pendingToken = 3 ∧
      AbilityList.getLoop s2.heap s2.pendingToken s2.abilityList = some none) ∧
    (∃ s3, runController roomyCfg
        [Op.startAbility exampleEnv (some yApp), Op.onActiveDone exampleEnv 2]
        xActive = some s3 ∧
      s3.pendingToken = 2 ∧
      AbilityList.getLoop s3.heap s3.pendingToken s3.abilityList = some (some 2) ∧
      (s3.heap.deref 2).map (fun r => r.state) = some AbilityState.SCHEDULE_ACTIVE) := by
  refine ⟨?_, ⟨_, rfl, rfl, rfl⟩, ⟨_, rfl, rfl, rfl⟩, ⟨_, rfl, rfl, rfl, rfl⟩⟩
  exact reachable_of_run roomyCfg runX homeState xActive
    (Reachable.start exampleEnv (some 1) homeState rfl) rfl

/-- Claim C27 (amended). In a state that satisfies the data-model invariants, with a worker
record `x` foreground, a request for another allowed name that is not registered and comes
with a path (room in the registry, next token held by no record) reserves a nonzero pending
token, and the registry then holds a record with exactly that token, in state Stop and not
on the stack. When no registered record holds the nonzero pending token, the destroy
acknowledgement of the foreground worker record still is defined: it removes that record,
clears the pending token and activates the home unit. -/
theorem pending_record_reserved (cfg : Config) (env : Env) (s : Manager) (px : Ptr)
    (rest : List Ptr) (x : AbilityRecord) (xname yname ypath : CStr) (data : Option (List Nat))
    (hwf : StateWF s)
    (hstack : s.abilityStack = px :: rest) (hx : s.heap.deref px = some x)
    (hxn : x.appName = some xname) (hxt : x.token ≠ 0)
    (hxs : x.state ≠ AbilityState.SCHEDULE_STOP)
    (hne : yname ≠ []) (hl : IsLauncher yname = false) (hallow : CheckResponse env yname = true)
    (hxy : yname ≠ xname)
    (hunreg : AbilityList.getByNameLoop s.heap yname s.abilityList = some none)
    (hroom : s.abilityList.length < cfg.ABILITY_LIST_CAPACITY)
    (hctr : s.staticToken < 65535)
    (hfresh : AbilityList.getLoop s.heap (nextToken s.staticToken) s.abilityList = some none) :
    (∃ s1 py y,
      StartAbility cfg env (some { bundleName := some yname, path := some ypath, data := data }) s
        = some (Ret.ERR_OK, s1) ∧
      s1.pendingToken ≠ 0 ∧
      AbilityList.getLoop s1.heap s1.pendingToken s1.abilityList = some (some py) ∧
      py ∈ s1.abilityList ∧ s1.heap.deref py = some y ∧ y.token = s1.pendingToken ∧
      y.state = AbilityState.SCHEDULE_STOP ∧ py ∉ s1.abilityStack) ∧
    (∀ (u : Manager) (pu pL : Ptr) (below : List Ptr) (w home : AbilityRecord),
      StateWF u → u.abilityStack = pu :: below → u.heap.deref pu = some w → w.token ≠ 0 →
      u.pendingToken ≠ 0 →
      AbilityList.getLoop u.heap u.pendingToken u.abilityList = some none →
      pL ∈ u.abilityList → u.heap.deref pL = some home → home.token = 0 →
      OnDestroyDone env w.token u = some ((),
        { withoutRecord u pu w with
          pendingToken := 0
          log := (withoutRecord u pu w).log ++
            homeEvents u.nativeAbility State.STATE_ACTIVE home })) := by
  constructor
  · have hlt : ∀ q ∈ s.abilityStack, q < s.heap.length := by
      intro q hq
      obtain ⟨r, hr⟩ := Option.isSome_iff_exists.mp (hwf.1 q (hwf.2.2.2 q hq))
      exact Heap.deref_lt hr
    have hnew : Heap.deref (s.heap.set px (some { x with isTerminated := true }) ++
        [some (stopRecord (nextToken s.staticToken) yname (some ypath) data)]) s.heap.length =
        some (stopRecord (nextToken s.staticToken) yname (some ypath) data) := by
      have := Heap.deref_append_length (s.heap.set px (some { x with isTerminated := true }))
        (some (stopRecord (nextToken s.staticToken) yname (some ypath) data))
      simpa using this
    refine ⟨_, s.heap.length, stopRecord (nextToken s.staticToken) yname (some ypath) data,
      StartAbility_jsToJs cfg env s px rest x xname yname ypath data hstack hx hxn hxt hxs hne hl
        hallow hxy hunreg hroom hctr hfresh, nextToken_pos hctr, ?_, List.mem_cons_self _ _,
      hnew, rfl, rfl, ?_⟩
    · show AbilityList.getLoop _ (nextToken s.staticToken) (s.heap.length :: s.abilityList) = _
      rw [AbilityList.getLoop, hnew]
      simp [stopRecord]
    · intro hc
      exact absurd (hlt _ hc) (Nat.lt_irrefl _)
  · intro u pu pL below w home huwf hustack hw hwt hpend hg hpL hhome hht
    have hpu : pu ∈ u.abilityList :=
      huwf.2.2.2 pu (by rw [hustack]; exact List.mem_cons_self _ _)
    have hnd := HeapWF.nodup huwf
    have hpLu : pL ≠ pu := by
      rintro rfl
      rw [hhome] at hw
      cases hw
      exact hwt hht
    obtain ⟨hg0, hh0, _⟩ := withoutRecord_lookup huwf hpu hw hpL hhome hpLu
    rw [hht] at hg0
    have hgn : AbilityList.getLoop (withoutRecord u pu w).heap (withoutRecord u pu w).pendingToken
        (withoutRecord u pu w).abilityList = some none := by
      show AbilityList.getLoop (u.heap.set pu none) u.pendingToken (u.abilityList.erase pu) = _
      rw [getLoop_none_iff]
      intro q hq
      have hq1 := (List.Nodup.mem_erase_iff hnd).mp hq
      obtain ⟨r, hr, hrt⟩ := (getLoop_none_iff _ _ _).mp hg q hq1.2
      exact ⟨r, by rw [Heap.deref_set_ne _ _ _ _ hq1.1, hr], hrt⟩
    rw [OnDestroyDone_top env u pu below w huwf hustack hw hwt]
    exact handOver_absent env (s := withoutRecord u pu w) hpend hgn hg0 hh0

/-- Witness for C27: the request for `y.app` over the foreground `x.app` (capacity 3). -/
theorem pending_record_reserved_witness :
    StateWF xActive ∧
    ∃ s1 py y, StartAbility roomyCfg exampleEnv (some yApp) xActive = some (Ret.ERR_OK, s1) ∧
      s1.pendingToken ≠ 0 ∧
      AbilityList.getLoop s1.heap s1.pendingToken s1.abilityList = some (some py) ∧
      py ∈ s1.abilityList ∧ s1.heap.deref py = some y ∧ y.token = s1.pendingToken ∧
      y.state = AbilityState.SCHEDULE_STOP ∧ py ∉ s1.abilityStack :=
  ⟨by decide, (pending_record_reserved roomyCfg exampleEnv xActive 1 [0] xRecord "x.app".toList
    "y.app".toList "/y".toList none (by decide) rfl rfl rfl (by decide) (by decide) (by decide)
    rfl rfl (by decide) rfl (by decide) (by decide) rfl).1⟩

theorem KeepsState.rfl_of_le {n : Nat} {s : Manager} (h : n ≤ s.heap.length) :
    KeepsState n s s :=
  ⟨h, fun _ _ r1 hr => ⟨r1, hr, rfl⟩⟩

theorem KeepsState.of_heap_eq {n : Nat} {s s1 : Manager} (h : n ≤ s.heap.length)
    (he : s1.heap = s.heap) : KeepsState n s s1 :=
  ⟨by rw [he]; exact h, fun _ _ r1 hr => ⟨r1, by rw [← he]; exact hr, rfl⟩⟩

theorem KeepsState.transK {n : Nat} {s s1 s2 : Manager} (h1 : KeepsState n s s1)
    (h2 : KeepsState n s1 s2) : KeepsState n s s2 := by
  refine ⟨h2.1, fun p hp r2 hr2 => ?_⟩
  obtain ⟨r1, hr1, e1⟩ := h2.2 p hp r2 hr2
  obtain ⟨r, hr, e⟩ := h1.2 p hp r1 hr1
  exact ⟨r, hr, e1.trans e⟩

theorem keeps_bind {α β : Type} {n : Nat} {m : M α} {f : α → M β}
    (h1 : Keeps n m) (h2 : ∀ a, Keeps n (f a)) : Keeps n (m >>= f) := by
  constructor
  intro s b s2 hn h
  rw [bind_apply] at h
  cases hm : m s with
  | none => rw [hm] at h; cases h
  | some x =>
    rw [hm] at h
    have k1 := h1.run s x.1 x.2 hn hm
    exact k1.transK ((h2 x.1).run x.2 b s2 k1.1 h)

theorem keeps_pure {α : Type} {n : Nat} (a : α) : Keeps n (pure a : M α) := by
  constructor
  intro s b s1 hn hm
  cases hm
  exact KeepsState.rfl_of_le hn

theorem keeps_map {α β : Type} {n : Nat} {m : M α} (f : α → β) (h1 : Keeps n m) :
    Keeps n (f <$> m) := by
  constructor
  intro s b s1 hn h
  rw [map_apply] at h
  cases hm : m s with
  | none => rw [hm] at h; cases h
  | some x =>
    rw [hm] at h
    cases h
    exact h1.run s x.1 x.2 hn hm

/-- Code that leaves the heap alone keeps every state field. -/
theorem keeps_of_heap {α : Type} {n : Nat} {m : M α}
    (h : ∀ s a s1, m s = some (a, s1) → s1.heap = s.heap) : Keeps n m :=
  ⟨fun s a s1 hn hm => KeepsState.of_heap_eq hn (h s a s1 hm)⟩

theorem keeps_failure {α : Type} {n : Nat} : Keeps n (failure : M α) := by
  constructor
  intro s a s1 _ hm
  cases hm

theorem keeps_get {n : Nat} : Keeps n (get : M Manager) :=
  keeps_of_heap fun s a s1 h => by cases h; rfl

theorem keeps_modify {n : Nat} (f : Manager → Manager) (hf : ∀ s, (f s).heap = s.heap) :
    Keeps n (modify f : M Unit) :=
  keeps_of_heap fun s a s1 h => by cases h; exact hf s

theorem keeps_deref {n : Nat} (p : Ptr) : Keeps n (deref p) :=
  keeps_of_heap fun s a s1 h => by
    unfold AbilityLite.deref at h
    split at h
    · cases h; rfl
    · cases h

theorem keeps_emit {n : Nat} (e : Event) : Keeps n (emit e) :=
  keeps_modify _ fun _ => rfl

theorem keeps_listGet {n : Nat} (t : Nat) : Keeps n (AbilityList.Get t) :=
  keeps_of_heap fun s a s1 h => by
    unfold AbilityList.Get at h
    split at h
    · cases h; rfl
    · cases h

theorem keeps_listGetByName {n : Nat} (b : Option CStr) : Keeps n (AbilityList.GetByName b) :=
  keeps_of_heap fun s a s1 h => by
    unfold AbilityList.GetByName at h
    split at h
    · cases h; rfl
    · split at h
      · cases h; rfl
      · cases h

theorem keeps_listErase {n : Nat} (t : Nat) : Keeps n (AbilityList.Erase t) :=
  keeps_of_heap fun s a s1 h => by
    unfold AbilityList.Erase at h
    split at h
    · cases h; rfl
    · cases h

theorem keeps_listSize {n : Nat} : Keeps n AbilityList.Size :=
  keeps_of_heap fun s a s1 h => by cases h; rfl

theorem keeps_stackTop {n : Nat} : Keeps n AbilityStack.GetTopAbility :=
  keeps_of_heap fun s a s1 h => by cases h; rfl

theorem keeps_stackPush {n : Nat} (p : Ptr) : Keeps n (AbilityStack.PushAbility p) :=
  keeps_modify _ fun _ => rfl

theorem keeps_stackPop {n : Nat} : Keeps n AbilityStack.PopAbility :=
  keeps_modify _ fun _ => rfl

theorem keeps_stackErase {n : Nat} (p : Ptr) : Keeps n (AbilityStack.Erase p) :=
  keeps_modify _ fun _ => rfl

theorem keeps_GenerateToken {n : Nat} : Keeps n GenerateToken :=
  keeps_of_heap fun s a s1 h => by
    unfold AbilityLite.GenerateToken at h
    cases h; rfl

/-- A store keeps the state fields when it does not assign the state field, or when the
record was allocated at or above `n`. -/
theorem keeps_store {n : Nat} (p : Ptr) (f : AbilityRecord → AbilityRecord)
    (hf : (∀ r, (f r).state = r.state) ∨ n ≤ p) : Keeps n (store p f) := by
  constructor
  intro s a s1 hn h
  unfold AbilityLite.store at h
  split at h
  · rename_i r hr
    cases h
    refine ⟨by simpa using hn, fun q hq r1 hr1 => ?_⟩
    simp only [Heap.deref_set] at hr1
    by_cases hqp : q = p
    · subst hqp
      rcases hf with hf | hf
      · simp only [if_true, Heap.deref_lt hr] at hr1
        cases hr1
        exact ⟨r, hr, hf r⟩
      · omega
    · simp only [hqp, false_and, if_false] at hr1
      exact ⟨r1, hr1, rfl⟩
  · cases h

theorem keeps_delete {n : Nat} (o : Option Ptr) : Keeps n (delete o) := by
  constructor
  intro s a s1 hn h
  unfold AbilityLite.delete at h
  split at h
  · cases h
    exact KeepsState.rfl_of_le hn
  · split at h
    · rename_i q _ r hr
      cases h
      refine ⟨by simpa using hn, fun p hp r1 hr1 => ?_⟩
      simp only [Heap.deref_set] at hr1
      by_cases hpq : p = q
      · subst hpq
        simp [Heap.deref_lt hr] at hr1
      · simp only [hpq, false_and, if_false] at hr1
        exact ⟨r1, hr1, rfl⟩
    · cases h

/-- After an allocation the new pointer is at or above `n`. -/
theorem keeps_new_bind {β : Type} {n : Nat} (r : AbilityRecord) {f : Ptr → M β}
    (h : ∀ p, n ≤ p → Keeps n (f p)) : Keeps n (new r >>= f) := by
  constructor
  intro s b s2 hn hm
  rw [bind_apply] at hm
  have k1 : KeepsState n s { s with heap := s.heap ++ [some r] } := by
    refine ⟨by simp; omega, fun p hp r1 hr1 => ⟨r1, ?_, rfl⟩⟩
    rw [← hr1]
    exact (Heap.deref_append_lt s.heap [some r] p (Nat.lt_of_lt_of_le hp hn)).symm
  exact k1.transK ((h s.heap.length hn).run _ b s2 k1.1 hm)

theorem keeps_listBack {n : Nat} : Keeps n AbilityList.listBack :=
  keeps_of_heap fun s a s1 h => by cases h; rfl

theorem keeps_listPopBack {n : Nat} : Keeps n AbilityList.listPopBack :=
  keeps_modify _ fun _ => rfl

theorem keeps_listPushBack {n : Nat} (p : Ptr) : Keeps n (AbilityList.listPushBack p) :=
  keeps_modify _ fun _ => rfl

theorem keeps_listPushFront {n : Nat} (p : Ptr) : Keeps n (AbilityList.listPushFront p) :=
  keeps_modify _ fun _ => rfl

theorem keeps_PopBottomAbility {n : Nat} (cfg : Config) :
    Keeps n (AbilityList.PopBottomAbility cfg) := by
  unfold AbilityList.PopBottomAbility
  repeat (first
    | exact keeps_pure _
    | exact keeps_listBack
    | exact keeps_listPopBack
    | exact keeps_listPushBack _
    | exact keeps_deref _
    | exact keeps_delete _
    | apply keeps_bind
    | apply keeps_map
    | intro _
    | split
    | dsimp only)

theorem keeps_Add {n : Nat} (cfg : Config) (o : Option Ptr) : Keeps n (AbilityList.Add cfg o) := by
  unfold AbilityList.Add
  repeat (first
    | exact keeps_pure _
    | exact keeps_listSize
    | exact keeps_listGet _
    | exact keeps_listPushFront _
    | exact keeps_PopBottomAbility _
    | exact keeps_deref _
    | apply keeps_bind
    | apply keeps_map
    | intro _
    | split
    | dsimp only)

theorem keeps_SendMsgToJsAbility {n : Nat} (st : State) (r : Option Ptr) :
    Keeps n (SendMsgToJsAbility st r) := by
  unfold AbilityLite.SendMsgToJsAbility
  repeat (first
    | exact keeps_pure _
    | exact keeps_deref _
    | exact keeps_emit _
    | apply keeps_bind
    | intro _
    | split
    | dsimp only)

theorem keeps_SchedulerAbilityLifecycle {n : Nat} (a : Option Nat) (w : Want) (st : State) :
    Keeps n (SchedulerAbilityLifecycle a w st) := by
  unfold AbilityLite.SchedulerAbilityLifecycle
  repeat (first | exact keeps_pure _ | exact keeps_emit _ | split)

theorem keeps_SchedulerLifecycleInner {n : Nat} (r : Option Ptr) (st : State) :
    Keeps n (SchedulerLifecycleInner r st) := by
  unfold AbilityLite.SchedulerLifecycleInner
  repeat (first
    | exact keeps_pure _
    | exact keeps_get
    | exact keeps_deref _
    | exact keeps_SendMsgToJsAbility _ _
    | exact keeps_SchedulerAbilityLifecycle _ _ _
    | apply keeps_bind
    | apply keeps_map
    | intro _
    | split
    | dsimp only)

theorem keeps_SchedulerLifecycle {n : Nat} (t : Nat) (st : State) :
    Keeps n (SchedulerLifecycle t st) := by
  unfold AbilityLite.SchedulerLifecycle
  repeat (first
    | exact keeps_pure _
    | exact keeps_listGet _
    | exact keeps_SchedulerLifecycleInner _ _
    | apply keeps_bind
    | apply keeps_map
    | intro _
    | split
    | dsimp only)

theorem keeps_UpdateRecord {n : Nat} (info : Option AbilitySvcInfo) :
    Keeps n (UpdateRecord info) := by
  unfold AbilityLite.UpdateRecord
  repeat (first
    | exact keeps_pure _
    | exact keeps_listGetByName _
    | exact keeps_deref _
    | exact keeps_store _ _ (Or.inl fun _ => rfl)
    | apply keeps_bind
    | apply keeps_map
    | intro _
    | split
    | dsimp only)

theorem keeps_DeleteRecordInfo {n : Nat} (t : Nat) : Keeps n (DeleteRecordInfo t) := by
  unfold AbilityLite.DeleteRecordInfo
  repeat (first
    | exact keeps_pure _
    | exact keeps_listGet _
    | exact keeps_deref _
    | exact keeps_emit _
    | exact keeps_stackErase _
    | exact keeps_listErase _
    | exact keeps_delete _
    | apply keeps_bind
    | apply keeps_map
    | intro _
    | split
    | dsimp only)

/-- The only assignment to a state field in the request path is the one `CreateAppTask`
makes to the record it is given. -/
theorem keeps_CreateAppTask {n : Nat} (env : Env) (r : Option Ptr)
    (hr : ∀ p, r = some p → n ≤ p) : Keeps n (CreateAppTask env r) := by
  unfold AbilityLite.CreateAppTask
  split
  · exact keeps_pure _
  · rename_i p
    have hp : n ≤ p := hr p rfl
    repeat (first
      | exact keeps_pure _
      | exact keeps_get
      | exact keeps_deref _
      | exact keeps_store _ _ (Or.inr hp)
      | exact keeps_stackPush _
      | exact keeps_stackPop
      | exact keeps_SchedulerLifecycle _ _
      | apply keeps_bind
      | apply keeps_map
      | intro _
      | split
      | dsimp only)

theorem keeps_PreCheckStartAbility {n : Nat} (cfg : Config) (env : Env) (bundleName : CStr)
    (path : Option CStr) (data : Option (List Nat)) :
    Keeps n (PreCheckStartAbility cfg env bundleName path data) := by
  unfold AbilityLite.PreCheckStartAbility
  split
  · exact keeps_pure _
  · apply keeps_bind (keeps_listGetByName _)
    intro cur
    split
    · repeat (first
        | exact keeps_pure _
        | exact keeps_deref _
        | exact keeps_SchedulerLifecycle _ _
        | apply keeps_bind
        | apply keeps_map
        | intro _
        | split
        | dsimp only)
    · apply keeps_bind keeps_get
      intro s0
      dsimp only
      split
      all_goals
        apply keeps_bind (by first | exact keeps_pure _ | exact keeps_GenerateToken)
        intro token
        apply keeps_new_bind
        intro p hp
        repeat (first
          | exact keeps_pure _
          | exact keeps_get
          | exact keeps_deref _
          | exact keeps_Add _ _
          | exact keeps_listErase _
          | exact keeps_delete _
          | exact keeps_CreateAppTask _ _ (fun q hq => by cases hq; exact hp)
          | apply keeps_bind
          | apply keeps_map
          | intro _
          | split
          | dsimp only)

theorem keeps_TerminateAbility {n : Nat} (t : Nat) : Keeps n (TerminateAbility t) := by
  unfold AbilityLite.TerminateAbility
  repeat (first
    | exact keeps_pure _
    | exact keeps_stackTop
    | exact keeps_deref _
    | exact keeps_store _ _ (Or.inl fun _ => rfl)
    | exact keeps_DeleteRecordInfo _
    | exact keeps_SchedulerLifecycle _ _
    | exact keeps_SchedulerLifecycleInner _ _
    | apply keeps_bind
    | apply keeps_map
    | intro _
    | split
    | dsimp only)

theorem keeps_StartAbility {n : Nat} (cfg : Config) (env : Env) (info : Option AbilitySvcInfo) :
    Keeps n (StartAbility cfg env info) := by
  unfold AbilityLite.StartAbility
  repeat (first
    | exact keeps_pure _
    | exact keeps_stackTop
    | exact keeps_deref _
    | exact keeps_UpdateRecord _
    | exact keeps_GenerateToken
    | exact keeps_modify _ (fun _ => rfl)
    | exact keeps_TerminateAbility _
    | exact keeps_PreCheckStartAbility _ _ _ _ _
    | exact keeps_SchedulerLifecycle _ _
    | exact keeps_SchedulerLifecycleInner _ _
    | apply keeps_bind
    | apply keeps_map
    | intro _
    | split
    | dsimp only)

theorem keeps_ForceStopBundleInner {n : Nat} (t : Nat) : Keeps n (ForceStopBundleInner t) := by
  unfold AbilityLite.ForceStopBundleInner
  repeat (first
    | exact keeps_pure _
    | exact keeps_listGet _
    | exact keeps_deref _
    | exact keeps_emit _
    | exact keeps_DeleteRecordInfo _
    | apply keeps_bind
    | apply keeps_map
    | intro _
    | split
    | dsimp only)

theorem keeps_ForceStopBundle {n : Nat} (t : Nat) : Keeps n (ForceStopBundle t) := by
  unfold AbilityLite.ForceStopBundle
  repeat (first
    | exact keeps_pure _
    | exact keeps_listGet _
    | exact keeps_deref _
    | exact keeps_ForceStopBundleInner _
    | exact keeps_SchedulerLifecycle _ _
    | apply keeps_bind
    | apply keeps_map
    | intro _
    | split
    | dsimp only)

theorem keeps_ForceStop {n : Nat} (b : Option CStr) : Keeps n (ForceStop b) := by
  unfold AbilityLite.ForceStop
  repeat (first
    | exact keeps_pure _
    | exact keeps_failure
    | exact keeps_stackTop
    | exact keeps_deref _
    | exact keeps_TerminateAbility _
    | apply keeps_bind
    | apply keeps_map
    | intro _
    | split
    | dsimp only)

theorem LiveInv.of_sameLive {k : Bool} {L : List Ptr} {s s1 : Manager} (h : SameLive s s1)
    (hi : LiveInv k L s) : LiveInv k L s1 := by
  obtain ⟨hl, hk, hd⟩ := h
  refine ⟨by rw [hl]; exact hi.1, ?_, ?_, ?_⟩
  · intro p hp
    rw [hl] at hp
    rw [hd]; exact hi.2.1 p hp
  · intro hkt p hp
    rw [hk] at hp
    rw [hd]; exact hi.2.2.1 hkt p hp
  · intro p hp
    rw [hd]; exact hi.2.2.2 p hp

theorem LiveInv.mono {k : Bool} {L L1 : List Ptr} {s : Manager} (hi : LiveInv k L s)
    (h : ∀ p ∈ L1, p ∈ L) : LiveInv k L1 s :=
  ⟨hi.1, hi.2.1, hi.2.2.1, fun p hp => hi.2.2.2 p (h p hp)⟩

theorem LiveInv.dropStack {k : Bool} {L : List Ptr} {s : Manager} (hi : LiveInv k L s) :
    LiveInv false L s :=
  ⟨hi.1, hi.2.1, fun h => Bool.noConfusion h, hi.2.2.2⟩

theorem StateWF.liveInv {s : Manager} (hwf : StateWF s) : LiveInv true [] s :=
  ⟨HeapWF.nodup hwf, hwf.1, fun _ p hp => hwf.1 p (hwf.2.2.2 p hp),
    fun _ hp => absurd hp (List.not_mem_nil _)⟩

theorem runs_bind {α β : Type} {P : Manager → Prop} {Q : α → Manager → Prop}
    {R : β → Manager → Prop} {m : M α} {f : α → M β}
    (h1 : Runs P m Q) (h2 : ∀ a, Runs (Q a) (f a) R) : Runs P (m >>= f) R := by
  constructor
  intro s hP
  obtain ⟨a, s1, hm, hQ⟩ := h1.run s hP
  obtain ⟨b, s2, hf, hR⟩ := (h2 a).run s1 hQ
  exact ⟨b, s2, by rw [bind_apply, hm]; exact hf, hR⟩

theorem runs_pure {α : Type} {P : Manager → Prop} (a : α) :
    Runs P (pure a : M α) (fun _ => P) :=
  ⟨fun s hP => ⟨a, s, rfl, hP⟩⟩

theorem runs_pureT {α : Type} {P : Manager → Prop} (a : α) :
    Runs P (pure a : M α) (fun _ _ => True) :=
  ⟨fun s _ => ⟨a, s, rfl, trivial⟩⟩

theorem runs_post {α : Type} {P : Manager → Prop} {Q Q1 : α → Manager → Prop} {m : M α}
    (h : Runs P m Q) (hq : ∀ a s, Q a s → Q1 a s) : Runs P m Q1 :=
  ⟨fun s hP => by
    obtain ⟨a, s1, hm, hQ⟩ := h.run s hP
    exact ⟨a, s1, hm, hq a s1 hQ⟩⟩

theorem runs_pre {α : Type} {P P1 : Manager → Prop} {Q : α → Manager → Prop} {m : M α}
    (h : Runs P m Q) (hp : ∀ s, P1 s → P s) : Runs P1 m Q :=
  ⟨fun s hP => h.run s (hp s hP)⟩

theorem runs_map {α β : Type} {P : Manager → Prop} {Q : Manager → Prop} {m : M α} (f : α → β)
    (h : Runs P m (fun _ => Q)) : Runs P (f <$> m) (fun _ => Q) :=
  ⟨fun s hP => by
    obtain ⟨a, s1, hm, hQ⟩ := h.run s hP
    exact ⟨f a, s1, by rw [map_apply, hm]; rfl, hQ⟩⟩

theorem runs_get {P : Manager → Prop} : Runs P (get : M Manager) (fun _ => P) :=
  ⟨fun s hP => ⟨s, s, rfl, hP⟩⟩

/-- Code that returns and changes neither registry, stack nor liveness. -/
theorem runs_of_sameLive {α : Type} {k : Bool} {L : List Ptr} {m : M α}
    (h : ∀ s, LiveInv k L s → ∃ a s1, m s = some (a, s1) ∧ SameLive s s1) :
    Runs (LiveInv k L) m (fun _ => LiveInv k L) :=
  ⟨fun s hP => by
    obtain ⟨a, s1, hm, hs⟩ := h s hP
    exact ⟨a, s1, hm, hP.of_sameLive hs⟩⟩

theorem SameLive.rfl_of (s : Manager) : SameLive s s := ⟨rfl, rfl, fun _ => rfl⟩

theorem runs_modify {k : Bool} {L : List Ptr} (f : Manager → Manager)
    (hf : ∀ s, SameLive s (f s)) : Runs (LiveInv k L) (modify f : M Unit) (fun _ => LiveInv k L) :=
  runs_of_sameLive fun s _ => ⟨(), f s, rfl, hf s⟩

theorem runs_emit {k : Bool} {L : List Ptr} (e : Event) :
    Runs (LiveInv k L) (emit e) (fun _ => LiveInv k L) :=
  runs_modify _ fun _ => ⟨rfl, rfl, fun _ => rfl⟩

theorem runs_GenerateToken {k : Bool} {L : List Ptr} :
    Runs (LiveInv k L) GenerateToken (fun _ => LiveInv k L) :=
  runs_of_sameLive fun s _ => ⟨_, _, GenerateToken_eq s, rfl, rfl, fun _ => rfl⟩

theorem runs_deref {k : Bool} {L : List Ptr} (p : Ptr) (hp : p ∈ L) :
    Runs (LiveInv k L) (deref p) (fun _ => LiveInv k L) :=
  runs_of_sameLive fun s hi => by
    obtain ⟨r, hr⟩ := Option.isSome_iff_exists.mp (hi.2.2.2 p hp)
    exact ⟨r, s, by simp [deref, hr], SameLive.rfl_of s⟩

theorem runs_store {k : Bool} {L : List Ptr} (p : Ptr) (f : AbilityRecord → AbilityRecord)
    (hp : p ∈ L) : Runs (LiveInv k L) (store p f) (fun _ => LiveInv k L) :=
  runs_of_sameLive fun s hi => by
    obtain ⟨r, hr⟩ := Option.isSome_iff_exists.mp (hi.2.2.2 p hp)
    refine ⟨(), { s with heap := s.heap.set p (some (f r)) }, by simp only [store, hr],
      rfl, rfl, fun q => ?_⟩
    show (Heap.deref (s.heap.set p (some (f r))) q).isSome = _
    rw [Heap.deref_set]
    by_cases hq : q = p
    · subst hq
      simp [Heap.deref_lt hr, hr]
    · simp [hq]

theorem runs_stackTop {L : List Ptr} :
    Runs (LiveInv true L) AbilityStack.GetTopAbility (fun o => LiveInv true (o.toList ++ L)) :=
  ⟨fun s hi => ⟨s.abilityStack.head?, s, rfl, hi.1, hi.2.1, hi.2.2.1, fun p hp => by
    rcases List.mem_append.mp hp with hp | hp
    · have : s.abilityStack.head? = some p := by simpa using hp
      exact hi.2.2.1 rfl p (List.mem_of_mem_head? this)
    · exact hi.2.2.2 p hp⟩⟩

theorem runs_stackPush {k : Bool} {L : List Ptr} (p : Ptr) (hp : p ∈ L) :
    Runs (LiveInv k L) (AbilityStack.PushAbility p) (fun _ => LiveInv k L) :=
  ⟨fun s hi => ⟨(), _, rfl, hi.1, hi.2.1, fun hk q hq => by
    rcases List.mem_cons.mp hq with rfl | hq
    · exact hi.2.2.2 q hp
    · exact hi.2.2.1 hk q hq, hi.2.2.2⟩⟩

theorem runs_stackPop {k : Bool} {L : List Ptr} :
    Runs (LiveInv k L) AbilityStack.PopAbility (fun _ => LiveInv k L) :=
  ⟨fun _ hi => ⟨(), _, rfl, hi.1, hi.2.1,
    fun hk q hq => hi.2.2.1 hk q (List.mem_of_mem_tail hq), hi.2.2.2⟩⟩

theorem runs_listGet {k : Bool} {L : List Ptr} (t : Nat) :
    Runs (LiveInv k L) (AbilityList.Get t) (fun o => LiveInv k (o.toList ++ L)) :=
  ⟨fun s hi => by
    obtain ⟨o, ho⟩ := Option.isSome_iff_exists.mp (getLoop_isSome t hi.2.1)
    refine ⟨o, s, Get_of_getLoop ho, hi.1, hi.2.1, hi.2.2.1, fun p hp => ?_⟩
    rcases List.mem_append.mp hp with hp | hp
    · have : o = some p := by simpa using hp
      subst this
      exact hi.2.1 p (getLoop_some_mem ho).1
    · exact hi.2.2.2 p hp⟩

theorem getByNameLoop_live {h : Heap} (n : CStr) {l : List Ptr}
    (hl : ∀ p ∈ l, (h.deref p).isSome = true) :
    ∃ o, AbilityList.getByNameLoop h n l = some o ∧ ∀ p, o = some p → p ∈ l := by
  induction l with
  | nil => exact ⟨none, rfl, fun p hp => by cases hp⟩
  | cons q rest ih =>
    obtain ⟨r, hr⟩ := Option.isSome_iff_exists.mp (hl q (List.mem_cons_self _ _))
    obtain ⟨o, ho, hmem⟩ := ih (fun p hp => hl p (List.mem_cons_of_mem _ hp))
    unfold AbilityList.getByNameLoop
    simp only [hr]
    split
    · exact ⟨o, ho, fun p hp => List.mem_cons_of_mem _ (hmem p hp)⟩
    · split
      · exact ⟨some q, rfl, fun p hp => by cases hp; exact List.mem_cons_self _ _⟩
      · exact ⟨o, ho, fun p hp => List.mem_cons_of_mem _ (hmem p hp)⟩

theorem runs_listGetByName {k : Bool} {L : List Ptr} (b : Option CStr) :
    Runs (LiveInv k L) (AbilityList.GetByName b) (fun o => LiveInv k (o.toList ++ L)) :=
  ⟨fun s hi => by
    cases b with
    | none => exact ⟨none, s, rfl, hi⟩
    | some n =>
      obtain ⟨o, ho, hmem⟩ := getByNameLoop_live n hi.2.1
      refine ⟨o, s, by simp [AbilityList.GetByName, ho], hi.1, hi.2.1, hi.2.2.1, fun p hp => ?_⟩
      rcases List.mem_append.mp hp with hp | hp
      · exact hi.2.1 p (hmem p (by simpa using hp))
      · exact hi.2.2.2 p hp⟩

theorem runs_listErase {k : Bool} {L : List Ptr} (t : Nat) :
    Runs (LiveInv k L) (AbilityList.Erase t) (fun _ => LiveInv k L) :=
  ⟨fun s hi => by
    obtain ⟨o, ho⟩ := Option.isSome_iff_exists.mp (getLoop_isSome t hi.2.1)
    cases o with
    | none => exact ⟨(), _, Erase_of_get_none ho, hi⟩
    | some p =>
      exact ⟨(), _, Erase_of_get_some ho, hi.1.sublist (List.erase_sublist _ _),
        fun q hq => hi.2.1 q (List.mem_of_mem_erase hq), hi.2.2.1, hi.2.2.2⟩⟩

theorem runs_mono {α : Type} {k : Bool} {L L1 : List Ptr} {m : M α}
    (h : Runs (LiveInv k L) m (fun _ => LiveInv k L)) (hsub : ∀ p ∈ L1, p ∈ L) :
    Runs (LiveInv k L) m (fun _ => LiveInv k L1) :=
  runs_post h fun _ _ hi => hi.mono hsub

theorem runs_pureL {α : Type} {k : Bool} {L L1 : List Ptr} (a : α) (hsub : ∀ p ∈ L1, p ∈ L) :
    Runs (LiveInv k L) (pure a : M α) (fun _ => LiveInv k L1) :=
  runs_mono (runs_pure a) hsub

theorem runs_SendMsgToJsAbility {k : Bool} {L : List Ptr} (st : State) (o : Option Ptr)
    (ho : ∀ p, o = some p → p ∈ L) :
    Runs (LiveInv k L) (SendMsgToJsAbility st o) (fun _ => LiveInv k L) := by
  unfold AbilityLite.SendMsgToJsAbility
  split
  · exact runs_pure _
  · rename_i p
    exact runs_bind (runs_deref p (ho p rfl)) fun _ => runs_bind (runs_emit _) fun _ => runs_pure _

theorem runs_SchedulerAbilityLifecycle {k : Bool} {L : List Ptr} (a : Option Nat) (w : Want)
    (st : State) : Runs (LiveInv k L) (SchedulerAbilityLifecycle a w st) (fun _ => LiveInv k L) := by
  unfold AbilityLite.SchedulerAbilityLifecycle
  repeat (first | exact runs_pure _ | exact runs_emit _ | split)

theorem runs_SchedulerLifecycleInner {k : Bool} {L : List Ptr} (o : Option Ptr) (st : State)
    (ho : ∀ p, o = some p → p ∈ L) :
    Runs (LiveInv k L) (SchedulerLifecycleInner o st) (fun _ => LiveInv k L) := by
  unfold AbilityLite.SchedulerLifecycleInner
  split
  · exact runs_pure _
  · rename_i p
    have hp : p ∈ L := ho p rfl
    repeat (first
      | exact runs_pure _
      | exact runs_get
      | exact runs_deref _ hp
      | exact runs_SendMsgToJsAbility _ _ ho
      | exact runs_SchedulerAbilityLifecycle _ _ _
      | apply runs_bind
      | intro _
      | split
      | dsimp only)

theorem runs_SchedulerLifecycle {k : Bool} {L : List Ptr} (t : Nat) (st : State) :
    Runs (LiveInv k L) (SchedulerLifecycle t st) (fun _ => LiveInv k L) := by
  unfold AbilityLite.SchedulerLifecycle
  apply runs_bind (runs_listGet t)
  intro o
  split
  · exact runs_pureL _ (by intro x hx; simp_all)
  · rename_i p
    exact runs_post (runs_SchedulerLifecycleInner (some p) st
      (fun q hq => by cases hq; simp)) fun _ _ hi => hi.mono (by intro x hx; simp_all)

theorem runs_UpdateRecord {k : Bool} {L : List Ptr} (info : Option AbilitySvcInfo) :
    Runs (LiveInv k L) (UpdateRecord info) (fun _ => LiveInv k L) := by
  unfold AbilityLite.UpdateRecord
  split
  · exact runs_pure _
  · rename_i i
    apply runs_bind (runs_listGetByName _)
    intro o
    split
    · exact runs_pureL _ (by intro x hx; simp_all)
    · rename_i p
      apply runs_bind (runs_deref p (by simp))
      intro r
      split
      · exact runs_pureL _ (by intro x hx; simp_all)
      · exact runs_mono (runs_store p _ (by simp)) (by intro x hx; simp_all)

theorem runs_DeleteRecordInfo {k : Bool} {L : List Ptr} (t : Nat) (ht : t ≠ 0) :
    Runs (LiveInv k L) (DeleteRecordInfo t) (fun _ => LiveInv false []) :=
  ⟨fun s hi => by
    obtain ⟨o, ho⟩ := Option.isSome_iff_exists.mp (getLoop_isSome t hi.2.1)
    cases o with
    | none =>
      exact ⟨(), s, DeleteRecordInfo_none ho,
        hi.dropStack.mono fun _ hp => absurd hp (List.not_mem_nil _)⟩
    | some p =>
      obtain ⟨_, r, hr, _⟩ := getLoop_some_mem ho
      refine ⟨(), _, DeleteRecordInfo_some ht ho hr, hi.1.sublist (List.erase_sublist _ _),
        fun q hq => ?_, fun h => Bool.noConfusion h, fun _ hp => absurd hp (List.not_mem_nil _)⟩
      have hq1 := (List.Nodup.mem_erase_iff hi.1).mp hq
      show (Heap.deref (s.heap.set p none) q).isSome = true
      rw [Heap.deref_set_ne _ _ _ _ hq1.1]
      exact hi.2.1 q hq1.2⟩

theorem runs_deleteT {k : Bool} {L : List Ptr} (o : Option Ptr) (ho : ∀ p, o = some p → p ∈ L) :
    Runs (LiveInv k L) (delete o) (fun _ _ => True) :=
  ⟨fun s hi => by
    cases o with
    | none => exact ⟨(), s, rfl, trivial⟩
    | some p =>
      obtain ⟨r, hr⟩ := Option.isSome_iff_exists.mp (hi.2.2.2 p (ho p rfl))
      exact ⟨(), { s with heap := s.heap.set p none }, by simp only [delete, hr], trivial⟩⟩

theorem runs_Add {k : Bool} {L : List Ptr} (cfg : Config) (p : Ptr) :
    Runs (fun s => LiveInv k (p :: L) s ∧ p ∉ s.abilityList) (AbilityList.Add cfg (some p))
      (fun _ => LiveInv false [p]) :=
  ⟨fun s hP => by
    obtain ⟨hi, hpl⟩ := hP
    obtain ⟨r, hr⟩ := Option.isSome_iff_exists.mp (hi.2.2.2 p (List.mem_cons_self _ _))
    obtain ⟨s1, kept, hrun, hsub, hcase, hheap, _, _⟩ := Add_spec cfg s p r ⟨hi.1, hi.2.1⟩ hr hpl
    have hkl : ∀ q ∈ kept, (s1.heap.deref q).isSome = true := fun q hq => by
      rw [hheap q (Or.inl hq)]; exact hi.2.1 q (hsub.subset hq)
    have hp1 : (s1.heap.deref p).isSome = true := by
      rw [hheap p (Or.inr hpl), hr]; rfl
    have hnd : kept.Nodup := hi.1.sublist hsub
    refine ⟨(), s1, hrun, ?_, ?_, fun h => Bool.noConfusion h, fun q hq => ?_⟩
    · rcases hcase with ⟨hl, _⟩ | ⟨hl, _⟩
      · rw [hl]
        exact List.nodup_cons.mpr ⟨fun hc => hpl (hsub.subset hc), hnd⟩
      · rw [hl]; exact hnd
    · intro q hq
      rcases hcase with ⟨hl, _⟩ | ⟨hl, _⟩
      · rw [hl] at hq
        rcases List.mem_cons.mp hq with rfl | hq
        · exact hp1
        · exact hkl q hq
      · rw [hl] at hq
        exact hkl q hq
    · have : q = p := by simpa using hq
      subst this
      exact hp1⟩

/-- After an allocation the new record is alive and not registered. -/
theorem runs_new_bind {β : Type} {k : Bool} {L : List Ptr} {R : β → Manager → Prop}
    (r : AbilityRecord) {f : Ptr → M β}
    (h : ∀ p, Runs (fun s => LiveInv k (p :: L) s ∧ p ∉ s.abilityList) (f p) R) :
    Runs (LiveInv k L) (new r >>= f) R :=
  ⟨fun s hi => by
    have hlt : ∀ q, (s.heap.deref q).isSome = true → q < s.heap.length := fun q hq => by
      obtain ⟨rq, hrq⟩ := Option.isSome_iff_exists.mp hq
      exact Heap.deref_lt hrq
    have hkeep : ∀ q, (s.heap.deref q).isSome = true →
        (Heap.deref (s.heap ++ [some r]) q).isSome = true := fun q hq => by
      rw [Heap.deref_append_lt _ _ _ (hlt q hq)]; exact hq
    obtain ⟨b, s2, hf, hR⟩ := (h s.heap.length).run { s with heap := s.heap ++ [some r] }
      ⟨⟨hi.1, fun q hq => hkeep q (hi.2.1 q hq), fun hk q hq => hkeep q (hi.2.2.1 hk q hq),
        fun q hq => by
          rcases List.mem_cons.mp hq with rfl | hq
          · show (Heap.deref (s.heap ++ [some r]) s.heap.length).isSome = true
            rw [Heap.deref_append_length]; rfl
          · exact hkeep q (hi.2.2.2 q hq)⟩,
       fun hc => absurd (hlt _ (hi.2.1 _ hc)) (Nat.lt_irrefl _)⟩
    exact ⟨b, s2, by rw [bind_apply]; exact hf, hR⟩⟩

theorem runs_TerminateAbility {L : List Ptr} (t : Nat) :
    Runs (LiveInv true L) (TerminateAbility t) (fun _ => LiveInv false []) := by
  unfold AbilityLite.TerminateAbility
  apply runs_bind runs_stackTop
  intro o
  split
  · exact runs_post (runs_pure _) fun _ _ hi => hi.dropStack.mono (by intro x hx; simp_all)
  · rename_i top
    apply runs_bind (runs_deref top (by simp))
    intro t0
    dsimp only
    split
    · split
      · exact runs_post (runs_SchedulerLifecycle _ _)
          fun _ _ hi => hi.dropStack.mono (by intro x hx; simp_all)
      · exact runs_post (runs_pure _) fun _ _ hi => hi.dropStack.mono (by intro x hx; simp_all)
    · rename_i ht
      split
      · exact runs_bind (runs_DeleteRecordInfo t ht) fun _ => runs_pure _
      · apply runs_bind (runs_store top _ (by simp))
        intro _
        exact runs_post (runs_SchedulerLifecycleInner (some top) _ (fun q hq => by cases hq; simp))
          fun _ _ hi => hi.dropStack.mono (by intro x hx; simp_all)

theorem runs_CreateAppTask {k : Bool} {L : List Ptr} (env : Env) (p : Ptr) (hp : p ∈ L) :
    Runs (LiveInv k L) (CreateAppTask env (some p)) (fun _ => LiveInv k L) := by
  unfold AbilityLite.CreateAppTask
  dsimp only
  repeat (first
    | exact runs_pure _
    | exact runs_get
    | exact runs_deref _ hp
    | exact runs_store _ _ hp
    | exact runs_stackPush _ hp
    | exact runs_stackPop
    | exact runs_SchedulerLifecycle _ _
    | apply runs_bind
    | intro _
    | split
    | dsimp only)

theorem runs_PreCheckStartAbility {k : Bool} {L : List Ptr} (cfg : Config) (env : Env)
    (bundleName : CStr) (path : Option CStr) (data : Option (List Nat)) :
    Runs (LiveInv k L) (PreCheckStartAbility cfg env bundleName path data)
      (fun _ _ => True) := by
  unfold AbilityLite.PreCheckStartAbility
  split
  · exact runs_pureT _
  · apply runs_bind (runs_listGetByName _)
    intro cur
    split
    · rename_i c
      repeat (first
        | exact runs_pure _
        | exact runs_pureT _
        | exact runs_deref _ (by simp)
        | exact runs_SchedulerLifecycle _ _
        | apply runs_bind
        | intro _
        | split
        | dsimp only)
    · apply runs_bind runs_get
      intro s0
      dsimp only
      split
      all_goals
        apply runs_bind (by first | exact runs_pure _ | exact runs_GenerateToken)
        intro token
        apply runs_new_bind
        intro p
        apply runs_bind (runs_Add cfg p)
        intro _
        repeat (first
          | exact runs_pure _
          | exact runs_pureT _
          | exact runs_get
          | exact runs_deref _ (by simp)
          | exact runs_listErase _
          | exact runs_deleteT _ (fun q hq => by cases hq; simp)
          | exact runs_CreateAppTask _ _ (by simp)
          | apply runs_bind
          | intro _
          | split
          | dsimp only)

theorem runs_StartAbility (cfg : Config) (env : Env) (info : Option AbilitySvcInfo) :
    Runs (LiveInv true []) (StartAbility cfg env info) (fun _ _ => True) := by
  unfold AbilityLite.StartAbility
  repeat (first
    | exact runs_pure _
    | exact runs_pureT _
    | exact runs_stackTop
    | exact runs_deref _ (by simp)
    | exact runs_UpdateRecord _
    | exact runs_GenerateToken
    | exact runs_modify _ (fun _ => ⟨rfl, rfl, fun _ => rfl⟩)
    | exact runs_TerminateAbility _
    | exact runs_PreCheckStartAbility _ _ _ _ _
    | exact runs_SchedulerLifecycle _ _
    | exact runs_SchedulerLifecycleInner _ _ (fun q hq => by cases hq; simp)
    | apply runs_bind
    | intro _
    | split
    | dsimp only)

theorem runs_ForceStopBundleInner {k : Bool} {L : List Ptr} (t : Nat) (ht : t ≠ 0) :
    Runs (LiveInv k L) (ForceStopBundleInner t) (fun _ => LiveInv false []) := by
  unfold AbilityLite.ForceStopBundleInner
  apply runs_bind (runs_listGet t)
  intro o
  split
  · exact runs_post (runs_pure _) fun _ _ hi => hi.dropStack.mono (by intro x hx; simp_all)
  · rename_i p
    apply runs_bind (runs_deref p (by simp))
    intro r
    dsimp only
    split
    · apply runs_bind (runs_emit _)
      intro _
      exact runs_bind (runs_DeleteRecordInfo t ht) fun _ => runs_pure _
    · apply runs_bind (runs_pure _)
      intro _
      exact runs_bind (runs_DeleteRecordInfo t ht) fun _ => runs_pure _

theorem runs_ForceStopBundle {k : Bool} {L : List Ptr} (t : Nat) :
    Runs (LiveInv k L) (ForceStopBundle t) (fun _ _ => True) := by
  unfold AbilityLite.ForceStopBundle
  split
  · exact runs_pureT _
  · rename_i ht
    apply runs_bind (runs_ForceStopBundleInner t ht)
    intro ret
    split
    · exact runs_pureT _
    · apply runs_bind (runs_listGet _)
      intro o
      split
      · exact runs_pureT _
      · rename_i l
        apply runs_bind (runs_deref l (by simp))
        intro r
        split
        · exact runs_post (runs_SchedulerLifecycle _ _) fun _ _ _ => trivial
        · exact runs_pureT _

/-- With a named record on top of the stack `ForceStop` returns. -/
theorem runs_ForceStop (b : Option CStr) :
    Runs (fun s => LiveInv true [] s ∧ ∃ px rest w n, s.abilityStack = px :: rest ∧
        s.heap.deref px = some w ∧ w.appName = some n)
      (ForceStop b) (fun _ _ => True) :=
  ⟨fun s hP => by
    obtain ⟨hi, px, rest, w, n, hstack, hw, hn⟩ := hP
    cases b with
    | none => exact ⟨_, s, rfl, trivial⟩
    | some name =>
      by_cases hl : IsLauncher name = true
      · obtain ⟨ret, s1, h1, _⟩ := (runs_TerminateAbility 0).run s hi
        exact ⟨ret, s1, by simp only [ForceStop, hl, if_true]; exact h1, trivial⟩
      · have htop : AbilityStack.GetTopAbility s = some (some px, s) := by
          simp [AbilityStack.GetTopAbility, hstack]
        have hd : deref px s = some (w, s) := by simp [deref, hw]
        by_cases hnn : n = name
        · obtain ⟨ret, s1, h1, _⟩ := (runs_TerminateAbility w.token).run s hi
          refine ⟨ret, s1, ?_, trivial⟩
          simp only [ForceStop, hl, Bool.false_eq_true, if_false]
          rw [bind_eq_of htop]
          simp only []
          rw [bind_eq_of hd]
          simp only [hn, hnn, if_true]
          exact h1
        · refine ⟨Ret.PARAM_CHECK_ERROR, s, ?_, trivial⟩
          simp only [ForceStop, hl, Bool.false_eq_true, if_false]
          rw [bind_eq_of htop]
          simp only []
          rw [bind_eq_of hd]
          simp only [hn, hnn, if_false]
          rfl⟩

/-- Claim C25. Whenever one of the request-issuing operations `StartAbility`,
`TerminateAbility`, `ForceStop` and `ForceStopBundle` returns, every record that exists
before and after the call, registered or not, has the state field it had before. In a state
that satisfies the data-model invariants `StartAbility`, `TerminateAbility` and
`ForceStopBundle` do return, and so does `ForceStop` when the stack top is a record with a
name. And `TerminateAbility` with the token of the foreground worker record returns
`ERR_OK`, sets only the terminated flag of that record and dispatches one Background
instruction to it; registry, stack, pending token and token counter stay as they were. -/
theorem request_ops_keep_state (cfg : Config) (env : Env) (info : Option AbilitySvcInfo)
    (t : Nat) (b : Option CStr) (s : Manager) :
    (∀ ret s1,
      (StartAbility cfg env info s = some (ret, s1) ∨ TerminateAbility t s = some (ret, s1) ∨
        ForceStop b s = some (ret, s1) ∨ ForceStopBundle t s = some (ret, s1)) →
      ∀ p r r1, s.heap.deref p = some r → s1.heap.deref p = some r1 → r1.state = r.state) ∧
    (StateWF s →
      (∃ ret s1, StartAbility cfg env info s = some (ret, s1)) ∧
      (∃ ret s1, TerminateAbility t s = some (ret, s1)) ∧
      (∃ ret s1, ForceStopBundle t s = some (ret, s1)) ∧
      ((∃ px rest w n, s.abilityStack = px :: rest ∧ s.heap.deref px = some w ∧
          w.appName = some n) →
        ∃ ret s1, ForceStop b s = some (ret, s1))) ∧
    (∀ px rest w, s.abilityStack = px :: rest → s.heap.deref px = some w → w.token ≠ 0 →
      TerminateAbility w.token s =
        some (Ret.ERR_OK, { s with
          heap := s.heap.set px (some { w with isTerminated := true })
          log := s.log ++ [jsMsgOf State.STATE_BACKGROUND { w with isTerminated := true }] })) := by
  refine ⟨?_, ?_, ?_⟩
  · intro ret s1 hrun p r r1 hr hr1
    have hk : KeepsState s.heap.length s s1 := by
      rcases hrun with h | h | h | h
      · exact (keeps_StartAbility cfg env info).run s ret s1 (Nat.le_refl _) h
      · exact (keeps_TerminateAbility t).run s ret s1 (Nat.le_refl _) h
      · exact (keeps_ForceStop b).run s ret s1 (Nat.le_refl _) h
      · exact (keeps_ForceStopBundle t).run s ret s1 (Nat.le_refl _) h
    obtain ⟨r0, hr0, he⟩ := hk.2 p (Heap.deref_lt hr) r1 hr1
    rw [hr] at hr0
    cases hr0
    exact he
  · intro hwf
    have hi := hwf.liveInv
    refine ⟨?_, ?_, ?_, ?_⟩
    · obtain ⟨ret, s1, h, _⟩ := (runs_StartAbility cfg env info).run s hi
      exact ⟨ret, s1, h⟩
    · obtain ⟨ret, s1, h, _⟩ := (runs_TerminateAbility t).run s hi
      exact ⟨ret, s1, h⟩
    · obtain ⟨ret, s1, h, _⟩ := (runs_ForceStopBundle t).run s hi
      exact ⟨ret, s1, h⟩
    · intro htop
      obtain ⟨ret, s1, h, _⟩ := (runs_ForceStop b).run s ⟨hi, htop⟩
      exact ⟨ret, s1, h⟩
  · intro px rest w hstack hw htw
    exact TerminateAbility_top s px rest w hstack hw htw

/-- Witness for C25: with `x.app` foreground, the request for `y.app` leaves the home record
Background and the record of `x.app` Active, the data-model invariants hold, and terminating
`x.app` marks its record terminated and sends it one Background instruction. -/
theorem request_ops_keep_state_witness :
    StartAbility roomyCfg exampleEnv (some yApp) xActive = some (Ret.ERR_OK, yPending) ∧
    (∀ p r r1, xActive.heap.deref p = some r → yPending.heap.deref p = some r1 →
      r1.state = r.state) ∧
    StateWF xActive ∧
    (∃ ret s1, ForceStop (some "x.app".toList) xActive = some (ret, s1)) ∧
    TerminateAbility 1 xActive =
      some (Ret.ERR_OK, { xActive with
        heap := xActive.heap.set 1 (some { xRecord with isTerminated := true })
        log := xActive.log ++
          [jsMsgOf State.STATE_BACKGROUND { xRecord with isTerminated := true }] }) :=
  ⟨rfl,
   (request_ops_keep_state roomyCfg exampleEnv (some yApp) 1 none xActive).1 Ret.ERR_OK yPending
     (Or.inl rfl),
   by decide,
   ((request_ops_keep_state roomyCfg exampleEnv (some yApp) 1 (some "x.app".toList) xActive).2.1
     (by decide)).2.2.2 ⟨1, [0], xRecord, "x.app".toList, rfl, rfl, rfl⟩,
   (request_ops_keep_state roomyCfg exampleEnv (some yApp) 1 none xActive).2.2 1 [0] xRecord
     rfl rfl (by decide)⟩

/-- The eviction never removes a record that is the only one carrying the home name. -/
theorem PopBottomAbility_keeps_home (cfg : Config) {s s1 : Manager} {h : Ptr}
    (hwf : RegistryWF s) (hh : h ∈ s.abilityList) (hhome : IsHomeAt cfg s.heap h)
    (hone : ∀ q ∈ s.abilityList, IsHomeAt cfg s.heap q → q = h)
    (hrun : AbilityList.PopBottomAbility cfg s = some ((), s1)) :
    h ∈ s1.abilityList ∧ s1.heap.deref h = s.heap.deref h ∧
    s1.abilityList.Sublist s.abilityList ∧
    (∀ q ∈ s1.abilityList, s1.heap.deref q = s.heap.deref q) := by
  obtain ⟨s0, h0, hsub, hheap, hvict, _⟩ := PopBottomAbility_spec cfg s hwf
  rw [h0] at hrun
  have he : s0 = s1 := by cases hrun; rfl
  subst he
  have hk : h ∈ s0.abilityList := by
    by_contra hc
    obtain ⟨_, hv⟩ := hvict h hh hc
    rcases hv with ⟨init, _, hnh⟩ | ⟨init, last, hl, hlast⟩
    · exact hnh hhome
    · have hlm : last ∈ s.abilityList := by rw [hl]; simp
      have := hone last hlm hlast
      subst this
      have hnd := hwf.1
      rw [hl] at hnd
      have := List.nodup_append.mp hnd
      simp at this
  exact ⟨hk, hheap h (Or.inl hk), hsub, fun q hq => hheap q (Or.inl hq)⟩

/-- Claim C2. In a well-formed registry (every entry a live record, none held twice) whose
only record carrying the home bundle name is `h`, every `Add` that returns leaves `h`
registered with unchanged contents, whatever record is passed and whatever the capacity;
and `Add` does return for every live record that is not registered yet, and for every live
record while the registry is below capacity. -/
theorem add_never_evicts_home (cfg : Config) (s : Manager) (h : Ptr)
    (hwf : RegistryWF s) (hh : h ∈ s.abilityList) (hhome : IsHomeAt cfg s.heap h)
    (hone : ∀ q ∈ s.abilityList, IsHomeAt cfg s.heap q → q = h) :
    (∀ o s1, AbilityList.Add cfg o s = some ((), s1) →
      h ∈ s1.abilityList ∧ s1.heap.deref h = s.heap.deref h ∧ IsHomeAt cfg s1.heap h) ∧
    (∀ p r, s.heap.deref p = some r →
      p ∉ s.abilityList ∨ s.abilityList.length < cfg.ABILITY_LIST_CAPACITY →
      ∃ s1, AbilityList.Add cfg (some p) s = some ((), s1)) := by
  constructor
  · intro o s1 hrun
    have key : h ∈ s1.abilityList ∧ s1.heap.deref h = s.heap.deref h := by
      cases o with
      | none =>
        have : AbilityList.Add cfg none s = some ((), s) := rfl
        rw [this] at hrun
        cases hrun
        exact ⟨hh, rfl⟩
      | some p =>
        rw [Add_eq] at hrun
        have hmid : ∃ s0, (if s.abilityList.length ≥ cfg.ABILITY_LIST_CAPACITY then
            AbilityList.PopBottomAbility cfg s else some ((), s)) = some ((), s0) ∧
            h ∈ s0.abilityList ∧ s0.heap.deref h = s.heap.deref h := by
          by_cases hc : s.abilityList.length ≥ cfg.ABILITY_LIST_CAPACITY
          · rw [if_pos hc] at hrun ⊢
            cases hpop : AbilityList.PopBottomAbility cfg s with
            | none => rw [hpop] at hrun; cases hrun
            | some x =>
              obtain ⟨u, s0⟩ := x
              obtain ⟨k1, k2, _, _⟩ := PopBottomAbility_keeps_home cfg hwf hh hhome hone hpop
              exact ⟨s0, rfl, k1, k2⟩
          · exact ⟨s, by rw [if_neg hc], hh, rfl⟩
        obtain ⟨s0, hs0, hk, hd⟩ := hmid
        rw [hs0] at hrun
        change addTail p s0 = some ((), s1) at hrun
        unfold addTail at hrun
        split at hrun
        · cases hrun
        · split at hrun
          · cases hrun
          · cases hrun
            exact ⟨List.mem_cons_of_mem _ hk, hd⟩
          · cases hrun
            exact ⟨hk, hd⟩
    refine ⟨key.1, key.2, ?_⟩
    obtain ⟨r, hr, hn⟩ := hhome
    exact ⟨r, by rw [key.2]; exact hr, hn⟩
  · intro p r hp hor
    by_cases hpl : p ∈ s.abilityList
    · have hlt : s.abilityList.length < cfg.ABILITY_LIST_CAPACITY :=
        hor.resolve_left (fun hc => hc hpl)
      obtain ⟨o, ho⟩ := Option.isSome_iff_exists.mp (getLoop_isSome r.token hwf.2)
      rw [Add_eq, if_neg (by omega)]
      cases o with
      | none => exact ⟨_, addTail_push (s := s) hp ho⟩
      | some q => exact ⟨_, addTail_dup (s := s) hp ho⟩
    · obtain ⟨s1, _, h1, _⟩ := Add_spec cfg s p r hwf hp hpl
      exact ⟨s1, h1⟩

/-- In every state the controller reaches, the registry is well formed and exactly one
registered record carries the home name: the premises under which `Add` is shown to keep the
home record hold wherever the controller calls it. -/
theorem home_name_unique (cfg : Config) (hmain : cfg.MAIN_BUNDLE_NAME = LAUNCHER_BUNDLE_NAME)
    (s : Manager) (hreach : Reachable cfg s) :
    RegistryWF s ∧ ∃ h, h ∈ s.abilityList ∧ IsHomeAt cfg s.heap h ∧
      ∀ q ∈ s.abilityList, IsHomeAt cfg s.heap q → q = h := by
  have hinv := HomeInv.of_reachable cfg hmain s hreach
  refine ⟨hinv.wf, ?_⟩
  obtain ⟨_, _, pL, hpL, ⟨r, hr, _, hn⟩, hrest⟩ := hinv
  refine ⟨pL, hpL, ⟨r, hr, hn⟩, fun q hq hhome => ?_⟩
  by_contra hne
  obtain ⟨rq, hrq, _, hnq⟩ := hrest q hq hne
  obtain ⟨r2, hr2, hn2⟩ := hhome
  rw [hrq] at hr2
  cases hr2
  exact hnq hn2

/-- In the full registry `[x.app, home]` only the record at 0 carries the home name. -/
theorem fullRegistry_one_home :
    ∀ q ∈ fullRegistry.abilityList, IsHomeAt exampleCfg fullRegistry.heap q → q = 0 := by
  intro q hq hhome
  obtain ⟨r, hr, hn⟩ := hhome
  have hq2 : q = 1 ∨ q = 0 := by simpa [fullRegistry] using hq
  rcases hq2 with rfl | rfl
  · exfalso
    have h2 : fullRegistry.heap.deref 1 =
      some { token := 1, appName := some "x.app".toList } := rfl
    rw [h2] at hr
    have := (Option.some.inj hr).symm
    subst this
    revert hn
    decide
  · rfl

/-- Witness for C2: in the full registry `[x.app, home]` (capacity 2) the home record survives
the `Add` of `y.app`, which evicts `x.app`. -/
theorem add_never_evicts_home_witness :
    RegistryWF fullRegistry ∧ fullRegistry.abilityList = [1, 0] ∧
    ∃ s1, AbilityList.Add exampleCfg (some 2) fullRegistry = some ((), s1) ∧
      s1.abilityList = [2, 0] ∧ 0 ∈ s1.abilityList ∧
      s1.heap.deref 0 = fullRegistry.heap.deref 0 :=
  ⟨by decide, rfl, _, rfl, rfl,
    ((add_never_evicts_home exampleCfg fullRegistry 0 (by decide) (by decide) ⟨_, rfl, rfl⟩
      fullRegistry_one_home).1 (some 2) _ rfl).1,
    ((add_never_evicts_home exampleCfg fullRegistry 0 (by decide) (by decide) ⟨_, rfl, rfl⟩
      fullRegistry_one_home).1 (some 2) _ rfl).2.1⟩

theorem PreCheckStartAbility_noPath (cfg : Config) (env : Env) (name : CStr)
    (data : Option (List Nat)) (s : Manager) :
    PreCheckStartAbility cfg env name none data s = some (Ret.PARAM_NULL_ERROR, s) := rfl

theorem bind_eq_none {α β : Type} {m : M α} {f : α → M β} {s : Manager} (h : m s = none) :
    (m >>= f) s = none := by
  rw [bind_apply, h]; rfl

/-- A start request without a path registers nothing; it returns `PARAM_NULL_ERROR` unless
the response check denies the name or the foreground record has the requested name and is
in Background. -/
theorem StartAbility_noPath (cfg : Config) (env : Env) (s s1 : Manager) (name : CStr)
    (data : Option (List Nat)) (ret : Ret) (hl : IsLauncher name = false)
    (hrun : StartAbility cfg env (some { bundleName := some name, path := none, data := data }) s
      = some (ret, s1)) :
    s1.abilityList = s.abilityList ∧
    (ret = Ret.PARAM_NULL_ERROR ∨
      (ret = Ret.PARAM_CHECK_ERROR ∧ CheckResponse env name = false) ∨
      (ret = Ret.ERR_OK ∧ ∃ top t, s.abilityStack.head? = some top ∧
        s.heap.deref top = some t ∧ t.appName = some name ∧
        t.state = AbilityState.SCHEDULE_BACKGROUND)) := by
  unfold StartAbility at hrun
  simp only [] at hrun
  by_cases hlen : name.length = 0
  · rw [if_pos hlen] at hrun
    cases hrun
    exact ⟨rfl, Or.inl rfl⟩
  rw [if_neg hlen] at hrun
  cases hstack : s.abilityStack with
  | nil =>
    rw [bind_eq_of (a := none) (u := s) (by simp [AbilityStack.GetTopAbility, hstack])] at hrun
    cases hrun
    exact ⟨rfl, Or.inl rfl⟩
  | cons top rest =>
    rw [bind_eq_of (a := some top) (u := s)
      (by simp [AbilityStack.GetTopAbility, hstack])] at hrun
    simp only [] at hrun
    cases hd : s.heap.deref top with
    | none =>
      rw [bind_eq_none (by simp [deref, hd])] at hrun
      cases hrun
    | some t =>
      rw [bind_eq_of (a := t) (u := s) (by simp [deref, hd])] at hrun
      cases hn : t.appName with
      | none =>
        simp only [hn] at hrun
        cases hrun
        exact ⟨rfl, Or.inl rfl⟩
      | some topName =>
        simp only [hn, hl, Bool.false_eq_true, if_false] at hrun
        by_cases hc : CheckResponse env name = true
        · simp only [hc, not_true_eq_false, if_false] at hrun
          by_cases hw : t.state ≠ AbilityState.SCHEDULE_STOP ∧ t.token ≠ LAUNCHER_TOKEN
          · rw [if_pos hw] at hrun
            by_cases hsame : name = topName
            · rw [if_pos hsame] at hrun
              by_cases hb : t.state = AbilityState.SCHEDULE_BACKGROUND
              · rw [if_pos hb, bind_apply] at hrun
                cases hsl : SchedulerLifecycle LAUNCHER_TOKEN State.STATE_BACKGROUND s with
                | none => rw [hsl] at hrun; cases hrun
                | some x =>
                  rw [hsl] at hrun
                  cases hrun
                  have hP : ShapeInv fun u : Manager => u.abilityList = s.abilityList :=
                    fun u u1 hs hu => hs.1.trans hu
                  refine ⟨(Stable.SchedulerLifecycle hP _ _).run s x.1 x.2 rfl hsl,
                    Or.inr (Or.inr ⟨rfl, top, t, rfl, hd, ?_, hb⟩)⟩
                  rw [hn, hsame]
              · rw [if_neg hb, PreCheckStartAbility_noPath] at hrun
                cases hrun
                exact ⟨rfl, Or.inl rfl⟩
            · rw [if_neg hsame] at hrun
              rw [bind_eq_of (TerminateAbility_top s top rest t hstack hd hw.2)] at hrun
              rw [bind_eq_of (GenerateToken_eq _)] at hrun
              rw [bind_eq_of (a := ()) (modify_apply _ _), PreCheckStartAbility_noPath] at hrun
              cases hrun
              exact ⟨rfl, Or.inl rfl⟩
          · rw [if_neg hw, PreCheckStartAbility_noPath] at hrun
            cases hrun
            exact ⟨rfl, Or.inl rfl⟩
        · have hc1 : CheckResponse env name = false := by
            cases hcr : CheckResponse env name
            · rfl
            · exact absurd hcr hc
          simp only [hc1, Bool.false_eq_true, not_false_eq_true, if_true] at hrun
          cases hrun
          exact ⟨rfl, Or.inr (Or.inl ⟨rfl, hc1⟩)⟩

/-- Claim C11 (amended). For a start request for a name that does not end in the launcher
suffix: in a build that resolves names through the bundle manager, a resolved source path
that is absent or the empty string makes the request return `PARAM_NULL_ERROR` and leaves
the whole controller state, and with it the registry, as it was. In a build that reads the
path from the payload, a request without payload registers no record, and it returns
`PARAM_NULL_ERROR` unless the response check denies the name (`PARAM_CHECK_ERROR`) or the
foreground record has the requested name and is in Background (`ERR_OK`); in a state that
satisfies the data-model invariants the request does return. -/
theorem StartAbility_invalid_path (cfg : Config) (build : Build) (env : Env) (s : Manager)
    (w : Want) (name : CStr) (hname : w.element = some name) (hl : IsLauncher name = false) :
    (build.bundleManager = true →
      ((build.QueryAbilityInfo w).srcPath = none ∨
        (build.QueryAbilityInfo w).srcPath = some []) →
      IsValidAbility (some (build.QueryAbilityInfo w)) = false ∧
      StartAbilityWant cfg build env (some w) s = some (Ret.PARAM_NULL_ERROR, s)) ∧
    (build.bundleManager = false → w.data = none →
      (∀ ret s1, StartAbilityWant cfg build env (some w) s = some (ret, s1) →
        s1.abilityList = s.abilityList ∧
        (ret = Ret.PARAM_NULL_ERROR ∨
          (ret = Ret.PARAM_CHECK_ERROR ∧ CheckResponse env name = false) ∨
          (ret = Ret.ERR_OK ∧ ∃ top t, s.abilityStack.head? = some top ∧
            s.heap.deref top = some t ∧ t.appName = some name ∧
            t.state = AbilityState.SCHEDULE_BACKGROUND))) ∧
      (StateWF s → ∃ ret s1, StartAbilityWant cfg build env (some w) s = some (ret, s1))) := by
  constructor
  · intro hbms hpath
    have hv : IsValidAbility (some (build.QueryAbilityInfo w)) = false := by
      generalize build.QueryAbilityInfo w = info at hpath
      obtain ⟨bn, sp⟩ := info
      simp only at hpath
      rcases hpath with hp | hp <;> subst hp <;> cases bn <;> simp [IsValidAbility]
    exact ⟨hv, by simp [StartAbilityWant, hname, hl, hbms, hv, pure_apply]⟩
  · intro hbms hdata
    have hred : StartAbilityWant cfg build env (some w) s =
        StartAbility cfg env (some { bundleName := some name, path := none, data := none }) s := by
      simp [StartAbilityWant, hname, hl, hbms, hdata]
    rw [hred]
    refine ⟨fun ret s1 hrun => StartAbility_noPath cfg env s s1 name none ret hl hrun, ?_⟩
    intro hwf
    obtain ⟨ret, s1, h, _⟩ := (runs_StartAbility cfg env _).run s hwf.liveInv
    exact ⟨ret, s1, h⟩

/-- Claim C11 as stated fails in the build that reads the path from the payload. From the
home state a request for `x.app` whose payload is the empty string is accepted: it returns
`ERR_OK` and registers a record with the empty path. A request without payload for a name
that the response check denies returns `PARAM_CHECK_ERROR`, and a request without payload
for `x.app` while `x.app` is the foreground record in Background returns `ERR_OK`. -/
theorem empty_path_is_accepted :
    payloadBuild.bundleManager = false ∧ IsLauncher "x.app".toList = false ∧
    cstrOfData [0] = some [] ∧ homeState.abilityList = [0] ∧
    (∃ s1, StartAbilityWant exampleCfg payloadBuild exampleEnv
        (some { element := some "x.app".toList, data := some [0] }) homeState
        = some (Ret.ERR_OK, s1) ∧
      s1.abilityList = [1, 0] ∧
      (s1.heap.deref 1).map (fun r => (r.appName, r.appPath))
        = some (some "x.app".toList, some [])) ∧
    StartAbilityWant exampleCfg payloadBuild denyEnv
        (some { element := some "x.app".toList, data := none }) homeState
      = some (Ret.PARAM_CHECK_ERROR, homeState) ∧
    runController exampleCfg runHome xActive = some xBackground ∧
    (∃ s1, StartAbilityWant exampleCfg payloadBuild exampleEnv
        (some { element := some "x.app".toList, data := none }) xBackground
      = some (Ret.ERR_OK, s1) ∧ s1.abilityList = xBackground.abilityList) := by
  refine ⟨rfl, by decide, by decide, rfl, ⟨_, rfl, rfl, rfl⟩, rfl, rfl, _, rfl, rfl⟩

/-- Witness for C11 (amended): with no bundle installed, and with a bundle resolved to an
empty path, the request for `x.app` is refused from the home state; in the build that reads
the path from the payload the request without payload is refused and registers nothing. -/
theorem StartAbility_invalid_path_witness :
    StartAbilityWant exampleCfg emptyBundleManager exampleEnv
      (some { element := some "x.app".toList, data := none }) homeState
      = some (Ret.PARAM_NULL_ERROR, homeState) ∧
    StartAbilityWant exampleCfg emptyPathBundleManager exampleEnv
      (some { element := some "x.app".toList, data := none }) homeState
      = some (Ret.PARAM_NULL_ERROR, homeState) ∧
    StateWF homeState ∧
    (∃ ret s1, StartAbilityWant exampleCfg payloadBuild exampleEnv
      (some { element := some "x.app".toList, data := none }) homeState = some (ret, s1)) ∧
    StartAbilityWant exampleCfg payloadBuild exampleEnv
      (some { element := some "x.app".toList, data := none }) homeState
      = some (Ret.PARAM_NULL_ERROR, homeState) :=
  ⟨((StartAbility_invalid_path exampleCfg emptyBundleManager exampleEnv homeState
      { element := some "x.app".toList, data := none } "x.app".toList rfl (by decide)).1 rfl
      (Or.inl rfl)).2,
   ((StartAbility_invalid_path exampleCfg emptyPathBundleManager exampleEnv homeState
      { element := some "x.app".toList, data := none } "x.app".toList rfl (by decide)).1 rfl
      (Or.inr rfl)).2,
   by decide,
   ((StartAbility_invalid_path exampleCfg payloadBuild exampleEnv homeState
      { element := some "x.app".toList, data := none } "x.app".toList rfl (by decide)).2 rfl
      rfl).2 (by decide),
   rfl⟩

theorem staleHome_eq : runController roomyCfg runStale homeState = some staleHome := by
  rfl

/-- A pending token that outlives its foreground unit. The run `runStale` reaches a state with
home foreground and Active, a native unit installed and the pending token 2 still reserved.
There the request for
`z.app` (allowed, with a path, task creation succeeding) returns `ERR_OK` but only registers
a record in state Stop under the pending token: the record is not put on the stack and
nothing is dispatched. -/
theorem start_from_home_with_stale_pending :
    Reachable roomyCfg staleHome ∧
    staleHome.abilityStack = [0] ∧ staleHome.abilityList = [0] ∧
    staleHome.heap.deref 0 = some (launcherRecord exampleEnv) ∧
    staleHome.nativeAbility = some 1 ∧ staleHome.pendingToken = 2 ∧
    IsLauncher "z.app".toList = false ∧ CheckResponse exampleEnv "z.app".toList = true ∧
    exampleEnv.taskCreate = some 7 ∧
    ∃ s1, StartAbility roomyCfg exampleEnv (some zApp) staleHome = some (Ret.ERR_OK, s1) ∧
      s1.abilityList = [2, 0] ∧ s1.abilityStack = [0] ∧
      s1.heap.deref 2 = some (stopRecord 2 "z.app".toList (some "/z".toList) none) ∧
      s1.log = staleHome.log := by
  refine ⟨?_, rfl, rfl, rfl, rfl, rfl, by decide, by decide, rfl, _, rfl, rfl, rfl, rfl, rfl⟩
  exact reachable_of_run roomyCfg runStale homeState staleHome
    (Reachable.start exampleEnv (some 1) homeState rfl) staleHome_eq

/-- Starting an unregistered app while the home record is on top of the stack, with a native
unit installed and no pending token: the state afterwards. -/
theorem StartAbility_homeTop (cfg : Config) (env : Env) (s : Manager) (pL n tid : Nat)
    (rest : List Ptr) (home : AbilityRecord) (name path : CStr) (data : Option (List Nat))
    (hwf : StateWF s) (hstack : s.abilityStack = pL :: rest)
    (hhome : s.heap.deref pL = some home) (htok : home.token = 0)
    (hname : home.appName = some cfg.MAIN_BUNDLE_NAME)
    (hone : ∀ q ∈ s.abilityList, IsHomeAt cfg s.heap q → q = pL)
    (hnat : s.nativeAbility = some n) (hpend : s.pendingToken = 0)
    (hctr : s.staticToken < 65535)
    (hne : name ≠ []) (hl : IsLauncher name = false) (hallow : CheckResponse env name = true)
    (hunreg : AbilityList.getByNameLoop s.heap name s.abilityList = some none)
    (hfresh : AbilityList.getLoop s.heap (nextToken s.staticToken) s.abilityList = some none)
    (htask : env.taskCreate = some tid) :
    ∃ s1, StartAbility cfg env (some { bundleName := some name, path := some path, data := data }) s
        = some (Ret.ERR_OK, s1) ∧
      s1.abilityStack = s.heap.length :: s.abilityStack ∧
      s.heap.length ∈ s1.abilityList ∧ pL ∈ s1.abilityList ∧ DistinctTokens s1 ∧
      s1.heap.deref s.heap.length =
        some (workerRecord env (nextToken s.staticToken) tid name (some path) data) ∧
      s1.heap.deref pL = some home ∧
      s1.log = s.log ++ [Event.nativeOnBackground] ∧
      s1.pendingToken = 0 ∧ s1.staticToken = nextToken s.staticToken ∧
      s1.nativeAbility = s.nativeAbility ∧ s1.heap.length = s.heap.length + 1 ∧
      (s.abilityList.length < cfg.ABILITY_LIST_CAPACITY →
        s1.abilityList = s.heap.length :: s.abilityList ∧
        ∀ q ∈ s.abilityList, s1.heap.deref q = s.heap.deref q) := by
  have hlen : name.length ≠ 0 := fun hc => hne (List.length_eq_zero.mp hc)
  have ht0 := nextToken_pos hctr
  have hpLl : pL ∈ s.abilityList := hwf.2.2.2 pL (by rw [hstack]; exact List.mem_cons_self _ _)
  have hlt : pL < s.heap.length := Heap.deref_lt hhome
  have hd : DistinctTokens s := ⟨hwf.1, hwf.2.1⟩
  have hnot : s.heap.length ∉ s.abilityList := by
    intro hc
    obtain ⟨r, hr⟩ := Option.isSome_iff_exists.mp (hwf.1 _ hc)
    exact absurd (Heap.deref_lt hr) (Nat.lt_irrefl _)
  -- the request goes straight to the pre-check
  have hSA : StartAbility cfg env
      (some { bundleName := some name, path := some path, data := data }) s =
      PreCheckStartAbility cfg env name (some path) data s := by
    simp [StartAbility, bind_apply, AbilityStack.GetTopAbility, hstack, deref, hhome, hname,
      hlen, hl, hallow, htok, LAUNCHER_TOKEN]
  -- the state after the allocation
  obtain ⟨hp, al, sk, pt, tok, na, fl, lg⟩ := s
  simp only at hstack hhome hone hnat hpend hctr hunreg hfresh ht0 hpLl hlt hnot
  subst hpend hnat
  have hnew : Heap.deref (hp ++ [some (stopRecord (nextToken tok) name (some path) data)])
      hp.length = some (stopRecord (nextToken tok) name (some path) data) :=
    Heap.deref_append_length _ _
  have hold : ∀ q ∈ al, Heap.deref (hp ++ [some (stopRecord (nextToken tok) name (some path)
      data)]) q = hp.deref q := by
    intro q hq
    obtain ⟨r, hr⟩ := Option.isSome_iff_exists.mp (hwf.1 q hq)
    exact Heap.deref_append_lt _ _ _ (Heap.deref_lt hr)
  have hdN : DistinctTokens (Manager.mk (hp ++ [some (stopRecord (nextToken tok) name
      (some path) data)]) al sk 0 (nextToken tok) (some n) fl lg) :=
    @DistinctTokens.sublistD (Manager.mk hp al sk 0 tok (some n) fl lg) _ hd
      (List.Sublist.refl _) hold
  have hwfN : RegistryWF (Manager.mk (hp ++ [some (stopRecord (nextToken tok) name
      (some path) data)]) al sk 0 (nextToken tok) (some n) fl lg) :=
    ⟨HeapWF.nodup hdN.heapWF, hdN.1⟩
  obtain ⟨sA, kept, hadd, hsub, hcase, hheap, hvict, hso⟩ :=
    Add_spec cfg _ hp.length _ hwfN hnew hnot
  have hdA : DistinctTokens sA := Add_keeps_distinct cfg hdN hadd
  have hhomeN : IsHomeAt cfg (hp ++ [some (stopRecord (nextToken tok) name (some path)
      data)]) pL := ⟨home, by rw [hold pL hpLl]; exact hhome, hname⟩
  have hk : pL ∈ kept := by
    by_contra hc
    obtain ⟨_, _, hv⟩ := hvict pL hpLl hc
    rcases hv with ⟨init, _, hnh⟩ | ⟨init, last, hlst, hlast⟩
    · exact hnh hhomeN
    · have hlst1 : al = init ++ [pL, last] := hlst
      have hlm : last ∈ al := by rw [hlst1]; simp
      obtain ⟨rl, hrl, hnl⟩ := hlast
      have := hone last hlm ⟨rl, by rw [← hold last hlm]; exact hrl, hnl⟩
      subst this
      have hnd := hwfN.1
      rw [show (Manager.mk (hp ++ [some (stopRecord (nextToken tok) name (some path) data)])
        al sk 0 (nextToken tok) (some n) fl lg).abilityList = al from rfl, hlst1] at hnd
      have := List.nodup_append.mp hnd
      simp at this
  have hlist : sA.abilityList = hp.length :: kept := by
    rcases hcase with ⟨hl1, _⟩ | ⟨_, q, hq, rq, hrq, hqt⟩
    · exact hl1
    · exfalso
      obtain ⟨r1, hr1, hne1⟩ := (getLoop_none_iff _ _ _).mp hfresh q (hsub.subset hq)
      rw [hold q (hsub.subset hq), hr1] at hrq
      cases hrq
      exact hne1 hqt
  have hyA : sA.heap.deref hp.length = some (stopRecord (nextToken tok) name (some path) data) :=
    (hheap _ (Or.inr hnot)).trans hnew
  have hhA : sA.heap.deref pL = some home := by
    rw [hheap pL (Or.inl hk), hold pL hpLl]; exact hhome
  have hpLA : pL ∈ sA.abilityList := by rw [hlist]; exact List.mem_cons_of_mem _ hk
  have hg0 : AbilityList.getLoop sA.heap 0 sA.abilityList = some (some pL) := by
    rw [← htok]; exact getLoop_of_mem hdA.1 hdA.2 hpLA hhA
  have hgy : AbilityList.getLoop sA.heap
      (stopRecord (nextToken tok) name (some path) data).token sA.abilityList
      = some (some hp.length) :=
    getLoop_of_mem hdA.1 hdA.2 (by rw [hlist]; exact List.mem_cons_self _ _) hyA
  have hcat := CreateAppTask_ok env (s := sA) hyA ht0 (by simp [stopRecord]) htask
    hgy hg0 hhA
  obtain ⟨hs1, hs2, hs3, hs4, hs5, hs6, hs7⟩ := hso
  simp only at hs1 hs2 hs3 hs4 hs5 hs6 hs7
  have hpne : pL ≠ hp.length := Nat.ne_of_lt hlt
  refine ⟨{ sA with
    heap := sA.heap.set hp.length
      (some (started env tid (stopRecord (nextToken tok) name (some path) data)))
    abilityStack := hp.length :: sA.abilityStack
    log := sA.log ++ startEvents sA.nativeAbility
      (started env tid (stopRecord (nextToken tok) name (some path) data)) },
    ?_, ?_, ?_, ?_, ?_, ?_, ?_, ?_, hs2, hs3, hs4, ?_, ?_⟩
  · rw [hSA]
    unfold PreCheckStartAbility
    simp only [reduceCtorEq, if_false]
    rw [bind_eq_of (a := none) (u := Manager.mk hp al sk 0 tok (some n) fl lg)
      (by simp [AbilityList.GetByName, hunreg])]
    simp only []
    rw [bind_eq_of (get_apply _)]
    simp only [ne_eq, not_true_eq_false, if_false]
    rw [bind_eq_of (GenerateToken_eq _)]
    rw [bind_eq_of (a := hp.length) (u := Manager.mk
      (hp ++ [some (stopRecord (nextToken tok) name (some path) data)]) al sk 0 (nextToken tok)
      (some n) fl lg) rfl]
    rw [bind_eq_of hadd, bind_eq_of (get_apply _)]
    simp only [hs2, if_true]
    rw [bind_eq_of hcat]
    simp only [ne_eq, not_true_eq_false, if_false]
    rw [pure_apply, hs2]
  · show hp.length :: sA.abilityStack = _
    rw [hs1]
  · show hp.length ∈ sA.abilityList
    rw [hlist]; exact List.mem_cons_self _ _
  · exact hpLA
  · have := HeapWF.store_sameToken hdA.heapWF hyA
      (show (started env tid (stopRecord (nextToken tok) name (some path) data)).token =
        (stopRecord (nextToken tok) name (some path) data).token from rfl)
    exact ⟨this.1, this.2.1⟩
  · show Heap.deref (sA.heap.set hp.length _) hp.length = _
    rw [Heap.deref_set_eq _ _ _ (Heap.deref_lt hyA)]
    rfl
  · show Heap.deref (sA.heap.set hp.length _) pL = _
    rw [Heap.deref_set_ne _ _ _ _ hpne, hhA]
  · show sA.log ++ startEvents sA.nativeAbility _ = _
    rw [hs6, hs4]
    rfl
  · show (sA.heap.set hp.length _).length = hp.length + 1
    rw [List.length_set, hs7]
    simp
  · intro hroom
    have hall : ∀ q ∈ al, q ∈ kept := by
      intro q hq
      by_contra hc
      exact absurd (hvict q hq hc).2.1 (Nat.not_le_of_lt hroom)
    have hkeq : kept = al :=
      hsub.eq_of_length_le (List.subperm_of_subset hd.heapWF.nodup hall).length_le
    refine ⟨by show sA.abilityList = _; rw [hlist, hkeq], fun q hq => ?_⟩
    show Heap.deref (sA.heap.set hp.length _) q = hp.deref q
    have hql : q < hp.length := by
      obtain ⟨r, hr⟩ := Option.isSome_iff_exists.mp (hwf.1 q hq)
      exact Heap.deref_lt hr
    rw [Heap.deref_set_ne _ _ _ _ (Nat.ne_of_lt hql), hheap q (Or.inl (hall q hq)), hold q hq]

/-- The Background acknowledgement of the home unit under a worker record on top of the
stack: home becomes Background, the worker is sent an Active instruction, and the payload of
the home record is cleared when the clear-data flag is set. -/
theorem OnBackgroundDone_homeUnder (s : Manager) (px pL : Ptr) (rest : List Ptr)
    (home w : AbilityRecord)
    (hg0 : AbilityList.getLoop s.heap 0 s.abilityList = some (some pL))
    (hstack : s.abilityStack = px :: rest)
    (hhome : s.heap.deref pL = some home) (hw : s.heap.deref px = some w)
    (htok : home.token = 0) (htw : w.token ≠ 0) :
    OnBackgroundDone 0 s =
      some ((), { s with
        heap := s.heap.set pL (some { home with
          state := AbilityState.SCHEDULE_BACKGROUND
          abilityData := if s.cleanAbilityDataFlag then none else home.abilityData })
        cleanAbilityDataFlag := false
        log := s.log ++ [jsMsgOf State.STATE_ACTIVE w] }) := by
  have hne : px ≠ pL := by
    intro hc; subst hc; rw [hhome] at hw; cases hw; exact htw htok
  have hlt : pL < s.heap.length := Heap.deref_lt hhome
  obtain ⟨hp, al, sk, pt, tok, na, fl, lg⟩ := s
  simp only at hg0 hstack hhome hw hlt
  subst hstack
  have hw1 : Heap.deref (hp.set pL (some { home with state := AbilityState.SCHEDULE_BACKGROUND }))
      px = some w := by
    rw [Heap.deref_set_ne _ _ _ _ hne, hw]
  have hh1 : Heap.deref (hp.set pL (some { home with state := AbilityState.SCHEDULE_BACKGROUND }))
      pL = some { home with state := AbilityState.SCHEDULE_BACKGROUND } :=
    Heap.deref_set_eq _ _ _ hlt
  have hg1 : AbilityList.getLoop
      (hp.set pL (some { home with state := AbilityState.SCHEDULE_BACKGROUND })) 0 al
      = some (some pL) := by
    rw [@getLoop_set_sameToken hp pL home
      { home with state := AbilityState.SCHEDULE_BACKGROUND } hhome rfl 0 al]
    exact hg0
  unfold OnBackgroundDone
  rw [bind_eq_of (SetAbilityState_some (s := Manager.mk hp al (px :: rest) pt tok na fl lg)
    hg0 hhome)]
  rw [bind_eq_of (a := some px) (u := Manager.mk
    (hp.set pL (some { home with state := AbilityState.SCHEDULE_BACKGROUND })) al (px :: rest) pt
    tok na fl lg) rfl]
  simp only []
  rw [bind_eq_of (a := w) (u := Manager.mk
    (hp.set pL (some { home with state := AbilityState.SCHEDULE_BACKGROUND })) al (px :: rest) pt
    tok na fl lg) (by simp [deref, hw1])]
  simp only [LAUNCHER_TOKEN, ne_eq, not_true_eq_false, if_false, htw, not_false_eq_true, if_true]
  rw [bind_eq_of (SchedulerLifecycleInner_js (s := Manager.mk
    (hp.set pL (some { home with state := AbilityState.SCHEDULE_BACKGROUND })) al (px :: rest) pt
    tok na fl lg) State.STATE_ACTIVE hw1 htw)]
  rw [bind_eq_of (get_apply _)]
  cases fl with
  | false =>
    simp only [Bool.false_eq_true, if_false]
    rfl
  | true =>
    simp only [if_true]
    rw [bind_eq_of (Get_of_getLoop (s := Manager.mk
      (hp.set pL (some { home with state := AbilityState.SCHEDULE_BACKGROUND })) al (px :: rest)
      pt tok na true (lg ++ [jsMsgOf State.STATE_ACTIVE w])) hg1)]
    simp only []
    rw [bind_eq_of (a := ()) (u := Manager.mk
      ((hp.set pL (some { home with state := AbilityState.SCHEDULE_BACKGROUND })).set pL
        (some ({ home with state := AbilityState.SCHEDULE_BACKGROUND }.SetWantData none)))
      al (px :: rest) pt tok na true (lg ++ [jsMsgOf State.STATE_ACTIVE w]))
      (by simp [store, hh1])]
    simp [modify_apply, AbilityRecord.SetWantData, List.set_set]

/-- The Active acknowledgement of the worker record on top of the stack sets it to Active. -/
theorem OnActiveDone_top (env : Env) (s : Manager) (px : Ptr) (rest : List Ptr)
    (w : AbilityRecord)
    (hgw : AbilityList.getLoop s.heap w.token s.abilityList = some (some px))
    (hstack : s.abilityStack = px :: rest)
    (hw : s.heap.deref px = some w) (htw : w.token ≠ 0) :
    OnActiveDone env w.token s =
      some ((), { s with
        heap := s.heap.set px (some { w with state := AbilityState.SCHEDULE_ACTIVE }) }) := by
  have hlt : px < s.heap.length := Heap.deref_lt hw
  obtain ⟨hp, al, sk, pt, tok, na, fl, lg⟩ := s
  simp only at hgw hstack hw hlt
  subst hstack
  unfold OnActiveDone
  rw [bind_eq_of (SetAbilityState_some (s := Manager.mk hp al (px :: rest) pt tok na fl lg)
    hgw hw)]
  rw [bind_eq_of (a := some px) (u := Manager.mk
    (hp.set px (some { w with state := AbilityState.SCHEDULE_ACTIVE })) al (px :: rest) pt
    tok na fl lg) rfl]
  simp only [LAUNCHER_TOKEN, htw, if_false]
  rw [bind_eq_of (a := { w with state := AbilityState.SCHEDULE_ACTIVE }) (u := Manager.mk
    (hp.set px (some { w with state := AbilityState.SCHEDULE_ACTIVE })) al (px :: rest) pt
    tok na fl lg) (by simp [deref, Heap.deref_set_eq _ _ _ hlt])]
  rfl

/-- With a worker record in state Active or Background on top and a home record that is not
Active, `GetTopAbility` reports the name of the worker record. -/
theorem GetTopAbility_top (s : Manager) (px pL : Ptr) (rest : List Ptr) (home w : AbilityRecord)
    (hg0 : AbilityList.getLoop s.heap 0 s.abilityList = some (some pL))
    (hstack : s.abilityStack = px :: rest)
    (hhome : s.heap.deref pL = some home) (hw : s.heap.deref px = some w)
    (htw : w.token ≠ 0) (hhs : home.state ≠ AbilityState.SCHEDULE_ACTIVE)
    (hws : w.state = AbilityState.SCHEDULE_ACTIVE ∨ w.state = AbilityState.SCHEDULE_BACKGROUND) :
    GetTopAbility s = some (some { bundleName := w.appName }, s) := by
  simp [GetTopAbility, bind_apply, pure_apply, AbilityStack.GetTopAbility, hstack,
    AbilityList.Get, LAUNCHER_TOKEN, hg0, deref, hhome, hw, htw, hhs, hws]

/-- Claim C7 (amended). In a state that satisfies the data-model invariants, with the home
record (the only record carrying the home name) on top of the stack, a native unit installed
and no pending token: `StartAbility` for a non-empty name that is not a launcher name, is not
registered yet, passes the response check and comes with a path, with task creation
succeeding and the next token unused, registers a record in state Inactive on top of the
stack and calls `OnBackground` on the native unit; after `OnBackgroundDone(0)` and
`OnActiveDone` for the token of the new record, home is in state Background, the new record
is Active, and `GetTopAbility` reports its name. -/
theorem start_app_from_home (cfg : Config) (env1 env3 : Env) (s : Manager) (pL n tid : Nat)
    (rest : List Ptr) (home : AbilityRecord) (name path : CStr) (data : Option (List Nat))
    (hwf : StateWF s) (hstack : s.abilityStack = pL :: rest)
    (hhome : s.heap.deref pL = some home) (htok : home.token = 0)
    (hname : home.appName = some cfg.MAIN_BUNDLE_NAME)
    (hone : ∀ q ∈ s.abilityList, IsHomeAt cfg s.heap q → q = pL)
    (hnat : s.nativeAbility = some n) (hpend : s.pendingToken = 0)
    (hctr : s.staticToken < 65535)
    (hne : name ≠ []) (hl : IsLauncher name = false) (hallow : CheckResponse env1 name = true)
    (hunreg : AbilityList.getByNameLoop s.heap name s.abilityList = some none)
    (hfresh : AbilityList.getLoop s.heap (nextToken s.staticToken) s.abilityList = some none)
    (htask : env1.taskCreate = some tid) :
    ∃ s1 s2 s3 px w w3 home3,
      StartAbility cfg env1 (some { bundleName := some name, path := some path, data := data }) s
        = some (Ret.ERR_OK, s1) ∧
      px ∈ s1.abilityList ∧ pL ∈ s1.abilityList ∧ s1.abilityStack = px :: s.abilityStack ∧
      s1.heap.deref px = some w ∧ w.appName = some name ∧
      w.state = AbilityState.SCHEDULE_INACTIVE ∧ w.token ≠ 0 ∧ w.taskId = tid ∧
      s1.log = s.log ++ [Event.nativeOnBackground] ∧
      OnBackgroundDone 0 s1 = some ((), s2) ∧
      OnActiveDone env3 w.token s2 = some ((), s3) ∧
      s3.heap.deref pL = some home3 ∧ home3.state = AbilityState.SCHEDULE_BACKGROUND ∧
      s3.heap.deref px = some w3 ∧ w3.state = AbilityState.SCHEDULE_ACTIVE ∧
      w3.appName = some name ∧
      GetTopAbility s3 = some (some { bundleName := some name }, s3) := by
  obtain ⟨s1, h1, hst1, hpx1, hpL1, hd1, hw1, hh1, hlog1, _⟩ :=
    StartAbility_homeTop cfg env1 s pL n tid rest home name path data hwf hstack hhome htok
      hname hone hnat hpend hctr hne hl hallow hunreg hfresh htask
  have htw : (workerRecord env1 (nextToken s.staticToken) tid name (some path) data).token ≠ 0 :=
    nextToken_pos hctr
  have hlt : pL < s.heap.length := Heap.deref_lt hhome
  have hpne : pL ≠ s.heap.length := Nat.ne_of_lt hlt
  have hpne2 : s.heap.length ≠ pL := Ne.symm hpne
  generalize hwdef : workerRecord env1 (nextToken s.staticToken) tid name (some path) data = w
    at hw1 htw
  have hwn : w.appName = some name := by rw [← hwdef]; rfl
  have hws : w.state = AbilityState.SCHEDULE_INACTIVE := by rw [← hwdef]; rfl
  have hwt : w.taskId = tid := by rw [← hwdef]; rfl
  have hg0 : AbilityList.getLoop s1.heap 0 s1.abilityList = some (some pL) := by
    rw [← htok]; exact getLoop_of_mem hd1.1 hd1.2 hpL1 hh1
  have hgw : AbilityList.getLoop s1.heap w.token s1.abilityList = some (some s.heap.length) :=
    getLoop_of_mem hd1.1 hd1.2 hpx1 hw1
  have h2 := OnBackgroundDone_homeUnder s1 s.heap.length pL s.abilityStack home w hg0 hst1 hh1
    hw1 htok htw
  generalize hh2def : ({ home with
      state := AbilityState.SCHEDULE_BACKGROUND
      abilityData := if s1.cleanAbilityDataFlag then none else home.abilityData } : AbilityRecord)
    = home2 at h2
  have hh2t : home2.token = home.token := by rw [← hh2def]
  have hh2s : home2.state = AbilityState.SCHEDULE_BACKGROUND := by rw [← hh2def]
  generalize hs2 : ({ s1 with
      heap := s1.heap.set pL (some home2)
      cleanAbilityDataFlag := false
      log := s1.log ++ [jsMsgOf State.STATE_ACTIVE w] } : Manager) = s2 at h2
  have hl2 : s2.abilityList = s1.abilityList := by rw [← hs2]
  have hst2 : s2.abilityStack = s.heap.length :: s.abilityStack := by rw [← hs2]; exact hst1
  have hheap2 : s2.heap = s1.heap.set pL (some home2) := by rw [← hs2]
  have hw2 : s2.heap.deref s.heap.length = some w := by
    rw [hheap2, Heap.deref_set_ne _ _ _ _ hpne2, hw1]
  have hh2 : s2.heap.deref pL = some home2 := by
    rw [hheap2, Heap.deref_set_eq _ _ _ (Heap.deref_lt hh1)]
  have hg0_2 : AbilityList.getLoop s2.heap 0 s2.abilityList = some (some pL) := by
    rw [hheap2, hl2, @getLoop_set_sameToken s1.heap pL home home2 hh1 hh2t 0 s1.abilityList]
    exact hg0
  have hgw2 : AbilityList.getLoop s2.heap w.token s2.abilityList = some (some s.heap.length) := by
    rw [hheap2, hl2, @getLoop_set_sameToken s1.heap pL home home2 hh1 hh2t w.token
      s1.abilityList]
    exact hgw
  have h3 := OnActiveDone_top env3 s2 s.heap.length s.abilityStack w hgw2 hst2 hw2 htw
  generalize hs3 : ({ s2 with
      heap := s2.heap.set s.heap.length (some { w with state := AbilityState.SCHEDULE_ACTIVE }) }
      : Manager) = s3 at h3
  have hl3 : s3.abilityList = s2.abilityList := by rw [← hs3]
  have hst3 : s3.abilityStack = s.heap.length :: s.abilityStack := by rw [← hs3]; exact hst2
  have hheap3 : s3.heap =
      s2.heap.set s.heap.length (some { w with state := AbilityState.SCHEDULE_ACTIVE }) := by
    rw [← hs3]
  have hw3 : s3.heap.deref s.heap.length =
      some { w with state := AbilityState.SCHEDULE_ACTIVE } := by
    rw [hheap3, Heap.deref_set_eq _ _ _ (Heap.deref_lt hw2)]
  have hh3 : s3.heap.deref pL = some home2 := by
    rw [hheap3, Heap.deref_set_ne _ _ _ _ hpne, hh2]
  have hg0_3 : AbilityList.getLoop s3.heap 0 s3.abilityList = some (some pL) := by
    rw [hheap3, hl3, @getLoop_set_sameToken s2.heap s.heap.length w
      { w with state := AbilityState.SCHEDULE_ACTIVE } hw2 rfl 0 s2.abilityList]
    exact hg0_2
  have h4 := GetTopAbility_top s3 s.heap.length pL s.abilityStack home2
    { w with state := AbilityState.SCHEDULE_ACTIVE } hg0_3 hst3 hh3 hw3 htw
    (by rw [hh2s]; decide) (Or.inl rfl)
  refine ⟨s1, s2, s3, s.heap.length, w, { w with state := AbilityState.SCHEDULE_ACTIVE }, home2,
    h1, hpx1, hpL1, hst1, hw1, hwn, hws, htw, hwt, hlog1, h2, h3, hh3, hh2s, hw3, rfl, hwn, ?_⟩
  rw [h4]
  show some (some ({ bundleName := w.appName } : ElementName), s3) = _
  rw [hwn]

/-- Witness for C7 (amended): starting `x.app` from the home state. -/
theorem start_app_from_home_witness :
    StateWF homeState ∧
    ∃ s1, StartAbility exampleCfg exampleEnv (some xApp) homeState = some (Ret.ERR_OK, s1) ∧
      s1.abilityStack = [1, 0] ∧
      s1.log = homeState.log ++ [Event.nativeOnBackground] := by
  obtain ⟨s1, _, _, px, _, _, _, h1, _, _, h4, _, _, _, _, _, h10, _⟩ :=
    start_app_from_home exampleCfg exampleEnv exampleEnv
      homeState 0 1 7 [] (launcherRecord exampleEnv) "x.app".toList "/x".toList none
      (by decide) rfl rfl rfl rfl
      (by
        intro q hq _
        have : q = 0 := by simpa [homeState] using hq
        exact this)
      rfl rfl (by decide) (by decide) (by decide) (by decide) rfl rfl rfl
  have h2 : StartAbility exampleCfg exampleEnv (some xApp) homeState = some (Ret.ERR_OK, s1) := h1
  have h3 : StartAbility exampleCfg exampleEnv (some xApp) homeState =
      some (Ret.ERR_OK, (runController exampleCfg [Op.startAbility exampleEnv (some xApp)]
        homeState).getD homeState) := rfl
  rw [h2] at h3
  have hs : s1 = (runController exampleCfg [Op.startAbility exampleEnv (some xApp)]
        homeState).getD homeState := by
    injection h3 with h3
    injection h3
  exact ⟨by decide, s1, h2, by rw [hs]; rfl, h10⟩

/-! ## The record that holds a worker task -/

theorem leftoverHome_eq : runController roomyCfg leftoverRun homeState = some leftoverHome := by
  rfl

theorem nextToken_succ {c : Nat} (hc : c < 65534) : nextToken c = c + 1 := by
  unfold nextToken UINT16_MAX LAUNCHER_TOKEN
  split <;> omega

/-- The forced stop of a registered worker record by its token while the home record is
Active: the state afterwards. -/
theorem ForceStopBundle_eq {s : Manager} {p pL : Ptr} {r home : AbilityRecord}
    (hd : DistinctTokens s) (hp : p ∈ s.abilityList) (hr : s.heap.deref p = some r)
    (h0 : r.token ≠ 0) (hL : pL ∈ s.abilityList) (hhome : s.heap.deref pL = some home)
    (htok : home.token = 0) (hact : home.state = AbilityState.SCHEDULE_ACTIVE) :
    ForceStopBundle r.token s =
      some (Ret.ERR_OK, withoutRecord { s with log := s.log ++ forceDestroyEvents r } p r) := by
  have hg := getLoop_of_mem hd.1 hd.2 hp hr
  have hspec := HeapWF.remove_spec hd.heapWF hp hr
  have hpL : pL ≠ p := by
    rintro rfl
    rw [hhome] at hr
    cases hr
    exact h0 htok
  have hg0 : AbilityList.getLoop (s.heap.set p none) 0 (s.abilityList.erase p)
      = some (some pL) := by
    rw [getLoop_set_of_not_mem hspec.2.2.2.1, getLoop_erase_of_ne hr h0, ← htok]
    exact getLoop_of_mem hd.1 hd.2 hL hhome
  have hh1 : Heap.deref (s.heap.set p none) pL = some home := by
    rw [Heap.deref_set_ne _ _ _ _ hpL, hhome]
  let s1 := withoutRecord { s with log := s.log ++ forceDestroyEvents r } p r
  have hget : AbilityList.Get LAUNCHER_TOKEN s1 = some (some pL, s1) :=
    Get_of_getLoop (s := s1) hg0
  have hdr : deref pL s1 = some (home, s1) := by
    show (match Heap.deref (s.heap.set p none) pL with
      | some r => some (r, s1) | none => none) = _
    rw [hh1]
  simp only [ForceStopBundle, LAUNCHER_TOKEN, h0, if_false, bind_apply,
    ForceStopBundleInner_some h0 hg hr, Option.bind, ne_eq, not_true_eq_false]
  show (AbilityList.Get LAUNCHER_TOKEN s1).bind _ = _
  rw [hget]
  simp only [Option.bind, bind_apply]
  rw [hdr]
  simp only [Option.bind, hact, not_true_eq_false, if_false]
  rfl

/-- With a native unit installed `CreateAppTask` succeeds for a live record with a name when
task creation succeeds and the home record is registered, whether or not the record itself is
registered. -/
theorem CreateAppTask_okNative (env : Env) {s : Manager} {py pL n : Nat} {y home : AbilityRecord}
    {tid : Nat} (hy : s.heap.deref py = some y) (hyt : y.token ≠ 0) (hyn : y.appName ≠ none)
    (htask : env.taskCreate = some tid) (hn : s.nativeAbility = some n)
    (hg0 : AbilityList.getLoop s.heap 0 s.abilityList = some (some pL))
    (hh : s.heap.deref pL = some home) :
    CreateAppTask env (some py) s =
      some (Ret.ERR_OK, { s with
        heap := s.heap.set py (some (started env tid y))
        abilityStack := py :: s.abilityStack
        log := s.log ++ [Event.nativeOnBackground] }) := by
  have hht : home.token = 0 := by
    obtain ⟨_, r, hr, hrt⟩ := getLoop_some_mem hg0
    rw [hh] at hr
    cases hr
    exact hrt
  have hpL : pL ≠ py := by
    rintro rfl
    rw [hh] at hy
    cases hy
    exact hyt hht
  have hst : (started env tid y).token = y.token := rfl
  have hlt := Heap.deref_lt hy
  obtain ⟨hp, al, sk, pt, tok, na, fl, lg⟩ := s
  simp only at hy hg0 hh hlt hn
  subst hn
  have hg0a : AbilityList.getLoop (hp.set py (some (started env tid y))) 0 al
      = some (some pL) := by
    rw [getLoop_set_sameToken hy hst]; exact hg0
  have hha : Heap.deref (hp.set py (some (started env tid y))) pL = some home := by
    rw [Heap.deref_set_ne _ _ _ _ hpL]; exact hh
  unfold CreateAppTask
  simp only []
  rw [bind_eq_of (u := Manager.mk hp al sk pt tok (some n) fl lg) (a := y) (by simp [deref, hy])]
  simp only [hyn, if_false, htask]
  rw [bind_eq_of (a := ()) (u := Manager.mk (hp.set py (some (started env tid y))) al sk pt
    tok (some n) fl lg) (by simp [store, hy, started])]
  rw [bind_eq_of (a := ()) (u := Manager.mk (hp.set py (some (started env tid y))) al
    (py :: sk) pt tok (some n) fl lg) rfl]
  rw [bind_eq_of (get_apply _)]
  simp only [ne_eq, reduceCtorEq, not_false_eq_true, if_true]
  have hsl := SchedulerLifecycle_home (s := Manager.mk
    (hp.set py (some (started env tid y))) al (py :: sk) pt tok (some n) fl lg)
    State.STATE_BACKGROUND hg0a hha
  simp only [LAUNCHER_TOKEN]
  rw [bind_eq_of hsl]
  simp [homeEvents, nativeEvents, pure_apply]

theorem TokenLoop.stateWF {c : Nat} {s : Manager} (h : TokenLoop c s) : StateWF s := by
  obtain ⟨hk, hl, h0, h2, _⟩ := h
  unfold StateWF HeapWF
  rw [hk, hl]
  refine ⟨?_, ?_, by simp, by simp⟩
  · intro p hp
    simp only [List.mem_cons, List.mem_singleton, List.not_mem_nil, or_false] at hp
    rcases hp with rfl | rfl
    · rw [h2]; rfl
    · rw [h0]; rfl
  · simp [tokenAt, h0, h2, stopRecord, launcherRecord, LAUNCHER_TOKEN]

/-- One round of the token loop: `z.app` is started from home and force-stopped by its token,
which uses up one token and leaves the rest of the state as it was. -/
theorem TokenLoop.step {c : Nat} {s : Manager} (h : TokenLoop c s) (hc : c < 65535)
    (hne : nextToken c ≠ 2) :
    ∃ s2, runController roomyCfg
        [Op.startAbility exampleEnv (some zApp), Op.forceStopByToken (nextToken c)] s = some s2 ∧
      TokenLoop (nextToken c) s2 := by
  have hwf := h.stateWF
  obtain ⟨hk, hl, h0, h2, hp, hn, hs⟩ := h
  have ht0 := nextToken_pos hc
  have hlen : 2 < s.heap.length := Heap.deref_lt h2
  have hunreg : AbilityList.getByNameLoop s.heap "z.app".toList s.abilityList = some none := by
    rw [hl]
    simp [AbilityList.getByNameLoop, h0, h2, stopRecord, launcherRecord, LAUNCHER_BUNDLE_NAME]
  have hfresh : AbilityList.getLoop s.heap (nextToken s.staticToken) s.abilityList
      = some none := by
    rw [hl, hs]
    simp [AbilityList.getLoop, h0, h2, stopRecord, launcherRecord, LAUNCHER_TOKEN,
      Ne.symm hne, Ne.symm ht0]
  have hone : ∀ q ∈ s.abilityList, IsHomeAt roomyCfg s.heap q → q = 0 := by
    intro q hq hh
    rw [hl] at hq
    simp only [List.mem_cons, List.mem_singleton, List.not_mem_nil, or_false] at hq
    rcases hq with rfl | rfl
    · obtain ⟨r, hr, hnm⟩ := hh
      rw [h2] at hr
      cases hr
      exact absurd hnm (by decide)
    · rfl
  obtain ⟨s1, h1, hst1, hpx1, hpL1, hd1, hw1, hh1, _, hp1, hs1, hn1, hlen1, hroom⟩ :=
    StartAbility_homeTop roomyCfg exampleEnv s 0 1 7 [] (launcherRecord exampleEnv)
      "z.app".toList "/z".toList none hwf hk h0 rfl rfl hone hn hp (hs ▸ hc) (by decide)
      (by decide) rfl hunreg hfresh rfl
  obtain ⟨hl1, hkeep⟩ := hroom (by rw [hl]; decide)
  rw [hs] at hw1 hs1
  generalize hwd : workerRecord exampleEnv (nextToken c) 7 "z.app".toList (some "/z".toList)
    none = w at hw1
  have hwt : w.token = nextToken c := by rw [← hwd]; rfl
  have hf := @ForceStopBundle_eq s1 s.heap.length 0 w (launcherRecord exampleEnv) hd1 hpx1 hw1
    (by rw [hwt]; exact ht0) hpL1 hh1 rfl rfl
  rw [hwt] at hf
  have hne0 : (0 : Nat) ≠ s.heap.length := by omega
  have hne2 : (2 : Nat) ≠ s.heap.length := by omega
  refine ⟨withoutRecord { s1 with log := s1.log ++ forceDestroyEvents w } s.heap.length w,
    ?_, ?_, ?_, ?_, ?_, hp1, hn1.trans hn, hs1⟩
  · have hrun1 : (Op.startAbility exampleEnv (some zApp)).run roomyCfg s = some ((), s1) := by
      show (StartAbility roomyCfg exampleEnv (some zApp) >>= fun _ => pure ()) s = _
      rw [bind_eq_of (show StartAbility roomyCfg exampleEnv (some zApp) s = _ from h1)]
      rfl
    have hrun2 : (Op.forceStopByToken (nextToken c)).run roomyCfg s1 = some ((),
        withoutRecord { s1 with log := s1.log ++ forceDestroyEvents w } s.heap.length w) := by
      show (ForceStopBundle (nextToken c) >>= fun _ => pure ()) s1 = _
      rw [bind_eq_of (show ForceStopBundle (nextToken c) s1 = _ from hf)]
      rfl
    simp only [runController, hrun1, hrun2]
  · show s1.abilityStack.erase s.heap.length = [0]
    rw [hst1, hk]
    simp
  · show s1.abilityList.erase s.heap.length = [2, 0]
    rw [hl1, hl]
    simp
  · show Heap.deref (s1.heap.set s.heap.length none) 0 = _
    rw [Heap.deref_set_ne _ _ _ _ hne0, hh1]
  · show Heap.deref (s1.heap.set s.heap.length none) 2 = _
    rw [Heap.deref_set_ne _ _ _ _ hne2, hkeep 2 (by rw [hl]; simp), h2]

/-- The token loop reaches every counter value from 3 up to the largest one. -/
theorem TokenLoop.reach (k : Nat) (hk : k ≤ 65531) :
    ∃ s, Reachable roomyCfg s ∧ TokenLoop (3 + k) s := by
  induction k with
  | zero =>
    refine ⟨leftoverHome, ?_, rfl, rfl, rfl, rfl, rfl, rfl, rfl⟩
    exact reachable_of_run roomyCfg leftoverRun homeState leftoverHome
      (Reachable.start exampleEnv (some 1) homeState rfl) leftoverHome_eq
  | succ k ih =>
    obtain ⟨s, hr, hL⟩ := ih (by omega)
    have hnt : nextToken (3 + k) = 3 + (k + 1) := by
      rw [nextToken_succ (by omega)]
      omega
    obtain ⟨s2, hrun, hL2⟩ := hL.step (by omega) (by rw [hnt]; omega)
    rw [hnt] at hL2
    exact ⟨s2, reachable_of_run roomyCfg _ s s2 hr hrun, hL2⟩

/-- After the token counter has wrapped, the controller is in a state of the token loop in
which the next token is the one the registered record of `y.app` holds. -/
theorem TokenLoop.wrapped : ∃ s, Reachable roomyCfg s ∧ TokenLoop 1 s := by
  obtain ⟨s, hr, hL⟩ := TokenLoop.reach 65531 (le_refl _)
  have hnt : nextToken (3 + 65531) = 1 := by decide
  obtain ⟨s2, hrun, hL2⟩ := hL.step (by omega) (by rw [hnt]; omega)
  rw [hnt] at hL2
  exact ⟨s2, reachable_of_run roomyCfg _ s s2 hr hrun, hL2⟩

/-- In a state of the token loop whose next token is 2, the token of the registered record of
`y.app`: the request for `z.app` returns `ERR_OK` and starts a worker unit whose record is on
top of the stack but was refused by the registry. -/
theorem TokenLoop.collide {s : Manager} (h : TokenLoop 1 s) :
    StartAbility roomyCfg exampleEnv (some zApp) s = some (Ret.ERR_OK,
      { s with
        heap := (s.heap ++ [some (stopRecord 2 "z.app".toList (some "/z".toList) none)]).set
          s.heap.length
          (some (started exampleEnv 7 (stopRecord 2 "z.app".toList (some "/z".toList) none)))
        abilityStack := [s.heap.length, 0]
        staticToken := 2
        log := s.log ++ [Event.nativeOnBackground] }) := by
  obtain ⟨hk, hl, h0, h2, hp, hn, hs⟩ := h
  have hunreg : AbilityList.getByNameLoop s.heap "z.app".toList s.abilityList = some none := by
    rw [hl]
    simp [AbilityList.getByNameLoop, h0, h2, stopRecord, launcherRecord, LAUNCHER_BUNDLE_NAME]
  have hlen : 2 < s.heap.length := Heap.deref_lt h2
  have hSA : StartAbility roomyCfg exampleEnv (some zApp) s =
      PreCheckStartAbility roomyCfg exampleEnv "z.app".toList (some "/z".toList) none s := by
    have hname : (launcherRecord exampleEnv).appName = some LAUNCHER_BUNDLE_NAME := rfl
    have htok : (launcherRecord exampleEnv).token = 0 := rfl
    have hzl : ['z', '.', 'a', 'p', 'p'].length ≠ 0 := by decide
    have hl0 : IsLauncher ['z', '.', 'a', 'p', 'p'] = false := by decide
    have hallow : CheckResponse exampleEnv ['z', '.', 'a', 'p', 'p'] = true := rfl
    generalize launcherRecord exampleEnv = home at h0 hname htok
    simp [StartAbility, zApp, bind_apply, AbilityStack.GetTopAbility, hk, deref, h0, hname,
      hzl, hl0, hallow, htok, LAUNCHER_TOKEN]
  obtain ⟨hp0, al, sk, pt, tok, na, fl, lg⟩ := s
  simp only at hk hl h0 h2 hp hn hs hunreg hlen
  subst hk hl hp hn hs
  have hnew : Heap.deref (hp0 ++ [some (stopRecord 2 "z.app".toList (some "/z".toList) none)])
      hp0.length = some (stopRecord 2 "z.app".toList (some "/z".toList) none) :=
    Heap.deref_append_length _ _
  have h0n : Heap.deref (hp0 ++ [some (stopRecord 2 "z.app".toList (some "/z".toList) none)])
      0 = some (launcherRecord exampleEnv) := by
    rw [Heap.deref_append_lt _ _ _ (Nat.lt_trans (by decide) hlen), h0]
  have h2n : Heap.deref (hp0 ++ [some (stopRecord 2 "z.app".toList (some "/z".toList) none)])
      2 = some (stopRecord 2 "y.app".toList (some "/y".toList) none) := by
    rw [Heap.deref_append_lt _ _ _ hlen, h2]
  have hg2 : AbilityList.getLoop
      (hp0 ++ [some (stopRecord 2 "z.app".toList (some "/z".toList) none)])
      (stopRecord 2 "z.app".toList (some "/z".toList) none).token [2, 0] = some (some 2) := by
    simp only [AbilityList.getLoop, h2n]
    rfl
  have hg0 : AbilityList.getLoop
      (hp0 ++ [some (stopRecord 2 "z.app".toList (some "/z".toList) none)]) 0 [2, 0]
      = some (some 0) := by
    simp only [AbilityList.getLoop, h2n, h0n]
    rfl
  have hadd : AbilityList.Add roomyCfg (some hp0.length) (Manager.mk
      (hp0 ++ [some (stopRecord 2 "z.app".toList (some "/z".toList) none)]) [2, 0] [0] 0 2
      (some 1) fl lg) = some ((), Manager.mk
      (hp0 ++ [some (stopRecord 2 "z.app".toList (some "/z".toList) none)]) [2, 0] [0] 0 2
      (some 1) fl lg) := by
    rw [Add_eq]
    have hroom : ¬ ([2, 0] : List Ptr).length ≥ roomyCfg.ABILITY_LIST_CAPACITY := by decide
    simp only [hroom, if_false, Option.some_bind]
    exact addTail_dup (s := Manager.mk _ [2, 0] [0] 0 2 (some 1) fl lg) hnew hg2
  have hcat := @CreateAppTask_okNative exampleEnv (Manager.mk
      (hp0 ++ [some (stopRecord 2 "z.app".toList (some "/z".toList) none)]) [2, 0] [0] 0 2
      (some 1) fl lg) _ _ _ _ _ 7 hnew (by decide) (by simp [stopRecord]) rfl rfl hg0 h0n
  rw [hSA]
  unfold PreCheckStartAbility
  simp only [reduceCtorEq, if_false]
  rw [bind_eq_of (a := none) (u := Manager.mk hp0 [2, 0] [0] 0 1 (some 1) fl lg)
    (by simp only [AbilityList.GetByName, hunreg])]
  simp only []
  rw [bind_eq_of (get_apply _)]
  simp only [ne_eq, not_true_eq_false, if_false]
  rw [bind_eq_of (GenerateToken_eq _)]
  rw [bind_eq_of (a := hp0.length) (u := Manager.mk
    (hp0 ++ [some (stopRecord 2 "z.app".toList (some "/z".toList) none)]) [2, 0] [0] 0 2
    (some 1) fl lg) rfl]
  rw [bind_eq_of hadd, bind_eq_of (get_apply _)]
  simp only [if_true]
  rw [bind_eq_of hcat]
  simp only [ne_eq, not_true_eq_false, if_false]
  rfl

/-- Claim C7 as stated fails in three reachable states with home foreground, a native unit
installed and task creation succeeding (capacity 3). In `staleHome` the pending token 2 is
still reserved: the request for `z.app` only registers a record in state Stop under that
token, puts nothing on the stack and dispatches nothing. In `leftoverHome` no pending token
is reserved, but the Stop-state record of `y.app` is still registered: the request for
`y.app` returns `ERR_OK` and changes nothing. After the 16-bit token counter has wrapped, a
state is reached with no pending token and `z.app` not registered in which the next token is
the one the registered record of `y.app` holds: the request for `z.app` returns `ERR_OK` and
puts a started record on top of the stack, but the registry refuses that record. -/
theorem start_from_home_fails :
    (Reachable roomyCfg staleHome ∧
      staleHome.abilityStack = [0] ∧ staleHome.abilityList = [0] ∧
      staleHome.heap.deref 0 = some (launcherRecord exampleEnv) ∧
      staleHome.nativeAbility = some 1 ∧ staleHome.pendingToken = 2 ∧
      IsLauncher "z.app".toList = false ∧ CheckResponse exampleEnv "z.app".toList = true ∧
      exampleEnv.taskCreate = some 7 ∧
      ∃ s1, StartAbility roomyCfg exampleEnv (some zApp) staleHome = some (Ret.ERR_OK, s1) ∧
        s1.abilityList = [2, 0] ∧ s1.abilityStack = [0] ∧
        s1.heap.deref 2 = some (stopRecord 2 "z.app".toList (some "/z".toList) none) ∧
        s1.log = staleHome.log) ∧
    (Reachable roomyCfg leftoverHome ∧
      leftoverHome.abilityStack = [0] ∧ leftoverHome.abilityList = [2, 0] ∧
      leftoverHome.heap.deref 0 = some (launcherRecord exampleEnv) ∧
      leftoverHome.heap.deref 2 = some (stopRecord 2 "y.app".toList (some "/y".toList) none) ∧
      leftoverHome.nativeAbility = some 1 ∧ leftoverHome.pendingToken = 0 ∧
      IsLauncher "y.app".toList = false ∧ CheckResponse exampleEnv "y.app".toList = true ∧
      StartAbility roomyCfg exampleEnv (some yApp) leftoverHome =
        some (Ret.ERR_OK, leftoverHome)) ∧
    (∃ s s1, Reachable roomyCfg s ∧ s.abilityStack = [0] ∧ s.abilityList = [2, 0] ∧
      s.heap.deref 0 = some (launcherRecord exampleEnv) ∧
      s.nativeAbility = some 1 ∧ s.pendingToken = 0 ∧
      AbilityList.getByNameLoop s.heap "z.app".toList s.abilityList = some none ∧
      AbilityList.getLoop s.heap (nextToken s.staticToken) s.abilityList = some (some 2) ∧
      StartAbility roomyCfg exampleEnv (some zApp) s = some (Ret.ERR_OK, s1) ∧
      s1.abilityStack = [s.heap.length, 0] ∧ s1.abilityList = [2, 0] ∧
      s.heap.length ∉ s1.abilityList ∧
      s1.heap.deref s.heap.length =
        some (workerRecord exampleEnv 2 7 "z.app".toList (some "/z".toList) none)) := by
  refine ⟨start_from_home_with_stale_pending, ?_, ?_⟩
  · refine ⟨?_, rfl, rfl, rfl, rfl, rfl, rfl, by decide, by decide, rfl⟩
    exact reachable_of_run roomyCfg leftoverRun homeState leftoverHome
      (Reachable.start exampleEnv (some 1) homeState rfl) leftoverHome_eq
  · obtain ⟨s, hr, hL⟩ := TokenLoop.wrapped
    have hc := hL.collide
    obtain ⟨hk, hl, h0, h2, hp, hn, hs⟩ := hL
    have hlen : 2 < s.heap.length := Heap.deref_lt h2
    refine ⟨s, _, hr, hk, hl, h0, hn, hp, ?_, ?_, hc, rfl, hl, ?_, ?_⟩
    · rw [hl]
      simp [AbilityList.getByNameLoop, h0, h2, stopRecord, launcherRecord, LAUNCHER_BUNDLE_NAME]
    · rw [hl, hs]
      simp only [AbilityList.getLoop, h2]
      rfl
    · show s.heap.length ∉ s.abilityList
      rw [hl]
      simp only [List.mem_cons, List.mem_singleton, List.not_mem_nil, or_false, not_or]
      exact ⟨by omega, by omega⟩
    · show Heap.deref ((s.heap ++ _).set s.heap.length _) s.heap.length = _
      rw [Heap.deref_set_eq _ _ _ (by simp)]
      rfl

end AbilityLite
